import Mathlib

/-!
# shdb: marshal, pages, B+tree index, clock cache, expressions and executors

A shallow embedding of `src/shdb/src`: row values and their comparator
(`comparator.cpp`), the row marshal (`marshal.cpp`), the B+tree pages
(`btree_page.h`), the B+tree operations and range scans (`btree.cpp`), the
slotted row page (`flexible.cpp`), expressions (`expression.cpp`), aggregate
functions (`aggregate_function.cpp`), executors (`executor.cpp`) and the clock
cache (`cache.h`), followed by theorems about them.

Modelling conventions.

* A `std::string` is the list of its bytes (`List Nat`, every byte `< 256`).
* Machine integers are `Nat` and `Int`; `u32` and `u64` cut a result to the
  width of `uint32_t` and `uint64_t` where the code can wrap.
* A slotted page is its frame, a byte at every address.
* A B+tree page is a record of its header fields and its entry slots.  A slot
  holds the row that `getKey` would deserialize from it and the value stored
  next to it.  Slots past the current size keep their old content, as the
  bytes of the page do.
* A newly allocated page is zero-filled.  The code relies on this: no page
  kind initialises its size or row count.
* Page handles of the C++ code share the frame, so every access through a
  handle reads the page table of the current state again.
* Exceptions, failed assertions, reads and writes outside a page, and loops
  that never end are results of type `Err`.
* Loops are recursions on a fuel argument that is large enough for the loop to
  run to its end.
* Undefined behaviour of C++ (division by zero, signed overflow, an index
  outside a vector) is an `Err` that is not a thrown exception.
* A `std::unordered_map` is a list of pairs with distinct keys.
-/

namespace shdb

/-! ## Values and rows (`row.h`, `comparator.cpp`) -/

/-- Modelled from the spec: the `Value` variant of `row.h` (not in the sources),
a tagged union over `Null`, `boolean`, `uint64`, `int64` and `std::string`
(shared by `varchar` and `string` columns), in this order of alternatives. -/
inductive Value where
  | null
  | boolean (b : Bool)
  | uint64 (n : Nat)
  | int64 (i : Int)
  | str (s : List Nat)
  deriving DecidableEq, Repr

abbrev Row := List Value

/-- Position of the alternative held by a `std::variant` value. -/
def Value.index : Value → Nat
  | .null => 0
  | .boolean _ => 1
  | .uint64 _ => 2
  | .int64 _ => 3
  | .str _ => 4

/-- Lexicographic `<` on byte strings (`std::string::operator<`). -/
def strLt : List Nat → List Nat → Bool
  | [], [] => false
  | [], _ :: _ => true
  | _ :: _, [] => false
  | a :: as, b :: bs => if a < b then true else if b < a then false else strLt as bs

/-- The `operator<` of `std::variant`: by alternative first, then by the held
values; `Null < Null` is false (`operator<(const Null &, const Null &)`). -/
def Value.lt : Value → Value → Bool
  | .null, .null => false
  | .boolean a, .boolean b => (!a) && b
  | .uint64 a, .uint64 b => decide (a < b)
  | .int64 a, .int64 b => decide (a < b)
  | .str a, .str b => strLt a b
  | a, b => decide (a.index < b.index)

/-- Embedding of `compareValue`: `-1` when `lhs < rhs`, else `lhs != rhs`. -/
def compareValue (lhs rhs : Value) : Int :=
  if lhs.lt rhs then -1 else if lhs ≠ rhs then 1 else 0

/-- Embedding of `Comparator::operator()`: the first non-zero `compareValue`
over the positions of `lhs`.  Reading `rhs` past its end is outside the model
and gives `Null`. -/
def compareRows : Row → Row → Int
  | [], _ => 0
  | a :: as, rhs =>
    let value := compareValue a (rhs.headD Value.null)
    if value ≠ 0 then value else compareRows as rhs.tail

/-- Ways an operation leaves the model: a thrown exception, a failed `assert`,
a read or write outside a row, a page or the page table, a page of the wrong
kind behind a handle, or a loop that does not end. -/
inductive Err where
  | keyExists
  | unexpectedPage
  | outOfPage
  | badRow
  | badVariant
  | assertFailed
  | noFuel
  | unsupported
  | unknownColumn
  | undefined
  | indexInconsistency
  deriving DecidableEq, Repr

/-- The outcomes that are C++ exceptions, thrown by the code and caught by a
caller: the string thrown on a duplicate key, `std::runtime_error` and
`std::bad_variant_access`.  The other outcomes are a failed `assert`, a loop
that does not end, and undefined behaviour (`undefined`: integer division by
zero, signed overflow, a null pointer; `outOfPage`, `badRow`: memory outside an
object), where nothing is thrown. -/
def Err.thrown : Err → Bool
  | .keyExists => true
  | .unexpectedPage => true
  | .badVariant => true
  | .unsupported => true
  | .unknownColumn => true
  | .indexInconsistency => true
  | _ => false

/-- Modelled from the spec: the column types of `schema.h` (not in the sources):
`boolean`, `uint64`, `int64`, `varchar(len)` and `string`. -/
inductive ColumnType where
  | boolean | uint64 | int64 | varchar | string
  deriving DecidableEq, Repr

/-- Modelled from the spec: `ColumnSchema{name, type, length}`, `length` used only
by `varchar`. -/
structure ColumnSchema where
  name : String
  type : ColumnType
  length : Nat
  deriving DecidableEq, Repr

abbrev Schema := List ColumnSchema

/-! ## Marshal (`marshal.cpp`)

`serializeRow` writes through a cursor `data` that starts at `start`; the model
keeps the bytes from `start` up to the cursor as a list.  `deserializeRow` reads
memory through `mem`, the byte at `start + i` being `mem i`. -/

/-- Arithmetic of `uint64_t` and `size_t`. -/
def u64 (n : Int) : Nat := (n % 18446744073709551616).toNat

namespace Marshal

/-- The mask `1UL << index`.  A shift by 64 or more is outside the model and gives 0. -/
def maskBit (index : Nat) : Nat := (1 <<< index) % 18446744073709551616

/-- Embedding of `serializeValue<uint64_t>`: the 8 bytes of the word, least significant first. -/
def le64 (n : Nat) : List Nat :=
  [n % 256, n / 256 % 256, n / 65536 % 256, n / 16777216 % 256, n / 4294967296 % 256,
   n / 1099511627776 % 256, n / 281474976710656 % 256, n / 72057594037927936 % 256]

/-- Embedding of `deserializeValue<uint64_t>` at `start + p`. -/
def rd64 (mem : Nat → Nat) (p : Nat) : Nat :=
  mem p + 256 * mem (p + 1) + 65536 * mem (p + 2) + 16777216 * mem (p + 3)
    + 4294967296 * mem (p + 4) + 1099511627776 * mem (p + 5)
    + 281474976710656 * mem (p + 6) + 72057594037927936 * mem (p + 7)

/-- The `int64_t` with the bit pattern of a `uint64_t`. -/
def toInt64 (n : Nat) : Int :=
  if n < 9223372036854775808 then (n : Int) else (n : Int) - 18446744073709551616

/-- Embedding of `strnlen(data, n)` at `start + p`. -/
def strnlen (mem : Nat → Nat) : Nat → Nat → Nat
  | _, 0 => 0
  | p, n + 1 => if mem p = 0 then 0 else strnlen mem (p + 1) n + 1

/-- The string `std::string(start + p, n)`. -/
def readBytes (mem : Nat → Nat) (p : Nat) : Nat → List Nat
  | 0 => []
  | n + 1 => mem p :: readBytes mem (p + 1) n

/-- Embedding of `memcpy(start + pos, bytes, bytes.size())` into the bytes written so far. -/
def writeAt (data : List Nat) (pos : Nat) (bytes : List Nat) : List Nat :=
  data.take pos ++ bytes ++ data.drop (pos + bytes.length)

/-- The loop of `getNulls`. -/
def getNullsLoop : Row → Nat → Nat → Nat
  | [], _, nulls => nulls
  | v :: row, index, nulls =>
    getNullsLoop row (index + 1) (if v = Value.null then nulls ||| maskBit index else nulls)

/-- Embedding of `Marshal::getNulls`: bit `index` is set when `row[index]` is `Null`. -/
def getNulls (row : Row) : Nat := getNullsLoop row 0 0

/-- Bytes that a non-null column takes in the fixed region counted by
`calculateFixedRowSpace`. -/
def fixedWidth (column : ColumnSchema) : Nat :=
  match column.type with
  | .boolean => 1
  | .uint64 => 8
  | .int64 => 8
  | .varchar => column.length
  | .string => 0

/-- The loop of `calculateFixedRowSpace`. -/
def calculateFixedRowSpaceLoop : Schema → Nat → Nat → Nat
  | [], _, result => result
  | column :: schema, nulls, result =>
    if nulls &&& 1 ≠ 0 then calculateFixedRowSpaceLoop schema (nulls >>> 1) result
    else calculateFixedRowSpaceLoop schema (nulls >>> 1) (result + fixedWidth column)

/-- Embedding of `Marshal::calculateFixedRowSpace`. -/
def calculateFixedRowSpace (schema : Schema) (nulls : Nat) : Nat :=
  calculateFixedRowSpaceLoop schema nulls 8

/-- Embedding of `Marshal::getFixedRowSpace`: `fixed_row_space` is
`calculateFixedRowSpace(0)`. -/
def getFixedRowSpace (schema : Schema) : Nat := calculateFixedRowSpace schema 0

/-- Embedding of `std::get<bool>(row[index])`. -/
def getBool (row : Row) (index : Nat) : Except Err Bool :=
  match row.get? index with
  | some (.boolean b) => .ok b
  | some _ => .error .badVariant
  | none => .error .badRow

/-- Embedding of `std::get<uint64_t>(row[index])`. -/
def getUInt64 (row : Row) (index : Nat) : Except Err Nat :=
  match row.get? index with
  | some (.uint64 n) => .ok n
  | some _ => .error .badVariant
  | none => .error .badRow

/-- Embedding of `std::get<int64_t>(row[index])`. -/
def getInt64 (row : Row) (index : Nat) : Except Err Int :=
  match row.get? index with
  | some (.int64 i) => .ok i
  | some _ => .error .badVariant
  | none => .error .badRow

/-- Embedding of `std::get<std::string>(row[index])`. -/
def getString (row : Row) (index : Nat) : Except Err (List Nat) :=
  match row.get? index with
  | some (.str s) => .ok s
  | some _ => .error .badVariant
  | none => .error .badRow

/-- The loop of `getRowSpace` over the string columns. -/
def getRowSpaceLoop (row : Row) (nulls : Nat) : Schema → Nat → Nat → Except Err Nat
  | [], _, result => .ok result
  | column :: schema, index, result =>
    if nulls &&& maskBit index ≠ 0 then getRowSpaceLoop row nulls schema (index + 1) result
    else
      match column.type with
      | .string =>
        match getString row index with
        | .error e => .error e
        | .ok s => getRowSpaceLoop row nulls schema (index + 1) (result + 2 * 8 + s.length)
      | _ => getRowSpaceLoop row nulls schema (index + 1) result

/-- Embedding of `Marshal::getRowSpace`. -/
def getRowSpace (schema : Schema) (row : Row) : Except Err Nat :=
  getRowSpaceLoop row (getNulls row) schema 0 (calculateFixedRowSpace schema (getNulls row))

/-- The cursor state of `serializeRow`: the bytes from `start` to `data`, and the
vectors `indices` and `offset_poss`. -/
structure SerState where
  data : List Nat
  indices : List Nat
  offset_poss : List Nat
  deriving DecidableEq, Repr

/-- The `switch` of the first loop of `serializeRow` for one non-null column.  A
`varchar` value longer than the column makes `length - str.size()` wrap, and
`memset` runs over the page. -/
def serializeColumn (row : Row) (column : ColumnSchema) (index : Nat) (st : SerState) :
    Except Err SerState :=
  match column.type with
  | .boolean =>
    match getBool row index with
    | .error e => .error e
    | .ok b => .ok { st with data := st.data ++ [b.toNat] }
  | .uint64 =>
    match getUInt64 row index with
    | .error e => .error e
    | .ok n => .ok { st with data := st.data ++ le64 n }
  | .int64 =>
    match getInt64 row index with
    | .error e => .error e
    | .ok i => .ok { st with data := st.data ++ le64 (u64 i) }
  | .varchar =>
    match getString row index with
    | .error e => .error e
    | .ok str =>
      if str.length > column.length then .error .outOfPage
      else .ok { st with data := st.data ++ str ++ List.replicate (column.length - str.length) 0 }
  | .string =>
    match getString row index with
    | .error e => .error e
    | .ok str =>
      .ok { data := st.data ++ le64 str.length ++ le64 0
            indices := st.indices ++ [index]
            offset_poss := st.offset_poss ++ [(st.data ++ le64 str.length).length] }

/-- The first loop of `serializeRow`: the fixed region, with offset 0 for every string. -/
def serializeFixed (row : Row) (nulls : Nat) : Schema → Nat → SerState → Except Err SerState
  | [], _, st => .ok st
  | column :: schema, index, st =>
    if nulls &&& maskBit index ≠ 0 then serializeFixed row nulls schema (index + 1) st
    else
      match serializeColumn row column index st with
      | .error e => .error e
      | .ok st1 => serializeFixed row nulls schema (index + 1) st1

/-- The second loop of `serializeRow`: append every string and write its offset
into the place kept in `offset_poss`. -/
def serializeStrings (row : Row) : List (Nat × Nat) → List Nat → Except Err (List Nat)
  | [], data => .ok data
  | (index, offset_pos) :: rest, data =>
    match getString row index with
    | .error e => .error e
    | .ok str => serializeStrings row rest (writeAt (data ++ str) offset_pos (le64 data.length))

/-- Embedding of `Marshal::serializeRow`: the bytes written at `data`.  The closing
`assert` on the number of bytes is not part of the model; it is proved below
for valid rows. -/
def serializeRow (schema : Schema) (row : Row) : Except Err (List Nat) :=
  if row.length ≥ 64 then .error .assertFailed
  else
    let nulls := getNulls row
    match serializeFixed row nulls schema 0 { data := le64 nulls, indices := [], offset_poss := [] } with
    | .error e => .error e
    | .ok st => serializeStrings row (st.indices.zip st.offset_poss) st.data

/-- The loop of `deserializeRow`; `p` is the cursor `data - start`. -/
def deserializeLoop (mem : Nat → Nat) (nulls : Nat) : Schema → Nat → Nat → Row
  | [], _, _ => []
  | column :: schema, index, p =>
    if nulls &&& maskBit index ≠ 0 then
      Value.null :: deserializeLoop mem nulls schema (index + 1) p
    else
      match column.type with
      | .boolean => Value.boolean (decide (mem p ≠ 0)) :: deserializeLoop mem nulls schema (index + 1) (p + 1)
      | .uint64 => Value.uint64 (rd64 mem p) :: deserializeLoop mem nulls schema (index + 1) (p + 8)
      | .int64 =>
        Value.int64 (toInt64 (rd64 mem p)) :: deserializeLoop mem nulls schema (index + 1) (p + 8)
      | .varchar =>
        Value.str (readBytes mem p (strnlen mem p column.length))
          :: deserializeLoop mem nulls schema (index + 1) (p + column.length)
      | .string =>
        Value.str (readBytes mem (rd64 mem (p + 8)) (rd64 mem p))
          :: deserializeLoop mem nulls schema (index + 1) (p + 16)

/-- Embedding of `Marshal::deserializeRow` on the memory at `data`.  The closing
`assert` compares two counts of the bytes just read and is left out. -/
def deserializeRow (schema : Schema) (mem : Nat → Nat) : Row :=
  deserializeLoop mem (rd64 mem 0) schema 0 8

/-- The memory holding `bytes` at its start and zero after them. -/
def memOf (bytes : List Nat) : Nat → Nat := fun i => bytes.getD i 0

end Marshal

/-! ## B+tree pages (`btree_page.h`) -/

abbrev PageIndex := Nat
abbrev RowIndex := Nat
abbrev RowId := PageIndex × RowIndex

/-- Maximum `uint32`, see the spec's data model. -/
def InvalidPageIndex : PageIndex := 4294967295

/-- Arithmetic of the `uint32_t` size field. -/
def u32 (n : Int) : Nat := (n % 4294967296).toNat

/-- Read slot `i`; a slot never written holds the zero bytes of a new page,
which deserialize to `(z, zv)`. -/
def slotGet {β : Type} (z : Row) (zv : β) (entries : List (Row × β)) (i : Nat) : Row × β :=
  entries.getD i (z, zv)

/-- Write slot `i`, leaving all other slots as they are. -/
def slotSet {β : Type} (z : Row) (zv : β) (entries : List (Row × β)) (i : Nat) (e : Row × β) :
    List (Row × β) :=
  if i < entries.length then entries.set i e
  else entries ++ List.replicate (i - entries.length) (z, zv) ++ [e]

/-- Leaf page: header `size | prev | next` and the `(key, row-id)` slots. -/
structure BTreeLeafPage where
  size : Nat
  prev : PageIndex
  next : PageIndex
  entries : List (Row × RowId)
  deriving DecidableEq, Repr

/-- Internal page: header `size` and the `(key, child)` slots; the key of
slot 0 is never written by the tree. -/
structure BTreeInternalPage where
  size : Nat
  entries : List (Row × PageIndex)
  deriving DecidableEq, Repr

/-- Metadata page: `root_page_index | key_size_in_bytes | max_page_size`. -/
structure BTreeMetadataPage where
  root_page_index : PageIndex
  key_size_in_bytes : Nat
  max_page_size : Nat
  deriving DecidableEq, Repr

/-- A page of the index file, told apart by its `page_type` tag. -/
inductive BTreePage where
  | invalid
  | metadata (p : BTreeMetadataPage)
  | internal (p : BTreeInternalPage)
  | leaf (p : BTreeLeafPage)
  deriving DecidableEq, Repr

namespace BTreeLeafPage

def getKey (z : Row) (p : BTreeLeafPage) (index : Nat) : Row :=
  (slotGet z ((0, 0) : RowId) p.entries index).1

def getValue (z : Row) (p : BTreeLeafPage) (index : Nat) : RowId :=
  (slotGet z ((0, 0) : RowId) p.entries index).2

def getMinKey (z : Row) (p : BTreeLeafPage) : Row := p.getKey z 0

def getMinValue (z : Row) (p : BTreeLeafPage) : RowId := p.getValue z 0

def getMaxKey (z : Row) (p : BTreeLeafPage) : Row := p.getKey z (u32 (p.size - 1))

def getMaxValue (z : Row) (p : BTreeLeafPage) : RowId := p.getValue z (u32 (p.size - 1))

def setEntry (z : Row) (p : BTreeLeafPage) (index : Nat) (key : Row) (value : RowId) :
    BTreeLeafPage :=
  { p with entries := slotSet z ((0, 0) : RowId) p.entries index (key, value) }

/-- The `while (l < r)` loop of `lowerBound`; every turn shrinks `r - l`, so
`size + 1` turns are enough. -/
def lowerBoundLoop (z : Row) (p : BTreeLeafPage) (key : Row) : Nat → Nat → Nat → Nat
  | 0, _, r => r
  | fuel + 1, l, r =>
    if l < r then
      let mid := (l + r) / 2
      if compareRows (p.getKey z mid) key = -1 then lowerBoundLoop z p key fuel (mid + 1) r
      else lowerBoundLoop z p key fuel l mid
    else r

def lowerBound (z : Row) (p : BTreeLeafPage) (key : Row) : Nat :=
  lowerBoundLoop z p key (p.size + 1) 0 p.size

/-- The shifting loop shared by `insert`: write the carried entry at `index`,
carry the entry that was there, until `index` reaches the size. -/
def shiftUp (z : Row) : Nat → BTreeLeafPage → Nat → Row → RowId → BTreeLeafPage
  | 0, p, index, new_key, new_value => p.setEntry z index new_key new_value
  | fuel + 1, p, index, new_key, new_value =>
    if index < p.size then
      let old_key := p.getKey z index
      let old_value := p.getValue z index
      shiftUp z fuel (p.setEntry z index new_key new_value) (index + 1) old_key old_value
    else p.setEntry z index new_key new_value

/-- Embedding of `BTreeLeafPage::insert`: `false` on a full page, an exception on a
key that is there already, else the entry is put at its lower bound. -/
def insert (z : Row) (max_page_size : Nat) (p : BTreeLeafPage) (key : Row) (value : RowId) :
    Except Err (Bool × BTreeLeafPage) :=
  if p.size ≥ max_page_size then .ok (false, p)
  else
    let index := p.lowerBound z key
    if index ≠ p.size ∧ compareRows key (p.getKey z index) = 0 then .error .keyExists
    else
      let q := shiftUp z (p.size - index) p index key value
      .ok (true, { q with size := u32 (q.size + 1) })

/-- Embedding of `BTreeLeafPage::lookup`. -/
def lookup (z : Row) (p : BTreeLeafPage) (key : Row) : Option RowId :=
  let pos := p.lowerBound z key
  if pos = p.size ∨ compareRows (p.getKey z pos) key ≠ 0 then none
  else some (p.getValue z pos)

/-- The loop of `remove` moving the entries after `pos - 1` one slot down. -/
def shiftDown (z : Row) : Nat → BTreeLeafPage → Nat → Nat → BTreeLeafPage
  | 0, p, _, _ => p
  | fuel + 1, p, pos, size =>
    if pos < size then
      shiftDown z fuel (p.setEntry z (pos - 1) (p.getKey z pos) (p.getValue z pos)) (pos + 1) size
    else p

/-- Embedding of `BTreeLeafPage::remove`. -/
def remove (z : Row) (p : BTreeLeafPage) (key : Row) : Bool × BTreeLeafPage :=
  let size := p.size
  if size = 0 then (false, p)
  else
    let pos := p.lowerBound z key
    if pos = size ∨ compareRows (p.getKey z pos) key ≠ 0 then (false, p)
    else
      let q := shiftDown z (size - pos) p (pos + 1) size
      (true, { q with size := u32 (q.size - 1) })

/-- The loop of `split`: `rhs_page.insert(getKey(i), getValue(i))` for `i` from
`size / 2` up to the size. -/
def splitLoop (z : Row) (max_page_size : Nat) (p : BTreeLeafPage) :
    Nat → Nat → BTreeLeafPage → Except Err BTreeLeafPage
  | 0, _, rhs => .ok rhs
  | fuel + 1, i, rhs =>
    if i < p.size then
      match insert z max_page_size rhs (p.getKey z i) (p.getValue z i) with
      | .error e => .error e
      | .ok (_, rhs1) => splitLoop z max_page_size p fuel (i + 1) rhs1
    else .ok rhs

/-- Embedding of `BTreeLeafPage::split`: the upper half goes to `rhs_page`, the size
drops to `size / 2`.  Returns the page and the right page. -/
def split (z : Row) (max_page_size : Nat) (p rhs : BTreeLeafPage) :
    Except Err (BTreeLeafPage × BTreeLeafPage) :=
  match splitLoop z max_page_size p (p.size - p.size / 2) (p.size / 2) rhs with
  | .error e => .error e
  | .ok rhs1 => .ok ({ p with size := u32 (p.size - (p.size - p.size / 2)) }, rhs1)

end BTreeLeafPage

namespace BTreeInternalPage

def getKey (z : Row) (p : BTreeInternalPage) (index : Nat) : Row :=
  (slotGet z (0 : PageIndex) p.entries index).1

def getValue (z : Row) (p : BTreeInternalPage) (index : Nat) : PageIndex :=
  (slotGet z (0 : PageIndex) p.entries index).2

def setValue (z : Row) (p : BTreeInternalPage) (index : Nat) (value : PageIndex) :
    BTreeInternalPage :=
  { p with entries := slotSet z (0 : PageIndex) p.entries index (p.getKey z index, value) }

/-- Embedding of `setRow`: `serializeRow` of the key into the slot.  A row with fewer
values than the key schema (the default-constructed `Row`) makes `serializeRow`
read past the row's end. -/
def setRow (z : Row) (p : BTreeInternalPage) (index : Nat) (row : Row) :
    Except Err BTreeInternalPage :=
  if row.length < z.length then .error .badRow
  else .ok { p with entries := slotSet z (0 : PageIndex) p.entries index (row, p.getValue z index) }

def setEntry (z : Row) (p : BTreeInternalPage) (index : Nat) (key : Row) (value : PageIndex) :
    Except Err BTreeInternalPage :=
  (p.setValue z index value).setRow z index key

def insertFirstEntry (z : Row) (p : BTreeInternalPage) (value : PageIndex) : BTreeInternalPage :=
  let q := p.setValue z 0 value
  { q with size := u32 (q.size + 1) }

/-- The `while (index < getSize())` loop of `insertEntry` with the final `setEntry`. -/
def insertEntryLoop (z : Row) :
    Nat → BTreeInternalPage → Nat → Row → PageIndex → Except Err BTreeInternalPage
  | 0, p, index, new_key, new_value => p.setEntry z index new_key new_value
  | fuel + 1, p, index, new_key, new_value =>
    if index < p.size then
      let old_key := p.getKey z index
      let old_value := p.getValue z index
      match p.setEntry z index new_key new_value with
      | .error e => .error e
      | .ok q => insertEntryLoop z fuel q (index + 1) old_key old_value
    else p.setEntry z index new_key new_value

/-- Embedding of `BTreeInternalPage::insertEntry`. -/
def insertEntry (z : Row) (p : BTreeInternalPage) (index : Nat) (key : Row) (value : PageIndex) :
    Except Err BTreeInternalPage :=
  match insertEntryLoop z (p.size - index) p index key value with
  | .error e => .error e
  | .ok q => .ok { q with size := u32 (q.size + 1) }

/-- The `while (l < r)` loop of `lookupWithIndex`; slot 0 is never compared. -/
def lookupLoop (z : Row) (p : BTreeInternalPage) (key : Row) : Nat → Nat → Nat → Nat
  | 0, l, _ => l
  | fuel + 1, l, r =>
    if l < r then
      let mid := (l + r + 1) / 2
      if compareRows (p.getKey z mid) key ≤ 0 then lookupLoop z p key fuel mid r
      else lookupLoop z p key fuel l (mid - 1)
    else l

/-- Embedding of `BTreeInternalPage::lookupWithIndex`: the child and the position of the
largest key `≤ key`.  On a page of size 0 the bound `getSize() - 1` wraps to
`2^32 - 1` and the search reads far outside the page. -/
def lookupWithIndex (z : Row) (p : BTreeInternalPage) (key : Row) : Except Err (PageIndex × Nat) :=
  if p.size = 0 then .error .outOfPage
  else
    let l := lookupLoop z p key p.size 0 (u32 (p.size - 1))
    .ok (p.getValue z l, l)

def lookup (z : Row) (p : BTreeInternalPage) (key : Row) : Except Err PageIndex :=
  match p.lookupWithIndex z key with
  | .error e => .error e
  | .ok r => .ok r.1

/-- The `for` loop of `split`: entries after `first_index` go to `rhs_page` at
positions `counter`, `counter + 1`, ... -/
def splitLoop (z : Row) (p : BTreeInternalPage) :
    Nat → Nat → Nat → BTreeInternalPage → Except Err (Nat × BTreeInternalPage)
  | 0, _, counter, rhs => .ok (counter, rhs)
  | fuel + 1, i, counter, rhs =>
    if i < p.size then
      match rhs.insertEntry z counter (p.getKey z i) (p.getValue z i) with
      | .error e => .error e
      | .ok rhs1 => splitLoop z p fuel (i + 1) (counter + 1) rhs1
    else .ok (counter, rhs)

/-- Embedding of `BTreeInternalPage::split`: returns the key at `size / 2`, the page and
the right page. -/
def split (z : Row) (p rhs : BTreeInternalPage) :
    Except Err (Row × BTreeInternalPage × BTreeInternalPage) :=
  let first_index := p.size / 2
  let first_row_in_new_page := p.getKey z first_index
  let rhs0 := rhs.insertFirstEntry z (p.getValue z first_index)
  match splitLoop z p (p.size - first_index) (first_index + 1) 1 rhs0 with
  | .error e => .error e
  | .ok (counter, rhs1) => .ok (first_row_in_new_page, { p with size := u32 (p.size - counter) }, rhs1)

/-- The `for` loop of `removeKey`: entry `i` moves to slot `i - 1`; for `i = 1`
only the child pointer moves and the key is kept as the result. -/
def removeKeyLoop (z : Row) :
    Nat → BTreeInternalPage → Nat → Row → Except Err (Row × BTreeInternalPage)
  | 0, p, _, row => .ok (row, p)
  | fuel + 1, p, i, row =>
    if i < p.size then
      if i = 1 then
        removeKeyLoop z fuel (p.setValue z 0 (p.getValue z i)) (i + 1) (p.getKey z i)
      else
        match p.setEntry z (i - 1) (p.getKey z i) (p.getValue z i) with
        | .error e => .error e
        | .ok q => removeKeyLoop z fuel q (i + 1) row
    else .ok (row, p)

/-- Embedding of `BTreeInternalPage::removeKey`: the result is the empty row unless the
loop passes `i = 1`. -/
def removeKey (z : Row) (p : BTreeInternalPage) (index : Nat) :
    Except Err (Row × BTreeInternalPage) :=
  match removeKeyLoop z (p.size - index) p (index + 1) [] with
  | .error e => .error e
  | .ok (row, q) => .ok (row, { q with size := u32 (q.size - 1) })

end BTreeInternalPage

/-! ## The B+tree (`btree.h`, `btree.cpp`) -/

/-- Embedding of `ResponseInsert`. -/
structure ResponseInsert where
  new_page : Bool := false
  skip : Bool := false
  page : PageIndex := 0
  old_key : Row := []
  new_key : Row := []
  deriving DecidableEq, Repr

/-- Embedding of `ResponseRemove`. -/
structure ResponseRemove where
  remove_page : Bool := false
  old_key : Row := []
  new_key : Row := []
  deriving DecidableEq, Repr

/-- The index: the pages of its file, `max_page_size` (the member of `BTree`,
also given to the page provider) and `zeroKey`, the row that the key marshal
deserializes from the zero bytes of a newly allocated page. -/
structure BTree where
  zeroKey : Row
  max_page_size : Nat
  pages : List BTreePage
  deriving DecidableEq, Repr

namespace BTree

def MetadataPageIndex : PageIndex := 0

/-- Embedding of `BTreeIndexTable::getPage`; there is no page past the end of the file. -/
def getPage (t : BTree) (i : PageIndex) : Except Err BTreePage :=
  match t.pages.get? i with
  | some p => .ok p
  | none => .error .outOfPage

/-- Embedding of `getLeafPage`: the handle only makes sense over a leaf page. -/
def getLeafPage (t : BTree) (i : PageIndex) : Except Err BTreeLeafPage :=
  match t.pages.get? i with
  | some (.leaf p) => .ok p
  | some _ => .error .unexpectedPage
  | none => .error .outOfPage

def getInternalPage (t : BTree) (i : PageIndex) : Except Err BTreeInternalPage :=
  match t.pages.get? i with
  | some (.internal p) => .ok p
  | some _ => .error .unexpectedPage
  | none => .error .outOfPage

def getMetadataPage (t : BTree) : Except Err BTreeMetadataPage :=
  match t.pages.get? MetadataPageIndex with
  | some (.metadata p) => .ok p
  | some _ => .error .unexpectedPage
  | none => .error .outOfPage

def setPage (t : BTree) (i : PageIndex) (p : BTreePage) : BTree :=
  { t with pages := t.pages.set i p }

/-- Embedding of `allocateLeafPage`: a new zeroed page at the end of the file, tagged
as a leaf. -/
def allocateLeafPage (t : BTree) : BTree × PageIndex :=
  ({ t with pages := t.pages ++ [.leaf { size := 0, prev := 0, next := 0, entries := [] }] },
    t.pages.length)

def allocateInternalPage (t : BTree) : BTree × PageIndex :=
  ({ t with pages := t.pages ++ [.internal { size := 0, entries := [] }] }, t.pages.length)

/-- Embedding of the constructor `BTree::BTree` on an empty index file: the metadata
page and an empty root leaf without siblings.  The fixed key size is the
`getFixedRowSpace` of the key marshal; `zeroKey` is what that marshal reads from
zero bytes. -/
def create (key_schema : Schema) (max_page_size : Nat) : BTree :=
  { zeroKey := Marshal.deserializeRow key_schema (fun _ => 0)
    max_page_size := max_page_size
    pages :=
      [ .metadata { root_page_index := 1, key_size_in_bytes := Marshal.getFixedRowSpace key_schema,
                    max_page_size := max_page_size },
        .leaf { size := 0, prev := InvalidPageIndex, next := InvalidPageIndex, entries := [] } ] }

/-- The call `leaf_page.insert(key, value)` through the handle of page `i`. -/
def leafInsert (t : BTree) (i : PageIndex) (key : Row) (value : RowId) : Except Err (Bool × BTree) := do
  let p ← t.getLeafPage i
  let (ok, q) ← p.insert t.zeroKey t.max_page_size key value
  pure (ok, t.setPage i (.leaf q))

/-- The call `leaf_page.remove(key)` through the handle of page `i`. -/
def leafRemove (t : BTree) (i : PageIndex) (key : Row) : Except Err (Bool × BTree) := do
  let p ← t.getLeafPage i
  let (ok, q) := p.remove t.zeroKey key
  pure (ok, t.setPage i (.leaf q))

def setPreviousPageIndex (t : BTree) (i : PageIndex) (v : PageIndex) : Except Err BTree := do
  let p ← t.getLeafPage i
  pure (t.setPage i (.leaf { p with prev := v }))

def setNextPageIndex (t : BTree) (i : PageIndex) (v : PageIndex) : Except Err BTree := do
  let p ← t.getLeafPage i
  pure (t.setPage i (.leaf { p with next := v }))

/-- Embedding of `BTree::try_insert`. -/
def try_insert (t : BTree) (index : PageIndex) (index_key : Row) (row_id : RowId) :
    Except Err (Bool × BTree) := do
  let page ← t.getLeafPage index
  let meta ← t.getMetadataPage
  if page.size < meta.max_page_size then
    let (_, t1) ← t.leafInsert index index_key row_id
    pure (true, t1)
  else pure (false, t)

/-- The tail of the leaf case of `descend_insert`: allocate a new leaf, link it
after the full one, split, and put the key into the half it belongs to. -/
def splitLeaf (t : BTree) (node_index next_index : PageIndex) (index_key : Row) (row_id : RowId)
    (resp : ResponseInsert) : Except Err (ResponseInsert × BTree) := do
  let (t, new_page_index) := t.allocateLeafPage
  let resp := { resp with new_page := true, page := new_page_index }
  let t ← t.setNextPageIndex node_index new_page_index
  let t ← t.setPreviousPageIndex new_page_index node_index
  let t ← t.setNextPageIndex new_page_index next_index
  let t ← if next_index ≠ InvalidPageIndex then t.setPreviousPageIndex next_index new_page_index
          else pure t
  let leaf_page ← t.getLeafPage node_index
  let new_leaf_page ← t.getLeafPage new_page_index
  let (leaf_page, new_leaf_page) ← leaf_page.split t.zeroKey t.max_page_size new_leaf_page
  let t := (t.setPage new_page_index (.leaf new_leaf_page)).setPage node_index (.leaf leaf_page)
  let resp := { resp with old_key := new_leaf_page.getMinKey t.zeroKey,
                          new_key := new_leaf_page.getMinKey t.zeroKey }
  if compareRows index_key (new_leaf_page.getMinKey t.zeroKey) = -1 then
    let (_, t) ← t.leafInsert node_index index_key row_id
    pure (resp, t)
  else
    let (_, t) ← t.leafInsert new_page_index index_key row_id
    let new_leaf_page ← t.getLeafPage new_page_index
    pure ({ resp with new_key := new_leaf_page.getMinKey t.zeroKey }, t)

/-- The leaf case of `descend_insert`: insert when there is room, else borrow
room from the left sibling, else from the right sibling, else split. -/
def insertLeaf (t : BTree) (node_index : PageIndex) (index_key : Row) (row_id : RowId) :
    Except Err (ResponseInsert × BTree) := do
  let resp : ResponseInsert := {}
  let leaf_page ← t.getLeafPage node_index
  let meta ← t.getMetadataPage
  if leaf_page.size < meta.max_page_size then
    let (_, t) ← t.leafInsert node_index index_key row_id
    pure ({ resp with skip := true }, t)
  else
    let prev_index := leaf_page.prev
    let next_index := leaf_page.next
    let first_key := leaf_page.getMinKey t.zeroKey
    let first_value := leaf_page.getMinValue t.zeroKey
    let (moved, t) ← if prev_index ≠ InvalidPageIndex then t.try_insert prev_index first_key first_value
                      else pure (false, t)
    if moved then
      let resp := { resp with old_key := first_key }
      let (_, t) ← t.leafRemove node_index first_key
      let (_, t) ← t.leafInsert node_index index_key row_id
      let leaf_page ← t.getLeafPage node_index
      pure ({ resp with new_key := leaf_page.getMinKey t.zeroKey }, t)
    else if next_index ≠ InvalidPageIndex then
      let next_page ← t.getLeafPage next_index
      let resp := { resp with old_key := next_page.getMinKey t.zeroKey }
      let leaf_page ← t.getLeafPage node_index
      let last_key := leaf_page.getMaxKey t.zeroKey
      let last_value := leaf_page.getMaxValue t.zeroKey
      if compareRows last_key index_key = -1 then
        let (moved, t) ← t.try_insert next_index index_key row_id
        if moved then pure ({ resp with new_key := index_key }, t)
        else splitLeaf t node_index next_index index_key row_id resp
      else
        let (moved, t) ← t.try_insert next_index last_key last_value
        if moved then
          let resp := { resp with new_key := last_key }
          let (_, t) ← t.leafRemove node_index last_key
          let (_, t) ← t.leafInsert node_index index_key row_id
          pure (resp, t)
        else splitLeaf t node_index next_index index_key row_id resp
    else splitLeaf t node_index next_index index_key row_id resp

/-- The call `internal_page.insertEntry(pos + 1, key, page)` with
`pos = lookupWithIndex(key).second`, through the handle of page `i`. -/
def internalInsertAfter (t : BTree) (i : PageIndex) (key : Row) (page : PageIndex) :
    Except Err BTree := do
  let p ← t.getInternalPage i
  let (_, pos) ← p.lookupWithIndex t.zeroKey key
  let q ← p.insertEntry t.zeroKey (pos + 1) key page
  pure (t.setPage i (.internal q))

/-- What the internal case of `descend_insert` does with the child's response. -/
def insertInternal (t : BTree) (node_index : PageIndex) (resp : ResponseInsert) :
    Except Err (ResponseInsert × BTree) := do
  if resp.skip then pure (resp, t)
  else if resp.new_page then
    let internal_page ← t.getInternalPage node_index
    let meta ← t.getMetadataPage
    if internal_page.size < meta.max_page_size then
      let t ← t.internalInsertAfter node_index resp.new_key resp.page
      pure ({ resp with skip := true }, t)
    else
      let (t, new_page_index) := t.allocateInternalPage
      let internal_page ← t.getInternalPage node_index
      let new_internal_page ← t.getInternalPage new_page_index
      let (least_key, internal_page, new_internal_page) ←
        internal_page.split t.zeroKey new_internal_page
      let t := (t.setPage new_page_index (.internal new_internal_page)).setPage node_index
        (.internal internal_page)
      let t ← if compareRows least_key resp.new_key = -1 then
                t.internalInsertAfter new_page_index resp.new_key resp.page
              else t.internalInsertAfter node_index resp.new_key resp.page
      pure ({ resp with page := new_page_index, new_key := least_key }, t)
  else
    let internal_page ← t.getInternalPage node_index
    let (_, pos) ← internal_page.lookupWithIndex t.zeroKey resp.old_key
    if compareRows (internal_page.getKey t.zeroKey pos) resp.old_key = 0 then
      let internal_page ← internal_page.setRow t.zeroKey pos resp.new_key
      pure ({ resp with skip := true }, t.setPage node_index (.internal internal_page))
    else pure (resp, t)

/-- Embedding of `BTree::descend_insert`; the recursion follows one path from the
node down, `fuel` bounds its length. -/
def descend_insert : Nat → BTree → PageIndex → Row → RowId → Except Err (ResponseInsert × BTree)
  | 0, _, _, _, _ => .error .noFuel
  | fuel + 1, t, node_index, index_key, row_id => do
    let node ← t.getPage node_index
    match node with
    | .leaf _ => insertLeaf t node_index index_key row_id
    | .internal internal_page =>
      let index ← internal_page.lookup t.zeroKey index_key
      let (resp, t) ← descend_insert fuel t index index_key row_id
      insertInternal t node_index resp
    | _ => .error .unexpectedPage

/-- Embedding of `BTree::insert`.  A path of the tree never passes a page twice,
so the number of pages bounds the recursion. -/
def insert (t : BTree) (index_key : Row) (row_id : RowId) : Except Err BTree := do
  let meta ← t.getMetadataPage
  let root_index := meta.root_page_index
  let _ ← t.getPage root_index
  let (resp, t) ← descend_insert t.pages.length t root_index index_key row_id
  if resp.skip then pure t
  else if resp.new_page then
    let (t, new_root_index) := t.allocateInternalPage
    let meta ← t.getMetadataPage
    let t := t.setPage MetadataPageIndex (.metadata { meta with root_page_index := new_root_index })
    let new_root_page ← t.getInternalPage new_root_index
    let new_root_page := new_root_page.insertFirstEntry t.zeroKey root_index
    let new_root_page ← new_root_page.insertEntry t.zeroKey 1 resp.new_key resp.page
    pure (t.setPage new_root_index (.internal new_root_page))
  else pure t

/-- The `while (true)` loop of `BTree::lookup`. -/
def lookupLoop : Nat → BTree → PageIndex → Row → Except Err (Option RowId)
  | 0, _, _, _ => .error .noFuel
  | fuel + 1, t, index, index_key => do
    let page ← t.getPage index
    match page with
    | .leaf leaf_page => pure (leaf_page.lookup t.zeroKey index_key)
    | .internal internal_page =>
      let index ← internal_page.lookup t.zeroKey index_key
      lookupLoop fuel t index index_key
    | _ => .error .unexpectedPage

/-- Embedding of `BTree::lookup`: the row-id pushed to `result`, if any. -/
def lookup (t : BTree) (index_key : Row) : Except Err (Option RowId) := do
  let meta ← t.getMetadataPage
  lookupLoop t.pages.length t meta.root_page_index index_key

/-- What the internal case of `descend_remove` does with the child's response.
On a removed child page the position handed to `removeKey` is the result of
`internal_page.lookup(resp.old_key)`, a page index. -/
def removeInternal (t : BTree) (node_index : PageIndex) (resp : ResponseRemove) :
    Except Err (ResponseRemove × BTree) := do
  let internal_page ← t.getInternalPage node_index
  if resp.remove_page then
    let pos ← internal_page.lookup t.zeroKey resp.old_key
    let (new_key, internal_page) ← internal_page.removeKey t.zeroKey pos
    pure ({ resp with remove_page := decide (internal_page.size = 0), new_key := new_key },
      t.setPage node_index (.internal internal_page))
  else
    let (_, pos) ← internal_page.lookupWithIndex t.zeroKey resp.old_key
    if compareRows (internal_page.getKey t.zeroKey pos) resp.old_key = 0 then
      let internal_page ← internal_page.setRow t.zeroKey pos resp.new_key
      pure (resp, t.setPage node_index (.internal internal_page))
    else pure (resp, t)

/-- The leaf case of `descend_remove`: remove the key; an emptied leaf is taken
out of the sibling list and reported with `remove_page`. -/
def removeLeaf (t : BTree) (node_index : PageIndex) (index_key : Row) :
    Except Err (ResponseRemove × BTree) := do
  let leaf_page ← t.getLeafPage node_index
  let resp : ResponseRemove := { old_key := leaf_page.getMinKey t.zeroKey }
  let (_, t) ← t.leafRemove node_index index_key
  let leaf_page ← t.getLeafPage node_index
  if leaf_page.size > 0 then
    pure ({ resp with new_key := leaf_page.getMinKey t.zeroKey }, t)
  else
    let prev_index := leaf_page.prev
    let next_index := leaf_page.next
    let t ← if prev_index ≠ InvalidPageIndex then t.setNextPageIndex prev_index next_index
            else pure t
    let t ← if next_index ≠ InvalidPageIndex then t.setPreviousPageIndex next_index prev_index
            else pure t
    pure ({ resp with remove_page := true }, t)

/-- Embedding of `BTree::descend_remove`. -/
def descend_remove : Nat → BTree → PageIndex → Row → Except Err (ResponseRemove × BTree)
  | 0, _, _, _ => .error .noFuel
  | fuel + 1, t, node_index, index_key => do
    let node ← t.getPage node_index
    match node with
    | .leaf _ => removeLeaf t node_index index_key
    | .internal internal_page =>
      let index ← internal_page.lookup t.zeroKey index_key
      let (resp, t) ← descend_remove fuel t index index_key
      removeInternal t node_index resp
    | _ => .error .unexpectedPage

/-- Embedding of `BTree::remove`: `false` when `lookup` finds nothing; after a removal
that empties the tree a new empty leaf becomes the root. -/
def remove (t : BTree) (index_key : Row) : Except Err (Bool × BTree) := do
  let meta ← t.getMetadataPage
  let root_index := meta.root_page_index
  let _ ← t.getPage root_index
  let result ← t.lookup index_key
  if result.isNone then pure (false, t)
  else
    let (resp, t) ← descend_remove t.pages.length t root_index index_key
    if resp.remove_page then
      let (t, root_page_index) := t.allocateLeafPage
      let t ← t.setPreviousPageIndex root_page_index InvalidPageIndex
      let t ← t.setNextPageIndex root_page_index InvalidPageIndex
      let meta ← t.getMetadataPage
      pure (true, t.setPage MetadataPageIndex (.metadata { meta with root_page_index := root_page_index }))
    else pure (true, t)

/-- The `while (true)` loop of `lookupLeftmostLeafPage`: follow child 0 down to a leaf. -/
def leftmostLoop : Nat → BTree → PageIndex → Except Err PageIndex
  | 0, _, _ => .error .noFuel
  | fuel + 1, t, page_index => do
    let page ← t.getPage page_index
    match page with
    | .leaf _ => pure page_index
    | .internal internal_page => leftmostLoop fuel t (internal_page.getValue t.zeroKey 0)
    | _ => .error .unexpectedPage

/-- Embedding of `BTree::lookupLeftmostLeafPage`, as the index of the leaf page. -/
def lookupLeftmostLeafPage (t : BTree) : Except Err PageIndex := do
  let meta ← t.getMetadataPage
  leftmostLoop t.pages.length t meta.root_page_index

end BTree

/-! ## Range scans (`BTreeIndexIterator`) -/

inductive IndexComparator where
  | equal | notEqual | less | lessOrEqual | greater | greaterOrEqual
  deriving DecidableEq, Repr

/-- One entry of `KeyConditions`. -/
structure KeyCondition where
  column : ColumnSchema
  comparator : IndexComparator
  value : Value
  deriving DecidableEq, Repr

abbrev KeyConditions := List KeyCondition

/-- The inner `for` loop of `isRowValid`: the first position of the key schema
with the predicate's column name, `0` when there is none. -/
def columnIndex (key_schema : Schema) (name : String) : Nat :=
  match key_schema.findIdx? (fun c => c.name == name) with
  | some i => i
  | none => 0

/-- The `switch` of `isRowValid` for one predicate. -/
def holds (key_schema : Schema) (key : Row) (pred : KeyCondition) : Bool :=
  let c := compareValue (key.getD (columnIndex key_schema pred.column.name) Value.null) pred.value
  match pred.comparator with
  | .equal => decide (c = 0)
  | .notEqual => decide (c ≠ 0)
  | .greater => decide (c = 1)
  | .greaterOrEqual => decide (c ≥ 0)
  | .less => decide (c < 0)
  | .lessOrEqual => decide (c ≤ 0)

/-- Embedding of `BTreeIndexIterator::isRowValid`: `valid &= ...` over all predicates. -/
def isRowValid (key_schema : Schema) (predicates : KeyConditions) (key : Row) : Bool :=
  predicates.foldl (fun valid pred => valid && holds key_schema key pred) true

/-- Embedding of `BTreeIndexIterator`: the leaf it stands on (a handle, kept as the
page index), the offset in it, and the predicates. -/
structure BTreeIndexIterator where
  key_schema : Schema
  leaf_page : PageIndex
  leaf_page_offset : Nat
  predicates : KeyConditions
  deriving DecidableEq, Repr

namespace BTreeIndexIterator

/-- Embedding of `nextRow`; every recursive call of the source takes one unit of
fuel. -/
def nextRow (t : BTree) : Nat → BTreeIndexIterator →
    Except Err (Option (Row × RowId) × BTreeIndexIterator)
  | 0, _ => .error .noFuel
  | fuel + 1, it =>
    match t.getLeafPage it.leaf_page with
    | .error e => .error e
    | .ok leaf_page =>
      if it.leaf_page_offset < leaf_page.size then
        let row := leaf_page.getKey t.zeroKey it.leaf_page_offset
        let row_id := leaf_page.getValue t.zeroKey it.leaf_page_offset
        let it1 := { it with leaf_page_offset := it.leaf_page_offset + 1 }
        if isRowValid it.key_schema it.predicates row then .ok (some (row, row_id), it1)
        else nextRow t fuel it1
      else if leaf_page.next ≠ InvalidPageIndex then
        nextRow t fuel { it with leaf_page_offset := 0, leaf_page := leaf_page.next }
      else .ok (none, it)

/-- Call `nextRow` until it gives end-of-stream, collecting the rows; `fuel`
bounds the recursion inside every call, the first number the calls. -/
def drain (t : BTree) (fuel : Nat) : Nat → BTreeIndexIterator → Except Err (List (Row × RowId))
  | 0, _ => .error .noFuel
  | calls + 1, it =>
    match nextRow t fuel it with
    | .error e => .error e
    | .ok (none, _) => .ok []
    | .ok (some row, it1) =>
      match drain t fuel calls it1 with
      | .error e => .error e
      | .ok rest => .ok (row :: rest)

end BTreeIndexIterator

namespace BTree

/-- Embedding of `BTree::read(predicates)`; `read()` is `read` with no predicates. -/
def read (t : BTree) (key_schema : Schema) (predicates : KeyConditions) :
    Except Err BTreeIndexIterator := do
  let leaf ← t.lookupLeftmostLeafPage
  pure { key_schema := key_schema, leaf_page := leaf, leaf_page_offset := 0,
         predicates := predicates }

end BTree

/-! ## Slotted row page (`flexible.cpp`)

The page is its frame, a byte at every address; `header[i]` is the 64-bit word
at byte `8 * i` of the same memory that holds the payloads.  `PageSize` is a
constant of `page.h`, which is not part of the sources, and is a parameter here. -/

/-- The bytes of a frame, by address. -/
abbrev Frame := Nat → Nat

namespace FlexiblePage

/-- The word `header[i]`. -/
def header (mem : Frame) (i : Nat) : Nat := Marshal.rd64 mem (8 * i)

/-- Write `bytes` at `addr`. -/
def writeBytes (mem : Frame) (addr : Nat) (bytes : List Nat) : Frame :=
  fun a => if addr ≤ a ∧ a < addr + bytes.length then bytes.getD (a - addr) 0 else mem a

/-- The assignment `header[i] = v`, with `v` cut to 64 bits. -/
def setHeader (mem : Frame) (i : Nat) (v : Nat) : Frame :=
  writeBytes mem (8 * i) (Marshal.le64 v)

/-- Embedding of `memmove(data + dst, data + src, count)`. -/
def memmove (mem : Frame) (dst src count : Nat) : Frame :=
  fun a => if dst ≤ a ∧ a < dst + count then mem (a - dst + src) else mem a

def getRowCount (mem : Frame) : Nat := header mem 0

def getOffset (mem : Frame) (index : Nat) : Nat := header mem (3 + 2 * index)

def getLength (mem : Frame) (index : Nat) : Nat := header mem (2 + 2 * index)

/-- Embedding of `FlexiblePage::getRow`: the empty row past the row count, on offset 0
and on a cleared present flag; else the row deserialized after the flag. -/
def getRow (schema : Schema) (mem : Frame) (index : Nat) : Row :=
  let row_amount := header mem 0
  if row_amount ≤ index then []
  else
    let offset := getOffset mem index
    if offset = 0 then []
    else if mem offset ≠ 0 then Marshal.deserializeRow schema (fun i => mem (offset + 1 + i))
    else []

/-- The loop of `findMinOffset` over `i < n`. -/
def findMinOffsetLoop (mem : Frame) : Nat → Nat → Nat → Nat
  | 0, _, min_offset => min_offset
  | n + 1, i, min_offset =>
    let offset := getOffset mem i
    findMinOffsetLoop mem n (i + 1) (if offset ≠ 0 then min offset min_offset else min_offset)

/-- Embedding of `findMinOffset`; the bound of the loop is `(int)row_amount`. -/
def findMinOffset (mem : Frame) (std_offset : Nat) : Nat :=
  let row_amount := header mem 0 % 4294967296
  findMinOffsetLoop mem (if row_amount < 2147483648 then row_amount else 0) 0 std_offset

def setZeros (mem : Frame) (index : Nat) : Frame :=
  setHeader (setHeader mem (3 + 2 * index) 0) (2 + 2 * index) 0

/-- The loop of `moveOffsets` over `i < n`. -/
def moveOffsetsLoop (offset len : Nat) : Nat → Nat → Frame → Frame
  | 0, _, mem => mem
  | n + 1, i, mem =>
    let local_offset := header mem (3 + 2 * i)
    moveOffsetsLoop offset len n (i + 1)
      (if local_offset ≠ 0 ∧ local_offset < offset then setHeader mem (3 + 2 * i) (local_offset + len)
       else mem)

def moveOffsets (mem : Frame) (offset len : Nat) : Frame :=
  moveOffsetsLoop offset len (header mem 0) 0 mem

/-- Embedding of `FlexiblePage::deleteRow`. -/
def deleteRow (mem : Frame) (index : Nat) : Frame :=
  let row_amount := header mem 0
  if row_amount ≤ index then mem
  else
    let offset := getOffset mem index
    let len := getLength mem index
    if len = 0 then mem
    else
      let min_offset := findMinOffset mem offset
      let count := u64 (offset - min_offset)
      let mem :=
        if count = 0 then
          let mem := setHeader mem 1 (u64 (header mem 1 - 2 * 8))
          setHeader mem 0 (u64 (header mem 0 - 1))
        else memmove mem (min_offset + len) min_offset count
      let mem := setZeros mem index
      let mem := moveOffsets mem offset len
      setHeader mem 1 (u64 (header mem 1 - len))

/-- The `while (index <= row_amount)` loop of `insertRow`: returns the frame and
the final `index`. -/
def insertRowLoop (len offset row_amount : Nat) : Nat → Frame → Nat → Frame × Nat
  | 0, mem, index => (mem, index)
  | fuel + 1, mem, index =>
    if index ≤ row_amount then
      let mem := if index = row_amount then setHeader mem 0 (header mem 0 + 1) else mem
      if header mem (2 + 2 * index) = 0 then
        (setHeader (setHeader mem (2 + 2 * index) len) (3 + 2 * index) offset, index)
      else insertRowLoop len offset row_amount fuel mem (index + 1)
    else (mem, index)

/-- Embedding of `FlexiblePage::insertRow`: `none` stands for the result `{false, -1}`,
`some index` for `{true, index}`.  A payload that would start below the page
is outside the model. -/
def insertRow (PageSize : Nat) (schema : Schema) (mem : Frame) (row : Row) :
    Except Err (Option Nat × Frame) :=
  match Marshal.getRowSpace schema row with
  | .error e => .error e
  | .ok space =>
    let len := 1 + space
    if u64 (len + 2 * 8) > u64 (PageSize - header mem 1 - 2 * 8) then .ok (none, mem)
    else
      let min_offset := findMinOffset mem PageSize
      if min_offset < len then .error .outOfPage
      else
        let offset := min_offset - len
        let row_amount := header mem 0
        let (mem, index) := insertRowLoop len offset row_amount (row_amount + 1) mem 0
        match Marshal.serializeRow schema row with
        | .error e => .error e
        | .ok bytes =>
          let mem := writeBytes mem offset [1]
          let mem := writeBytes mem (offset + 1) bytes
          .ok (some index, setHeader mem 1 (header mem 1 + len + 2 * 8))

/-- The zeroed page a table starts with. -/
def empty : Frame := fun _ => 0

end FlexiblePage

/-! ## Expressions (`expression.cpp`) -/

/-- Modelled from the spec: the binary operator codes of `ast.h` (not in the
sources) that `BinaryOperatorExpression` handles: `+ - * /`, the six
comparisons, `AND`, `OR`. -/
inductive BinaryOperatorCode where
  | plus | minus | mul | div | eq | ne | lt | le | gt | ge | land | lor
  deriving DecidableEq, Repr

/-- Modelled from the spec: the unary operator codes of `ast.h`, `NOT` and minus. -/
inductive UnaryOperatorCode where
  | lnot | uminus
  deriving DecidableEq, Repr

/-- The expression classes of `expression.cpp`.  The schema accessor of an
identifier is the schema it resolves names in, `none` for a null pointer. -/
inductive Expression where
  | identifier (identifier_name : String) (input_schema_accessor : Option Schema)
  | numberConstant (value : Int)
  | stringConstant (value : List Nat)
  | binaryOperator (binary_operator_code : BinaryOperatorCode) (lhs_expression rhs_expression : Expression)
  | unaryOperator (unary_operator_code : UnaryOperatorCode) (expression : Expression)
  deriving DecidableEq, Repr

/-- Embedding of `std::get<int64_t>(value)`: throws `std::bad_variant_access` on another
alternative. -/
def getInt64Value : Value → Except Err Int
  | .int64 i => .ok i
  | _ => .error .badVariant

/-- Embedding of `std::get<bool>(value)`. -/
def getBoolValue : Value → Except Err Bool
  | .boolean b => .ok b
  | _ => .error .badVariant

/-- The `int64_t` result of an arithmetic operation: a mathematical result
outside the type is signed overflow, undefined in C++. -/
def int64Result (r : Int) : Except Err Value :=
  if -9223372036854775808 ≤ r ∧ r < 9223372036854775808 then .ok (.int64 r) else .error .undefined

/-- Modelled from the spec: `SchemaAccessor::getColumnIndexOrThrow` of `accessors.h`
(not in the sources) resolves an identifier to the index of the column of that
name, and throws when there is none. -/
def getColumnIndexOrThrow (schema : Schema) (name : String) : Except Err Nat :=
  match schema.findIdx? (fun c => c.name == name) with
  | some i => .ok i
  | none => .error .unknownColumn

/-- Modelled from the spec: `SchemaAccessor::getColumnOrThrow` of `accessors.h`. -/
def getColumnOrThrow (schema : Schema) (name : String) : Except Err ColumnSchema :=
  match schema.find? (fun c => c.name == name) with
  | some c => .ok c
  | none => .error .unknownColumn

namespace Expression

/-- Embedding of `getResultType` of the expression classes. -/
def getResultType : Expression → Except Err ColumnType
  | .identifier name accessor =>
    match accessor with
    | none => .error .undefined
    | some schema =>
      match getColumnOrThrow schema name with
      | .error e => .error e
      | .ok c => .ok c.type
  | .numberConstant _ => .ok .int64
  | .stringConstant _ => .ok .string
  | .binaryOperator code _ _ =>
    match code with
    | .plus => .ok .int64
    | .minus => .ok .int64
    | .mul => .ok .int64
    | .div => .ok .int64
    | _ => .ok .boolean
  | .unaryOperator code _ =>
    match code with
    | .lnot => .ok .boolean
    | .uminus => .ok .int64

/-- The operand `std::get<int64_t>(expression->evaluate(input_row))`. -/
def int64Operand (r : Except Err Value) : Except Err Int :=
  match r with
  | .error e => .error e
  | .ok v => getInt64Value v

/-- The operand `std::get<bool>(expression->evaluate(input_row))`. -/
def boolOperand (r : Except Err Value) : Except Err Bool :=
  match r with
  | .error e => .error e
  | .ok v => getBoolValue v

/-- An arithmetic operator on its two operands.  C++ leaves open which operand
is evaluated first; the model takes the left one.  Division by zero and the
quotient `INT64_MIN / -1` are undefined in C++: the code has no check. -/
def arithmetic (code : BinaryOperatorCode) (lhs rhs : Except Err Value) : Except Err Value :=
  match int64Operand lhs with
  | .error e => .error e
  | .ok a =>
    match int64Operand rhs with
    | .error e => .error e
    | .ok b =>
      match code with
      | .plus => int64Result (a + b)
      | .minus => int64Result (a - b)
      | .mul => int64Result (a * b)
      | _ => if b = 0 then .error .undefined else int64Result (Int.tdiv a b)

/-- A comparison `compareValue(lhs, rhs) op c` on its two operands, the left
one taken first. -/
def comparison (code : BinaryOperatorCode) (lhs rhs : Except Err Value) : Except Err Value :=
  match lhs with
  | .error e => .error e
  | .ok a =>
    match rhs with
    | .error e => .error e
    | .ok b =>
      let c := compareValue a b
      match code with
      | .eq => .ok (.boolean (decide (c = 0)))
      | .ne => .ok (.boolean (decide (c ≠ 0)))
      | .lt => .ok (.boolean (decide (c = -1)))
      | .le => .ok (.boolean (decide (c ≤ 0)))
      | .gt => .ok (.boolean (decide (c = 1)))
      | _ => .ok (.boolean (decide (c ≥ 0)))

/-- Embedding of `evaluate` of the expression classes.  `land` and `lor` are the C++
operators `&&` and `||` on the two `std::get<bool>(...)` operands: the right
operand is evaluated only when the left one does not decide the result. -/
def evaluate : Expression → Row → Except Err Value
  | .identifier name accessor, input_row =>
    match accessor with
    | none => .error .undefined
    | some schema =>
      match getColumnIndexOrThrow schema name with
      | .error e => .error e
      | .ok pos =>
        match input_row.get? pos with
        | some value => .ok value
        | none => .error .badRow
  | .numberConstant value, _ => .ok (.int64 value)
  | .stringConstant value, _ => .ok (.str value)
  | .binaryOperator code lhs rhs, input_row =>
    match code with
    | .plus => arithmetic .plus (evaluate lhs input_row) (evaluate rhs input_row)
    | .minus => arithmetic .minus (evaluate lhs input_row) (evaluate rhs input_row)
    | .mul => arithmetic .mul (evaluate lhs input_row) (evaluate rhs input_row)
    | .div => arithmetic .div (evaluate lhs input_row) (evaluate rhs input_row)
    | .land =>
      match boolOperand (evaluate lhs input_row) with
      | .error e => .error e
      | .ok false => .ok (.boolean false)
      | .ok true =>
        match boolOperand (evaluate rhs input_row) with
        | .error e => .error e
        | .ok b => .ok (.boolean b)
    | .lor =>
      match boolOperand (evaluate lhs input_row) with
      | .error e => .error e
      | .ok true => .ok (.boolean true)
      | .ok false =>
        match boolOperand (evaluate rhs input_row) with
        | .error e => .error e
        | .ok b => .ok (.boolean b)
    | code => comparison code (evaluate lhs input_row) (evaluate rhs input_row)
  | .unaryOperator code expression, input_row =>
    match evaluate expression input_row with
    | .error e => .error e
    | .ok result =>
      match code with
      | .lnot =>
        match getBoolValue result with
        | .error e => .error e
        | .ok b => .ok (.boolean (!b))
      | .uminus =>
        match getInt64Value result with
        | .error e => .error e
        | .ok i => int64Result (-i)

end Expression

/-! ## Aggregate functions (`aggregate_function.cpp`) -/

/-- The four simple aggregate functions. -/
inductive SimpleAggregateFunctionType where
  | min | max | sum | avg
  deriving DecidableEq, Repr

/-- The state `int64_t data[]` behind an `AggregateDataPtr`: `data[0]` and, for
`avg`, `data[1]`. -/
structure AggregateData where
  data0 : Int
  data1 : Int
  deriving DecidableEq, Repr

/-- The constant `LLONG_MIN` of `limits.h`. -/
def LLONG_MIN : Int := -9223372036854775808

/-- The constant `LLONG_MAX` of `limits.h`. -/
def LLONG_MAX : Int := 9223372036854775807

/-- The `int64_t` result of `+=`; signed overflow is undefined behaviour. -/
def int64Sum (r : Int) : Except Err Int :=
  if -9223372036854775808 ≤ r ∧ r < 9223372036854775808 then .ok r else .error .undefined

namespace SimpleAggregateFunction

/-- Embedding of `SimpleAggregateFunction::getStateSize`. -/
def getStateSize : SimpleAggregateFunctionType → Nat
  | .avg => 2 * 8
  | _ => 8

/-- Embedding of `SimpleAggregateFunction::create`, which writes the start
values over whatever `place` holds. -/
def create (t : SimpleAggregateFunctionType) (place : AggregateData) : AggregateData :=
  match t with
  | .max => { place with data0 := LLONG_MIN }
  | .min => { place with data0 := LLONG_MAX }
  | .avg => { data0 := 0, data1 := 0 }
  | .sum => { place with data0 := 0 }

/-- Embedding of `SimpleAggregateFunction::add`: the argument is
`std::get<int64_t>(arguments[0])`. -/
def add (t : SimpleAggregateFunctionType) (place : AggregateData) (arguments : Row) :
    Except Err AggregateData :=
  match arguments.get? 0 with
  | none => .error .badRow
  | some v =>
    match getInt64Value v with
    | .error e => .error e
    | .ok x =>
      match t with
      | .max => .ok { place with data0 := max place.data0 x }
      | .min => .ok { place with data0 := min place.data0 x }
      | .avg =>
        match int64Sum (place.data0 + x) with
        | .error e => .error e
        | .ok s =>
          match int64Sum (place.data1 + 1) with
          | .error e => .error e
          | .ok c => .ok { data0 := s, data1 := c }
      | .sum =>
        match int64Sum (place.data0 + x) with
        | .error e => .error e
        | .ok s => .ok { place with data0 := s }

/-- Embedding of `SimpleAggregateFunction::getResult`; `avg` divides
`data[0] / data[1]` without looking at the count. -/
def getResult (t : SimpleAggregateFunctionType) (place : AggregateData) : Except Err Value :=
  match t with
  | .avg => if place.data1 = 0 then .error .undefined
            else int64Result (Int.tdiv place.data0 place.data1)
  | _ => .ok (.int64 place.data0)

/-- One `add` call per row, in order. -/
def addAll (t : SimpleAggregateFunctionType) (place : AggregateData) :
    List Row → Except Err AggregateData
  | [] => .ok place
  | arguments :: rest =>
    match add t place arguments with
    | .error e => .error e
    | .ok next => addAll t next rest

/-- The calls `create`, `add` for each row, `getResult` on one state. -/
def aggregate (t : SimpleAggregateFunctionType) (place : AggregateData) (rows : List Row) :
    Except Err Value :=
  match addAll t (create t place) rows with
  | .error e => .error e
  | .ok state => getResult t state

end SimpleAggregateFunction

/-! ## Executors (`executor.cpp`)

An executor is the state behind an `ExecutorPtr`; `next` returns the row (or
`none` for `std::nullopt`) together with the state after the call.  The loop of
`FilterExecutor::next` and the calls into the input executor take fuel, the
loop of `execute` takes a number of calls. -/

/-- Modelled from the spec: a sort key `(expression, desc)` of `executor.h`
(not in the sources). -/
structure SortExpression where
  expression : Expression
  desc : Bool

/-- The executors of `executor.cpp`: `ReadFromRowsExecutor` with its `rows`,
`counter` and schema, `ReadFromTableExecutor`, `ExpressionsExecutor`,
`FilterExecutor`, and `SortExecutor`, `JoinExecutor` and `GroupByExecutor`
after their constructors, with their `rows` and `pos` (and `schema`).  The
table scan of a `ReadFromTableExecutor` is given by the rows that `getRow`
returns between `scan.begin()` and `scan.end()` and the position of the
iterator among them. -/
inductive Executor where
  | readFromRows (rows : List Row) (counter : Nat) (rows_schema : Schema)
  | expressions (input_executor : Executor) (expressions : List Expression)
  | filter (input_executor : Executor) (filter_expression : Expression)
  | sort (sort_expressions : List SortExpression) (rows : List Row) (pos : Nat)
  | readFromTable (rows : List Row) (pos : Nat) (table_schema : Schema)
  | join (schema : Schema) (rows : List Row) (pos : Nat)
  | groupBy (schema : Schema) (rows : List Row) (pos : Nat)

/-- The loop of `ExpressionsExecutor::next` pushing each expression's value. -/
def evaluateAll : List Expression → Row → Except Err Row
  | [], _ => .ok []
  | expression :: rest, row =>
    match expression.evaluate row with
    | .error err => .error err
    | .ok value =>
      match evaluateAll rest row with
      | .error err => .error err
      | .ok values => .ok (value :: values)

/-- Embedding of the `next` methods.  `ReadFromRowsExecutor::next` returns
`Row(1)`, a row of one `Null`, once `counter` has reached `rows.size()`;
`ReadFromTableExecutor::next` returns the row of the iterator and advances it,
and `std::nullopt` at the end of the scan; `FilterExecutor::next` pulls input
rows until the filter is true on one; the `next` of `SortExecutor`,
`JoinExecutor` and `GroupByExecutor` replays the rows and then returns
`std::nullopt`. -/
def Executor.next : Nat → Executor → Except Err (Option Row × Executor)
  | _, .readFromRows rows counter rows_schema =>
    match rows.get? counter with
    | some row => .ok (some row, .readFromRows rows (counter + 1) rows_schema)
    | none => .ok (some [Value.null], .readFromRows rows counter rows_schema)
  | _, .sort sort_expressions rows pos =>
    if pos = rows.length then .ok (none, .sort sort_expressions rows pos)
    else
      match rows.get? pos with
      | some row => .ok (some row, .sort sort_expressions rows (pos + 1))
      | none => .error .badRow
  | _, .readFromTable rows pos table_schema =>
    match rows.get? pos with
    | none => .ok (none, .readFromTable rows pos table_schema)
    | some row => .ok (some row, .readFromTable rows (pos + 1) table_schema)
  | _, .join schema rows pos =>
    if pos = rows.length then .ok (none, .join schema rows pos)
    else
      match rows.get? pos with
      | some row => .ok (some row, .join schema rows (pos + 1))
      | none => .error .badRow
  | _, .groupBy schema rows pos =>
    if pos = rows.length then .ok (none, .groupBy schema rows pos)
    else
      match rows.get? pos with
      | some row => .ok (some row, .groupBy schema rows (pos + 1))
      | none => .error .badRow
  | 0, .expressions _ _ => .error .noFuel
  | fuel + 1, .expressions input_executor exprs =>
    match Executor.next fuel input_executor with
    | .error err => .error err
    | .ok (none, input) => .ok (none, .expressions input exprs)
    | .ok (some row, input) =>
      match evaluateAll exprs row with
      | .error err => .error err
      | .ok result => .ok (some result, .expressions input exprs)
  | 0, .filter _ _ => .error .noFuel
  | fuel + 1, .filter input_executor filter_expression =>
    match Executor.next fuel input_executor with
    | .error err => .error err
    | .ok (none, input) => .ok (none, .filter input filter_expression)
    | .ok (some row, input) =>
      match filter_expression.evaluate row with
      | .error err => .error err
      | .ok value =>
        match getBoolValue value with
        | .error err => .error err
        | .ok true => .ok (some row, .filter input filter_expression)
        | .ok false => Executor.next fuel (.filter input filter_expression)

/-- Embedding of `shdb::execute`: calls `next` until it returns `std::nullopt`
and collects the rows; `calls` bounds the number of calls. -/
def execute : Nat → Nat → Executor → Except Err (List Row)
  | 0, _, _ => .error .noFuel
  | calls + 1, fuel, executor =>
    match executor.next fuel with
    | .error err => .error err
    | .ok (none, _) => .ok []
    | .ok (some row, executor) =>
      match execute calls fuel executor with
      | .error err => .error err
      | .ok result => .ok (row :: result)

namespace SortExecutor

/-- Embedding of the `compare` lambda of the `SortExecutor` constructor. -/
def compare : List SortExpression → Row → Row → Except Err Bool
  | [], _, _ => .ok false
  | expr :: rest, row1, row2 =>
    match expr.expression.evaluate row1 with
    | .error err => .error err
    | .ok val1 =>
      match expr.expression.evaluate row2 with
      | .error err => .error err
      | .ok val2 =>
        if compareValue val1 val2 = -1 then .ok (Bool.xor true expr.desc)
        else if compareValue val1 val2 = 1 then .ok (Bool.xor false expr.desc)
        else compare rest row1 row2

/-- Puts `row` before the first row it is less than. -/
def insertSorted (less : Row → Row → Except Err Bool) (row : Row) :
    List Row → Except Err (List Row)
  | [] => .ok [row]
  | first :: rest =>
    match less row first with
    | .error err => .error err
    | .ok true => .ok (row :: first :: rest)
    | .ok false =>
      match insertSorted less row rest with
      | .error err => .error err
      | .ok result => .ok (first :: result)

/-- Stands for `std::sort(rows.begin(), rows.end(), compare)`: a sort by
insertion.  `std::sort` is not stable and fixes the result only up to the order
of rows neither of which is less than the other; an exception of `compare`
leaves the sort. -/
def sortRows (less : Row → Row → Except Err Bool) : List Row → Except Err (List Row)
  | [] => .ok []
  | row :: rest =>
    match sortRows less rest with
    | .error err => .error err
    | .ok sorted => insertSorted less row sorted

end SortExecutor

/-- Embedding of `createSortExecutor`, that is of the `SortExecutor`
constructor: it drains the input with `execute` and sorts the rows. -/
def createSortExecutor (calls fuel : Nat) (input_executor : Executor)
    (sort_expressions : List SortExpression) : Except Err Executor :=
  match execute calls fuel input_executor with
  | .error err => .error err
  | .ok rows =>
    match SortExecutor.sortRows (SortExecutor.compare sort_expressions) rows with
    | .error err => .error err
    | .ok sorted => .ok (.sort sort_expressions sorted 0)

/-! ## Clock cache (`cache.h`)

The `std::unordered_map<Key, int> values` is a list of pairs with distinct keys;
the order of the list stands for the iteration order of the map, which the
standard leaves open.  `ring[i]` outside the vector is undefined behaviour.
The hand `time` stays below `ring.size()`, so `time++` does not wrap. -/

/-- The `Cell` of `cache.h`: a frame `value`, its reference counter `amount`
and its `lock` bit. -/
structure Cell (V : Type) where
  value : V
  amount : Int
  lock : Bool
  deriving DecidableEq, Repr

/-- The state of a `ClockCache`: `myclock.ring`, `myclock.values` and the hand
`time`. -/
structure ClockCache (K V : Type) where
  ring : List (Cell V)
  values : List (K × Nat)
  time : Nat
  deriving DecidableEq, Repr

namespace ClockCache

variable {K V : Type} [DecidableEq K]

/-- Embedding of the constructor: one cell per free value, counter 0, not
locked, no resident key, hand at 0. -/
def create (free_values : List V) : ClockCache K V :=
  { ring := free_values.map fun value => { value := value, amount := 0, lock := false },
    values := [],
    time := 0 }

/-- Embedding of `ClockCache::find`; `none` stands for `{false, 0}` and
`some value` for `{true, value}`. -/
def find (c : ClockCache K V) (key : K) : Except Err (Option V × ClockCache K V) :=
  match c.values.lookup key with
  | none => .ok (none, c)
  | some index =>
    match c.ring[index]? with
    | none => .error .undefined
    | some cell =>
      if cell.amount + 1 < 2147483648 then
        .ok (some cell.value,
          { c with ring := c.ring.set index { cell with amount := min 5 (cell.amount + 1) } })
      else .error .undefined

/-- The `for` loop of `put`: erases the first entry whose frame is `time`. -/
def eraseFrame : List (K × Nat) → Nat → List (K × Nat)
  | [], _ => []
  | (key, val) :: rest, time => if val = time then rest else (key, val) :: eraseFrame rest time

/-- The assignment `myclock.values[key] = time`. -/
def assign : List (K × Nat) → K → Nat → List (K × Nat)
  | [], key, time => [(key, time)]
  | (k, val) :: rest, key, time =>
    if k = key then (k, time) :: rest else (k, val) :: assign rest key time

/-- The step `time++; time %= myclock.ring.size()`. -/
def advance (c : ClockCache K V) : ClockCache K V :=
  { c with time := (c.time + 1) % c.ring.length }

/-- Embedding of `ClockCache::put`; `fuel` bounds the turns of `while (true)`. -/
def put : Nat → ClockCache K V → K → Except Err (V × ClockCache K V)
  | 0, _, _ => .error .noFuel
  | fuel + 1, c, key =>
    match c.ring[c.time]? with
    | none => .error .undefined
    | some cell =>
      if cell.amount > 0 then
        put fuel (advance { c with ring := c.ring.set c.time { cell with amount := cell.amount - 1 } })
          key
      else if cell.amount = 0 ∧ cell.lock = false then
        .ok (cell.value,
          { c with
            values := assign (eraseFrame c.values c.time) key c.time,
            ring := c.ring.set c.time { cell with amount := 1 } })
      else put fuel (advance c) key

/-- The read `myclock.values[key]` of `lock` and `unlock`: `operator[]` inserts
the key with frame 0 when it is not resident. -/
def indexOf (values : List (K × Nat)) (key : K) : Nat × List (K × Nat) :=
  match values.lookup key with
  | some index => (index, values)
  | none => (0, values ++ [(key, 0)])

/-- The body shared by `lock` and `unlock`. -/
def setLock (c : ClockCache K V) (key : K) (lock : Bool) : Except Err (ClockCache K V) :=
  match c.ring[(indexOf c.values key).1]? with
  | none => .error .undefined
  | some cell =>
    .ok { c with
      values := (indexOf c.values key).2,
      ring := c.ring.set (indexOf c.values key).1 { cell with lock := lock } }

/-- Embedding of `ClockCache::lock`. -/
def lock (c : ClockCache K V) (key : K) : Except Err (ClockCache K V) := setLock c key true

/-- Embedding of `ClockCache::unlock`. -/
def unlock (c : ClockCache K V) (key : K) : Except Err (ClockCache K V) := setLock c key false

end ClockCache

/-- A call of one of the four methods of `ClockCache`. -/
inductive CacheOp (K : Type) where
  | find (key : K)
  | put (key : K)
  | lock (key : K)
  | unlock (key : K)
  deriving DecidableEq, Repr

namespace ClockCache

variable {K V : Type} [DecidableEq K]

/-- One call: the value it returns, if any, and the state after it. -/
def step (fuel : Nat) (c : ClockCache K V) : CacheOp K → Except Err (Option V × ClockCache K V)
  | .find key => find c key
  | .put key =>
    match put fuel c key with
    | .error err => .error err
    | .ok (value, next) => .ok (some value, next)
  | .lock key =>
    match lock c key with
    | .error err => .error err
    | .ok next => .ok (none, next)
  | .unlock key =>
    match unlock c key with
    | .error err => .error err
    | .ok next => .ok (none, next)

/-- A sequence of calls: for each call the value it returns, if any, and the
state after it. -/
def run (fuel : Nat) : ClockCache K V → List (CacheOp K) →
    Except Err (List (Option V × ClockCache K V))
  | _, [] => .ok []
  | c, op :: ops =>
    match step fuel c op with
    | .error err => .error err
    | .ok (result, next) =>
      match run fuel next ops with
      | .error err => .error err
      | .ok outcomes => .ok ((result, next) :: outcomes)

end ClockCache

/-! ## The constructor of the B+tree (`BTree::BTree`) -/

namespace BTree

/-- Embedding of `allocateMetadataPage`: a new zeroed page at the end of the file,
tagged as a metadata page. -/
def allocateMetadataPage (t : BTree) : BTree × PageIndex :=
  ({ t with pages := t.pages ++
      [.metadata { root_page_index := 0, key_size_in_bytes := 0, max_page_size := 0 }] },
    t.pages.length)

/-- Embedding of the constructor `BTree::BTree` over the pages of the index file.
`max_page_size` is the value of `page_max_keys_size` after the first `if`, the
key size is the `getFixedRowSpace` of the key marshal.  On a file without pages
it allocates the metadata page and an empty root leaf and writes the three
header fields, through setters of `uint32_t`; on a file with pages it reads the
metadata page at page 0 and throws `std::runtime_error` on a key size or a
maximal page size other than the recorded one. -/
def construct (key_schema : Schema) (max_page_size : Nat) (pages : List BTreePage) :
    Except Err BTree :=
  let t : BTree :=
    { zeroKey := Marshal.deserializeRow key_schema (fun _ => 0)
      max_page_size := max_page_size
      pages := pages }
  if t.pages.length = 0 then
    match t.allocateMetadataPage with
    | (t, metadata_page_index) =>
      if metadata_page_index ≠ MetadataPageIndex then .error .assertFailed
      else
        match t.allocateLeafPage with
        | (t, root_page_index) =>
          match t.setPreviousPageIndex root_page_index InvalidPageIndex with
          | .error err => .error err
          | .ok t =>
            match t.setNextPageIndex root_page_index InvalidPageIndex with
            | .error err => .error err
            | .ok t =>
              match t.getMetadataPage with
              | .error err => .error err
              | .ok metadata_page =>
                .ok (t.setPage MetadataPageIndex (.metadata
                  { metadata_page with
                    root_page_index := root_page_index
                    max_page_size := u32 max_page_size
                    key_size_in_bytes := u32 (Marshal.getFixedRowSpace key_schema) }))
  else
    match t.getMetadataPage with
    | .error err => .error err
    | .ok metadata_page =>
      if Marshal.getFixedRowSpace key_schema ≠ metadata_page.key_size_in_bytes then
        .error .indexInconsistency
      else if max_page_size ≠ metadata_page.max_page_size then .error .indexInconsistency
      else .ok t

end BTree

/-! ## Output schemas, `JoinExecutor` and `GroupByExecutor` (`executor.cpp`) -/

/-- Modelled from the spec: the `ColumnSchema` that `output_schema.push_back`
makes of a `Type` (`schema.h` is not in the sources): a column of that type
without a name. -/
def columnOfType (type : ColumnType) : ColumnSchema := { name := "", type := type, length := 0 }

/-- The loop of `ExpressionsExecutor::getOutputSchema`: one column per
expression, of its result type. -/
def resultColumns : List Expression → Except Err Schema
  | [] => .ok []
  | expression :: rest =>
    match expression.getResultType with
    | .error err => .error err
    | .ok type =>
      match resultColumns rest with
      | .error err => .error err
      | .ok columns => .ok (columnOfType type :: columns)

/-- Embedding of the `getOutputSchema` methods; the one of `SortExecutor` throws
`std::runtime_error`. -/
def Executor.getOutputSchema : Executor → Except Err Schema
  | .readFromRows _ _ rows_schema => .ok rows_schema
  | .readFromTable _ _ table_schema => .ok table_schema
  | .expressions _ exprs => resultColumns exprs
  | .filter input_executor _ => Executor.getOutputSchema input_executor
  | .sort _ _ _ => .error .unsupported
  | .join schema _ _ => .ok schema
  | .groupBy schema _ _ => .ok schema

namespace JoinExecutor

/-- The first loop of the constructor: a column of the right schema is pushed
to `schema` unless `schema`, as grown so far, has a column of its name. -/
def joinSchema : Schema → Schema → Schema
  | schema, [] => schema
  | schema, column :: rest =>
    if schema.any (fun c => c.name == column.name) then joinSchema schema rest
    else joinSchema (schema ++ [column]) rest

/-- An assignment `map[key] = value` of a `std::unordered_map<size_t, size_t>`,
a list of pairs with distinct keys. -/
def assign : List (Nat × Nat) → Nat → Nat → List (Nat × Nat)
  | [], key, value => [(key, value)]
  | (k, v) :: rest, key, value =>
    if k = key then (k, value) :: rest else (k, v) :: assign rest key value

/-- The loops filling `matching_schema_left` and `matching_schema_right`: the
left column `i` is matched with the first right column `j` of its name. -/
def matching (right : Schema) :
    Schema → Nat → List (Nat × Nat) × List (Nat × Nat) → List (Nat × Nat) × List (Nat × Nat)
  | [], _, maps => maps
  | column :: rest, i, (matching_left, matching_right) =>
    match right.findIdx? (fun c => column.name == c.name) with
    | some j => matching right rest (i + 1) (assign matching_left i j, assign matching_right j i)
    | none => matching right rest (i + 1) (matching_left, matching_right)

/-- The loop over `matching_schema_left` deciding `similar`, left at the first
pair of values with `compareValue != 0`. -/
def similar : List (Nat × Nat) → Row → Row → Except Err Bool
  | [], _, _ => .ok true
  | (left_pos, right_pos) :: rest, left_row, right_row =>
    match left_row[left_pos]?, right_row[right_pos]? with
    | some a, some b => if compareValue a b ≠ 0 then .ok false else similar rest left_row right_row
    | _, _ => .error .badRow

/-- The loop pushing the values of the right row at the positions that
`matching_schema_right` does not contain. -/
def unmatched (matching_right : List (Nat × Nat)) : Nat → Row → Row
  | _, [] => []
  | i, value :: rest =>
    if matching_right.any (fun p => p.1 == i) then unmatched matching_right (i + 1) rest
    else value :: unmatched matching_right (i + 1) rest

/-- The loop over the right rows for one left row. -/
def joinRight (matching_left matching_right : List (Nat × Nat)) (left_row : Row) :
    List Row → Except Err (List Row)
  | [] => .ok []
  | right_row :: rest =>
    match similar matching_left left_row right_row with
    | .error err => .error err
    | .ok same =>
      match joinRight matching_left matching_right left_row rest with
      | .error err => .error err
      | .ok rows =>
        if same then .ok ((left_row ++ unmatched matching_right 0 right_row) :: rows)
        else .ok rows

/-- The loop over the left rows. -/
def joinRows (matching_left matching_right : List (Nat × Nat)) :
    List Row → List Row → Except Err (List Row)
  | [], _ => .ok []
  | left_row :: rest, right_rows =>
    match joinRight matching_left matching_right left_row right_rows with
    | .error err => .error err
    | .ok first =>
      match joinRows matching_left matching_right rest right_rows with
      | .error err => .error err
      | .ok rows => .ok (first ++ rows)

end JoinExecutor

/-- Embedding of `createJoinExecutor`, that is of the `JoinExecutor` constructor.
When no column of the right schema is left out of `schema` the constructor
returns before it reads its inputs. -/
def createJoinExecutor (calls fuel : Nat) (left_input_executor right_input_executor : Executor) :
    Except Err Executor :=
  match left_input_executor.getOutputSchema with
  | .error err => .error err
  | .ok left_output_schema =>
    match right_input_executor.getOutputSchema with
    | .error err => .error err
    | .ok right_output_schema =>
      if (JoinExecutor.joinSchema left_output_schema right_output_schema).length =
          left_output_schema.length + right_output_schema.length then
        .ok (.join (JoinExecutor.joinSchema left_output_schema right_output_schema) [] 0)
      else
        match execute calls fuel left_input_executor with
        | .error err => .error err
        | .ok left_rows =>
          match execute calls fuel right_input_executor with
          | .error err => .error err
          | .ok right_rows =>
            match JoinExecutor.joinRows
                (JoinExecutor.matching right_output_schema left_output_schema 0 ([], [])).1
                (JoinExecutor.matching right_output_schema left_output_schema 0 ([], [])).2
                left_rows right_rows with
            | .error err => .error err
            | .ok rows =>
              .ok (.join (JoinExecutor.joinSchema left_output_schema right_output_schema) rows 0)

/-- Modelled from the spec: a group key `(expression, expression_column_name)`
of `executor.h` (not in the sources). -/
structure GroupByKey where
  expression : Expression
  expression_column_name : String

/-- Modelled from the spec: an aggregate of `executor.h`, `(aggregate_function,
arguments, aggregate_function_column_name)`; the function is one of the four of
`aggregate_function.cpp`. -/
structure GroupByExpression where
  aggregate_function : SimpleAggregateFunctionType
  arguments : List Expression
  aggregate_function_column_name : String

namespace GroupByExecutor

/-- The states of one group, `std::unordered_map<std::string, AggregateDataPtr>`. -/
abbrev States := List (String × AggregateData)

/-- The map `values` of the constructor, from the key tuple of a group to its
states; key tuples are equal when their values are, and the order of the list
stands for the iteration order of the map. -/
abbrev Groups := List (Row × States)

/-- The loop building `val_key`. -/
def evaluateKeys : List GroupByKey → Row → Except Err Row
  | [], _ => .ok []
  | key :: rest, row =>
    match key.expression.evaluate row with
    | .error err => .error err
    | .ok value =>
      match evaluateKeys rest row with
      | .error err => .error err
      | .ok values => .ok (value :: values)

/-- A write through `values[val_key][name]`. -/
def assignState : States → String → AggregateData → States
  | [], name, state => [(name, state)]
  | (n, s) :: rest, name, state =>
    if n = name then (n, state) :: rest else (n, s) :: assignState rest name state

/-- The write of the states of a group into `values`. -/
def assignGroup : Groups → Row → States → Groups
  | [], key, states => [(key, states)]
  | (k, s) :: rest, key, states =>
    if k = key then (k, states) :: rest else (k, s) :: assignGroup rest key states

/-- The memory `new char[size]` of a state before `create`. -/
def newState : AggregateData := { data0 := 0, data1 := 0 }

/-- The state of an aggregate after the body of the loop over
`group_by_expressions` for one row: evaluate `arguments[0]`, create the state
of the name if the group has none, and `add`. -/
def nextState (states : States) (row : Row) (expression : GroupByExpression) :
    Except Err AggregateData :=
  match expression.arguments[0]? with
  | none => .error .undefined
  | some argument =>
    match argument.evaluate row with
    | .error err => .error err
    | .ok value =>
      SimpleAggregateFunction.add expression.aggregate_function
        (match states.lookup expression.aggregate_function_column_name with
          | some state => state
          | none => SimpleAggregateFunction.create expression.aggregate_function newState)
        [value]

/-- The body of the loop over `group_by_expressions` for one row; the state is
the one of `values[val_key][aggregate_function_column_name]`. -/
def addExpression (states : States) (row : Row) (expression : GroupByExpression) :
    Except Err States :=
  match nextState states row expression with
  | .error err => .error err
  | .ok state => .ok (assignState states expression.aggregate_function_column_name state)

/-- The loop over `group_by_expressions` for one row. -/
def addExpressions : States → Row → List GroupByExpression → Except Err States
  | states, _, [] => .ok states
  | states, row, expression :: rest =>
    match addExpression states row expression with
    | .error err => .error err
    | .ok next => addExpressions next row rest

/-- The body of the loop over the input rows. -/
def addRow (keys : List GroupByKey) (expressions : List GroupByExpression) (values : Groups)
    (row : Row) : Except Err Groups :=
  match evaluateKeys keys row with
  | .error err => .error err
  | .ok val_key =>
    match
      addExpressions
        (match values.lookup val_key with
          | some states => states
          | none => [])
        row expressions with
    | .error err => .error err
    | .ok states => .ok (assignGroup values val_key states)

/-- The loop over the input rows. -/
def addRows (keys : List GroupByKey) (expressions : List GroupByExpression) :
    Groups → List Row → Except Err Groups
  | values, [] => .ok values
  | values, row :: rest =>
    match addRow keys expressions values row with
    | .error err => .error err
    | .ok next => addRows keys expressions next rest

/-- The loop pushing `getResult` of each aggregate of a group. -/
def results (states : States) : List GroupByExpression → Except Err Row
  | [] => .ok []
  | expression :: rest =>
    match states.lookup expression.aggregate_function_column_name with
    | none => .error .undefined
    | some state =>
      match SimpleAggregateFunction.getResult expression.aggregate_function state with
      | .error err => .error err
      | .ok value =>
        match results states rest with
        | .error err => .error err
        | .ok values => .ok (value :: values)

/-- The loop over `values` building the output rows. -/
def outputRows (expressions : List GroupByExpression) : Groups → Except Err (List Row)
  | [] => .ok []
  | (key, states) :: rest =>
    match results states expressions with
    | .error err => .error err
    | .ok values =>
      match outputRows expressions rest with
      | .error err => .error err
      | .ok rows => .ok ((key ++ values) :: rows)

/-- The columns of the group keys in `schema`. -/
def keyColumns : List GroupByKey → Except Err Schema
  | [] => .ok []
  | key :: rest =>
    match key.expression.getResultType with
    | .error err => .error err
    | .ok type =>
      match keyColumns rest with
      | .error err => .error err
      | .ok columns => .ok ({ name := key.expression_column_name, type := type, length := 0 } :: columns)

/-- The columns of the aggregates in `schema`, of the result type of
`arguments[0]`. -/
def aggregateColumns : List GroupByExpression → Except Err Schema
  | [] => .ok []
  | expression :: rest =>
    match expression.arguments[0]? with
    | none => .error .undefined
    | some argument =>
      match argument.getResultType with
      | .error err => .error err
      | .ok type =>
        match aggregateColumns rest with
        | .error err => .error err
        | .ok columns =>
          .ok ({ name := expression.aggregate_function_column_name, type := type, length := 0 }
            :: columns)

end GroupByExecutor

/-- Embedding of `createGroupByExecutor`, that is of the `GroupByExecutor`
constructor. -/
def createGroupByExecutor (calls fuel : Nat) (input_executor : Executor)
    (group_by_keys : List GroupByKey) (group_by_expressions : List GroupByExpression) :
    Except Err Executor :=
  match execute calls fuel input_executor with
  | .error err => .error err
  | .ok rows =>
    match GroupByExecutor.addRows group_by_keys group_by_expressions [] rows with
    | .error err => .error err
    | .ok values =>
      match GroupByExecutor.outputRows group_by_expressions values with
      | .error err => .error err
      | .ok output =>
        match GroupByExecutor.keyColumns group_by_keys with
        | .error err => .error err
        | .ok key_columns =>
          match GroupByExecutor.aggregateColumns group_by_expressions with
          | .error err => .error err
          | .ok aggregate_columns => .ok (.groupBy (key_columns ++ aggregate_columns) output 0)

/-! ## Table scans (`scan.h`)

`current_row_index + 1` does not wrap: the row index is below a row count,
which is a 64-bit word. -/

/-- Modelled from the spec: the `ITable` of `table.h` (not in the sources), as
its schema and the frames of its pages.  `getPageCount()` is the number of the
pages, `getPage(i)` is the slotted page over frame `i`, and `getRow(row_id)` is
`getRow(row_index)` of the page `page_index`. -/
structure Table where
  schema : Schema
  pages : List Frame

namespace Table

def getPageCount (table : Table) : Nat := table.pages.length

/-- The call `table->getPage(page_index)->getRowCount()`; there is no page past
the end of the table. -/
def getRowCount (table : Table) (page_index : PageIndex) : Except Err Nat :=
  match table.pages[page_index]? with
  | none => .error .outOfPage
  | some mem => .ok (FlexiblePage.getRowCount mem)

def getRow (table : Table) (row_id : RowId) : Except Err Row :=
  match table.pages[row_id.1]? with
  | none => .error .outOfPage
  | some mem => .ok (FlexiblePage.getRow table.schema mem row_id.2)

end Table

/-- The fields `current_page_index` and `current_row_index` of a
`ScanIterator`; its table is an argument of the calls. -/
structure ScanIterator where
  current_page_index : PageIndex
  current_row_index : RowIndex
  deriving DecidableEq, Repr

namespace ScanIterator

def getRowId (it : ScanIterator) : RowId := (it.current_page_index, it.current_row_index)

def getRow (table : Table) (it : ScanIterator) : Except Err Row := table.getRow it.getRowId

/-- Embedding of `ScanIterator::operator++`. -/
def increment (table : Table) (it : ScanIterator) : Except Err ScanIterator :=
  match table.getRowCount it.current_page_index with
  | .error e => .error e
  | .ok row_count =>
    if it.current_row_index + 1 < row_count then
      .ok { it with current_row_index := it.current_row_index + 1 }
    else .ok { current_page_index := it.current_page_index + 1, current_row_index := 0 }

end ScanIterator

namespace Scan

/-- Embedding of `Scan::begin`. -/
def begin : ScanIterator := { current_page_index := 0, current_row_index := 0 }

/-- Embedding of `Scan::end`. -/
def endOf (table : Table) : ScanIterator :=
  { current_page_index := table.getPageCount, current_row_index := 0 }

end Scan

/-- Embedding of `ReadFromTableExecutor::next` on its iterator: `std::nullopt`
at `Scan::end()`, else the row at the iterator, which is then advanced. -/
def ReadFromTableExecutor.next (table : Table) (iterator : ScanIterator) :
    Except Err (Option Row × ScanIterator) :=
  if iterator = Scan.endOf table then .ok (none, iterator)
  else
    match iterator.getRow table with
    | .error e => .error e
    | .ok row =>
      match iterator.increment table with
      | .error e => .error e
      | .ok next => .ok (some row, next)

/-! ## Inputs of the scenarios -/

deriving instance DecidableEq for Except

/-- Key schema with one `int64` column. -/
def intKeySchema : Schema := [{ name := "k", type := .int64, length := 0 }]

/-- The index key, or table row, holding one `int64`. -/
def intKey (i : Int) : Row := [Value.int64 i]

/-- Call `BTree::insert` for the keys in order, the `n`-th call with row-id `(0, n)`. -/
def BTree.insertKeys : BTree → List Int → Nat → Except Err BTree
  | t, [], _ => .ok t
  | t, i :: is, n =>
    match t.insert (intKey i) (0, n) with
    | .error e => .error e
    | .ok t1 => BTree.insertKeys t1 is (n + 1)

/-- Call `BTree::lookup` for the keys in order and collect what each call finds. -/
def BTree.lookupKeys (t : BTree) : List Int → Except Err (List (Option RowId))
  | [] => .ok []
  | i :: is =>
    match t.lookup (intKey i) with
    | .error e => .error e
    | .ok r =>
      match BTree.lookupKeys t is with
      | .error e => .error e
      | .ok rs => .ok (r :: rs)

/-- Table schema with one `string` column. -/
def stringSchema : Schema := [{ name := "s", type := .string, length := 0 }]

/-- The row holding a string of `n` bytes `a`; with its present flag it takes
`1 + 8 + 16 + n` bytes of a slotted page. -/
def stringRow (n : Nat) : Row := [Value.str (List.replicate n 97)]

/-- A zeroed page whose directory has one slot at offset 100, with nothing
written at the offset. -/
def flagClearedFrame : Frame :=
  FlexiblePage.setHeader (FlexiblePage.setHeader FlexiblePage.empty 0 1) 3 100

/-- Table schema with one `varchar(4061)` column: the row of an empty string
takes `1 + 8 + 4061 = 4070` bytes of a slotted page. -/
def wideSchema : Schema := [{ name := "v", type := .varchar, length := 4061 }]

/-! ## Notions of the claims -/

/-- The entries of a leaf page, in slot order. -/
def BTreeLeafPage.stored (z : Row) (p : BTreeLeafPage) : List (Row × RowId) :=
  (List.range p.size).map (fun i => (p.getKey z i, p.getValue z i))

/-- The entries stored in the tree's leaves, from leaf `i` along the sibling
list to its end; `n` bounds the number of leaves. -/
def BTree.chainEntries (t : BTree) : Nat → PageIndex → Except Err (List (Row × RowId))
  | 0, _ => .error .noFuel
  | n + 1, i =>
    match t.getLeafPage i with
    | .error e => .error e
    | .ok p =>
      if p.next ≠ InvalidPageIndex then
        match BTree.chainEntries t n p.next with
        | .error e => .error e
        | .ok rest => .ok (p.stored t.zeroKey ++ rest)
      else .ok (p.stored t.zeroKey)

/-- A predicate `(column, comparator, value)` holds for a key under
`compareValue`: the key's value in the column of that name compares to `value`
as the comparator says. -/
def KeyCondition.holdsFor (key_schema : Schema) (key : Row) (pred : KeyCondition) : Bool :=
  match key_schema.findIdx? (fun c => c.name == pred.column.name) with
  | none => false
  | some i =>
    let c := compareValue (key.getD i Value.null) pred.value
    match pred.comparator with
    | .equal => decide (c = 0)
    | .notEqual => decide (c ≠ 0)
    | .less => decide (c < 0)
    | .lessOrEqual => decide (c ≤ 0)
    | .greater => decide (c > 0)
    | .greaterOrEqual => decide (c ≥ 0)

/-! ## Notions of the marshal claims and of their proofs -/

namespace Marshal

/-- A value is valid for a column: `Null`, or of the column's type and in its
range; a `varchar` value is no longer than the column. -/
def validValue (column : ColumnSchema) : Value → Bool
  | .null => true
  | .boolean _ => decide (column.type = .boolean)
  | .uint64 n => decide (column.type = .uint64) && decide (n < 18446744073709551616)
  | .int64 i =>
    decide (column.type = .int64) && decide (-9223372036854775808 ≤ i) &&
      decide (i < 9223372036854775808)
  | .str s =>
    (decide (column.type = .varchar) && decide (s.length ≤ column.length)) ||
      decide (column.type = .string)

/-- A row is valid against a schema: one valid value for every column. -/
def validRow : Schema → Row → Bool
  | [], [] => true
  | column :: schema, v :: row => validValue column v && validRow schema row
  | _, _ => false

/-- No `varchar` value of the row holds a NUL byte. -/
def varcharNulFree : Schema → Row → Bool
  | column :: schema, v :: row =>
    (match column.type, v with
      | .varchar, .str s => !s.contains 0
      | _, _ => true) && varcharNulFree schema row
  | _, _ => true

/-- The bytes of one column as the claim counts them: nothing for `Null`, 1 for
a boolean, 8 for `uint64` and `int64`, `L` for `varchar(L)`, 16 plus the
string's length for `string`. -/
def columnSize (column : ColumnSchema) (v : Value) : Nat :=
  if v = Value.null then 0
  else
    match column.type with
    | .boolean => 1
    | .uint64 => 8
    | .int64 => 8
    | .varchar => column.length
    | .string =>
      16 + (match v with
            | .str s => s.length
            | _ => 0)

/-- The bytes of a row after the 8 bytes of the null bitmap, as the claim
counts them. -/
def encodedSize : Schema → Row → Nat
  | column :: schema, v :: row => columnSize column v + encodedSize schema row
  | _, _ => 0

/-- The bytes of one column in the fixed region; `off` is the offset written
for a `string`. -/
def cell (column : ColumnSchema) (v : Value) (off : Nat) : List Nat :=
  match v with
  | .null => []
  | .boolean b => [b.toNat]
  | .uint64 n => le64 n
  | .int64 i => le64 (u64 i)
  | .str s =>
    match column.type with
    | .string => le64 s.length ++ le64 off
    | _ => s ++ List.replicate (column.length - s.length) 0

/-- A `string` column holding a string. -/
def isStringCell (column : ColumnSchema) (v : Value) : Bool :=
  match column.type, v with
  | .string, .str _ => true
  | _, _ => false

/-- The bytes of one column after the fixed region. -/
def heapCell (column : ColumnSchema) (v : Value) : List Nat :=
  match column.type, v with
  | .string, .str s => s
  | _, _ => []

/-- The fixed region with the final offsets, the first string at `off`. -/
def fixedBytes : Schema → Row → Nat → List Nat
  | column :: schema, v :: row, off =>
    cell column v off ++ fixedBytes schema row (off + (heapCell column v).length)
  | _, _, _ => []

/-- The fixed region as the first loop of `serializeRow` leaves it, every offset 0. -/
def fixedZero : Schema → Row → List Nat
  | column :: schema, v :: row => cell column v 0 ++ fixedZero schema row
  | _, _ => []

/-- The strings after the fixed region. -/
def heapBytes : Schema → Row → List Nat
  | column :: schema, v :: row => heapCell column v ++ heapBytes schema row
  | _, _ => []

/-- The vector `indices` that the first loop builds for the columns from `index` on. -/
def stringIndices : Schema → Row → Nat → List Nat
  | column :: schema, v :: row, index =>
    (if isStringCell column v then [index] else []) ++ stringIndices schema row (index + 1)
  | _, _, _ => []

/-- The vector `offset_poss` that the first loop builds, the cursor being at `p`. -/
def stringPoss : Schema → Row → Nat → List Nat
  | column :: schema, v :: row, p =>
    (if isStringCell column v then [p + 8] else [])
      ++ stringPoss schema row (p + (cell column v 0).length)
  | _, _, _ => []

/-- The memory holds `bytes` from `p` on. -/
def Holds (mem : Nat → Nat) (p : Nat) (bytes : List Nat) : Prop :=
  ∀ k, k < bytes.length → mem (p + k) = bytes.getD k 0

end Marshal

namespace Marshal

/-- The bytes that `calculateFixedRowSpace` adds for the columns of a row. -/
def fixedSpace : Schema → Row → Nat
  | column :: schema, v :: row =>
    (if v = Value.null then 0 else fixedWidth column) + fixedSpace schema row
  | _, _ => 0

/-- The bytes that the loop of `getRowSpace` adds for the strings of a row. -/
def stringSpace : Schema → Row → Nat
  | column :: schema, v :: row =>
    (if isStringCell column v then 2 * 8 + (heapCell column v).length else 0)
      + stringSpace schema row
  | _, _ => 0

end Marshal

/-- A schema with a column of every type. -/
def mixedSchema : Schema :=
  [{ name := "a", type := .int64, length := 0 }, { name := "b", type := .string, length := 0 },
   { name := "c", type := .varchar, length := 4 }, { name := "d", type := .boolean, length := 0 },
   { name := "e", type := .string, length := 0 }, { name := "f", type := .uint64, length := 0 }]

/-- A row valid against `mixedSchema`, with a `Null`. -/
def mixedRow : Row :=
  [.int64 (-2), .str [104, 105], .str [97, 98], .null, .str [1, 0, 3], .uint64 77]

/-- One `varchar(4)` column. -/
def varcharSchema : Schema := [{ name := "v", type := .varchar, length := 4 }]

/-! ## Notions of the range scan proof -/

/-- The entries the iterator has still to walk: it stands on a leaf of the
sibling list, at an offset inside it. -/
def BTreeIndexIterator.Remaining (t : BTree) (n : Nat) (it : BTreeIndexIterator)
    (R : List (Row × RowId)) : Prop :=
  ∃ p L, t.getLeafPage it.leaf_page = .ok p ∧ t.chainEntries n it.leaf_page = .ok L ∧
    it.leaf_page_offset ≤ p.size ∧ R = L.drop it.leaf_page_offset

/-- The index after `insert` of the keys 1, 2, 3 with `max_page_size = 2`: two
leaves under one internal page. -/
def sampleTree : BTree :=
  match (BTree.create intKeySchema 2).insertKeys [1, 2, 3] 0 with
  | .ok t => t
  | .error _ => BTree.create intKeySchema 2

/-- The predicates `k > 1` and `k != 3`. -/
def samplePredicates : KeyConditions :=
  [{ column := { name := "k", type := .int64, length := 0 }, comparator := .greater,
     value := Value.int64 1 },
   { column := { name := "k", type := .int64, length := 0 }, comparator := .notEqual,
     value := Value.int64 3 }]

/-! ## Notions of the expression claims -/

/-- What an expression of claim C14 means: an integer or a truth value. -/
inductive Meaning where
  | int (i : Int)
  | bool (b : Bool)
  deriving DecidableEq, Repr

/-- The variant holding a meaning. -/
def Meaning.toValue : Meaning → Value
  | .int i => .int64 i
  | .bool b => .boolean b

/-- The column type of a meaning. -/
def Meaning.type : Meaning → ColumnType
  | .int _ => .int64
  | .bool _ => .boolean

/-- The integer is an `int64_t`. -/
def fitsInt64 (i : Int) : Bool :=
  decide (-9223372036854775808 ≤ i ∧ i < 9223372036854775808)

/-- Integer arithmetic without overflow. -/
def Meaning.arith (f : Int → Int → Int) : Option Meaning → Option Meaning → Option Meaning
  | some (.int a), some (.int b) => if fitsInt64 (f a b) then some (.int (f a b)) else none
  | _, _ => none

/-- A comparison of two integers or of two truth values. -/
def Meaning.compare (fi : Int → Int → Bool) (fb : Bool → Bool → Bool) :
    Option Meaning → Option Meaning → Option Meaning
  | some (.int a), some (.int b) => some (.bool (fi a b))
  | some (.bool a), some (.bool b) => some (.bool (fb a b))
  | _, _ => none

/-- A connective of two truth values. -/
def Meaning.logic (f : Bool → Bool → Bool) : Option Meaning → Option Meaning → Option Meaning
  | some (.bool a), some (.bool b) => some (.bool (f a b))
  | _, _ => none

/-- The usual integer and boolean semantics of the expression trees of claim
C14: `int64` literals, `+ - *` without overflow, the six comparisons, `AND` and
`OR` over truth values, `NOT` and unary minus.  Other trees mean nothing. -/
def Expression.denote : Expression → Option Meaning
  | .numberConstant value => if fitsInt64 value then some (.int value) else none
  | .binaryOperator .plus l r => Meaning.arith (fun a b => a + b) l.denote r.denote
  | .binaryOperator .minus l r => Meaning.arith (fun a b => a - b) l.denote r.denote
  | .binaryOperator .mul l r => Meaning.arith (fun a b => a * b) l.denote r.denote
  | .binaryOperator .eq l r =>
    Meaning.compare (fun a b => decide (a = b)) (fun a b => decide (a = b)) l.denote r.denote
  | .binaryOperator .ne l r =>
    Meaning.compare (fun a b => decide (a ≠ b)) (fun a b => decide (a ≠ b)) l.denote r.denote
  | .binaryOperator .lt l r =>
    Meaning.compare (fun a b => decide (a < b)) (fun a b => decide (a < b)) l.denote r.denote
  | .binaryOperator .le l r =>
    Meaning.compare (fun a b => decide (a ≤ b)) (fun a b => decide (a ≤ b)) l.denote r.denote
  | .binaryOperator .gt l r =>
    Meaning.compare (fun a b => decide (a > b)) (fun a b => decide (a > b)) l.denote r.denote
  | .binaryOperator .ge l r =>
    Meaning.compare (fun a b => decide (a ≥ b)) (fun a b => decide (a ≥ b)) l.denote r.denote
  | .binaryOperator .land l r => Meaning.logic (fun a b => a && b) l.denote r.denote
  | .binaryOperator .lor l r => Meaning.logic (fun a b => a || b) l.denote r.denote
  | .unaryOperator .lnot e =>
    match e.denote with
    | some (.bool b) => some (.bool (!b))
    | _ => none
  | .unaryOperator .uminus e =>
    match e.denote with
    | some (.int i) => if fitsInt64 (-i) then some (.int (-i)) else none
    | _ => none
  | _ => none

/-- The expression `(3 + 4) * 2 > 13`. -/
def exampleGreater : Expression :=
  .binaryOperator .gt
    (.binaryOperator .mul (.binaryOperator .plus (.numberConstant 3) (.numberConstant 4))
      (.numberConstant 2))
    (.numberConstant 13)

/-- The expression `NOT (5 == 5)`. -/
def exampleNot : Expression :=
  .unaryOperator .lnot (.binaryOperator .eq (.numberConstant 5) (.numberConstant 5))

/-- The expression `NOT 5`, a type mismatch. -/
def exampleMismatch : Expression := .unaryOperator .lnot (.numberConstant 5)

/-- The expression `1 == 2`. -/
def exampleFalse : Expression := .binaryOperator .eq (.numberConstant 1) (.numberConstant 2)

/-- The expression `1 == 1`. -/
def exampleTrue : Expression := .binaryOperator .eq (.numberConstant 1) (.numberConstant 1)

/-! ## Notions of the aggregate claim -/

/-- The one-column argument rows of a list of integers. -/
def int64Rows (xs : List Int) : List Row := xs.map fun x => [Value.int64 x]

/-- No prefix of the list has a sum outside `int64_t`. -/
def runningSumsFit (xs : List Int) : Bool :=
  (List.range (xs.length + 1)).all fun k => fitsInt64 (xs.take k).sum

/-! ## Notions of the executor claims -/

/-- The composite comparison of claim C20: key by key with `compareValue`, the
first key on which the rows differ decides, negated for a key with `desc`. -/
def compositeCompare : List SortExpression → Row → Row → Except Err Int
  | [], _, _ => .ok 0
  | key :: keys, a, b =>
    match key.expression.evaluate a with
    | .error err => .error err
    | .ok va =>
      match key.expression.evaluate b with
      | .error err => .error err
      | .ok vb =>
        if compareValue va vb = 0 then compositeCompare keys a b
        else .ok (if key.desc then -compareValue va vb else compareValue va vb)

/-- Row `a` is not above row `b` in the composite comparison. -/
def nonDecreasing (keys : List SortExpression) (a b : Row) : Prop :=
  ∃ c, compositeCompare keys a b = .ok c ∧ c ≤ 0

/-- The predicate is true on the row. -/
def holdsOn (predicate : Expression) (row : Row) : Bool :=
  decide (predicate.evaluate row = .ok (.boolean true))

/-- The identifier of column 0 of a one-column int64 schema. -/
def columnA : Expression :=
  .identifier "a" (some [{ name := "a", type := .int64, length := 0 }])

/-- The identifier of column 1 of a two-column int64 schema. -/
def columnB : Expression :=
  .identifier "b" (some [{ name := "a", type := .int64, length := 0 },
    { name := "b", type := .int64, length := 0 }])

/-- The rows `(2, 1), (1, 1), (2, 3), (1, 2)`. -/
def sampleRows : List Row :=
  [[.int64 2, .int64 1], [.int64 1, .int64 1], [.int64 2, .int64 3], [.int64 1, .int64 2]]


/-- Every sort key evaluates on the row. -/
def keysEvaluate (keys : List SortExpression) (row : Row) : Prop :=
  ∀ key ∈ keys, ∃ v, key.expression.evaluate row = .ok v

/-- The requirement of `std::sort` on its comparison, over the rows it is called
with: a strict weak ordering, that is irreflexive, transitive, and with
transitive incomparability. -/
def StrictWeakOrdering (less : Row → Row → Except Err Bool) (rows : List Row) : Prop :=
  (∀ a ∈ rows, less a a = .ok false) ∧
  (∀ a ∈ rows, ∀ b ∈ rows, ∀ c ∈ rows,
    less a b = .ok true → less b c = .ok true → less a c = .ok true) ∧
  (∀ a ∈ rows, ∀ b ∈ rows, ∀ c ∈ rows,
    less a b = .ok false → less b a = .ok false → less b c = .ok false →
    less c b = .ok false → less a c = .ok false ∧ less c a = .ok false)

/-- The sort keys `a ASC, b DESC`. -/
def sampleKeys : List SortExpression := [⟨columnA, false⟩, ⟨columnB, true⟩]

/-! ## Notions of the clock cache claims -/

namespace ClockCache

variable {K V : Type} [DecidableEq K]

/-- The key is resident: `myclock.values.contains(key)`. -/
def resident (c : ClockCache K V) (key : K) : Bool := (c.values.lookup key).isSome

/-- The turns of the loop of `put` before its return branch: the state in which
the hand has reached the cell that `put` takes. -/
def putScan : Nat → ClockCache K V → Except Err (ClockCache K V)
  | 0, _ => .error .noFuel
  | fuel + 1, c =>
    match c.ring[c.time]? with
    | none => .error .undefined
    | some cell =>
      if cell.amount > 0 then
        putScan fuel
          (advance { c with ring := c.ring.set c.time { cell with amount := cell.amount - 1 } })
      else if cell.amount = 0 ∧ cell.lock = false then .ok c
      else putScan fuel (advance c)

/-- The usage contract of the amended claims: `put` is called for keys that are
not resident, `lock` and `unlock` for resident keys. -/
def allowed (c : ClockCache K V) : CacheOp K → Bool
  | .find _ => true
  | .put key => !c.resident key
  | .lock key => c.resident key
  | .unlock key => c.resident key

/-- Every call of the run obeys the usage contract in the state it is made in. -/
def allowedRun : ClockCache K V → List (CacheOp K) → List (Option V × ClockCache K V) → Bool
  | c, op :: ops, outcome :: outcomes => c.allowed op && allowedRun outcome.2 ops outcomes
  | _, _, _ => true

/-- The state after the run. -/
def finalState : ClockCache K V → List (Option V × ClockCache K V) → ClockCache K V
  | c, [] => c
  | _, outcome :: outcomes => finalState outcome.2 outcomes

/-- The frames handed out by the `put` calls of a run, as positions in the
ring: `put` leaves the hand on the frame it returns. -/
def handedOut : List (CacheOp K) → List (Option V × ClockCache K V) → List Nat
  | .put _ :: ops, outcome :: outcomes => outcome.2.time :: handedOut ops outcomes
  | _ :: ops, _ :: outcomes => handedOut ops outcomes
  | _, _ => []

/-- What the usage contract keeps true of the resident map: distinct keys,
distinct frames, every frame a position of the ring. -/
def Inv (c : ClockCache K V) : Prop :=
  (c.values.map Prod.fst).Nodup ∧ (c.values.map Prod.snd).Nodup ∧
    ∀ p ∈ c.values, p.2 < c.ring.length

/-- The lock bit of the frame at a position of the ring. -/
def lockBit (c : ClockCache K V) (index : Nat) : Option Bool :=
  (c.ring[index]?).map Cell.lock

/-- The frame value at a position of the ring. -/
def frameAt (c : ClockCache K V) (index : Nat) : Option V :=
  (c.ring[index]?).map Cell.value

end ClockCache

namespace ClockCache

variable {K V : Type} [DecidableEq K]

/-- The outcomes of a run of calls that returns. -/
def outcomesOf (fuel : Nat) (c : ClockCache K V) (ops : List (CacheOp K)) :
    List (Option V × ClockCache K V) :=
  match c.run fuel ops with
  | .error _ => []
  | .ok outcomes => outcomes

end ClockCache

/-- What every call keeps true of a cache: each resident key is mapped to a
position of the ring and each reference counter is between 0 and 5. -/
def ClockCache.WellFormed {K V : Type} (c : ClockCache K V) : Prop :=
  (∀ p ∈ c.values, p.2 < c.ring.length) ∧ ∀ cell ∈ c.ring, 0 ≤ cell.amount ∧ cell.amount ≤ 5

/-- A cache of the two frames 100 and 101 with no resident key. -/
def twoFrames : ClockCache Nat Nat := ClockCache.create [100, 101]

/-- The cache `twoFrames` after `put(1)` and `lock(1)`. -/
def lockedOne : ClockCache Nat Nat :=
  twoFrames.finalState (twoFrames.outcomesOf 10 [.put 1, .lock 1])

/-! ## Notions of the comparator claim -/

/-- The order `a < b` of claim C27 on two values of the same variant: `false`
before `true`, the order of the integers, and the lexicographic order of the
bytes of two strings.  `Null` is not below `Null`. -/
def Value.below : Value → Value → Prop
  | .boolean a, .boolean b => a = false ∧ b = true
  | .uint64 a, .uint64 b => a < b
  | .int64 a, .int64 b => a < b
  | .str a, .str b => List.Lex (fun x y : Nat => x < y) a b
  | _, _ => False

/-! ## Notions of the leaf page claim -/

/-- The leaf page format of `btree_page.h`, "keys are stored in order": the
keys of the first `size` slots have `n` values each and ascend strictly. -/
def BTreeLeafPage.Ordered (z : Row) (p : BTreeLeafPage) (n : Nat) : Prop :=
  (∀ i, i < p.size → (p.getKey z i).length = n) ∧
  ∀ i j, i < j → j < p.size → compareRows (p.getKey z i) (p.getKey z j) = -1

/-- A leaf page of the keys 1, 3, 5 in a page of at most 4 entries. -/
def oddLeaf : BTreeLeafPage :=
  { size := 3, prev := InvalidPageIndex, next := InvalidPageIndex,
    entries := [([.int64 1], (0, 0)), ([.int64 3], (0, 1)), ([.int64 5], (0, 2))] }

/-! ## Notions of the B+tree claims -/

/-- Call `BTree::remove` for the keys in order and collect what each call returns. -/
def BTree.removeKeys : BTree → List Int → Except Err (List Bool × BTree)
  | t, [] => .ok ([], t)
  | t, i :: is =>
    match t.remove (intKey i) with
    | .error e => .error e
    | .ok (removed, t1) =>
      match BTree.removeKeys t1 is with
      | .error e => .error e
      | .ok (rest, t2) => .ok (removed :: rest, t2)

/-- The keys stored in the subtree of page `i`: the keys of a leaf, the keys of
the subtrees of the children of an internal page; `fuel` bounds the height. -/
def BTree.subtreeKeys (t : BTree) : Nat → PageIndex → Except Err (List Row)
  | 0, _ => .error .noFuel
  | fuel + 1, i =>
    match t.getPage i with
    | .error e => .error e
    | .ok (.leaf p) => .ok ((p.stored t.zeroKey).map Prod.fst)
    | .ok (.internal p) =>
      (List.range p.size).foldr
        (fun j rest =>
          match BTree.subtreeKeys t fuel (p.getValue t.zeroKey j), rest with
          | .ok keys, .ok more => .ok (keys ++ more)
          | .error e, _ => .error e
          | _, .error e => .error e)
        (.ok [])
    | .ok _ => .error .unexpectedPage

/-- The property of claim C29 at the internal page `p` for the child at
position `j`: every key of the child's subtree is below `key[j + 1]` when there
is one, and not below `key[j]` when `j ≥ 1`. -/
def BTree.separatesChild (t : BTree) (p : BTreeInternalPage) (j : Nat) (keys : List Row) : Bool :=
  (if j + 1 < p.size then keys.all fun k => compareRows k (p.getKey t.zeroKey (j + 1)) = -1
    else true) &&
  (if 1 ≤ j then keys.all fun k => compareRows k (p.getKey t.zeroKey j) ≥ 0 else true)

/-- The property of claim C29 for every internal page of the subtree of page
`i`; `fuel` bounds the height. -/
def BTree.separatorsHold (t : BTree) : Nat → PageIndex → Except Err Bool
  | 0, _ => .error .noFuel
  | fuel + 1, i =>
    match t.getPage i with
    | .error e => .error e
    | .ok (.leaf _) => .ok true
    | .ok (.internal p) =>
      (List.range p.size).foldr
        (fun j rest =>
          match BTree.subtreeKeys t fuel (p.getValue t.zeroKey j),
            BTree.separatorsHold t fuel (p.getValue t.zeroKey j), rest with
          | .ok keys, .ok below, .ok more => .ok (t.separatesChild p j keys && below && more)
          | .error e, _, _ => .error e
          | _, .error e, _ => .error e
          | _, _, .error e => .error e)
        (.ok true)
    | .ok _ => .error .unexpectedPage

/-- The property of claim C29 from the root of the tree. -/
def BTree.separatorsHoldFromRoot (t : BTree) : Except Err Bool :=
  match t.getMetadataPage with
  | .error e => .error e
  | .ok m => t.separatorsHold t.pages.length m.root_page_index


/-- The leaf that `descend_insert` reaches for the key, by the `lookup` of the
internal pages on the way; `fuel` bounds the height. -/
def BTree.leafFor (t : BTree) : Nat → PageIndex → Row → Except Err PageIndex
  | 0, _, _ => .error .noFuel
  | fuel + 1, i, key =>
    match t.getPage i with
    | .error e => .error e
    | .ok (.leaf _) => .ok i
    | .ok (.internal p) =>
      match p.lookup t.zeroKey key with
      | .error e => .error e
      | .ok child => BTree.leafFor t fuel child key
    | .ok _ => .error .unexpectedPage

/-- The insert of the key reaches a full leaf whose left sibling exists and has
fewer than `max_page_size` entries: the index of the leaf and of the sibling. -/
def BTree.leftBorrowFor (t : BTree) (key : Row) : Except Err (Option (PageIndex × PageIndex)) :=
  match t.getMetadataPage with
  | .error e => .error e
  | .ok m =>
    match t.leafFor t.pages.length m.root_page_index key with
    | .error e => .error e
    | .ok i =>
      match t.getLeafPage i with
      | .error e => .error e
      | .ok leaf =>
        if leaf.size < m.max_page_size ∨ leaf.prev = InvalidPageIndex then .ok none
        else
          match t.getLeafPage leaf.prev with
          | .error e => .error e
          | .ok left => if left.size < m.max_page_size then .ok (some (i, leaf.prev)) else .ok none

/-- The tree of `max_page_size = 2` after `insert` of 1, 2, 3 and the calls
`remove(1)`, `remove(2)`, `remove(3)`, with what the calls return. -/
def removedInOrder : Except Err (List Bool × BTree) :=
  match (BTree.create intKeySchema 2).insertKeys [1, 2, 3] 0 with
  | .error e => .error e
  | .ok t => t.removeKeys [1, 2, 3]

/-- The tree of `max_page_size = 2` after `insert` of 1, 0, -1, -2, -3. -/
def beforeLeftBorrow : Except Err BTree :=
  (BTree.create intKeySchema 2).insertKeys [1, 0, -1, -2, -3] 0

/-- The tree `beforeLeftBorrow` after `insert` of 2. -/
def afterLeftBorrow : Except Err BTree :=
  match beforeLeftBorrow with
  | .error e => .error e
  | .ok t => t.insert (intKey 2) (0, 5)

/-! ## Notions of the claims on `JoinExecutor` -/

/-- Claim-side notion: the rows `l` and `r` agree on every shared-name column:
for every column of the left schema and every column of the right schema of
the same name, `compareValue` of their values in `l` and `r` is 0. -/
def joinAgree (ls rs : Schema) (l r : Row) : Bool :=
  (ls.zip l).all fun x => (rs.zip r).all fun y =>
    x.1.name != y.1.name || compareValue x.2 y.2 == 0

/-- Claim-side notion: the values of `r` in the columns whose names are not
shared with the left schema. -/
def joinRest (ls rs : Schema) (r : Row) : Row :=
  ((rs.zip r).filter fun y => ls.all fun c => c.name != y.1.name).map Prod.snd

/-- Claim-side notion: one row `l ++ joinRest r` for each pair of a left row and
a right row that agree, and none for the other pairs. -/
def joinedRows (ls rs : Schema) (left_rows right_rows : List Row) : List Row :=
  (left_rows.map fun l =>
    (right_rows.filter fun r => joinAgree ls rs l r).map fun r => l ++ joinRest ls rs r).flatten

/-- Claim-side notion: the Cartesian product, one row `l ++ r` for every pair. -/
def cartesianProduct (left_rows right_rows : List Row) : List Row :=
  (left_rows.map fun l => right_rows.map fun r => l ++ r).flatten

/-- The column names of a schema. -/
def Schema.names (schema : Schema) : List String := schema.map fun c => c.name

/-- The pairs that the matching loops put into `matching_schema_left`, for the
left columns from position `i` on. -/
def JoinExecutor.matchedPairs (right : Schema) : Schema → Nat → List (Nat × Nat)
  | [], _ => []
  | column :: rest, i =>
    match right.findIdx? (fun c => column.name == c.name) with
    | some j => (i, j) :: JoinExecutor.matchedPairs right rest (i + 1)
    | none => JoinExecutor.matchedPairs right rest (i + 1)

/-! ## Inputs of the scenarios on `JoinExecutor` -/

/-- The schema of table `A(id, x)` of scenario S5. -/
def joinSchemaA : Schema :=
  [{ name := "id", type := .int64, length := 0 }, { name := "x", type := .string, length := 0 }]

/-- The schema of table `B(id, y)` of scenario S5. -/
def joinSchemaB : Schema :=
  [{ name := "id", type := .int64, length := 0 }, { name := "y", type := .string, length := 0 }]

/-- The rows `(1, "a"), (2, "b")` of table `A`. -/
def joinRowsA : List Row := [[.int64 1, .str [97]], [.int64 2, .str [98]]]

/-- The rows `(1, "p"), (3, "q")` of table `B`. -/
def joinRowsB : List Row := [[.int64 1, .str [112]], [.int64 3, .str [113]]]

/-- A table `X(x)` with the row `(1)`. -/
def tableX : Executor := .readFromTable [[.int64 1]] 0 [{ name := "x", type := .int64, length := 0 }]

/-- A table `Y(y)` with the row `(2)`. -/
def tableY : Executor := .readFromTable [[.int64 2]] 0 [{ name := "y", type := .int64, length := 0 }]

/-! ## Notions of the claims on `GroupByExecutor` -/

/-- The values of a list of results, or its first error. -/
def allOk {α : Type} : List (Except Err α) → Except Err (List α)
  | [] => .ok []
  | .error err :: _ => .error err
  | .ok a :: rest =>
    match allOk rest with
    | .error err => .error err
    | .ok as => .ok (a :: as)

/-- Claim-side notion: the tuple of key-expression values of a row. -/
def keyTuple (keys : List GroupByKey) (row : Row) : Except Err Row :=
  allOk (keys.map fun key => key.expression.evaluate row)

/-- Claim-side notion: the input rows having the key tuple `key`. -/
def groupOf (keys : List GroupByKey) (rows : List Row) (key : Row) : List Row :=
  rows.filter fun row => decide (keyTuple keys row = .ok key)

/-- Claim-side notion: the first-argument value of an aggregate on a row, as
the argument list that `add` takes. -/
def firstArgument (expression : GroupByExpression) (row : Row) : Except Err Row :=
  match expression.arguments[0]? with
  | none => .error .undefined
  | some argument =>
    match argument.evaluate row with
    | .error err => .error err
    | .ok value => .ok [value]

/-- Claim-side notion: the result of an aggregate folded over the first-argument
values of the rows. -/
def aggregateOver (expression : GroupByExpression) (rows : List Row) : Except Err Value :=
  match allOk (rows.map (firstArgument expression)) with
  | .error err => .error err
  | .ok arguments =>
    SimpleAggregateFunction.aggregate expression.aggregate_function GroupByExecutor.newState
      arguments

/-- Claim-side notion: the row of the group of a key tuple, the key tuple
followed by the results of the aggregates in their order. -/
def groupRow (keys : List GroupByKey) (expressions : List GroupByExpression) (rows : List Row)
    (key : Row) : Except Err Row :=
  match allOk (expressions.map fun e => aggregateOver e (groupOf keys rows key)) with
  | .error err => .error err
  | .ok results => .ok (key ++ results)

/-- Claim-side notion: one row per distinct key tuple occurring in the input. -/
def groupedRows (keys : List GroupByKey) (expressions : List GroupByExpression)
    (rows : List Row) : Except Err (List Row) :=
  match allOk (rows.map (keyTuple keys)) with
  | .error err => .error err
  | .ok tuples => allOk (tuples.dedup.map (groupRow keys expressions rows))

/-- The state of an aggregate after `create` and one `add` per row. -/
def foldState (expression : GroupByExpression) (rows : List Row) : Except Err AggregateData :=
  match allOk (rows.map (firstArgument expression)) with
  | .error err => .error err
  | .ok arguments =>
    SimpleAggregateFunction.addAll expression.aggregate_function
      (SimpleAggregateFunction.create expression.aggregate_function GroupByExecutor.newState)
      arguments

/-- The value of a result, the empty row for an error. -/
def rowOrEmpty (result : Except Err Row) : Row :=
  match result with
  | .ok row => row
  | .error _ => []

/-- The names of the aggregates. -/
def aggregateNames (expressions : List GroupByExpression) : List String :=
  expressions.map fun e => e.aggregate_function_column_name

/-- The state of the loop over the input rows after the rows `done`: the keys
of `values` are distinct and are the key tuples of the rows of `done`, and the
group of a key tuple maps the name of each aggregate to its state after the
rows of `done` with that key tuple. -/
def GroupByExecutor.Inv (keys : List GroupByKey) (expressions : List GroupByExpression)
    (values : GroupByExecutor.Groups) (done : List Row) : Prop :=
  (values.map Prod.fst).Nodup ∧
  (∀ key, key ∈ values.map Prod.fst ↔ ∃ row ∈ done, keyTuple keys row = .ok key) ∧
  (∀ key states, values.lookup key = some states → ∀ e ∈ expressions,
    ∃ state, foldState e (groupOf keys done key) = .ok state ∧
      states.lookup e.aggregate_function_column_name = some state)

/-! ## Inputs of the scenarios on `GroupByExecutor` -/

/-- The schema of a table `T(g, v)`. -/
def groupSchema : Schema :=
  [{ name := "g", type := .int64, length := 0 }, { name := "v", type := .int64, length := 0 }]

/-- The rows `(1, 5), (1, 7), (2, 3)` of table `T`. -/
def groupRows : List Row := [[.int64 1, .int64 5], [.int64 1, .int64 7], [.int64 2, .int64 3]]

/-- The rows `(1, 5), (1, 7)` of table `T`. -/
def oneGroupRows : List Row := [[.int64 1, .int64 5], [.int64 1, .int64 7]]

/-- The group key `g`. -/
def keyG : GroupByKey :=
  { expression := .identifier "g" (some groupSchema), expression_column_name := "g" }

/-- The aggregate `sum(v)`. -/
def sumV : GroupByExpression :=
  { aggregate_function := .sum, arguments := [.identifier "v" (some groupSchema)],
    aggregate_function_column_name := "sum(v)" }

/-- The aggregate `max(v)`. -/
def maxV : GroupByExpression :=
  { aggregate_function := .max, arguments := [.identifier "v" (some groupSchema)],
    aggregate_function_column_name := "max(v)" }

/-! ## Notions of the claim on the width of rows -/

/-- The rows that the first `calls` calls of `next` return, up to the first call
that fails or returns `std::nullopt`. -/
def Executor.returned : Nat → Nat → Executor → List Row
  | 0, _, _ => []
  | calls + 1, fuel, executor =>
    match executor.next fuel with
    | .ok (some row, next) => row :: Executor.returned calls fuel next
    | _ => []

/-- A table `L(a)` with the row `(1)`. -/
def tableL : Executor := .readFromTable [[.int64 1]] 0 [{ name := "a", type := .int64, length := 0 }]

/-- A table `R(b, b)`, two columns of one name, with the row `(2, 3)`. -/
def tableR : Executor :=
  .readFromTable [[.int64 2, .int64 3]] 0
    [{ name := "b", type := .int64, length := 0 }, { name := "b", type := .int64, length := 0 }]

/-! ## Notions of the claims on the null bitmap and on `varchar` -/

/-- Claim-side notion: the schema and the row with the `Null` columns removed. -/
def Marshal.withoutNulls : Schema → Row → Schema × Row
  | column :: schema, v :: row =>
    if v = Value.null then Marshal.withoutNulls schema row
    else (column :: (Marshal.withoutNulls schema row).1, v :: (Marshal.withoutNulls schema row).2)
  | _, _ => ([], [])

/-- A row valid against `mixedSchema` with three `Null` values. -/
def nullRow : Row := [.null, .str [104, 105], .null, .boolean true, .str [1, 0, 3], .null]

/-- Bytes that a non-null column takes between the bitmap and the strings. -/
def Marshal.cellWidth (column : ColumnSchema) : Nat :=
  match column.type with
  | .boolean => 1
  | .uint64 => 8
  | .int64 => 8
  | .varchar => column.length
  | .string => 16

/-- The cursor of `deserializeRow` when its loop, at column `index` with the
cursor at `p`, has gone over `k` more columns. -/
def Marshal.cursorAfter (nulls : Nat) : Schema → Nat → Nat → Nat → Nat
  | _, _, p, 0 => p
  | [], _, p, _ => p
  | column :: schema, index, p, k + 1 =>
    Marshal.cursorAfter nulls schema (index + 1)
      (if nulls &&& Marshal.maskBit index ≠ 0 then p else p + Marshal.cellWidth column) k

/-- Two `varchar(2)` columns. -/
def twoVarchars : Schema :=
  [{ name := "u", type := .varchar, length := 2 }, { name := "v", type := .varchar, length := 2 }]

/-! ## Notions of the claim on splits -/

/-- The number of leaf pages of the index file. -/
def BTree.leafCount (t : BTree) : Nat :=
  (t.pages.filter fun p =>
    match p with
    | .leaf _ => true
    | _ => false).length

/-- The number of internal pages of the index file. -/
def BTree.internalCount (t : BTree) : Nat :=
  (t.pages.filter fun p =>
    match p with
    | .internal _ => true
    | _ => false).length

/-- The root page index of the metadata page, 0 when there is none. -/
def BTree.rootIndex (t : BTree) : PageIndex :=
  match t.getMetadataPage with
  | .ok m => m.root_page_index
  | .error _ => 0

/-- The splits of one `insert`, from the tree before and after it: the new
leaf pages, which `descend_insert` allocates only when it splits a leaf, and
the new internal pages other than a new root, which `descend_insert` allocates
only when it splits an internal page. -/
def BTree.splitsBetween (before after : BTree) : Nat × Nat :=
  (after.leafCount - before.leafCount,
    after.internalCount - before.internalCount -
      (if after.rootIndex ≠ before.rootIndex then 1 else 0))

/-- Call `BTree::insert` for the keys in order, the `n`-th call with row-id
`(0, n)`, and collect the splits of each call. -/
def BTree.splitTrace : BTree → List Int → Nat → Except Err (List (Nat × Nat))
  | _, [], _ => .ok []
  | t, i :: is, n =>
    match t.insert (intKey i) (0, n) with
    | .error e => .error e
    | .ok t1 =>
      match BTree.splitTrace t1 is (n + 1) with
      | .error e => .error e
      | .ok rest => .ok (t.splitsBetween t1 :: rest)

/-- The splits of the inserts of the keys 1..100 in ascending order into a
fresh tree with `max_page_size = 4`; entry `n` is for the insert number `n + 1`. -/
def ascendingSplits : Except Err (List (Nat × Nat)) :=
  (BTree.create intKeySchema 4).splitTrace ((List.range 100).map (fun n => (n : Int) + 1)) 0

/-! ## Inputs of the claims on slots and payloads -/

/-- The page of 4096 bytes after the calls `insertRow(10)`, `insertRow(11)`,
`deleteRow(0)`, `insertRow(12)`, `deleteRow(0)`, `insertRow(13)` on a zeroed
page, the rows being keys of `intKeySchema`. -/
def pageAfterDeletes : Except Err Frame := do
  let (_, mem) ← FlexiblePage.insertRow 4096 intKeySchema FlexiblePage.empty (intKey 10)
  let (_, mem) ← FlexiblePage.insertRow 4096 intKeySchema mem (intKey 11)
  let mem := FlexiblePage.deleteRow mem 0
  let (_, mem) ← FlexiblePage.insertRow 4096 intKeySchema mem (intKey 12)
  let mem := FlexiblePage.deleteRow mem 0
  let (_, mem) ← FlexiblePage.insertRow 4096 intKeySchema mem (intKey 13)
  pure mem

/-- The directory entries `(length, offset)` of the slots below `row_count`. -/
def FlexiblePage.directory (mem : Frame) : List (Nat × Nat) :=
  (List.range (FlexiblePage.getRowCount mem)).map fun i =>
    (FlexiblePage.getLength mem i, FlexiblePage.getOffset mem i)

/-! ## Notions of the claim on `remove` -/

/-- The tree of `max_page_size = 2` after `insert` of -3, -2, 0, 1, 2, -1. -/
def lostKeyTree : Except Err BTree :=
  (BTree.create intKeySchema 2).insertKeys [-3, -2, 0, 1, 2, -1] 0

/-- The key is stored in the tree: a leaf page of the index file has it in one
of its slots below the size. -/
def BTree.stores (t : BTree) (key : Row) : Prop :=
  ∃ (i : PageIndex) (p : BTreeLeafPage) (pos : Nat), t.pages[i]? = some (.leaf p) ∧
    pos < p.size ∧ compareRows (p.getKey t.zeroKey pos) key = 0

/-! ## Notions of the claim on table scans -/

/-- The row-ids at which the iterator stands before each `operator++`, from
`it` until it equals `Scan::end()`; `fuel` bounds the number of comparisons
with `Scan::end()`. -/
def ScanIterator.visited (table : Table) : Nat → ScanIterator → Except Err (List RowId)
  | 0, _ => .error .noFuel
  | fuel + 1, it =>
    if it = Scan.endOf table then .ok []
    else
      match it.increment table with
      | .error e => .error e
      | .ok next =>
        match ScanIterator.visited table fuel next with
        | .error e => .error e
        | .ok rest => .ok (it.getRowId :: rest)

/-- The rows that `ReadFromTableExecutor::next` returns from `iterator` on,
until it returns `std::nullopt`. -/
def ReadFromTableExecutor.rows (table : Table) : Nat → ScanIterator → Except Err (List Row)
  | 0, _ => .error .noFuel
  | fuel + 1, iterator =>
    match ReadFromTableExecutor.next table iterator with
    | .error e => .error e
    | .ok (none, _) => .ok []
    | .ok (some row, next) =>
      match ReadFromTableExecutor.rows table fuel next with
      | .error e => .error e
      | .ok rest => .ok (row :: rest)

/-- Claim-side notion: the row counts of the pages of a table. -/
def Table.rowCounts (table : Table) : List Nat := table.pages.map FlexiblePage.getRowCount

/-- Claim-side notion: the row-ids `(p, s)` with `s < max(1, rowCount(p))` in
lexicographic order, for the pages from `p` on with the row counts `counts`. -/
def scannedRowIds : PageIndex → List Nat → List RowId
  | _, [] => []
  | p, count :: counts =>
    (List.range (max 1 count)).map (fun s => (p, s)) ++ scannedRowIds (p + 1) counts

/-- Claim-side notion: the sum over the pages of `max(1, rowCount(p))`. -/
def scanSteps (counts : List Nat) : Nat := (counts.map (max 1)).sum

/-- The lexicographic order of row-ids. -/
def RowId.before (a b : RowId) : Prop := a.1 < b.1 ∨ (a.1 = b.1 ∧ a.2 < b.2)

/-- A table of three pages with the row counts 2, 0 and 1; the pages are
zeroed but for the row count. -/
def threePages : Table :=
  { schema := intKeySchema,
    pages := [FlexiblePage.setHeader FlexiblePage.empty 0 2, FlexiblePage.empty,
      FlexiblePage.setHeader FlexiblePage.empty 0 1] }

/-! ## Notions of the claim on what `put` changes -/

/-- The number of times the hand passes position `i` of a ring of `N` frames in
`advances` advances that start at position `start`: the positions it leaves. -/
def ClockCache.passes (N start advances i : Nat) : Nat :=
  ((List.range advances).filter fun t => (start + t) % N = i).length

/-- The number of passes over a frame made while its counter is positive, for a
counter that starts at `amount` and is passed `passes` times. -/
def ClockCache.passedWhilePositive (amount : Int) (passes : Nat) : Int := min amount passes

/-- A cache of the one frame 100 after `put(1)`, `lock(2)` and `unlock(2)`: the
keys 1 and 2 are both mapped to the frame. -/
def sharedFrame : ClockCache Nat Nat :=
  (ClockCache.create [100]).finalState
    ((ClockCache.create [100]).outcomesOf 10 [.put 1, .lock 2, .unlock 2])

/-! ## Notions of the claim on `read` -/

/-- The leaf pages of the subtree of page `i`, from left to right: the page
itself when it is a leaf, and for an internal page, which has at least one
child, the leaves of the subtrees of its children 0, .., size - 1.  There are
none when the subtree is not made of such pages or is higher than `fuel`. -/
def BTree.leavesBelow (t : BTree) : Nat → PageIndex → Option (List PageIndex)
  | 0, _ => none
  | fuel + 1, i =>
    match t.getPage i with
    | .ok (.leaf _) => some [i]
    | .ok (.internal p) =>
      if p.size = 0 then none
      else
        (List.range p.size).foldr
          (fun j rest =>
            match BTree.leavesBelow t fuel (p.getValue t.zeroKey j), rest with
            | some leaves, some more => some (leaves ++ more)
            | _, _ => none)
          (some [])
    | _ => none

/-- The leaf pages of the tree, from left to right, found from the root of the
metadata page through all children of the internal pages. -/
def BTree.leaves (t : BTree) : Option (List PageIndex) :=
  match t.getMetadataPage with
  | .ok m => t.leavesBelow t.pages.length m.root_page_index
  | .error _ => none

/-- C1, at a failing input.  With `max_page_size = 2`, after `insert` of the keys 1, 2, 3
and `remove(1)` (which returns `true`), `lookup(2)` finds nothing although key 2
was inserted and never removed: `descend_remove` hands the page index returned
by `internal_page.lookup` to `removeKey` as a position, so the root drops the
entry of the leaf holding 2 and 3 and keeps the emptied leaf. -/
theorem lookup_after_remove_loses_key :
    (do
      let t ← (BTree.create intKeySchema 2).insertKeys [1, 2, 3] 0
      let (removed, t) ← t.remove (intKey 1)
      let found ← t.lookup (intKey 2)
      pure (removed, found)) = Except.ok (true, none) := by
  decide!

/-- C2, at a failing input.  With `max_page_size = 2`, after `insert` of the distinct keys
-3, -2, 0, 1, 2, -1 (no removes), `lookup(-1)` finds nothing.  The last insert
moves -1 into the right sibling leaf; the parent compares the never written key
of its slot 0 (zero bytes, the key 0) with `old_first_key = 0`, overwrites that
slot and reports `skip`, so the separator 0 in the root is never replaced by -1. -/
theorem lookup_after_inserts_loses_key :
    (do
      let t ← (BTree.create intKeySchema 2).insertKeys [-3, -2, 0, 1, 2, -1] 0
      t.lookup (intKey (-1))) = Except.ok none := by
  decide!

/-- C3, at a failing input.  With `max_page_size = 2`, after `insert` of the distinct keys
-4, -3, 0, 1, 2, -2, -1 the iterator of `read()` yields -1 before -2: the keys
do not come in ascending order. -/
theorem read_after_inserts_not_ascending :
    (do
      let t ← (BTree.create intKeySchema 2).insertKeys [-4, -3, 0, 1, 2, -2, -1] 0
      let it ← t.read intKeySchema []
      let rows ← BTreeIndexIterator.drain t 16 16 it
      pure (rows.map Prod.fst)) =
    Except.ok [intKey (-4), intKey (-3), intKey (-1), intKey (-2), intKey 0, intKey 1, intKey 2] := by
  decide!

/-- Scenario S3 of the spec, the lookups: with `max_page_size = 4`, after `insert` of the
keys 1..100 in ascending order (key `n + 1` with row-id `(0, n)`), `lookup`
finds every key of 1..100 with its row-id and finds nothing for 0 and 101. -/
theorem ascending_inserts_found :
    (do
      let t ← (BTree.create intKeySchema 4).insertKeys
        ((List.range 100).map (fun n => (n : Int) + 1)) 0
      t.lookupKeys ((List.range 102).map (fun n => (n : Int)))) =
    Except.ok (none :: (List.range 100).map (fun n => some (0, n)) ++ [none]) := by
  decide!

/-! ## Range scans with predicates: the walk along the sibling list -/

theorem foldl_and_eq_all {α : Type} (f : α → Bool) (l : List α) (b : Bool) :
    l.foldl (fun valid x => valid && f x) b = (b && l.all f) := by
  induction l generalizing b with
  | nil => simp
  | cons x xs ih => simp [List.foldl_cons, ih, Bool.and_assoc]

theorem isRowValid_eq_all (key_schema : Schema) (predicates : KeyConditions) (key : Row) :
    isRowValid key_schema predicates key = predicates.all (fun pred => holds key_schema key pred) := by
  unfold isRowValid
  rw [foldl_and_eq_all]
  simp

theorem compareValue_range (a b : Value) :
    compareValue a b = -1 ∨ compareValue a b = 0 ∨ compareValue a b = 1 := by
  unfold compareValue
  split
  · exact Or.inl rfl
  · split
    · exact Or.inr (Or.inr rfl)
    · exact Or.inr (Or.inl rfl)

theorem holds_eq_holdsFor (key_schema : Schema) (key : Row) (pred : KeyCondition)
    (hcol : ∃ c ∈ key_schema, c.name = pred.column.name) :
    holds key_schema key pred = pred.holdsFor key_schema key := by
  obtain ⟨c, hc, hname⟩ := hcol
  have hsome : (key_schema.findIdx? (fun c => c.name == pred.column.name)).isSome = true := by
    rw [List.findIdx?_isSome]
    exact List.any_eq_true.mpr ⟨c, hc, by simp [hname]⟩
  obtain ⟨i, hi⟩ := Option.isSome_iff_exists.mp hsome
  unfold holds KeyCondition.holdsFor columnIndex
  rw [hi]
  simp only []
  have hr := compareValue_range (key.getD i Value.null) pred.value
  generalize compareValue (key.getD i Value.null) pred.value = c at hr
  cases pred.comparator <;> first | rfl | (simp only [decide_eq_decide]; omega)

theorem BTreeLeafPage.stored_length (z : Row) (p : BTreeLeafPage) : (p.stored z).length = p.size := by
  simp [BTreeLeafPage.stored]

theorem BTreeLeafPage.stored_drop (z : Row) (p : BTreeLeafPage) (o : Nat) (h : o < p.size) :
    (p.stored z).drop o = (p.getKey z o, p.getValue z o) :: (p.stored z).drop (o + 1) := by
  have hl : o < (p.stored z).length := by rw [BTreeLeafPage.stored_length]; exact h
  rw [List.drop_eq_getElem_cons hl]
  simp [BTreeLeafPage.stored]

theorem BTree.chainEntries_ok (t : BTree) (n : Nat) (i : PageIndex) (L : List (Row × RowId))
    (h : t.chainEntries n i = .ok L) :
    ∃ n0 p, n = n0 + 1 ∧ t.getLeafPage i = .ok p ∧
      ((p.next ≠ InvalidPageIndex ∧ ∃ rest, t.chainEntries n0 p.next = .ok rest ∧
          L = p.stored t.zeroKey ++ rest) ∨
       (p.next = InvalidPageIndex ∧ L = p.stored t.zeroKey)) := by
  cases n with
  | zero => simp [BTree.chainEntries] at h
  | succ n0 =>
    refine ⟨n0, ?_⟩
    unfold BTree.chainEntries at h
    split at h
    · cases h
    · rename_i p hp
      refine ⟨p, rfl, hp, ?_⟩
      split at h
      · rename_i hnext
        split at h
        · cases h
        · rename_i rest hrest
          cases h
          exact Or.inl ⟨hnext, rest, hrest, rfl⟩
      · rename_i hnext
        cases h
        exact Or.inr ⟨not_not.mp hnext, rfl⟩

theorem BTreeIndexIterator.nextRow_spec (t : BTree) :
    ∀ (fuel n : Nat) (it : BTreeIndexIterator) (R : List (Row × RowId)),
      BTreeIndexIterator.Remaining t n it R → R.length + n ≤ fuel →
      (R.filter (fun e => isRowValid it.key_schema it.predicates e.1) = [] ∧
        ∃ it1, BTreeIndexIterator.nextRow t fuel it = .ok (none, it1)) ∨
      (∃ e R1 n1 it1, BTreeIndexIterator.nextRow t fuel it = .ok (some e, it1) ∧
        it1.key_schema = it.key_schema ∧ it1.predicates = it.predicates ∧
        BTreeIndexIterator.Remaining t n1 it1 R1 ∧
        R.filter (fun e => isRowValid it.key_schema it.predicates e.1)
          = e :: R1.filter (fun e => isRowValid it.key_schema it.predicates e.1) ∧
        R1.length + n1 ≤ R.length + n) := by
  intro fuel
  induction fuel with
  | zero =>
    intro n it R hrem hle
    obtain ⟨p, L, _, hL, _, _⟩ := hrem
    obtain ⟨n0, _, hn, _⟩ := BTree.chainEntries_ok t n _ L hL
    omega
  | succ fuel ih =>
    intro n it R hrem hle
    obtain ⟨p, L, hp, hL, ho, hR⟩ := hrem
    obtain ⟨n0, p1, hn, hp1, hcases⟩ := BTree.chainEntries_ok t n _ L hL
    rw [hp] at hp1
    cases hp1
    have hLdrop : L.drop it.leaf_page_offset =
        (p.stored t.zeroKey).drop it.leaf_page_offset ++ L.drop (p.stored t.zeroKey).length := by
      rcases hcases with ⟨_, rest, _, hLeq⟩ | ⟨_, hLeq⟩
      · rw [hLeq, List.drop_append_of_le_length (by rw [BTreeLeafPage.stored_length]; exact ho)]
        simp
      · rw [hLeq]; simp
    unfold BTreeIndexIterator.nextRow
    simp only [hp]
    by_cases hlt : it.leaf_page_offset < p.size
    · rw [if_pos hlt]
      have hRcons : R = (p.getKey t.zeroKey it.leaf_page_offset, p.getValue t.zeroKey it.leaf_page_offset)
          :: L.drop (it.leaf_page_offset + 1) := by
        have hl : it.leaf_page_offset < L.length := by
          rcases hcases with ⟨_, rest, _, hLeq⟩ | ⟨_, hLeq⟩
          · rw [hLeq, List.length_append, BTreeLeafPage.stored_length]; omega
          · rw [hLeq, BTreeLeafPage.stored_length]; exact hlt
        rw [hR, List.drop_eq_getElem_cons hl]
        congr 1
        have hget : L[it.leaf_page_offset]? = (p.stored t.zeroKey)[it.leaf_page_offset]? := by
          rcases hcases with ⟨_, rest, _, hLeq⟩ | ⟨_, hLeq⟩
          · rw [hLeq, List.getElem?_append_left (by rw [BTreeLeafPage.stored_length]; exact hlt)]
          · rw [hLeq]
        have h2 : (p.stored t.zeroKey)[it.leaf_page_offset]? =
            some (p.getKey t.zeroKey it.leaf_page_offset, p.getValue t.zeroKey it.leaf_page_offset) := by
          simp [BTreeLeafPage.stored, hlt]
        rw [h2, List.getElem?_eq_getElem hl] at hget
        exact Option.some.inj hget
      have hrem1 : BTreeIndexIterator.Remaining t n
          { it with leaf_page_offset := it.leaf_page_offset + 1 } (L.drop (it.leaf_page_offset + 1)) :=
        ⟨p, L, hp, hL, hlt, rfl⟩
      by_cases hv : isRowValid it.key_schema it.predicates (p.getKey t.zeroKey it.leaf_page_offset) = true
      · rw [if_pos hv]
        refine Or.inr ⟨_, L.drop (it.leaf_page_offset + 1), n, _, rfl, rfl, rfl, hrem1, ?_, ?_⟩
        · rw [hRcons, List.filter_cons_of_pos (by simpa using hv)]
        · rw [hRcons]; simp
      · rw [if_neg hv]
        have hlen : (L.drop (it.leaf_page_offset + 1)).length + n ≤ fuel := by
          rw [hRcons] at hle; simp at hle; simp; omega
        have hfilter : R.filter (fun e => isRowValid it.key_schema it.predicates e.1) =
            (L.drop (it.leaf_page_offset + 1)).filter
              (fun e => isRowValid it.key_schema it.predicates e.1) := by
          rw [hRcons, List.filter_cons_of_neg (by simpa using hv)]
        rcases ih n _ _ hrem1 hlen with ⟨hnil, it1, hit1⟩ | ⟨e, R1, n1, it1, hnext, hks, hps, hrem2, hf, hle2⟩
        · exact Or.inl ⟨by rw [hfilter]; exact hnil, it1, hit1⟩
        · refine Or.inr ⟨e, R1, n1, it1, hnext, hks, hps, hrem2, ?_, ?_⟩
          · rw [hfilter]; exact hf
          · rw [hRcons]; simp; simp at hle2; omega
    · rw [if_neg hlt]
      have hoeq : it.leaf_page_offset = p.size := by omega
      rcases hcases with ⟨hnext, rest, hrest, hLeq⟩ | ⟨hnext, hLeq⟩
      · rw [if_pos hnext]
        have hRrest : R = rest := by
          rw [hR, hLeq, hoeq, ← BTreeLeafPage.stored_length t.zeroKey p]
          simp
        obtain ⟨_, p2, _, hp2, _⟩ := BTree.chainEntries_ok t n0 _ rest hrest
        have hrem1 : BTreeIndexIterator.Remaining t n0
            { it with leaf_page_offset := 0, leaf_page := p.next } rest :=
          ⟨p2, rest, hp2, hrest, Nat.zero_le _, rfl⟩
        have hlen : rest.length + n0 ≤ fuel := by rw [hRrest] at hle; omega
        rcases ih n0 _ _ hrem1 hlen with ⟨hnil, it1, hit1⟩ | ⟨e, R1, n1, it1, hnext1, hks, hps, hrem2, hf, hle2⟩
        · exact Or.inl ⟨by rw [hRrest]; exact hnil, it1, hit1⟩
        · refine Or.inr ⟨e, R1, n1, it1, hnext1, hks, hps, hrem2, ?_, ?_⟩
          · rw [hRrest]; exact hf
          · rw [hRrest]; omega
      · rw [if_neg (by simpa using hnext)]
        have hRnil : R = [] := by
          rw [hR, hLeq, hoeq, ← BTreeLeafPage.stored_length t.zeroKey p]
          simp
        exact Or.inl ⟨by rw [hRnil]; rfl, it, rfl⟩

theorem BTreeIndexIterator.drain_spec (t : BTree) (fuel : Nat) :
    ∀ (calls n : Nat) (it : BTreeIndexIterator) (R : List (Row × RowId)),
      BTreeIndexIterator.Remaining t n it R → R.length + n ≤ fuel →
      (R.filter (fun e => isRowValid it.key_schema it.predicates e.1)).length < calls →
      BTreeIndexIterator.drain t fuel calls it =
        .ok (R.filter (fun e => isRowValid it.key_schema it.predicates e.1)) := by
  intro calls
  induction calls with
  | zero => intro n it R _ _ h; omega
  | succ calls ih =>
    intro n it R hrem hle hcalls
    unfold BTreeIndexIterator.drain
    rcases BTreeIndexIterator.nextRow_spec t fuel n it R hrem hle with
      ⟨hnil, it1, hit1⟩ | ⟨e, R1, n1, it1, hnext, hks, hps, hrem1, hf, hle1⟩
    · rw [hit1, hnil]
    · rw [hnext]
      simp only []
      have h1 := ih n1 it1 R1 hrem1 (by omega) (by rw [hks, hps]; rw [hf] at hcalls; simp at hcalls; omega)
      rw [h1, hf, hks, hps]

theorem all_eq_of_forall {α : Type} (f g : α → Bool) (l : List α)
    (h : ∀ x ∈ l, f x = g x) : l.all f = l.all g := by
  induction l with
  | nil => rfl
  | cons x xs ih =>
    rw [List.all_cons, List.all_cons, h x (List.mem_cons_self x xs),
      ih (fun y hy => h y (List.mem_cons_of_mem x hy))]

/-- The iterator of `read` walks the sibling list.  Let `listed` be the entries
of the leaves from the leaf that `lookupLeftmostLeafPage` returns along the
sibling list, and let every predicate name a column of the key schema.  Then
calling `nextRow` on the iterator of `read(predicates)` until end-of-stream
gives exactly the listed entries for whose key every predicate holds under
`compareValue`, in the listed order; with no predicates it gives every listed
entry. -/
theorem read_yields_sibling_list (t : BTree) (key_schema : Schema) (predicates : KeyConditions)
    (n : Nat) (leaf : PageIndex) (stored : List (Row × RowId))
    (hcols : ∀ pred ∈ predicates, ∃ c ∈ key_schema, c.name = pred.column.name)
    (hleft : t.lookupLeftmostLeafPage = .ok leaf)
    (hstored : t.chainEntries n leaf = .ok stored) :
    (∃ it, t.read key_schema predicates = .ok it ∧
      BTreeIndexIterator.drain t (stored.length + n) (stored.length + 1) it =
        .ok (stored.filter (fun e => predicates.all (fun pred => pred.holdsFor key_schema e.1)))) ∧
    (∃ it, t.read key_schema [] = .ok it ∧
      BTreeIndexIterator.drain t (stored.length + n) (stored.length + 1) it = .ok stored) := by
  have hrem : ∀ P : KeyConditions, BTreeIndexIterator.Remaining t n
      { key_schema := key_schema, leaf_page := leaf, leaf_page_offset := 0, predicates := P }
      stored := by
    intro P
    obtain ⟨_, p, _, hp, _⟩ := BTree.chainEntries_ok t n leaf stored hstored
    exact ⟨p, stored, hp, hstored, Nat.zero_le _, rfl⟩
  have hread : ∀ P : KeyConditions, t.read key_schema P =
      .ok { key_schema := key_schema, leaf_page := leaf, leaf_page_offset := 0, predicates := P } := by
    intro P
    simp [BTree.read, hleft, bind, Except.bind, pure, Except.pure]
  constructor
  · refine ⟨_, hread predicates, ?_⟩
    have h := BTreeIndexIterator.drain_spec t (stored.length + n) (stored.length + 1) n _ stored
      (hrem predicates) (Nat.le_refl _)
      (Nat.lt_succ_of_le (List.length_filter_le _ _))
    rw [h]
    congr 1
    apply List.filter_congr
    intro e _
    simp only []
    rw [isRowValid_eq_all]
    exact all_eq_of_forall _ _ _ (fun pred hpred =>
      holds_eq_holdsFor key_schema e.1 pred (hcols pred hpred))
  · refine ⟨_, hread [], ?_⟩
    have h := BTreeIndexIterator.drain_spec t (stored.length + n) (stored.length + 1) n _ stored
      (hrem []) (Nat.le_refl _)
      (Nat.lt_succ_of_le (List.length_filter_le _ _))
    rw [h]
    simp [isRowValid]

/-- The sibling list of `sampleTree` (keys 1, 2, 3): the predicates `k > 1` and
`k != 3` leave key 2. -/
theorem read_yields_sibling_list_example :
    (∃ it, sampleTree.read intKeySchema samplePredicates = .ok it ∧
      BTreeIndexIterator.drain sampleTree 5 4 it = .ok [(intKey 2, (0, 1))]) ∧
    (∃ it, sampleTree.read intKeySchema [] = .ok it ∧
      BTreeIndexIterator.drain sampleTree 5 4 it =
        .ok [(intKey 1, (0, 0)), (intKey 2, (0, 1)), (intKey 3, (0, 2))]) :=
  read_yields_sibling_list sampleTree intKeySchema samplePredicates 2 1
    [(intKey 1, (0, 0)), (intKey 2, (0, 1)), (intKey 3, (0, 2))]
    (by decide) (by decide!) (by decide!)

/-! ## C5 and C6: the marshal -/

namespace Marshal

theorem maskBit_eq (index : Nat) (h : index < 64) : maskBit index = 2 ^ index := by
  unfold maskBit
  rw [Nat.one_shiftLeft]
  apply Nat.mod_eq_of_lt
  calc 2 ^ index < 2 ^ 64 := Nat.pow_lt_pow_right (by decide) h
    _ = 18446744073709551616 := by norm_num

theorem and_maskBit_ne_zero (nulls index : Nat) (h : index < 64) :
    nulls &&& maskBit index ≠ 0 ↔ nulls.testBit index = true := by
  rw [maskBit_eq index h, Nat.and_two_pow]
  cases hb : nulls.testBit index
  · simp
  · simp

theorem shiftRight_and_one_ne_zero (nulls index : Nat) :
    (nulls >>> index) &&& 1 ≠ 0 ↔ nulls.testBit index = true := by
  unfold Nat.testBit
  rw [Nat.and_comm]
  simp

theorem testBit_getNullsLoop (row : Row) :
    ∀ (index nulls j : Nat), index + row.length ≤ 64 →
      (getNullsLoop row index nulls).testBit j =
        (nulls.testBit j || decide (index ≤ j ∧ row.get? (j - index) = some Value.null)) := by
  induction row with
  | nil => intro index nulls j _; simp [getNullsLoop]
  | cons v vs ih =>
    intro index nulls j h
    simp only [List.length_cons] at h
    unfold getNullsLoop
    rw [ih (index + 1) _ j (by omega)]
    by_cases hv : v = Value.null
    · rw [if_pos hv, Nat.testBit_or, maskBit_eq index (by omega), Nat.testBit_two_pow]
      by_cases hj : index = j
      · subst hj; simp [hv]
      · by_cases hlt : index < j
        · have : j - index = (j - (index + 1)) + 1 := by omega
          rw [this]
          have h1 : index + 1 ≤ j := by omega
          have h2 : index ≤ j := by omega
          simp [hj, h1, h2]
        · have h1 : ¬ index + 1 ≤ j := by omega
          have h2 : ¬ index ≤ j := by omega
          simp [hj, h1, h2]
    · rw [if_neg hv]
      by_cases hj : index = j
      · subst hj; simp [hv]
      · by_cases hlt : index < j
        · have : j - index = (j - (index + 1)) + 1 := by omega
          rw [this]
          have h1 : index + 1 ≤ j := by omega
          have h2 : index ≤ j := by omega
          simp [h1, h2]
        · have h1 : ¬ index + 1 ≤ j := by omega
          have h2 : ¬ index ≤ j := by omega
          simp [h1, h2]

theorem testBit_getNulls (row : Row) (h : row.length ≤ 64) (j : Nat) :
    (getNulls row).testBit j = true ↔ row.get? j = some Value.null := by
  unfold getNulls
  rw [testBit_getNullsLoop row 0 0 j (by omega)]
  simp

theorem getNulls_lt (row : Row) (h : row.length ≤ 64) : getNulls row < 18446744073709551616 := by
  have h64 : (18446744073709551616 : Nat) = 2 ^ 64 := by norm_num
  rw [h64]
  apply Nat.lt_pow_two_of_testBit
  intro i hi
  cases hb : (getNulls row).testBit i
  · rfl
  · exfalso
    rw [testBit_getNulls row h i] at hb
    have : i < row.length := by
      by_contra hc
      rw [List.get?_eq_none.mpr (by omega)] at hb
      cases hb
    omega

end Marshal

namespace Marshal

theorem get?_append_cons {α : Type} (pre : List α) (v : α) (vs : List α) :
    (pre ++ v :: vs).get? pre.length = some v := by
  rw [List.get?_eq_getElem?, List.getElem?_append_right (Nat.le_refl _)]
  simp

theorem le64_length (n : Nat) : (le64 n).length = 8 := rfl

theorem cell_length (column : ColumnSchema) (v : Value) (off : Nat) :
    (cell column v off).length = (cell column v 0).length := by
  unfold cell
  cases v <;> try rfl
  cases column.type <;> simp [le64_length]

theorem serializeFixed_eq (row : Row) (nulls : Nat)
    (hbit : ∀ j, j < 64 → (nulls.testBit j = true ↔ row.get? j = some Value.null)) :
    ∀ (schema : Schema) (vals pre : Row) (st : SerState),
      row = pre ++ vals → row.length ≤ 64 → validRow schema vals = true →
      serializeFixed row nulls schema pre.length st =
        .ok { data := st.data ++ fixedZero schema vals
              indices := st.indices ++ stringIndices schema vals pre.length
              offset_poss := st.offset_poss ++ stringPoss schema vals st.data.length } := by
  intro schema
  induction schema with
  | nil =>
    intro vals pre st _ _ hval
    cases vals with
    | nil => simp [serializeFixed, fixedZero, stringIndices, stringPoss]
    | cons v vs => simp [validRow] at hval
  | cons c cs ih =>
    intro vals pre st hrow hlen hval
    cases vals with
    | nil => simp [validRow] at hval
    | cons v vs =>
      simp only [validRow, Bool.and_eq_true] at hval
      obtain ⟨hv, hvs⟩ := hval
      have hget : row.get? pre.length = some v := by rw [hrow]; exact get?_append_cons pre v vs
      have hidx : pre.length < 64 := by
        have : row.length = pre.length + (vs.length + 1) := by rw [hrow]; simp
        omega
      have hrow1 : row = (pre ++ [v]) ++ vs := by rw [hrow]; simp
      have hlen1 : (pre ++ [v]).length = pre.length + 1 := by simp
      have ih1 := fun st1 => ih vs (pre ++ [v]) st1 hrow1 hlen hvs
      simp only [hlen1] at ih1
      unfold serializeFixed
      by_cases hnull : v = Value.null
      · have hb : nulls &&& maskBit pre.length ≠ 0 := by
          rw [and_maskBit_ne_zero _ _ hidx, hbit _ hidx, hget, hnull]
        rw [if_pos hb, ih1]
        subst hnull
        simp [fixedZero, stringIndices, stringPoss, cell, isStringCell]
      · have hb : ¬ (nulls &&& maskBit pre.length ≠ 0) := by
          rw [and_maskBit_ne_zero _ _ hidx, hbit _ hidx, hget]
          intro h; exact hnull (Option.some.inj h)
        rw [if_neg hb]
        cases v with
        | null => exact absurd rfl hnull
        | boolean b =>
          have hct : c.type = .boolean := by simpa [validValue] using hv
          simp only [serializeColumn, hct, getBool, hget]
          rw [ih1]
          simp [fixedZero, stringIndices, stringPoss, cell, isStringCell, hct]
        | uint64 n =>
          have hct : c.type = .uint64 := by
            simp only [validValue, Bool.and_eq_true, decide_eq_true_eq] at hv; exact hv.1
          simp only [serializeColumn, hct, getUInt64, hget]
          rw [ih1]
          simp [fixedZero, stringIndices, stringPoss, cell, isStringCell, hct, le64_length]
        | int64 i =>
          have hct : c.type = .int64 := by
            simp only [validValue, Bool.and_eq_true, decide_eq_true_eq] at hv; exact hv.1.1
          simp only [serializeColumn, hct, getInt64, hget]
          rw [ih1]
          simp [fixedZero, stringIndices, stringPoss, cell, isStringCell, hct, le64_length]
        | str s =>
          simp only [validValue, Bool.or_eq_true, Bool.and_eq_true, decide_eq_true_eq] at hv
          rcases hv with ⟨hct, hs⟩ | hct
          · have hnot : ¬ s.length > c.length := by omega
            simp only [serializeColumn, hct, getString, hget, if_neg hnot]
            rw [ih1]
            simp [fixedZero, stringIndices, stringPoss, cell, isStringCell, hct]
          · simp only [serializeColumn, hct, getString, hget]
            rw [ih1]
            simp [fixedZero, stringIndices, stringPoss, cell, isStringCell, hct, le64_length]

end Marshal

namespace Marshal

theorem writeAt_mid (a b c b1 : List Nat) (h : b1.length = b.length) :
    writeAt (a ++ b ++ c) a.length b1 = a ++ b1 ++ c := by
  unfold writeAt
  have h1 : (a ++ b ++ c).take a.length = a := by
    rw [List.append_assoc, List.take_left]
  have h2 : (a ++ b ++ c).drop (a.length + b1.length) = c := by
    have : a.length + b1.length = (a ++ b).length := by rw [List.length_append, h]
    rw [this, List.drop_left]
  rw [h1, h2]

theorem cell_of_not_string (c : ColumnSchema) (v : Value)
    (h : isStringCell c v = false) (hv : validValue c v = true) :
    (∀ off, cell c v off = cell c v 0) ∧ heapCell c v = [] := by
  cases v with
  | str s =>
    cases hct : c.type <;> simp_all [isStringCell, cell, heapCell, validValue]
  | null => cases hct : c.type <;> simp [cell, heapCell]
  | boolean b => cases hct : c.type <;> simp_all [cell, heapCell, validValue]
  | uint64 n => cases hct : c.type <;> simp_all [cell, heapCell, validValue]
  | int64 i => cases hct : c.type <;> simp_all [cell, heapCell, validValue]

theorem isStringCell_iff (c : ColumnSchema) (v : Value) :
    isStringCell c v = true ↔ c.type = .string ∧ ∃ s, v = .str s := by
  cases v <;> cases hct : c.type <;> simp [isStringCell, hct]

theorem serializeStrings_cons (row : Row) (index pos : Nat) (rest : List (Nat × Nat))
    (data str : List Nat) (h : row.get? index = some (Value.str str)) :
    serializeStrings row ((index, pos) :: rest) data =
      serializeStrings row rest (writeAt (data ++ str) pos (le64 data.length)) := by
  simp only [serializeStrings, getString, h]

theorem serializeStrings_eq (row : Row) :
    ∀ (schema : Schema) (vals pre : Row) (bpre tail : List Nat),
      row = pre ++ vals → validRow schema vals = true →
      serializeStrings row
          ((stringIndices schema vals pre.length).zip (stringPoss schema vals bpre.length))
          (bpre ++ fixedZero schema vals ++ tail) =
        .ok (bpre ++ fixedBytes schema vals (bpre.length + (fixedZero schema vals).length + tail.length)
              ++ tail ++ heapBytes schema vals) := by
  intro schema
  induction schema with
  | nil =>
    intro vals pre bpre tail _ hval
    cases vals with
    | nil => simp [serializeStrings, fixedZero, stringIndices, stringPoss, fixedBytes, heapBytes]
    | cons v vs => simp [validRow] at hval
  | cons c cs ih =>
    intro vals pre bpre tail hrow hval
    cases vals with
    | nil => simp [validRow] at hval
    | cons v vs =>
      simp only [validRow, Bool.and_eq_true] at hval
      obtain ⟨hv, hvs⟩ := hval
      have hget : row.get? pre.length = some v := by rw [hrow]; exact get?_append_cons pre v vs
      have hrow1 : row = (pre ++ [v]) ++ vs := by rw [hrow]; simp
      have hlen1 : (pre ++ [v]).length = pre.length + 1 := by simp
      cases hstr : isStringCell c v
      · obtain ⟨hcell, hheap⟩ := cell_of_not_string c v hstr hv
        have ih1 := ih vs (pre ++ [v]) (bpre ++ cell c v 0) tail hrow1 hvs
        have hb : (bpre ++ cell c v 0).length = bpre.length + (cell c v 0).length := by simp
        rw [hlen1, hb] at ih1
        have hzip : (stringIndices (c :: cs) (v :: vs) pre.length).zip
            (stringPoss (c :: cs) (v :: vs) bpre.length) =
            (stringIndices cs vs (pre.length + 1)).zip
              (stringPoss cs vs (bpre.length + (cell c v 0).length)) := by
          simp [stringIndices, stringPoss, hstr]
        have hfz : bpre ++ fixedZero (c :: cs) (v :: vs) ++ tail =
            bpre ++ cell c v 0 ++ fixedZero cs vs ++ tail := by
          simp [fixedZero, List.append_assoc]
        have hN : bpre.length + (fixedZero (c :: cs) (v :: vs)).length + tail.length =
            bpre.length + (cell c v 0).length + (fixedZero cs vs).length + tail.length := by
          simp [fixedZero]; omega
        rw [hzip, hfz, ih1, hN]
        simp [fixedBytes, heapBytes, hcell _, hheap, List.append_assoc]
      · obtain ⟨hct, s, hs⟩ := (isStringCell_iff c v).mp hstr
        subst hs
        have hfz : fixedZero (c :: cs) (Value.str s :: vs) =
            le64 s.length ++ le64 0 ++ fixedZero cs vs := by
          simp [fixedZero, cell, hct]
        have hzip : (stringIndices (c :: cs) (Value.str s :: vs) pre.length).zip
            (stringPoss (c :: cs) (Value.str s :: vs) bpre.length) =
            (pre.length, bpre.length + 8) ::
              (stringIndices cs vs (pre.length + 1)).zip (stringPoss cs vs (bpre.length + 16)) := by
          simp [stringIndices, stringPoss, hstr, cell, hct, le64_length]
        have hN : bpre.length + (fixedZero (c :: cs) (Value.str s :: vs)).length + tail.length =
            (bpre ++ fixedZero (c :: cs) (Value.str s :: vs) ++ tail).length := by
          simp only [List.length_append]
        rw [hzip, hN]
        generalize hD : bpre ++ fixedZero (c :: cs) (Value.str s :: vs) ++ tail = D
        have hDlen : D.length = bpre.length + 16 + (fixedZero cs vs).length + tail.length := by
          rw [← hD, hfz]; simp [le64_length]; omega
        have hW : writeAt (D ++ s) (bpre.length + 8) (le64 D.length) =
            (bpre ++ le64 s.length ++ le64 D.length) ++ fixedZero cs vs ++ (tail ++ s) := by
          have e1 : D ++ s = (bpre ++ le64 s.length) ++ le64 0 ++ (fixedZero cs vs ++ (tail ++ s)) := by
            rw [← hD, hfz]; simp [List.append_assoc]
          have e2 : bpre.length + 8 = (bpre ++ le64 s.length).length := by simp [le64_length]
          rw [e1, e2, writeAt_mid _ _ _ _ (by simp [le64_length])]
          simp [List.append_assoc]
        rw [serializeStrings_cons row _ _ _ D s hget, hW]
        have ih1 := ih vs (pre ++ [Value.str s]) (bpre ++ le64 s.length ++ le64 D.length) (tail ++ s)
          hrow1 hvs
        have hb : (bpre ++ le64 s.length ++ le64 D.length).length = bpre.length + 16 := by
          simp [le64_length]
        rw [hlen1, hb] at ih1
        rw [ih1]
        have hN1 : bpre.length + 16 + (fixedZero cs vs).length + (tail ++ s).length =
            D.length + s.length := by
          rw [hDlen]; simp; omega
        rw [hN1]
        simp [fixedBytes, heapBytes, cell, heapCell, hct, List.append_assoc]

end Marshal

namespace Marshal

theorem serializeRow_eq (schema : Schema) (row : Row) (hlen : row.length ≤ 63)
    (hval : validRow schema row = true) :
    serializeRow schema row =
      .ok (le64 (getNulls row) ++ fixedBytes schema row (8 + (fixedZero schema row).length)
            ++ heapBytes schema row) := by
  have hbit : ∀ j, j < 64 → ((getNulls row).testBit j = true ↔ row.get? j = some Value.null) :=
    fun j _ => testBit_getNulls row (by omega) j
  unfold serializeRow
  rw [if_neg (by omega)]
  have h1 := serializeFixed_eq row (getNulls row) hbit schema row []
    { data := le64 (getNulls row), indices := [], offset_poss := [] } rfl (by omega) hval
  simp only [List.length_nil, List.nil_append] at h1
  simp only [h1]
  have h2 := serializeStrings_eq row schema row [] (le64 (getNulls row)) [] rfl hval
  simp only [List.length_nil, List.append_nil, Nat.add_zero] at h2
  rw [h2, le64_length]

theorem Holds_append (mem : Nat → Nat) (p : Nat) (a b : List Nat) :
    Holds mem p (a ++ b) ↔ Holds mem p a ∧ Holds mem (p + a.length) b := by
  unfold Holds
  constructor
  · intro h
    constructor
    · intro k hk
      rw [h k (by rw [List.length_append]; omega)]
      simp [List.getD_eq_getElem?_getD, List.getElem?_append_left hk]
    · intro k hk
      have := h (a.length + k) (by rw [List.length_append]; omega)
      rw [Nat.add_assoc, this]
      simp [List.getD_eq_getElem?_getD, List.getElem?_append_right]
  · intro ⟨ha, hb⟩ k hk
    by_cases hka : k < a.length
    · rw [ha k hka]
      simp [List.getD_eq_getElem?_getD, List.getElem?_append_left hka]
    · have hk2 : k - a.length < b.length := by rw [List.length_append] at hk; omega
      have := hb (k - a.length) hk2
      have e : p + a.length + (k - a.length) = p + k := by omega
      rw [e] at this
      rw [this]
      simp [List.getD_eq_getElem?_getD, List.getElem?_append_right (Nat.le_of_not_lt hka)]

theorem rd64_of_holds (mem : Nat → Nat) (p n : Nat) (h : Holds mem p (le64 n))
    (hn : n < 18446744073709551616) : rd64 mem p = n := by
  have h0 := h 0 (by rw [le64_length]; omega)
  have h1 := h 1 (by rw [le64_length]; omega)
  have h2 := h 2 (by rw [le64_length]; omega)
  have h3 := h 3 (by rw [le64_length]; omega)
  have h4 := h 4 (by rw [le64_length]; omega)
  have h5 := h 5 (by rw [le64_length]; omega)
  have h6 := h 6 (by rw [le64_length]; omega)
  have h7 := h 7 (by rw [le64_length]; omega)
  simp only [le64, List.getD_cons_zero, List.getD_cons_succ, Nat.add_zero] at h0 h1 h2 h3 h4 h5 h6 h7
  unfold rd64
  rw [h0, h1, h2, h3, h4, h5, h6, h7]
  omega

theorem readBytes_of_holds (mem : Nat → Nat) :
    ∀ (s : List Nat) (p : Nat), Holds mem p s → readBytes mem p s.length = s := by
  intro s
  induction s with
  | nil => intro p _; rfl
  | cons a s ih =>
    intro p h
    have h0 := h 0 (by simp)
    simp only [Nat.add_zero, List.getD_cons_zero] at h0
    have hrest : Holds mem (p + 1) s := by
      have := (Holds_append mem p [a] s).mp h
      exact this.2
    simp only [List.length_cons, readBytes, h0, ih (p + 1) hrest]

theorem strnlen_of_holds (mem : Nat → Nat) :
    ∀ (s : List Nat) (p L : Nat), s.length ≤ L → s.contains 0 = false →
      Holds mem p (s ++ List.replicate (L - s.length) 0) → strnlen mem p L = s.length := by
  intro s
  induction s with
  | nil =>
    intro p L _ _ h
    cases L with
    | zero => rfl
    | succ L =>
      have h0 := h 0 (by simp)
      simp at h0
      simp [strnlen, h0]
  | cons a s ih =>
    intro p L hL hz h
    cases L with
    | zero => simp at hL
    | succ L =>
      have h0 := h 0 (by simp)
      simp only [Nat.add_zero, List.cons_append, List.getD_cons_zero] at h0
      have ha : a ≠ 0 := by
        intro ha; subst ha; simp at hz
      have hs : s.contains 0 = false := by
        simp only [List.contains_cons, Bool.or_eq_false_iff] at hz
        exact hz.2
      have hrest : Holds mem (p + 1) (s ++ List.replicate (L - s.length) 0) := by
        have e : (a :: s) ++ List.replicate (L + 1 - (a :: s).length) 0 =
            [a] ++ (s ++ List.replicate (L - s.length) 0) := by
          simp
        rw [e] at h
        exact ((Holds_append mem p [a] _).mp h).2
      simp only [strnlen, h0, ha, if_false, List.length_cons]
      rw [ih (p + 1) L (by simp at hL; omega) hs hrest]

theorem toInt64_u64 (i : Int) (h1 : -9223372036854775808 ≤ i) (h2 : i < 9223372036854775808) :
    toInt64 (u64 i) = i := by
  unfold toInt64 u64
  split <;> omega

theorem u64_lt (i : Int) : u64 i < 18446744073709551616 := by
  unfold u64; omega

end Marshal

namespace Marshal

theorem deserializeLoop_eq (mem : Nat → Nat) (row : Row) (nulls : Nat)
    (hbit : ∀ j, j < 64 → (nulls.testBit j = true ↔ row.get? j = some Value.null)) :
    ∀ (schema : Schema) (vals pre : Row) (p off : Nat),
      row = pre ++ vals → row.length ≤ 64 → validRow schema vals = true →
      varcharNulFree schema vals = true →
      Holds mem p (fixedBytes schema vals off) → Holds mem off (heapBytes schema vals) →
      off + (heapBytes schema vals).length < 18446744073709551616 →
      deserializeLoop mem nulls schema pre.length p = vals := by
  intro schema
  induction schema with
  | nil =>
    intro vals pre p off _ _ hval _ _ _ _
    cases vals with
    | nil => rfl
    | cons v vs => simp [validRow] at hval
  | cons c cs ih =>
    intro vals pre p off hrow hlen hval hnul hfix hheap hsize
    cases vals with
    | nil => simp [validRow] at hval
    | cons v vs =>
      simp only [validRow, Bool.and_eq_true] at hval
      obtain ⟨hv, hvs⟩ := hval
      simp only [varcharNulFree, Bool.and_eq_true] at hnul
      obtain ⟨hnv, hnvs⟩ := hnul
      have hget : row.get? pre.length = some v := by rw [hrow]; exact get?_append_cons pre v vs
      have hidx : pre.length < 64 := by
        have : row.length = pre.length + (vs.length + 1) := by rw [hrow]; simp
        omega
      have hrow1 : row = (pre ++ [v]) ++ vs := by rw [hrow]; simp
      have hlen1 : (pre ++ [v]).length = pre.length + 1 := by simp
      simp only [fixedBytes] at hfix
      obtain ⟨hcell, hrest⟩ := (Holds_append mem p _ _).mp hfix
      simp only [heapBytes] at hheap hsize
      obtain ⟨hhc, hhrest⟩ := (Holds_append mem off _ _).mp hheap
      have ih1 := ih vs (pre ++ [v]) (p + (cell c v off).length) (off + (heapCell c v).length)
        hrow1 hlen hvs hnvs hrest hhrest (by rw [List.length_append] at hsize; omega)
      rw [hlen1] at ih1
      unfold deserializeLoop
      by_cases hnull : v = Value.null
      · have hb : nulls &&& maskBit pre.length ≠ 0 := by
          rw [and_maskBit_ne_zero _ _ hidx, hbit _ hidx, hget, hnull]
        subst hnull
        rw [if_pos hb]
        simp only [cell, List.length_nil, Nat.add_zero] at ih1
        rw [ih1]
      · have hb : ¬ (nulls &&& maskBit pre.length ≠ 0) := by
          rw [and_maskBit_ne_zero _ _ hidx, hbit _ hidx, hget]
          intro h; exact hnull (Option.some.inj h)
        rw [if_neg hb]
        cases v with
        | null => exact absurd rfl hnull
        | boolean b =>
          have hct : c.type = .boolean := by simpa [validValue] using hv
          simp only [cell, List.length_singleton] at ih1 hcell
          have h0 := hcell 0 (by simp)
          simp only [Nat.add_zero, List.getD_cons_zero] at h0
          simp only [hct, ih1, h0]
          cases b <;> simp
        | uint64 n =>
          simp only [validValue, Bool.and_eq_true, decide_eq_true_eq] at hv
          simp only [cell, le64_length] at ih1 hcell
          simp only [hv.1, ih1, rd64_of_holds mem p n hcell hv.2]
        | int64 i =>
          simp only [validValue, Bool.and_eq_true, decide_eq_true_eq] at hv
          simp only [cell, le64_length] at ih1 hcell
          simp only [hv.1.1, ih1, rd64_of_holds mem p _ hcell (u64_lt i), toInt64_u64 i hv.1.2 hv.2]
        | str s =>
          simp only [validValue, Bool.or_eq_true, Bool.and_eq_true, decide_eq_true_eq] at hv
          rcases hv with ⟨hct, hs⟩ | hct
          · simp only [hct, Bool.not_eq_true'] at hnv
            simp only [cell, hct, List.length_append, List.length_replicate] at ih1 hcell
            have e : s.length + (c.length - s.length) = c.length := by omega
            rw [e] at ih1
            have hlenS := strnlen_of_holds mem s p c.length hs hnv hcell
            have hread := readBytes_of_holds mem s p ((Holds_append mem p _ _).mp hcell).1
            simp only [hct, ih1, hlenS, hread]
          · simp only [cell, hct, List.length_append, le64_length] at ih1 hcell
            simp only [heapCell, hct] at hhc hsize
            obtain ⟨hc1, hc2⟩ := (Holds_append mem p _ _).mp hcell
            rw [le64_length] at hc2
            have hl : rd64 mem p = s.length :=
              rd64_of_holds mem p _ hc1 (by rw [List.length_append] at hsize; omega)
            have ho : rd64 mem (p + 8) = off :=
              rd64_of_holds mem (p + 8) _ hc2 (by omega)
            simp only [hct, ih1, hl, ho, readBytes_of_holds mem s off hhc]

end Marshal

namespace Marshal

theorem validRow_length : ∀ (schema : Schema) (row : Row), validRow schema row = true →
    schema.length = row.length := by
  intro schema
  induction schema with
  | nil => intro row h; cases row with
    | nil => rfl
    | cons v vs => simp [validRow] at h
  | cons c cs ih => intro row h; cases row with
    | nil => simp [validRow] at h
    | cons v vs =>
      simp only [validRow, Bool.and_eq_true] at h
      simp [ih vs h.2]

theorem fixedBytes_length : ∀ (schema : Schema) (row : Row) (off : Nat),
    (fixedBytes schema row off).length = (fixedZero schema row).length := by
  intro schema
  induction schema with
  | nil => intro row off; cases row <;> simp [fixedBytes, fixedZero]
  | cons c cs ih =>
    intro row off
    cases row with
    | nil => simp [fixedBytes, fixedZero]
    | cons v vs =>
      simp only [fixedBytes, fixedZero, List.length_append, ih vs _, cell_length c v off]

theorem encoded_length : ∀ (schema : Schema) (row : Row) (off : Nat), validRow schema row = true →
    (fixedBytes schema row off).length + (heapBytes schema row).length = encodedSize schema row := by
  intro schema
  induction schema with
  | nil => intro row off h; cases row <;> simp [fixedBytes, heapBytes, encodedSize]
  | cons c cs ih =>
    intro row off h
    cases row with
    | nil => simp [fixedBytes, heapBytes, encodedSize]
    | cons v vs =>
      simp only [validRow, Bool.and_eq_true] at h
      obtain ⟨hv, hvs⟩ := h
      have ih1 := ih vs (off + (heapCell c v).length) hvs
      simp only [fixedBytes, heapBytes, encodedSize, List.length_append]
      have hc : (cell c v off).length + (heapCell c v).length = columnSize c v := by
        cases v with
        | null => simp [cell, heapCell, columnSize]
        | boolean b =>
          have hct : c.type = .boolean := by simpa [validValue] using hv
          simp [cell, heapCell, hct, columnSize]
        | uint64 n =>
          simp only [validValue, Bool.and_eq_true, decide_eq_true_eq] at hv
          simp [cell, heapCell, hv.1, le64_length, columnSize]
        | int64 i =>
          simp only [validValue, Bool.and_eq_true, decide_eq_true_eq] at hv
          simp [cell, heapCell, hv.1.1, le64_length, columnSize]
        | str s =>
          simp only [validValue, Bool.or_eq_true, Bool.and_eq_true, decide_eq_true_eq] at hv
          rcases hv with ⟨hct, hs⟩ | hct
          · simp [cell, heapCell, hct, columnSize]; omega
          · simp [cell, heapCell, hct, le64_length, columnSize]
      omega

theorem space_eq_encodedSize : ∀ (schema : Schema) (row : Row), validRow schema row = true →
    fixedSpace schema row + stringSpace schema row = encodedSize schema row := by
  intro schema
  induction schema with
  | nil => intro row h; cases row <;> simp [fixedSpace, stringSpace, encodedSize]
  | cons c cs ih =>
    intro row h
    cases row with
    | nil => simp [fixedSpace, stringSpace, encodedSize]
    | cons v vs =>
      simp only [validRow, Bool.and_eq_true] at h
      obtain ⟨hv, hvs⟩ := h
      have ih1 := ih vs hvs
      simp only [fixedSpace, stringSpace, encodedSize]
      have hc : (if v = Value.null then 0 else fixedWidth c) +
          (if isStringCell c v then 2 * 8 + (heapCell c v).length else 0) = columnSize c v := by
        cases v with
        | null => cases hct : c.type <;> simp [isStringCell, hct, columnSize]
        | boolean b =>
          have hct : c.type = .boolean := by simpa [validValue] using hv
          simp [isStringCell, fixedWidth, hct, columnSize]
        | uint64 n =>
          simp only [validValue, Bool.and_eq_true, decide_eq_true_eq] at hv
          simp [isStringCell, fixedWidth, hv.1, columnSize]
        | int64 i =>
          simp only [validValue, Bool.and_eq_true, decide_eq_true_eq] at hv
          simp [isStringCell, fixedWidth, hv.1.1, columnSize]
        | str s =>
          simp only [validValue, Bool.or_eq_true, Bool.and_eq_true, decide_eq_true_eq] at hv
          rcases hv with ⟨hct, hs⟩ | hct
          · simp [isStringCell, fixedWidth, heapCell, hct, columnSize]
          · simp [isStringCell, fixedWidth, heapCell, hct, columnSize]
      omega

theorem calculateFixedRowSpaceLoop_eq (row : Row) (nulls : Nat)
    (hbit : ∀ j, j < 64 → (nulls.testBit j = true ↔ row.get? j = some Value.null)) :
    ∀ (schema : Schema) (vals pre : Row) (result : Nat),
      row = pre ++ vals → row.length ≤ 64 → validRow schema vals = true →
      calculateFixedRowSpaceLoop schema (nulls >>> pre.length) result =
        result + fixedSpace schema vals := by
  intro schema
  induction schema with
  | nil =>
    intro vals pre result _ _ hval
    cases vals with
    | nil => simp [calculateFixedRowSpaceLoop, fixedSpace]
    | cons v vs => simp [validRow] at hval
  | cons c cs ih =>
    intro vals pre result hrow hlen hval
    cases vals with
    | nil => simp [validRow] at hval
    | cons v vs =>
      simp only [validRow, Bool.and_eq_true] at hval
      have hget : row.get? pre.length = some v := by rw [hrow]; exact get?_append_cons pre v vs
      have hidx : pre.length < 64 := by
        have : row.length = pre.length + (vs.length + 1) := by rw [hrow]; simp
        omega
      have hrow1 : row = (pre ++ [v]) ++ vs := by rw [hrow]; simp
      have hlen1 : (pre ++ [v]).length = pre.length + 1 := by simp
      have ih1 := fun r => ih vs (pre ++ [v]) r hrow1 hlen hval.2
      rw [hlen1] at ih1
      have hshift : (nulls >>> pre.length) >>> 1 = nulls >>> (pre.length + 1) := by
        rw [← Nat.shiftRight_add]
      unfold calculateFixedRowSpaceLoop
      rw [hshift]
      by_cases hnull : v = Value.null
      · have hb : (nulls >>> pre.length) &&& 1 ≠ 0 := by
          rw [shiftRight_and_one_ne_zero, hbit _ hidx, hget, hnull]
        rw [if_pos hb, ih1]
        simp [fixedSpace, hnull]
      · have hb : ¬ ((nulls >>> pre.length) &&& 1 ≠ 0) := by
          rw [shiftRight_and_one_ne_zero, hbit _ hidx, hget]
          intro h; exact hnull (Option.some.inj h)
        rw [if_neg hb, ih1]
        simp [fixedSpace, hnull]
        omega

theorem getRowSpaceLoop_eq (row : Row) (nulls : Nat)
    (hbit : ∀ j, j < 64 → (nulls.testBit j = true ↔ row.get? j = some Value.null)) :
    ∀ (schema : Schema) (vals pre : Row) (result : Nat),
      row = pre ++ vals → row.length ≤ 64 → validRow schema vals = true →
      getRowSpaceLoop row nulls schema pre.length result =
        .ok (result + stringSpace schema vals) := by
  intro schema
  induction schema with
  | nil =>
    intro vals pre result _ _ hval
    cases vals with
    | nil => simp [getRowSpaceLoop, stringSpace]
    | cons v vs => simp [validRow] at hval
  | cons c cs ih =>
    intro vals pre result hrow hlen hval
    cases vals with
    | nil => simp [validRow] at hval
    | cons v vs =>
      simp only [validRow, Bool.and_eq_true] at hval
      obtain ⟨hv, hvs⟩ := hval
      have hget : row.get? pre.length = some v := by rw [hrow]; exact get?_append_cons pre v vs
      have hidx : pre.length < 64 := by
        have : row.length = pre.length + (vs.length + 1) := by rw [hrow]; simp
        omega
      have hrow1 : row = (pre ++ [v]) ++ vs := by rw [hrow]; simp
      have hlen1 : (pre ++ [v]).length = pre.length + 1 := by simp
      have ih1 := fun r => ih vs (pre ++ [v]) r hrow1 hlen hvs
      rw [hlen1] at ih1
      unfold getRowSpaceLoop
      by_cases hnull : v = Value.null
      · have hb : nulls &&& maskBit pre.length ≠ 0 := by
          rw [and_maskBit_ne_zero _ _ hidx, hbit _ hidx, hget, hnull]
        rw [if_pos hb, ih1]
        subst hnull
        cases hct : c.type <;> simp [stringSpace, isStringCell, hct]
      · have hb : ¬ (nulls &&& maskBit pre.length ≠ 0) := by
          rw [and_maskBit_ne_zero _ _ hidx, hbit _ hidx, hget]
          intro h; exact hnull (Option.some.inj h)
        rw [if_neg hb]
        cases hstr : isStringCell c v
        · have hct : c.type ≠ .string := by
            intro hct
            cases v <;> simp_all [isStringCell, validValue]
          have : (match c.type with
              | .string =>
                match getString row pre.length with
                | .error e => .error e
                | .ok s => getRowSpaceLoop row nulls cs (pre.length + 1) (result + 2 * 8 + s.length)
              | _ => getRowSpaceLoop row nulls cs (pre.length + 1) result) =
              getRowSpaceLoop row nulls cs (pre.length + 1) result := by
            cases hc : c.type <;> simp_all
          rw [this, ih1]
          simp [stringSpace, hstr]
        · obtain ⟨hct, s, hs⟩ := (isStringCell_iff c v).mp hstr
          subst hs
          simp only [hct, getString, hget, ih1]
          simp [stringSpace, hstr, heapCell, hct]
          omega

theorem getRowSpace_eq (schema : Schema) (row : Row) (hlen : row.length ≤ 63)
    (hval : validRow schema row = true) :
    getRowSpace schema row = .ok (8 + encodedSize schema row) := by
  have hbit : ∀ j, j < 64 → ((getNulls row).testBit j = true ↔ row.get? j = some Value.null) :=
    fun j _ => testBit_getNulls row (by omega) j
  unfold getRowSpace calculateFixedRowSpace
  have h1 := calculateFixedRowSpaceLoop_eq row (getNulls row) hbit schema row [] 8 rfl (by omega) hval
  simp only [List.length_nil, Nat.shiftRight_zero] at h1
  have h2 := getRowSpaceLoop_eq row (getNulls row) hbit schema row []
    (8 + fixedSpace schema row) rfl (by omega) hval
  simp only [List.length_nil] at h2
  rw [h1, h2, ← space_eq_encodedSize schema row hval]
  simp [Nat.add_assoc]

end Marshal

/-- C6.  For a schema of at most 63 columns and a row valid against it, `serializeRow`
writes exactly `getRowSpace(row)` bytes: the 8 bytes of the null bitmap, plus
for every non-null column 1 byte (boolean), 8 bytes (`uint64`, `int64`), `L`
bytes (`varchar(L)`) or 16 bytes plus the string's length (`string`). -/
theorem serializeRow_writes_getRowSpace (schema : Schema) (row : Row)
    (hcols : schema.length ≤ 63) (hval : Marshal.validRow schema row = true) :
    ∃ bytes, Marshal.serializeRow schema row = .ok bytes ∧
      Marshal.getRowSpace schema row = .ok bytes.length ∧
      bytes.length = 8 + Marshal.encodedSize schema row := by
  have hlen : row.length ≤ 63 := by rw [← Marshal.validRow_length schema row hval]; exact hcols
  refine ⟨_, Marshal.serializeRow_eq schema row hlen hval, ?_, ?_⟩
  · rw [Marshal.getRowSpace_eq schema row hlen hval]
    simp only [List.length_append, Marshal.le64_length, Nat.add_assoc,
      Marshal.encoded_length schema row _ hval]
  · simp only [List.length_append, Marshal.le64_length, Nat.add_assoc,
      Marshal.encoded_length schema row _ hval]

/-- C6 at a concrete input: `mixedRow` against `mixedSchema`. -/
theorem serializeRow_writes_getRowSpace_witness :
    ∃ bytes, Marshal.serializeRow mixedSchema mixedRow = .ok bytes ∧
      Marshal.getRowSpace mixedSchema mixedRow = .ok bytes.length ∧
      bytes.length = 8 + Marshal.encodedSize mixedSchema mixedRow :=
  serializeRow_writes_getRowSpace mixedSchema mixedRow (by decide) (by decide)

/-- C5, amended.  For a schema of at most 63 columns and a row valid against it, no
`varchar` value of which holds a NUL byte (the row taking fewer than `2^64`
bytes): `serializeRow` writes the row, and `deserializeRow` on any memory that
starts with the written bytes returns the row. -/
theorem deserialize_serialize (schema : Schema) (row : Row)
    (hcols : schema.length ≤ 63) (hval : Marshal.validRow schema row = true)
    (hnul : Marshal.varcharNulFree schema row = true)
    (hsize : 8 + Marshal.encodedSize schema row < 18446744073709551616) :
    ∃ bytes, Marshal.serializeRow schema row = .ok bytes ∧
      ∀ mem : Nat → Nat, (∀ k, k < bytes.length → mem k = bytes.getD k 0) →
        Marshal.deserializeRow schema mem = row := by
  have hlen : row.length ≤ 63 := by rw [← Marshal.validRow_length schema row hval]; exact hcols
  refine ⟨_, Marshal.serializeRow_eq schema row hlen hval, ?_⟩
  intro mem hmem
  have hholds : Marshal.Holds mem 0 (Marshal.le64 (Marshal.getNulls row) ++
      Marshal.fixedBytes schema row (8 + (Marshal.fixedZero schema row).length)
      ++ Marshal.heapBytes schema row) := by
    intro k hk
    rw [Nat.zero_add]
    exact hmem k hk
  obtain ⟨h12, h3⟩ := (Marshal.Holds_append mem 0 _ _).mp hholds
  obtain ⟨h1, h2⟩ := (Marshal.Holds_append mem 0 _ _).mp h12
  have hbit : ∀ j, j < 64 →
      ((Marshal.getNulls row).testBit j = true ↔ row.get? j = some Value.null) :=
    fun j _ => Marshal.testBit_getNulls row (by omega) j
  have hnulls : Marshal.rd64 mem 0 = Marshal.getNulls row :=
    Marshal.rd64_of_holds mem 0 _ h1 (Marshal.getNulls_lt row (by omega))
  have hfz := Marshal.fixedBytes_length schema row (8 + (Marshal.fixedZero schema row).length)
  have henc := Marshal.encoded_length schema row (8 + (Marshal.fixedZero schema row).length) hval
  have h2' : Marshal.Holds mem 8
      (Marshal.fixedBytes schema row (8 + (Marshal.fixedZero schema row).length)) := by
    simpa [Marshal.le64_length] using h2
  have h3' : Marshal.Holds mem (8 + (Marshal.fixedZero schema row).length)
      (Marshal.heapBytes schema row) := by
    simpa [Marshal.le64_length, hfz] using h3
  have hmain := Marshal.deserializeLoop_eq mem row (Marshal.getNulls row) hbit schema row [] 8
    (8 + (Marshal.fixedZero schema row).length) rfl (by omega) hval hnul h2' h3' (by omega)
  unfold Marshal.deserializeRow
  rw [hnulls]
  exact hmain

/-- C5, amended, at a concrete input: `mixedRow` against `mixedSchema`. -/
theorem deserialize_serialize_witness :
    ∃ bytes, Marshal.serializeRow mixedSchema mixedRow = .ok bytes ∧
      ∀ mem : Nat → Nat, (∀ k, k < bytes.length → mem k = bytes.getD k 0) →
        Marshal.deserializeRow mixedSchema mem = mixedRow :=
  deserialize_serialize mixedSchema mixedRow (by decide) (by decide) (by decide) (by decide)

/-- C5, as stated, fails.  The row holding the 2-byte string `a\0` is valid against a
`varchar(4)` column, but the bytes that `serializeRow` writes deserialize to the
1-byte string `a`: `strnlen` stops at the NUL byte. -/
theorem varchar_nul_not_restored :
    Marshal.validRow varcharSchema [Value.str [97, 0]] = true ∧
    (Marshal.serializeRow varcharSchema [Value.str [97, 0]]).map
        (fun bytes => Marshal.deserializeRow varcharSchema (Marshal.memOf bytes)) =
      .ok [Value.str [97]] ∧
    [Value.str [97]] ≠ [Value.str [97, 0]] := by
  decide

/-! ## C7 and C8: the slotted page after inserts and deletes -/

/-- C7, at a failing input.  On a zeroed page of 4096 bytes: insert rows A and B (slots 0
and 1), delete slot 0, insert row C (it takes slot 0 again), delete slot 0.
Slot 1 was returned by a successful `insertRow` and never deleted, yet
`getRow(1)` is the empty row: deleting the lowest payload decrements
`row_count` although slot 0 is not the last slot. -/
theorem live_slot_lost_after_delete :
    (do
      let (slot_a, mem) ← FlexiblePage.insertRow 4096 intKeySchema FlexiblePage.empty (intKey 10)
      let (slot_b, mem) ← FlexiblePage.insertRow 4096 intKeySchema mem (intKey 11)
      let mem := FlexiblePage.deleteRow mem 0
      let (slot_c, mem) ← FlexiblePage.insertRow 4096 intKeySchema mem (intKey 12)
      let mem := FlexiblePage.deleteRow mem 0
      pure (slot_a, slot_b, slot_c, FlexiblePage.getRowCount mem,
        FlexiblePage.getRow intKeySchema mem 1)) =
    Except.ok (some 0, some 1, some 0, 1, []) := by
  decide!

/-- C8, at the claim's own example.  On a zeroed page of 4096 bytes: insert rows taking 100,
200 and 300 bytes (flag and marshalled row), delete the middle one, insert a
row taking 150 bytes.  It gets slot 1 again, `row_count` stays 3 and the live
lengths are 100, 150, 300, but `header[1]` is 614, not 100 + 150 + 300 + 3 * 16
= 598: `insertRow` adds `2 * 8` also when it takes a tombstoned slot. -/
theorem used_space_counts_reused_slot :
    (do
      let (_, mem) ← FlexiblePage.insertRow 4096 stringSchema FlexiblePage.empty (stringRow 75)
      let (_, mem) ← FlexiblePage.insertRow 4096 stringSchema mem (stringRow 175)
      let (_, mem) ← FlexiblePage.insertRow 4096 stringSchema mem (stringRow 275)
      let mem := FlexiblePage.deleteRow mem 1
      let (slot, mem) ← FlexiblePage.insertRow 4096 stringSchema mem (stringRow 125)
      pure (slot, FlexiblePage.getRowCount mem, FlexiblePage.getLength mem 0,
        FlexiblePage.getLength mem 1, FlexiblePage.getLength mem 2, FlexiblePage.header mem 1)) =
    Except.ok (some 1, 3, 100, 150, 300, 614) := by
  decide!

/-! ## C9 and C10: `insertRow` and `getRow` -/

/-- C9, as stated, fails.  On a zeroed page of 4096 bytes (`used_space = 0`) a row with
`len = 1 + 4069 = 4070` has `used_space + len + 2 * 8 = 4086 <= PageSize`, yet
`insertRow` returns `false`. -/
theorem insertRow_refuses_below_claimed_bound :
    Marshal.getRowSpace wideSchema [Value.str []] = Except.ok 4069 ∧
    ¬ (FlexiblePage.header FlexiblePage.empty 1 + (1 + 4069) + 2 * 8 > 4096) ∧
    (FlexiblePage.insertRow 4096 wideSchema FlexiblePage.empty [Value.str []]).map Prod.fst
      = Except.ok none := by
  decide!

/-- C9, amended.  For a page with `used_space + 2 * 8 <= PageSize` and a row with
`len = 1 + getRowSpace(row)`: when `used_space + len + 4 * 8 > PageSize`,
`insertRow` returns `false` and leaves the page as it is; otherwise every result
it returns is `(true, slot)`, and it does return one when the row serializes and
`len` bytes fit below the lowest stored payload. -/
theorem insertRow_full_iff (PageSize : Nat) (schema : Schema) (mem : Frame) (row : Row)
    (space : Nat)
    (hspace : Marshal.getRowSpace schema row = Except.ok space)
    (hused : FlexiblePage.header mem 1 + 2 * 8 ≤ PageSize)
    (hpage : PageSize < 18446744073709551616)
    (hlen : 1 + space + 2 * 8 < 18446744073709551616) :
    (FlexiblePage.header mem 1 + (1 + space) + 4 * 8 > PageSize →
        FlexiblePage.insertRow PageSize schema mem row = Except.ok (none, mem)) ∧
    (FlexiblePage.header mem 1 + (1 + space) + 4 * 8 ≤ PageSize →
        (∀ r, FlexiblePage.insertRow PageSize schema mem row = Except.ok r → ∃ slot, r.1 = some slot) ∧
        (∀ bytes, Marshal.serializeRow schema row = Except.ok bytes →
          1 + space ≤ FlexiblePage.findMinOffset mem PageSize →
          ∃ slot mem1, FlexiblePage.insertRow PageSize schema mem row = Except.ok (some slot, mem1))) := by
  have h1 : u64 (((1 + space : Nat) : Int) + 2 * 8) = 1 + space + 16 := by
    unfold u64; omega
  have h2 : u64 ((PageSize : Int) - (FlexiblePage.header mem 1 : Nat) - 2 * 8)
      = PageSize - FlexiblePage.header mem 1 - 16 := by
    unfold u64; omega
  refine ⟨fun hfull => ?_, fun hroom => ⟨fun r hr => ?_, fun bytes hb hmin => ?_⟩⟩
  · unfold FlexiblePage.insertRow
    simp only [hspace, h1, h2]
    rw [if_pos (by omega)]
  · unfold FlexiblePage.insertRow at hr
    simp only [hspace, h1, h2] at hr
    rw [if_neg (by omega)] at hr
    split at hr
    · cases hr
    · split at hr
      · cases hr
      · cases hr; exact ⟨_, rfl⟩
  · unfold FlexiblePage.insertRow
    simp only [hspace, h1, h2, hb]
    rw [if_neg (by omega), if_neg (by omega)]
    exact ⟨_, _, rfl⟩

/-- C9, amended, at a concrete input: a row of 17 bytes goes into the zeroed page. -/
theorem insertRow_full_iff_witness :
    ∃ slot mem1, FlexiblePage.insertRow 4096 intKeySchema FlexiblePage.empty (intKey 5)
      = Except.ok (some slot, mem1) :=
  ((insertRow_full_iff 4096 intKeySchema FlexiblePage.empty (intKey 5) 16
      (by decide) (by decide) (by decide) (by decide)).2 (by decide)).2
    [0, 0, 0, 0, 0, 0, 0, 0, 5, 0, 0, 0, 0, 0, 0, 0] (by decide) (by decide)

/-- C10, as stated, fails.  On `flagClearedFrame` slot 0 is inside the row count and its
offset is 100, not 0, but the flag byte at the offset is 0: `getRow(0)` is the
empty row, not the row deserialized from the bytes at offset + 1. -/
theorem getRow_checks_present_flag :
    ¬ (FlexiblePage.getRow intKeySchema flagClearedFrame 0 =
        if FlexiblePage.getOffset flagClearedFrame 0 = 0 ∨ FlexiblePage.getRowCount flagClearedFrame ≤ 0
        then []
        else Marshal.deserializeRow intKeySchema
          (fun i => flagClearedFrame (FlexiblePage.getOffset flagClearedFrame 0 + 1 + i))) := by
  decide!

/-- C10, amended.  The function `getRow(slot)` returns the empty row when `slot >= row_count`, when
the slot's offset is 0, and when the present flag (the byte at the offset) is 0;
otherwise it returns the row deserialized from the bytes at offset + 1. -/
theorem getRow_cases (schema : Schema) (mem : Frame) (slot : Nat) :
    FlexiblePage.getRow schema mem slot =
      if FlexiblePage.getRowCount mem ≤ slot ∨ FlexiblePage.getOffset mem slot = 0 then []
      else if mem (FlexiblePage.getOffset mem slot) = 0 then []
      else Marshal.deserializeRow schema (fun i => mem (FlexiblePage.getOffset mem slot + 1 + i)) := by
  unfold FlexiblePage.getRow FlexiblePage.getRowCount
  by_cases h1 : FlexiblePage.header mem 0 ≤ slot
  · simp [h1]
  · by_cases h2 : FlexiblePage.getOffset mem slot = 0
    · simp [h1, h2]
    · by_cases h3 : mem (FlexiblePage.getOffset mem slot) = 0
      · simp [h1, h2, h3]
      · simp [h1, h2, h3]

/-! ## C14 to C16: expression evaluation -/

theorem compareValue_int64 (a b : Int) :
    compareValue (.int64 a) (.int64 b) = if a < b then -1 else if a = b then 0 else 1 := by
  unfold compareValue
  by_cases h : a < b
  · simp [Value.lt, h]
  · by_cases h2 : a = b
    · simp [Value.lt, h2]
    · simp [Value.lt, h, h2]

theorem compareValue_boolean (a b : Bool) :
    compareValue (.boolean a) (.boolean b) = if a < b then -1 else if a = b then 0 else 1 := by
  cases a <;> cases b <;> decide

theorem int64Result_of_fits (r : Int) (h : fitsInt64 r = true) : int64Result r = .ok (.int64 r) := by
  unfold int64Result
  unfold fitsInt64 at h
  rw [if_pos (by simpa using h)]

theorem Meaning.arith_some (f : Int → Int → Int) (x y : Option Meaning) (m : Meaning)
    (h : Meaning.arith f x y = some m) :
    ∃ a b, x = some (.int a) ∧ y = some (.int b) ∧ fitsInt64 (f a b) = true ∧ m = .int (f a b) := by
  unfold Meaning.arith at h
  split at h
  · rename_i a b
    by_cases hf : fitsInt64 (f a b) = true
    · rw [if_pos hf] at h
      exact ⟨a, b, rfl, rfl, hf, (Option.some.inj h).symm⟩
    · rw [if_neg hf] at h; cases h
  · cases h

theorem Meaning.compare_some (fi : Int → Int → Bool) (fb : Bool → Bool → Bool)
    (x y : Option Meaning) (m : Meaning) (h : Meaning.compare fi fb x y = some m) :
    (∃ a b, x = some (.int a) ∧ y = some (.int b) ∧ m = .bool (fi a b)) ∨
    (∃ a b, x = some (.bool a) ∧ y = some (.bool b) ∧ m = .bool (fb a b)) := by
  unfold Meaning.compare at h
  split at h
  · rename_i a b; exact Or.inl ⟨a, b, rfl, rfl, (Option.some.inj h).symm⟩
  · rename_i a b; exact Or.inr ⟨a, b, rfl, rfl, (Option.some.inj h).symm⟩
  · cases h

theorem Meaning.logic_some (f : Bool → Bool → Bool) (x y : Option Meaning) (m : Meaning)
    (h : Meaning.logic f x y = some m) :
    ∃ a b, x = some (.bool a) ∧ y = some (.bool b) ∧ m = .bool (f a b) := by
  unfold Meaning.logic at h
  split at h
  · rename_i a b; exact ⟨a, b, rfl, rfl, (Option.some.inj h).symm⟩
  · cases h

theorem evaluate_eq_denote (e : Expression) :
    ∀ (m : Meaning), e.denote = some m →
      ∀ row : Row, e.evaluate row = .ok m.toValue ∧ e.getResultType = .ok m.type := by
  induction e with
  | identifier name accessor => intro m h; simp [Expression.denote] at h
  | stringConstant value => intro m h; simp [Expression.denote] at h
  | numberConstant value =>
    intro m h row
    simp only [Expression.denote] at h
    split at h
    · cases h; exact ⟨rfl, rfl⟩
    · cases h
  | unaryOperator code e ih =>
    intro m h row
    cases code with
    | lnot =>
      simp only [Expression.denote] at h
      split at h
      · rename_i b hb
        cases h
        obtain ⟨he, _⟩ := ih _ hb row
        simp [Expression.evaluate, he, Meaning.toValue, getBoolValue, Expression.getResultType,
          Meaning.type]
      · cases h
    | uminus =>
      simp only [Expression.denote] at h
      split at h
      · rename_i i hi
        split at h
        · rename_i hf
          cases h
          obtain ⟨he, _⟩ := ih _ hi row
          simp [Expression.evaluate, he, Meaning.toValue, getInt64Value, Expression.getResultType,
            Meaning.type, int64Result_of_fits _ hf]
        · cases h
      · cases h
  | binaryOperator code l r ihl ihr =>
    intro m h row
    cases code with
    | plus =>
      obtain ⟨a, b, hl, hr, hf, hm⟩ := Meaning.arith_some _ _ _ _ h
      subst hm
      simp [Expression.evaluate, (ihl _ hl row).1, (ihr _ hr row).1, Expression.arithmetic,
        Expression.int64Operand, getInt64Value, Meaning.toValue, int64Result_of_fits _ hf,
        Expression.getResultType, Meaning.type]
    | minus =>
      obtain ⟨a, b, hl, hr, hf, hm⟩ := Meaning.arith_some _ _ _ _ h
      subst hm
      simp [Expression.evaluate, (ihl _ hl row).1, (ihr _ hr row).1, Expression.arithmetic,
        Expression.int64Operand, getInt64Value, Meaning.toValue, int64Result_of_fits _ hf,
        Expression.getResultType, Meaning.type]
    | mul =>
      obtain ⟨a, b, hl, hr, hf, hm⟩ := Meaning.arith_some _ _ _ _ h
      subst hm
      simp [Expression.evaluate, (ihl _ hl row).1, (ihr _ hr row).1, Expression.arithmetic,
        Expression.int64Operand, getInt64Value, Meaning.toValue, int64Result_of_fits _ hf,
        Expression.getResultType, Meaning.type]
    | div => simp [Expression.denote] at h
    | land =>
      obtain ⟨a, b, hl, hr, hm⟩ := Meaning.logic_some _ _ _ _ h
      subst hm
      cases a <;> cases b <;>
        simp [Expression.evaluate, (ihl _ hl row).1, (ihr _ hr row).1, Expression.boolOperand,
          getBoolValue, Meaning.toValue, Expression.getResultType, Meaning.type]
    | lor =>
      obtain ⟨a, b, hl, hr, hm⟩ := Meaning.logic_some _ _ _ _ h
      subst hm
      cases a <;> cases b <;>
        simp [Expression.evaluate, (ihl _ hl row).1, (ihr _ hr row).1, Expression.boolOperand,
          getBoolValue, Meaning.toValue, Expression.getResultType, Meaning.type]
    | eq =>
      rcases Meaning.compare_some _ _ _ _ _ h with ⟨a, b, hl, hr, hm⟩ | ⟨a, b, hl, hr, hm⟩
      · subst hm
        simp only [Expression.evaluate, (ihl _ hl row).1, (ihr _ hr row).1, Expression.comparison,
          Meaning.toValue, compareValue_int64, Expression.getResultType, Meaning.type]
        refine ⟨?_, trivial⟩
        congr 2
        simp only [decide_eq_decide]
        split <;> [omega; (split <;> omega)]
      · subst hm
        simp only [Expression.evaluate, (ihl _ hl row).1, (ihr _ hr row).1, Expression.comparison,
          Meaning.toValue, Expression.getResultType, Meaning.type]
        refine ⟨?_, trivial⟩
        cases a <;> cases b <;> decide
    | ne =>
      rcases Meaning.compare_some _ _ _ _ _ h with ⟨a, b, hl, hr, hm⟩ | ⟨a, b, hl, hr, hm⟩
      · subst hm
        simp only [Expression.evaluate, (ihl _ hl row).1, (ihr _ hr row).1, Expression.comparison,
          Meaning.toValue, compareValue_int64, Expression.getResultType, Meaning.type]
        refine ⟨?_, trivial⟩
        congr 2
        simp only [decide_eq_decide]
        split <;> [omega; (split <;> omega)]
      · subst hm
        simp only [Expression.evaluate, (ihl _ hl row).1, (ihr _ hr row).1, Expression.comparison,
          Meaning.toValue, Expression.getResultType, Meaning.type]
        refine ⟨?_, trivial⟩
        cases a <;> cases b <;> decide
    | lt =>
      rcases Meaning.compare_some _ _ _ _ _ h with ⟨a, b, hl, hr, hm⟩ | ⟨a, b, hl, hr, hm⟩
      · subst hm
        simp only [Expression.evaluate, (ihl _ hl row).1, (ihr _ hr row).1, Expression.comparison,
          Meaning.toValue, compareValue_int64, Expression.getResultType, Meaning.type]
        refine ⟨?_, trivial⟩
        congr 2
        simp only [decide_eq_decide]
        split <;> [omega; (split <;> omega)]
      · subst hm
        simp only [Expression.evaluate, (ihl _ hl row).1, (ihr _ hr row).1, Expression.comparison,
          Meaning.toValue, Expression.getResultType, Meaning.type]
        refine ⟨?_, trivial⟩
        cases a <;> cases b <;> decide
    | le =>
      rcases Meaning.compare_some _ _ _ _ _ h with ⟨a, b, hl, hr, hm⟩ | ⟨a, b, hl, hr, hm⟩
      · subst hm
        simp only [Expression.evaluate, (ihl _ hl row).1, (ihr _ hr row).1, Expression.comparison,
          Meaning.toValue, compareValue_int64, Expression.getResultType, Meaning.type]
        refine ⟨?_, trivial⟩
        congr 2
        simp only [decide_eq_decide]
        split <;> [omega; (split <;> omega)]
      · subst hm
        simp only [Expression.evaluate, (ihl _ hl row).1, (ihr _ hr row).1, Expression.comparison,
          Meaning.toValue, Expression.getResultType, Meaning.type]
        refine ⟨?_, trivial⟩
        cases a <;> cases b <;> decide
    | gt =>
      rcases Meaning.compare_some _ _ _ _ _ h with ⟨a, b, hl, hr, hm⟩ | ⟨a, b, hl, hr, hm⟩
      · subst hm
        simp only [Expression.evaluate, (ihl _ hl row).1, (ihr _ hr row).1, Expression.comparison,
          Meaning.toValue, compareValue_int64, Expression.getResultType, Meaning.type]
        refine ⟨?_, trivial⟩
        congr 2
        simp only [decide_eq_decide]
        split <;> [omega; (split <;> omega)]
      · subst hm
        simp only [Expression.evaluate, (ihl _ hl row).1, (ihr _ hr row).1, Expression.comparison,
          Meaning.toValue, Expression.getResultType, Meaning.type]
        refine ⟨?_, trivial⟩
        cases a <;> cases b <;> decide
    | ge =>
      rcases Meaning.compare_some _ _ _ _ _ h with ⟨a, b, hl, hr, hm⟩ | ⟨a, b, hl, hr, hm⟩
      · subst hm
        simp only [Expression.evaluate, (ihl _ hl row).1, (ihr _ hr row).1, Expression.comparison,
          Meaning.toValue, compareValue_int64, Expression.getResultType, Meaning.type]
        refine ⟨?_, trivial⟩
        congr 2
        simp only [decide_eq_decide]
        split <;> [omega; (split <;> omega)]
      · subst hm
        simp only [Expression.evaluate, (ihl _ hl row).1, (ihr _ hr row).1, Expression.comparison,
          Meaning.toValue, Expression.getResultType, Meaning.type]
        refine ⟨?_, trivial⟩
        cases a <;> cases b <;> decide

/-- C14: an expression built from int64 literals, `+ - *` without overflow, the
six comparisons, `AND` and `OR` over truth values, `NOT` and unary minus
evaluates on every row to the value of the usual integer and boolean semantics,
in the variant named by `getResultType`; `(3 + 4) * 2 > 13` evaluates to true
and `NOT (5 == 5)` to false on any row. -/
theorem evaluate_usual_semantics :
    (∀ (e : Expression) (m : Meaning), e.denote = some m →
      ∀ row : Row, e.evaluate row = .ok m.toValue ∧ e.getResultType = .ok m.type) ∧
    (∀ row : Row, exampleGreater.evaluate row = .ok (.boolean true)) ∧
    (∀ row : Row, exampleNot.evaluate row = .ok (.boolean false)) :=
  ⟨evaluate_eq_denote,
    fun row => (evaluate_eq_denote exampleGreater (.bool true) (by decide) row).1,
    fun row => (evaluate_eq_denote exampleNot (.bool false) (by decide) row).1⟩

theorem evaluate_usual_semantics_witness :
    exampleGreater.denote = some (.bool true) ∧
    exampleGreater.evaluate [.int64 7, .null] = .ok (.boolean true) ∧
    exampleGreater.getResultType = .ok .boolean :=
  ⟨by decide, evaluate_usual_semantics.1 exampleGreater (.bool true) (by decide) [.int64 7, .null]⟩

/-- C15, counterexample: `(1 == 2) AND (NOT 5)` evaluates to false and
`(1 == 1) OR (NOT 5)` to true, although evaluating the right operand `NOT 5`
throws `std::bad_variant_access`. -/
theorem land_lor_skip_failing_operand :
    exampleMismatch.evaluate [] = .error .badVariant ∧
    exampleFalse.evaluate [] = .ok (.boolean false) ∧
    (Expression.binaryOperator .land exampleFalse exampleMismatch).evaluate [] =
      .ok (.boolean false) ∧
    exampleTrue.evaluate [] = .ok (.boolean true) ∧
    (Expression.binaryOperator .lor exampleTrue exampleMismatch).evaluate [] =
      .ok (.boolean true) := by
  decide

/-- C15, amended: `AND` and `OR` evaluate the left operand first and the right
operand only when the left one does not decide the result.  An error of the left
operand is the error of the connective; when the left operand is the truth value
`b` and the right operand raises, `AND` raises that error exactly when `b` is
true and is false otherwise, `OR` raises it exactly when `b` is false and is
true otherwise. -/
theorem land_lor_short_circuit (lhs rhs : Expression) (row : Row) :
    (∀ err, lhs.evaluate row = .error err →
      (Expression.binaryOperator .land lhs rhs).evaluate row = .error err ∧
      (Expression.binaryOperator .lor lhs rhs).evaluate row = .error err) ∧
    (∀ (b : Bool) (err : Err), lhs.evaluate row = .ok (.boolean b) →
      rhs.evaluate row = .error err →
      (Expression.binaryOperator .land lhs rhs).evaluate row =
        (if b then .error err else .ok (.boolean false)) ∧
      (Expression.binaryOperator .lor lhs rhs).evaluate row =
        (if b then .ok (.boolean true) else .error err)) := by
  refine ⟨?_, ?_⟩
  · intro err h
    simp [Expression.evaluate, h, Expression.boolOperand]
  · intro b err hl hr
    cases b <;> simp [Expression.evaluate, hl, hr, Expression.boolOperand, getBoolValue]

theorem land_lor_short_circuit_witness :
    (Expression.binaryOperator .land exampleFalse exampleMismatch).evaluate [] =
      (if false then .error .badVariant else .ok (.boolean false)) ∧
    (Expression.binaryOperator .lor exampleFalse exampleMismatch).evaluate [] =
      (if false then .ok (.boolean true) else .error .badVariant) :=
  (land_lor_short_circuit exampleFalse exampleMismatch []).2 false .badVariant
    (by decide) (by decide)

/-- C16, counterexample: `1 / 0` divides by a divisor that evaluates to 0 and
no error is raised: the machine division is executed on it, which is undefined
behaviour, not an exception. -/
theorem div_by_zero_not_raised :
    (Expression.numberConstant 0).evaluate [] = .ok (.int64 0) ∧
    (Expression.binaryOperator .div (.numberConstant 1) (.numberConstant 0)).evaluate [] =
      .error .undefined ∧
    Err.undefined.thrown = false := by
  decide

/-- C16, amended: the division `lhs / rhs` raises the error of an operand that
raises and `std::bad_variant_access` for an operand that is not an int64 value;
for int64 operands `a` and `b` with `b` not 0 and the quotient an `int64_t` it
returns the quotient truncated toward zero.  The divisor is not checked: with
`b = 0` the division is executed and nothing is raised. -/
theorem div_evaluate (lhs rhs : Expression) (row : Row) :
    (∀ err, lhs.evaluate row = .error err →
      (Expression.binaryOperator .div lhs rhs).evaluate row = .error err) ∧
    (∀ v : Value, lhs.evaluate row = .ok v → (∀ a, v ≠ .int64 a) →
      (Expression.binaryOperator .div lhs rhs).evaluate row = .error .badVariant) ∧
    (∀ (a : Int) (err : Err), lhs.evaluate row = .ok (.int64 a) →
      rhs.evaluate row = .error err →
      (Expression.binaryOperator .div lhs rhs).evaluate row = .error err) ∧
    (∀ (a : Int) (v : Value), lhs.evaluate row = .ok (.int64 a) → rhs.evaluate row = .ok v →
      (∀ b, v ≠ .int64 b) →
      (Expression.binaryOperator .div lhs rhs).evaluate row = .error .badVariant) ∧
    (∀ a b : Int, lhs.evaluate row = .ok (.int64 a) → rhs.evaluate row = .ok (.int64 b) →
      b ≠ 0 → fitsInt64 (Int.tdiv a b) = true →
      (Expression.binaryOperator .div lhs rhs).evaluate row = .ok (.int64 (Int.tdiv a b))) ∧
    (∀ a : Int, lhs.evaluate row = .ok (.int64 a) → rhs.evaluate row = .ok (.int64 0) →
      (Expression.binaryOperator .div lhs rhs).evaluate row = .error .undefined ∧
      Err.undefined.thrown = false) := by
  refine ⟨?_, ?_, ?_, ?_, ?_, ?_⟩
  · intro err hl
    simp [Expression.evaluate, hl, Expression.arithmetic, Expression.int64Operand]
  · intro v hl hv
    cases v <;>
      simp_all [Expression.evaluate, Expression.arithmetic, Expression.int64Operand,
        getInt64Value]
  · intro a err hl hr
    simp [Expression.evaluate, hl, hr, Expression.arithmetic, Expression.int64Operand,
      getInt64Value]
  · intro a v hl hr hv
    cases v <;>
      simp_all [Expression.evaluate, Expression.arithmetic, Expression.int64Operand,
        getInt64Value]
  · intro a b hl hr hb hf
    simp [Expression.evaluate, hl, hr, Expression.arithmetic, Expression.int64Operand,
      getInt64Value, hb, int64Result_of_fits _ hf]
  · intro a hl hr
    simp [Expression.evaluate, hl, hr, Expression.arithmetic, Expression.int64Operand,
      getInt64Value, Err.thrown]

theorem div_evaluate_witness :
    (Expression.binaryOperator .div (.numberConstant (-7)) (.numberConstant 2)).evaluate [] =
      .ok (.int64 (Int.tdiv (-7) 2)) ∧ Int.tdiv (-7) 2 = -3 :=
  ⟨(div_evaluate (.numberConstant (-7)) (.numberConstant 2) []).2.2.2.2.1 (-7) 2 rfl rfl
    (by decide) (by decide), by decide⟩

/-! ## C17: aggregate functions -/

open SimpleAggregateFunction in
theorem addAll_min (xs : List Int) : ∀ d e : Int,
    addAll .min ⟨d, e⟩ (int64Rows xs) = .ok ⟨xs.foldl min d, e⟩ := by
  induction xs with
  | nil => intro d e; rfl
  | cons x xs ih =>
    intro d e
    simp only [int64Rows, List.map_cons, addAll, add, List.get?, getInt64Value, List.foldl_cons]
    exact ih _ _

open SimpleAggregateFunction in
theorem addAll_max (xs : List Int) : ∀ d e : Int,
    addAll .max ⟨d, e⟩ (int64Rows xs) = .ok ⟨xs.foldl max d, e⟩ := by
  induction xs with
  | nil => intro d e; rfl
  | cons x xs ih =>
    intro d e
    simp only [int64Rows, List.map_cons, addAll, add, List.get?, getInt64Value, List.foldl_cons]
    exact ih _ _

theorem foldl_min_spec (xs : List Int) : ∀ d : Int,
    xs.foldl min d ≤ d ∧ (∀ x ∈ xs, xs.foldl min d ≤ x) ∧
      (xs.foldl min d = d ∨ xs.foldl min d ∈ xs) := by
  induction xs with
  | nil => intro d; simp
  | cons x xs ih =>
    intro d
    obtain ⟨h1, h2, h3⟩ := ih (min d x)
    simp only [List.foldl_cons, List.mem_cons]
    refine ⟨by omega, ?_, ?_⟩
    · rintro y (rfl | hy)
      · omega
      · exact h2 y hy
    · rcases h3 with h | h
      · rcases min_choice d x with hc | hc
        · left; omega
        · right; left; omega
      · right; right; exact h

theorem foldl_max_spec (xs : List Int) : ∀ d : Int,
    d ≤ xs.foldl max d ∧ (∀ x ∈ xs, x ≤ xs.foldl max d) ∧
      (xs.foldl max d = d ∨ xs.foldl max d ∈ xs) := by
  induction xs with
  | nil => intro d; simp
  | cons x xs ih =>
    intro d
    obtain ⟨h1, h2, h3⟩ := ih (max d x)
    simp only [List.foldl_cons, List.mem_cons]
    refine ⟨by omega, ?_, ?_⟩
    · rintro y (rfl | hy)
      · omega
      · exact h2 y hy
    · rcases h3 with h | h
      · rcases max_choice d x with hc | hc
        · left; omega
        · right; left; omega
      · right; right; exact h

theorem fitsInt64_iff (i : Int) :
    fitsInt64 i = true ↔ -9223372036854775808 ≤ i ∧ i < 9223372036854775808 := by
  simp [fitsInt64]

theorem int64Sum_of_fits (r : Int) (h : fitsInt64 r = true) : int64Sum r = .ok r := by
  unfold int64Sum
  rw [if_pos ((fitsInt64_iff r).1 h)]

open SimpleAggregateFunction in
theorem addAll_sum (xs : List Int) : ∀ d e : Int,
    (∀ k, k ≤ xs.length → fitsInt64 (d + (xs.take k).sum) = true) →
    addAll .sum ⟨d, e⟩ (int64Rows xs) = .ok ⟨d + xs.sum, e⟩ := by
  induction xs with
  | nil => intro d e _; simp [int64Rows, addAll]
  | cons x xs ih =>
    intro d e h
    have h1 : fitsInt64 (d + x) = true := by simpa using h 1 (by simp)
    simp only [int64Rows, List.map_cons, addAll, add, List.get?, getInt64Value,
      int64Sum_of_fits _ h1, List.sum_cons]
    rw [← Int.add_assoc]
    apply ih
    intro k hk
    have := h (k + 1) (by simpa using hk)
    simpa [Int.add_assoc] using this

open SimpleAggregateFunction in
theorem addAll_avg (xs : List Int) : ∀ (d c : Int),
    (∀ k, k ≤ xs.length → fitsInt64 (d + (xs.take k).sum) = true) →
    -9223372036854775808 ≤ c → c + (xs.length : Int) < 9223372036854775808 →
    addAll .avg ⟨d, c⟩ (int64Rows xs) = .ok ⟨d + xs.sum, c + (xs.length : Int)⟩ := by
  induction xs with
  | nil => intro d c _ _ _; simp [int64Rows, addAll]
  | cons x xs ih =>
    intro d c h hc0 hc
    have h1 : fitsInt64 (d + x) = true := by simpa using h 1 (by simp)
    have hl : ((x :: xs).length : Int) = (xs.length : Int) + 1 := by simp
    rw [hl] at hc ⊢
    have h2 : fitsInt64 (c + 1) = true := by
      rw [fitsInt64_iff]
      omega
    simp only [int64Rows, List.map_cons, addAll, add, List.get?, getInt64Value,
      int64Sum_of_fits _ h1, int64Sum_of_fits _ h2, List.sum_cons]
    rw [← Int.add_assoc]
    have := ih (d + x) (c + 1) (by
      intro k hk
      have := h (k + 1) (by simpa using hk)
      simpa [Int.add_assoc] using this) (by omega) (by omega)
    have e : c + 1 + (xs.length : Int) = c + ((xs.length : Int) + 1) := by omega
    rw [e] at this
    exact this

theorem fitsInt64_tdiv (s : Int) (n : Nat) (hn : 0 < n) (hs : fitsInt64 s = true) :
    fitsInt64 (Int.tdiv s n) = true := by
  rw [fitsInt64_iff] at hs ⊢
  have hn0 : (0 : Int) < n := by exact_mod_cast hn
  rcases Int.le_total 0 s with h | h
  · rw [Int.tdiv_eq_ediv h (by omega)]
    have : s / (n : Int) ≤ s := Int.ediv_le_self _ h
    have : 0 ≤ s / (n : Int) := Int.ediv_nonneg h (by omega)
    omega
  · have h0 : 0 ≤ -s := by omega
    have e : Int.tdiv s n = -(Int.tdiv (-s) n) := by rw [Int.neg_tdiv, Int.neg_neg]
    rw [e, Int.tdiv_eq_ediv h0 (by omega)]
    have : -s / (n : Int) ≤ -s := Int.ediv_le_self _ h0
    have : 0 ≤ -s / (n : Int) := Int.ediv_nonneg h0 (by omega)
    omega

theorem runningSumsFit_take (xs : List Int) (h : runningSumsFit xs = true) (k : Nat)
    (hk : k ≤ xs.length) : fitsInt64 (0 + (xs.take k).sum) = true := by
  unfold runningSumsFit at h
  rw [List.all_eq_true] at h
  rw [Int.zero_add]
  exact h k (List.mem_range.2 (by omega))

/-- C17: for a non-empty list of int64 values whose running sum does not
overflow, `create` followed by one `add` per element and `getResult` gives the
minimum of the list for `min`, the maximum for `max`, the sum for `sum` and the
sum divided by the count, truncated toward zero, for `avg`; with no `add` call
`max` gives `INT64_MIN`, `min` gives `INT64_MAX` and `sum` gives 0; for
`[1, 2, 3]` the results are sum 6, avg 2, min 1, max 3. -/
theorem aggregate_results :
    (∀ (place : AggregateData) (xs : List Int), xs ≠ [] →
      (∀ x ∈ xs, fitsInt64 x = true) → runningSumsFit xs = true →
      (∃ m, SimpleAggregateFunction.aggregate .min place (int64Rows xs) = .ok (.int64 m) ∧
        m ∈ xs ∧ ∀ x ∈ xs, m ≤ x) ∧
      (∃ m, SimpleAggregateFunction.aggregate .max place (int64Rows xs) = .ok (.int64 m) ∧
        m ∈ xs ∧ ∀ x ∈ xs, x ≤ m) ∧
      SimpleAggregateFunction.aggregate .sum place (int64Rows xs) = .ok (.int64 xs.sum) ∧
      ((xs.length : Int) < 9223372036854775808 →
        SimpleAggregateFunction.aggregate .avg place (int64Rows xs) =
          .ok (.int64 (Int.tdiv xs.sum xs.length)))) ∧
    (∀ place : AggregateData,
      SimpleAggregateFunction.aggregate .max place [] = .ok (.int64 (-9223372036854775808)) ∧
      SimpleAggregateFunction.aggregate .min place [] = .ok (.int64 9223372036854775807) ∧
      SimpleAggregateFunction.aggregate .sum place [] = .ok (.int64 0)) ∧
    (∀ place : AggregateData,
      SimpleAggregateFunction.aggregate .sum place (int64Rows [1, 2, 3]) = .ok (.int64 6) ∧
      SimpleAggregateFunction.aggregate .avg place (int64Rows [1, 2, 3]) = .ok (.int64 2) ∧
      SimpleAggregateFunction.aggregate .min place (int64Rows [1, 2, 3]) = .ok (.int64 1) ∧
      SimpleAggregateFunction.aggregate .max place (int64Rows [1, 2, 3]) = .ok (.int64 3)) := by
  refine ⟨?_, ?_, ?_⟩
  · intro place xs hne hfit hsum
    have hbound : ∀ x ∈ xs, -9223372036854775808 ≤ x ∧ x < 9223372036854775808 :=
      fun x hx => (fitsInt64_iff x).1 (hfit x hx)
    obtain ⟨x0, hx0⟩ := List.exists_mem_of_ne_nil xs hne
    refine ⟨?_, ?_, ?_, ?_⟩
    · obtain ⟨h1, h2, h3⟩ := foldl_min_spec xs LLONG_MAX
      refine ⟨xs.foldl min LLONG_MAX, ?_, ?_, h2⟩
      · simp only [SimpleAggregateFunction.aggregate, SimpleAggregateFunction.create,
          addAll_min, SimpleAggregateFunction.getResult]
      · rcases h3 with h | h
        · have hle := h2 x0 hx0
          have hb := hbound x0 hx0
          have hM : LLONG_MAX = 9223372036854775807 := rfl
          have e : xs.foldl min LLONG_MAX = x0 := by omega
          rw [e]; exact hx0
        · exact h
    · obtain ⟨h1, h2, h3⟩ := foldl_max_spec xs LLONG_MIN
      refine ⟨xs.foldl max LLONG_MIN, ?_, ?_, h2⟩
      · simp only [SimpleAggregateFunction.aggregate, SimpleAggregateFunction.create,
          addAll_max, SimpleAggregateFunction.getResult]
      · rcases h3 with h | h
        · have hle := h2 x0 hx0
          have hb := hbound x0 hx0
          have hM : LLONG_MIN = -9223372036854775808 := rfl
          have e : xs.foldl max LLONG_MIN = x0 := by omega
          rw [e]; exact hx0
        · exact h
    · simp only [SimpleAggregateFunction.aggregate, SimpleAggregateFunction.create,
        addAll_sum xs 0 _ (runningSumsFit_take xs hsum), SimpleAggregateFunction.getResult,
        Int.zero_add]
    · intro hlen
      have hl : 0 < xs.length := List.length_pos.2 hne
      have hl0 : (xs.length : Int) ≠ 0 := by omega
      have hs : fitsInt64 xs.sum = true := by
        have := runningSumsFit_take xs hsum xs.length (Nat.le_refl _)
        simpa using this
      simp only [SimpleAggregateFunction.aggregate, SimpleAggregateFunction.create,
        addAll_avg xs 0 0 (runningSumsFit_take xs hsum) (by omega) (by omega),
        SimpleAggregateFunction.getResult, Int.zero_add, if_neg hl0]
      exact int64Result_of_fits _ (fitsInt64_tdiv _ _ hl hs)
  · intro place
    exact ⟨rfl, rfl, rfl⟩
  · intro place
    exact ⟨rfl, rfl, rfl, rfl⟩

theorem aggregate_results_witness :
    SimpleAggregateFunction.aggregate .sum ⟨5, 5⟩ (int64Rows [-7, 2]) = .ok (.int64 (-5)) ∧
    SimpleAggregateFunction.aggregate .avg ⟨5, 5⟩ (int64Rows [-7, 2]) = .ok (.int64 (-2)) := by
  have h := (aggregate_results.1 ⟨5, 5⟩ [-7, 2] (by decide) (by decide) (by decide)).2.2
  exact ⟨h.1, h.2 (by decide)⟩

/-! ## C18 to C20: executors -/

theorem Executor.next_fuel_succ : ∀ (fuel : Nat) (executor : Executor)
    (r : Option Row × Executor), executor.next fuel = .ok r → executor.next (fuel + 1) = .ok r := by
  intro fuel
  induction fuel with
  | zero =>
    intro executor r h
    cases executor with
    | readFromRows rows counter s => simpa only [Executor.next] using h
    | sort se rows pos => simpa only [Executor.next] using h
    | readFromTable rows pos s => simpa only [Executor.next] using h
    | join schema rows pos => simpa only [Executor.next] using h
    | groupBy schema rows pos => simpa only [Executor.next] using h
    | expressions input es => simp [Executor.next] at h
    | filter input e => simp [Executor.next] at h
  | succ fuel ih =>
    intro executor r h
    cases executor with
    | readFromRows rows counter s => simpa only [Executor.next] using h
    | sort se rows pos => simpa only [Executor.next] using h
    | readFromTable rows pos s => simpa only [Executor.next] using h
    | join schema rows pos => simpa only [Executor.next] using h
    | groupBy schema rows pos => simpa only [Executor.next] using h
    | expressions input es =>
      rw [Executor.next] at h ⊢
      cases hn : Executor.next fuel input with
      | error err => rw [hn] at h; cases h
      | ok p =>
        rw [ih input p hn]
        rw [hn] at h
        exact h
    | filter input e =>
      rw [Executor.next] at h ⊢
      cases hn : Executor.next fuel input with
      | error err => rw [hn] at h; cases h
      | ok p =>
        rw [ih input p hn]
        rw [hn] at h
        obtain ⟨o, input2⟩ := p
        cases o with
        | none => exact h
        | some row =>
          simp only at h ⊢
          cases he : e.evaluate row with
          | error err => rw [he] at h; cases h
          | ok value =>
            rw [he] at h
            simp only at h ⊢
            cases hb : getBoolValue value with
            | error err => rw [hb] at h; cases h
            | ok b =>
              rw [hb] at h
              cases b with
              | true => exact h
              | false => exact ih _ _ h

theorem Executor.next_fuel_le (fuel fuel2 : Nat) (hle : fuel ≤ fuel2) (executor : Executor)
    (r : Option Row × Executor) (h : executor.next fuel = .ok r) :
    executor.next fuel2 = .ok r := by
  induction hle with
  | refl => exact h
  | step _ ih => exact Executor.next_fuel_succ _ _ _ ih

theorem execute_mono : ∀ (calls calls2 fuel fuel2 : Nat) (executor : Executor) (rows : List Row),
    calls ≤ calls2 → fuel ≤ fuel2 → execute calls fuel executor = .ok rows →
    execute calls2 fuel2 executor = .ok rows := by
  intro calls
  induction calls with
  | zero => intro calls2 fuel fuel2 executor rows _ _ h; simp [execute] at h
  | succ calls ih =>
    intro calls2 fuel fuel2 executor rows hc hf h
    obtain ⟨c2, rfl⟩ : ∃ c2, calls2 = c2 + 1 := ⟨calls2 - 1, by omega⟩
    rw [execute] at h ⊢
    cases hn : executor.next fuel with
    | error err => rw [hn] at h; cases h
    | ok p =>
      rw [hn] at h
      rw [Executor.next_fuel_le fuel fuel2 hf executor p hn]
      obtain ⟨o, ex2⟩ := p
      cases o with
      | none => exact h
      | some row =>
        simp only at h ⊢
        cases hr : execute calls fuel ex2 with
        | error err => rw [hr] at h; cases h
        | ok rest =>
          rw [hr] at h
          rw [ih c2 fuel fuel2 ex2 rest (by omega) hf hr]
          exact h

theorem execute_readFromRows_noFuel (rows : List Row) (rows_schema : Schema) :
    ∀ (calls fuel counter : Nat),
      execute calls fuel (.readFromRows rows counter rows_schema) = .error .noFuel := by
  intro calls
  induction calls with
  | zero => intro fuel counter; rfl
  | succ calls ih =>
    intro fuel counter
    rw [execute, Executor.next]
    cases rows.get? counter with
    | none => simp only [ih]
    | some row => simp only [ih]

/-- C18: `ReadFromRowsExecutor::next` on the rows `[(1)]` returns the row, then
a row of one `Null` on each later call and never `std::nullopt`; `execute` on a
`ReadFromRowsExecutor` does not return, whatever the rows and however many
calls it is given. -/
theorem readFromRows_never_ends :
    (∀ fuel, (Executor.readFromRows [[.int64 1]] 0 []).next fuel =
      .ok (some [.int64 1], .readFromRows [[.int64 1]] 1 [])) ∧
    (∀ fuel, (Executor.readFromRows [[.int64 1]] 1 []).next fuel =
      .ok (some [Value.null], .readFromRows [[.int64 1]] 1 [])) ∧
    (∀ (rows : List Row) (rows_schema : Schema) (calls fuel : Nat),
      execute calls fuel (.readFromRows rows 0 rows_schema) = .error .noFuel) :=
  ⟨fun _ => by rw [Executor.next]; rfl, fun _ => by rw [Executor.next]; rfl,
    fun rows rows_schema calls fuel => execute_readFromRows_noFuel rows rows_schema calls fuel 0⟩

theorem filter_execute (predicate : Expression) : ∀ (calls fuel : Nat) (input : Executor)
    (rows : List Row), execute calls fuel input = .ok rows →
    (∀ row ∈ rows, ∃ b, predicate.evaluate row = .ok (.boolean b)) →
    execute calls (fuel + rows.length + 1) (.filter input predicate) =
      .ok (rows.filter (holdsOn predicate)) := by
  intro calls
  induction calls with
  | zero => intro fuel input rows h; simp [execute] at h
  | succ calls ih =>
    intro fuel input rows h hbool
    rw [execute] at h
    cases hn : input.next fuel with
    | error err => rw [hn] at h; cases h
    | ok p =>
      rw [hn] at h
      obtain ⟨o, input2⟩ := p
      cases o with
      | none =>
        cases h
        rw [execute, Executor.next, Executor.next_fuel_le fuel _ (by simp) input _ hn]
        rfl
      | some row =>
        simp only at h
        cases hr : execute calls fuel input2 with
        | error err => rw [hr] at h; cases h
        | ok rest =>
          rw [hr] at h
          cases h
          obtain ⟨b, hb⟩ := hbool row (List.mem_cons_self _ _)
          have hrest := ih fuel input2 rest hr
            (fun r hr2 => hbool r (List.mem_cons_of_mem _ hr2))
          have hfuel : fuel + (row :: rest).length + 1 = (fuel + rest.length + 1) + 1 := by
            simp only [List.length_cons]; omega
          rw [hfuel, execute, Executor.next,
            Executor.next_fuel_le fuel _ (by omega) input _ hn]
          simp only [hb, getBoolValue]
          cases b with
          | true =>
            simp only
            rw [execute_mono calls calls _ _ _ _ (Nat.le_refl _) (Nat.le_succ _) hrest]
            simp [List.filter, holdsOn, hb]
          | false =>
            simp only
            have hf : (row :: rest).filter (holdsOn predicate) = rest.filter (holdsOn predicate) := by
              simp [List.filter, holdsOn, hb]
            rw [hf]
            cases calls with
            | zero => simp [execute] at hrest
            | succ c =>
              rw [execute] at hrest
              cases hn2 : Executor.next (fuel + rest.length + 1) (.filter input2 predicate) with
              | error err => rw [hn2] at hrest; cases hrest
              | ok p2 =>
                rw [hn2] at hrest
                obtain ⟨o2, ex2⟩ := p2
                cases o2 with
                | none => exact hrest
                | some row2 =>
                  simp only at hrest ⊢
                  cases hr2 : execute c (fuel + rest.length + 1) ex2 with
                  | error err => rw [hr2] at hrest; cases hrest
                  | ok rest2 =>
                    rw [hr2] at hrest
                    rw [execute_mono c (c + 1) _ (fuel + rest.length + 1 + 1) _ _ (Nat.le_succ _)
                      (Nat.le_succ _) hr2]
                    exact hrest


/-- C19: when the input executor's rows end with `std::nullopt` and the
predicate evaluates to a boolean on each of them, the rows the Filter executor
returns before its `std::nullopt` are the input rows on which the predicate is
true, in the input's order. -/
theorem filter_yields_matching_rows (calls fuel : Nat) (input : Executor)
    (predicate : Expression) (rows : List Row)
    (hchild : execute calls fuel input = .ok rows)
    (hbool : ∀ row ∈ rows, ∃ b, predicate.evaluate row = .ok (.boolean b)) :
    execute calls (fuel + rows.length + 1) (.filter input predicate) =
      .ok (rows.filter (holdsOn predicate)) :=
  filter_execute predicate calls fuel input rows hchild hbool

theorem filter_yields_matching_rows_witness :
    execute 5 (0 + sampleRows.length + 1)
        (.filter (.sort [] sampleRows 0) (.binaryOperator .gt columnB (.numberConstant 1))) =
      .ok [[.int64 2, .int64 3], [.int64 1, .int64 2]] :=
  filter_yields_matching_rows 5 0 (.sort [] sampleRows 0)
    (.binaryOperator .gt columnB (.numberConstant 1)) sampleRows (by decide) (by decide)

theorem strLt_asymm : ∀ a b : List Nat, strLt a b = true → strLt b a = false := by
  intro a
  induction a with
  | nil => intro b h; cases b <;> simp [strLt] at h ⊢
  | cons x xs ih =>
    intro b h
    cases b with
    | nil => simp [strLt] at h
    | cons y ys =>
      simp only [strLt] at h ⊢
      by_cases h1 : x < y
      · have h2 : ¬ y < x := by omega
        simp [h2, h1]
      · by_cases h2 : y < x
        · simp [h1, h2] at h
        · simp only [h1, h2, if_false] at h ⊢
          exact ih ys h

theorem strLt_irrefl : ∀ a : List Nat, strLt a a = false := by
  intro a
  induction a with
  | nil => rfl
  | cons x xs ih => simp [strLt, ih]

theorem strLt_total : ∀ a b : List Nat, strLt a b = false → a ≠ b → strLt b a = true := by
  intro a
  induction a with
  | nil => intro b h hne; cases b <;> simp [strLt] at h hne ⊢
  | cons x xs ih =>
    intro b h hne
    cases b with
    | nil => simp [strLt]
    | cons y ys =>
      simp only [strLt] at h ⊢
      by_cases h1 : x < y
      · simp [h1] at h
      · by_cases h2 : y < x
        · simp [h2]
        · simp only [h1, h2, if_false] at h ⊢
          have hxy : x = y := by omega
          subst hxy
          exact ih ys h (fun e => hne (by rw [e]))

theorem Value.lt_asymm (a b : Value) (h : a.lt b = true) : b.lt a = false ∧ a ≠ b := by
  cases a <;> cases b <;> simp [Value.lt, Value.index] at h ⊢
  · rename_i x y; cases x <;> cases y <;> simp_all
  · omega
  · omega
  · rename_i x y
    refine ⟨strLt_asymm _ _ h, ?_⟩
    intro e; subst e; rw [strLt_irrefl] at h; cases h

theorem Value.lt_total (a b : Value) (h : a.lt b = false) (hne : a ≠ b) : b.lt a = true := by
  cases a <;> cases b <;> simp [Value.lt, Value.index] at h hne ⊢
  · rename_i x y; cases x <;> cases y <;> simp_all
  · omega
  · omega
  · exact strLt_total _ _ h hne

theorem compareValue_antisymm (a b : Value) : compareValue b a = -compareValue a b := by
  unfold compareValue
  by_cases h : a.lt b = true
  · obtain ⟨h1, h2⟩ := Value.lt_asymm a b h
    simp [h, h1, Ne.symm h2]
  · have h0 : a.lt b = false := by simpa using h
    by_cases hab : a = b
    · subst hab; simp [h0]
    · have := Value.lt_total a b h0 hab
      simp [h0, this, hab]


theorem compositeCompare_ok (keys : List SortExpression) (a b : Row)
    (ha : keysEvaluate keys a) (hb : keysEvaluate keys b) :
    ∃ c, compositeCompare keys a b = .ok c ∧ (c = -1 ∨ c = 0 ∨ c = 1) := by
  induction keys with
  | nil => exact ⟨0, rfl, Or.inr (Or.inl rfl)⟩
  | cons key keys ih =>
    obtain ⟨va, hva⟩ := ha key (List.mem_cons_self _ _)
    obtain ⟨vb, hvb⟩ := hb key (List.mem_cons_self _ _)
    simp only [compositeCompare, hva, hvb]
    by_cases h0 : compareValue va vb = 0
    · rw [if_pos h0]
      exact ih (fun k hk => ha k (List.mem_cons_of_mem _ hk))
        (fun k hk => hb k (List.mem_cons_of_mem _ hk))
    · rw [if_neg h0]
      refine ⟨_, rfl, ?_⟩
      have := compareValue_range va vb
      cases key.desc <;> simp <;> omega

theorem compositeCompare_antisymm (keys : List SortExpression) (a b : Row) (c : Int)
    (h : compositeCompare keys a b = .ok c) : compositeCompare keys b a = .ok (-c) := by
  induction keys with
  | nil => simp only [compositeCompare] at h ⊢; cases h; rfl
  | cons key keys ih =>
    simp only [compositeCompare] at h ⊢
    cases hva : key.expression.evaluate a with
    | error err => rw [hva] at h; cases h
    | ok va =>
      rw [hva] at h
      cases hvb : key.expression.evaluate b with
      | error err => rw [hvb] at h; cases h
      | ok vb =>
        rw [hvb] at h
        simp only at h ⊢
        rw [compareValue_antisymm va vb]
        by_cases h0 : compareValue va vb = 0
        · rw [if_pos h0] at h
          rw [if_pos (by omega)]
          exact ih h
        · rw [if_neg h0] at h
          rw [if_neg (by omega)]
          cases h
          cases key.desc <;> simp

theorem compare_eq_compositeCompare (keys : List SortExpression) (a b : Row) (c : Int)
    (h : compositeCompare keys a b = .ok c) :
    SortExecutor.compare keys a b = .ok (decide (c = -1)) := by
  induction keys with
  | nil => simp only [compositeCompare] at h; cases h; rfl
  | cons key keys ih =>
    simp only [compositeCompare] at h
    simp only [SortExecutor.compare]
    cases hva : key.expression.evaluate a with
    | error err => rw [hva] at h; cases h
    | ok va =>
      rw [hva] at h
      cases hvb : key.expression.evaluate b with
      | error err => rw [hvb] at h; cases h
      | ok vb =>
        rw [hvb] at h
        simp only at h ⊢
        rcases compareValue_range va vb with hc | hc | hc
        · rw [hc] at h ⊢
          simp only [if_true] at h ⊢
          rw [if_neg (by decide)] at h
          cases h
          cases key.desc <;> simp
        · rw [hc] at h ⊢
          rw [if_pos rfl] at h
          rw [if_neg (by decide), if_neg (by decide)]
          exact ih h
        · rw [hc] at h ⊢
          rw [if_neg (by decide)] at h
          rw [if_neg (by decide), if_pos rfl]
          cases h
          cases key.desc <;> simp

theorem insertSorted_spec (keys : List SortExpression) (row : Row) (hrow : keysEvaluate keys row) :
    ∀ l : List Row, (∀ r ∈ l, keysEvaluate keys r) → l.Chain' (nonDecreasing keys) →
    ∃ result, SortExecutor.insertSorted (SortExecutor.compare keys) row l = .ok result ∧
      result.Perm (row :: l) ∧ result.Chain' (nonDecreasing keys) ∧
      (∀ h ∈ result.head?, h = row ∨ h ∈ l.head?) := by
  intro l
  induction l with
  | nil =>
    intro _ _
    exact ⟨[row], rfl, List.Perm.refl _, List.chain'_singleton _, by simp⟩
  | cons first rest ih =>
    intro hl hchain
    have hfirst := hl first (List.mem_cons_self _ _)
    obtain ⟨c, hc, hrange⟩ := compositeCompare_ok keys row first hrow hfirst
    have hless := compare_eq_compositeCompare keys row first c hc
    simp only [SortExecutor.insertSorted, hless]
    by_cases hc1 : c = -1
    · simp only [hc1, decide_True]
      refine ⟨_, rfl, List.Perm.refl _, ?_, by simp⟩
      rw [List.chain'_cons]
      exact ⟨⟨c, hc, by omega⟩, hchain⟩
    · simp only [hc1, decide_False]
      obtain ⟨result, hres, hperm, hsorted, hhead⟩ :=
        ih (fun r hr => hl r (List.mem_cons_of_mem _ hr)) (List.Chain'.tail hchain)
      rw [hres]
      refine ⟨_, rfl, ?_, ?_, by simp⟩
      · exact (List.Perm.cons first hperm).trans (List.Perm.swap row first rest)
      · rw [List.chain'_cons']
        refine ⟨?_, hsorted⟩
        intro h hh
        rcases hhead h hh with e | e
        · subst e
          exact ⟨-c, compositeCompare_antisymm keys _ _ c hc, by omega⟩
        · exact (List.chain'_cons'.1 hchain).1 h e

theorem sortRows_spec (keys : List SortExpression) : ∀ rows : List Row,
    (∀ r ∈ rows, keysEvaluate keys r) →
    ∃ sorted, SortExecutor.sortRows (SortExecutor.compare keys) rows = .ok sorted ∧
      sorted.Perm rows ∧ sorted.Chain' (nonDecreasing keys) := by
  intro rows
  induction rows with
  | nil => intro _; exact ⟨[], rfl, List.Perm.refl _, List.chain'_nil⟩
  | cons row rest ih =>
    intro h
    obtain ⟨sorted, hs, hperm, hchain⟩ := ih (fun r hr => h r (List.mem_cons_of_mem _ hr))
    obtain ⟨result, hres, hperm2, hchain2, _⟩ :=
      insertSorted_spec keys row (h row (List.mem_cons_self _ _)) sorted
        (fun r hr => h r (List.mem_cons_of_mem _ (hperm.mem_iff.1 hr))) hchain
    refine ⟨result, ?_, hperm2.trans (List.Perm.cons row hperm), hchain2⟩
    simp only [SortExecutor.sortRows, hs, hres]

theorem execute_sort (keys : List SortExpression) (rows : List Row) (fuel : Nat) :
    ∀ (n pos : Nat), pos + n = rows.length →
      execute (n + 1) fuel (.sort keys rows pos) = .ok (rows.drop pos) := by
  intro n
  induction n with
  | zero =>
    intro pos h
    have hp : pos = rows.length := by omega
    subst hp
    rw [execute, Executor.next, if_pos rfl]
    simp
  | succ n ih =>
    intro pos h
    have hp : pos < rows.length := by omega
    rw [execute, Executor.next, if_neg (by omega), List.get?_eq_get hp]
    simp only
    rw [ih (pos + 1) (by omega)]
    simp only
    rw [List.drop_eq_getElem_cons hp]
    rfl

theorem strLt_trans : ∀ a b c : List Nat, strLt a b = true → strLt b c = true →
    strLt a c = true := by
  intro a
  induction a with
  | nil =>
    intro b c h1 h2
    cases b with
    | nil => simp [strLt] at h1
    | cons y ys =>
      cases c with
      | nil => simp [strLt] at h2
      | cons z zs => simp [strLt]
  | cons x xs ih =>
    intro b c h1 h2
    cases b with
    | nil => simp [strLt] at h1
    | cons y ys =>
      cases c with
      | nil => simp [strLt] at h2
      | cons z zs =>
        simp only [strLt] at h1 h2 ⊢
        by_cases hxy : x < y
        · by_cases hyz : y < z
          · have : x < z := by omega
            simp [this]
          · by_cases hzy : z < y
            · simp [hyz, hzy] at h2
            · have : x < z := by omega
              simp [this]
        · by_cases hyx : y < x
          · simp [hxy, hyx] at h1
          · simp only [hxy, hyx, if_false] at h1
            have hxy2 : x = y := by omega
            subst hxy2
            by_cases hxz : x < z
            · simp [hxz]
            · by_cases hzx : z < x
              · simp [hxz, hzx] at h2
              · simp only [hxz, hzx, if_false] at h2 ⊢
                exact ih ys zs h1 h2

theorem Value.lt_trans (a b c : Value) (h1 : a.lt b = true) (h2 : b.lt c = true) :
    a.lt c = true := by
  cases a <;> cases b <;> cases c <;> simp [Value.lt, Value.index] at h1 h2 ⊢
  · simp_all
  · omega
  · omega
  · exact strLt_trans _ _ _ h1 h2

theorem compareValue_eq_neg_one_iff (a b : Value) : compareValue a b = -1 ↔ a.lt b = true := by
  unfold compareValue
  by_cases h : a.lt b = true
  · simp [h]
  · have h0 : a.lt b = false := by simpa using h
    by_cases hab : a = b
    · simp [h0, hab]
    · simp [h0, hab]

theorem compareValue_eq_zero_iff (a b : Value) : compareValue a b = 0 ↔ a = b := by
  unfold compareValue
  by_cases h : a.lt b = true
  · have := (Value.lt_asymm a b h).2
    simp [h, this]
  · have h0 : a.lt b = false := by simpa using h
    by_cases hab : a = b
    · subst hab
      simp [h0]
    · simp [h0, hab]

theorem compareValue_trans (a b c : Value) (h1 : compareValue a b = -1)
    (h2 : compareValue b c = -1) : compareValue a c = -1 := by
  rw [compareValue_eq_neg_one_iff] at h1 h2 ⊢
  exact Value.lt_trans a b c h1 h2

theorem compositeCompare_self (keys : List SortExpression) (a : Row)
    (ha : keysEvaluate keys a) : compositeCompare keys a a = .ok 0 := by
  induction keys with
  | nil => rfl
  | cons key keys ih =>
    obtain ⟨va, hva⟩ := ha key (List.mem_cons_self _ _)
    simp only [compositeCompare, hva, (compareValue_eq_zero_iff va va).2 rfl, if_true]
    exact ih (fun k hk => ha k (List.mem_cons_of_mem _ hk))

theorem compositeCompare_trans (keys : List SortExpression) (a b c : Row)
    (h1 : compositeCompare keys a b = .ok (-1)) (h2 : compositeCompare keys b c = .ok (-1)) :
    compositeCompare keys a c = .ok (-1) := by
  induction keys with
  | nil => simp [compositeCompare] at h1
  | cons key keys ih =>
    simp only [compositeCompare] at h1 h2 ⊢
    cases hva : key.expression.evaluate a with
    | error err => rw [hva] at h1; cases h1
    | ok va =>
      cases hvb : key.expression.evaluate b with
      | error err => rw [hva, hvb] at h1; cases h1
      | ok vb =>
        cases hvc : key.expression.evaluate c with
        | error err => rw [hvb, hvc] at h2; cases h2
        | ok vc =>
          rw [hva, hvb] at h1
          rw [hvb, hvc] at h2
          simp only at h1 h2 ⊢
          by_cases hab : compareValue va vb = 0
          · have e := (compareValue_eq_zero_iff va vb).1 hab
            subst e
            rw [if_pos hab] at h1
            by_cases hbc : compareValue va vc = 0
            · rw [if_pos hbc] at h2 ⊢
              exact ih h1 h2
            · rw [if_neg hbc] at h2 ⊢
              exact h2
          · rw [if_neg hab] at h1
            by_cases hbc : compareValue vb vc = 0
            · have e := (compareValue_eq_zero_iff vb vc).1 hbc
              subst e
              rw [if_neg hab]
              exact h1
            · rw [if_neg hbc] at h2
              have hba := compareValue_antisymm va vb
              have hcb := compareValue_antisymm vb vc
              have hca := compareValue_antisymm va vc
              have r1 := compareValue_range va vb
              have r2 := compareValue_range vb vc
              cases hd : key.desc with
              | false =>
                simp only [hd, Bool.false_eq_true, if_false, Except.ok.injEq] at h1 h2 ⊢
                have := compareValue_trans va vb vc h1 h2
                rw [this]
                simp
              | true =>
                simp only [hd, if_true, Except.ok.injEq] at h1 h2 ⊢
                have h3 : compareValue vc vb = -1 := by omega
                have h4 : compareValue vb va = -1 := by omega
                have := compareValue_trans vc vb va h3 h4
                have h5 : compareValue va vc = 1 := by omega
                rw [h5]
                simp

theorem compositeCompare_zero_trans (keys : List SortExpression) (a b c : Row)
    (h1 : compositeCompare keys a b = .ok 0) (h2 : compositeCompare keys b c = .ok 0) :
    compositeCompare keys a c = .ok 0 := by
  induction keys with
  | nil => rfl
  | cons key keys ih =>
    simp only [compositeCompare] at h1 h2 ⊢
    cases hva : key.expression.evaluate a with
    | error err => rw [hva] at h1; cases h1
    | ok va =>
      cases hvb : key.expression.evaluate b with
      | error err => rw [hva, hvb] at h1; cases h1
      | ok vb =>
        cases hvc : key.expression.evaluate c with
        | error err => rw [hvb, hvc] at h2; cases h2
        | ok vc =>
          rw [hva, hvb] at h1
          rw [hvb, hvc] at h2
          simp only at h1 h2 ⊢
          have r1 := compareValue_range va vb
          have r2 := compareValue_range vb vc
          by_cases hab : compareValue va vb = 0
          · have e := (compareValue_eq_zero_iff va vb).1 hab
            subst e
            rw [if_pos hab] at h1
            by_cases hbc : compareValue va vc = 0
            · rw [if_pos hbc] at h2 ⊢
              exact ih h1 h2
            · rw [if_neg hbc] at h2 ⊢
              exact h2
          · rw [if_neg hab] at h1
            exfalso
            cases hd : key.desc <;> simp [hd] at h1 <;> omega

theorem compare_strictWeakOrdering (keys : List SortExpression) (rows : List Row)
    (hkeys : ∀ row ∈ rows, keysEvaluate keys row) :
    StrictWeakOrdering (SortExecutor.compare keys) rows := by
  have hcc : ∀ a ∈ rows, ∀ b ∈ rows, ∃ c, compositeCompare keys a b = .ok c ∧
      (c = -1 ∨ c = 0 ∨ c = 1) ∧ SortExecutor.compare keys a b = .ok (decide (c = -1)) ∧
      compositeCompare keys b a = .ok (-c) := by
    intro a ha b hb
    obtain ⟨c, hc, hr⟩ := compositeCompare_ok keys a b (hkeys a ha) (hkeys b hb)
    exact ⟨c, hc, hr, compare_eq_compositeCompare keys a b c hc,
      compositeCompare_antisymm keys a b c hc⟩
  have hzero : ∀ a ∈ rows, ∀ b ∈ rows, SortExecutor.compare keys a b = .ok false →
      SortExecutor.compare keys b a = .ok false → compositeCompare keys a b = .ok 0 := by
    intro a ha b hb h1 h2
    obtain ⟨c, hc, hr, hless, hanti⟩ := hcc a ha b hb
    have hless2 := compare_eq_compositeCompare keys b a (-c) hanti
    rw [hless] at h1
    rw [hless2] at h2
    simp only [Except.ok.injEq, decide_eq_false_iff_not] at h1 h2
    have : c = 0 := by omega
    rw [hc, this]
  refine ⟨?_, ?_, ?_⟩
  · intro a ha
    rw [compare_eq_compositeCompare keys a a 0 (compositeCompare_self keys a (hkeys a ha))]
    rfl
  · intro a ha b hb c hc h1 h2
    obtain ⟨x, hx, _, hlx, _⟩ := hcc a ha b hb
    obtain ⟨y, hy, _, hly, _⟩ := hcc b hb c hc
    rw [hlx] at h1
    rw [hly] at h2
    simp only [Except.ok.injEq, decide_eq_true_eq] at h1 h2
    subst h1 h2
    rw [compare_eq_compositeCompare keys a c (-1) (compositeCompare_trans keys a b c hx hy)]
    rfl
  · intro a ha b hb c hc h1 h2 h3 h4
    have hab := hzero a ha b hb h1 h2
    have hbc := hzero b hb c hc h3 h4
    have hac := compositeCompare_zero_trans keys a b c hab hbc
    have hca := compositeCompare_antisymm keys a c 0 hac
    rw [compare_eq_compositeCompare keys a c 0 hac,
      compare_eq_compositeCompare keys c a (-0) hca]
    exact ⟨rfl, rfl⟩

theorem nonDecreasing_of_sorted (keys : List SortExpression) (rows out : List Row)
    (hkeys : ∀ row ∈ rows, keysEvaluate keys row) (hperm : out.Perm rows)
    (hsorted : out.Pairwise fun a b => SortExecutor.compare keys b a = .ok false) :
    out.Chain' (nonDecreasing keys) := by
  apply List.Pairwise.chain'
  refine hsorted.imp_of_mem ?_
  intro a b ha hb h
  have ha2 := hkeys a (hperm.mem_iff.1 ha)
  have hb2 := hkeys b (hperm.mem_iff.1 hb)
  obtain ⟨c, hc, hr⟩ := compositeCompare_ok keys b a hb2 ha2
  rw [compare_eq_compositeCompare keys b a c hc] at h
  simp only [Except.ok.injEq, decide_eq_false_iff_not] at h
  exact ⟨-c, by simpa using compositeCompare_antisymm keys b a c hc, by omega⟩

/-- C20: when the input executor's rows end with `std::nullopt` and the sort
keys evaluate on each of them, the `compare` lambda is a strict weak ordering
of these rows, as `std::sort` requires; every permutation of the rows in which
no row is less than an earlier one, which is what `std::sort` leaves, has every
row followed by a row not below it in the composite comparison (key by key with
`compareValue`, ascending for a key without `desc`, descending for one with);
and the Sort executor is built and returns such a permutation before its
`std::nullopt`. -/
theorem sort_yields_sorted_permutation (calls fuel : Nat) (input : Executor)
    (keys : List SortExpression) (rows : List Row)
    (hchild : execute calls fuel input = .ok rows)
    (hkeys : ∀ row ∈ rows, keysEvaluate keys row) :
    StrictWeakOrdering (SortExecutor.compare keys) rows ∧
    (∀ out : List Row, out.Perm rows →
      (out.Pairwise fun a b => SortExecutor.compare keys b a = .ok false) →
      out.Chain' (nonDecreasing keys)) ∧
    ∃ sorted, createSortExecutor calls fuel input keys = .ok (.sort keys sorted 0) ∧
      execute (sorted.length + 1) 0 (.sort keys sorted 0) = .ok sorted ∧
      sorted.Perm rows ∧ sorted.Chain' (nonDecreasing keys) := by
  obtain ⟨sorted, hs, hperm, hchain⟩ := sortRows_spec keys rows hkeys
  refine ⟨compare_strictWeakOrdering keys rows hkeys,
    fun out hp hsorted => nonDecreasing_of_sorted keys rows out hkeys hp hsorted,
    sorted, ?_, ?_, hperm, hchain⟩
  · simp only [createSortExecutor, hchild, hs]
  · have := execute_sort keys sorted 0 sorted.length 0 (by omega)
    simpa using this

theorem sort_yields_sorted_permutation_witness :
    createSortExecutor 5 0 (.sort [] sampleRows 0) sampleKeys =
      .ok (.sort sampleKeys
        [[.int64 1, .int64 2], [.int64 1, .int64 1], [.int64 2, .int64 3], [.int64 2, .int64 1]]
        0) ∧
    ∃ sorted, createSortExecutor 5 0 (.sort [] sampleRows 0) sampleKeys =
        .ok (.sort sampleKeys sorted 0) ∧
      execute (sorted.length + 1) 0 (.sort sampleKeys sorted 0) = .ok sorted ∧
      sorted.Perm sampleRows ∧ sorted.Chain' (nonDecreasing sampleKeys) :=
  ⟨rfl, (sort_yields_sorted_permutation 5 0 (.sort [] sampleRows 0) sampleKeys sampleRows
    (by decide)
    (by
      intro row hrow key hkey
      simp only [sampleRows, sampleKeys, List.mem_cons, List.mem_singleton, List.not_mem_nil,
        or_false] at hrow hkey
      rcases hrow with rfl | rfl | rfl | rfl <;> rcases hkey with rfl | rfl <;>
        exact ⟨_, rfl⟩)).2.2⟩

/-! ## C11 to C13: the clock cache -/

theorem lookup_eq_none_iff_not_mem {K : Type} [DecidableEq K] (l : List (K × Nat)) (k : K) :
    l.lookup k = none ↔ k ∉ l.map Prod.fst := by
  induction l with
  | nil => simp
  | cons p l ih =>
    obtain ⟨k2, v⟩ := p
    by_cases h : k = k2
    · subst h; simp [List.lookup_cons]
    · have hb : (k == k2) = false := by simpa using h
      simp [List.lookup_cons, hb, ih, h]

theorem mem_of_lookup_eq_some {K : Type} [DecidableEq K] (l : List (K × Nat)) (k : K) (i : Nat)
    (h : l.lookup k = some i) : (k, i) ∈ l := by
  induction l with
  | nil => simp at h
  | cons p l ih =>
    obtain ⟨k2, v⟩ := p
    by_cases hk : k = k2
    · subst hk
      simp only [List.lookup_cons_self, Option.some.injEq] at h
      subst h
      exact List.mem_cons_self _ _
    · have hb : (k == k2) = false := by simpa using hk
      simp only [List.lookup_cons, hb] at h
      exact List.mem_cons_of_mem _ (ih h)

theorem lookup_eq_some_of_mem {K : Type} [DecidableEq K] (l : List (K × Nat)) (k : K) (i : Nat)
    (hnodup : (l.map Prod.fst).Nodup) (h : (k, i) ∈ l) : l.lookup k = some i := by
  induction l with
  | nil => simp at h
  | cons p l ih =>
    obtain ⟨k2, v⟩ := p
    simp only [List.map_cons, List.nodup_cons] at hnodup
    rcases List.mem_cons.1 h with e | e
    · cases e; simp
    · have hk : k ≠ k2 := by
        intro e2; subst e2
        exact hnodup.1 (List.mem_map.2 ⟨(k, i), e, rfl⟩)
      have hb : (k == k2) = false := by simpa using hk
      simp only [List.lookup_cons, hb]
      exact ih hnodup.2 e

theorem ClockCache.assign_of_not_mem {K : Type} [DecidableEq K] (l : List (K × Nat)) (k : K) (t : Nat)
    (h : k ∉ l.map Prod.fst) : ClockCache.assign l k t = l ++ [(k, t)] := by
  induction l with
  | nil => rfl
  | cons p l ih =>
    obtain ⟨k2, v⟩ := p
    simp only [List.map_cons, List.mem_cons, not_or] at h
    simp only [ClockCache.assign, if_neg (Ne.symm h.1), ih h.2, List.cons_append]

theorem ClockCache.mem_eraseFrame {K : Type} (l : List (K × Nat)) (t : Nat)
    (hnodup : (l.map Prod.snd).Nodup) (p : K × Nat) :
    p ∈ ClockCache.eraseFrame l t ↔ p ∈ l ∧ p.2 ≠ t := by
  induction l with
  | nil => simp [ClockCache.eraseFrame]
  | cons q l ih =>
    obtain ⟨k2, v⟩ := q
    simp only [List.map_cons, List.nodup_cons] at hnodup
    by_cases hv : v = t
    · subst hv
      simp only [ClockCache.eraseFrame, if_true, List.mem_cons]
      constructor
      · intro hp
        refine ⟨Or.inr hp, ?_⟩
        intro e
        exact hnodup.1 (List.mem_map.2 ⟨p, hp, e⟩)
      · rintro ⟨hp | hp, hne⟩
        · subst hp; exact absurd rfl hne
        · exact hp
    · simp only [ClockCache.eraseFrame, if_neg hv, List.mem_cons, ih hnodup.2]
      constructor
      · rintro (hp | ⟨hp, hne⟩)
        · subst hp; exact ⟨Or.inl rfl, hv⟩
        · exact ⟨Or.inr hp, hne⟩
      · rintro ⟨hp | hp, hne⟩
        · exact Or.inl hp
        · exact Or.inr ⟨hp, hne⟩

theorem ClockCache.eraseFrame_sublist {K : Type} (l : List (K × Nat)) (t : Nat) :
    (ClockCache.eraseFrame l t).Sublist l := by
  induction l with
  | nil => exact List.Sublist.refl _
  | cons q l ih =>
    obtain ⟨k2, v⟩ := q
    by_cases hv : v = t
    · simp only [ClockCache.eraseFrame, if_pos hv]
      exact List.sublist_cons_self _ _
    · simp only [ClockCache.eraseFrame, if_neg hv]
      exact List.Sublist.cons₂ _ ih

theorem map_set_of_eq {α β : Type} (f : α → β) (l : List α) (i : Nat) (a b : α)
    (h : l[i]? = some a) (hf : f b = f a) : (l.set i b).map f = l.map f := by
  apply List.ext_getElem?
  intro j
  rw [List.getElem?_map, List.getElem?_map, List.getElem?_set]
  by_cases hij : i = j
  · subst hij
    have hi : i < l.length := by
      rcases List.getElem?_eq_some.1 h with ⟨hi, _⟩
      exact hi
    simp [hi, h, hf]
  · simp [hij]

theorem ClockCache.putScan_spec {K V : Type} : ∀ (fuel : Nat) (c m : ClockCache K V),
    ClockCache.putScan fuel c = .ok m →
    m.values = c.values ∧ m.ring.length = c.ring.length ∧
    m.ring.map Cell.lock = c.ring.map Cell.lock ∧
    m.ring.map Cell.value = c.ring.map Cell.value ∧
    ∃ cell, m.ring[m.time]? = some cell ∧ cell.amount = 0 ∧ cell.lock = false := by
  intro fuel
  induction fuel with
  | zero => intro c m h; simp [ClockCache.putScan] at h
  | succ fuel ih =>
    intro c m h
    rw [ClockCache.putScan] at h
    cases hcell : c.ring[c.time]? with
    | none => rw [hcell] at h; cases h
    | some cell =>
      rw [hcell] at h
      simp only at h
      by_cases h1 : cell.amount > 0
      · rw [if_pos h1] at h
        obtain ⟨hv, hl, hlock, hval, hex⟩ := ih _ _ h
        refine ⟨hv, ?_, ?_, ?_, hex⟩
        · simpa [ClockCache.advance] using hl
        · rw [hlock]
          exact map_set_of_eq Cell.lock c.ring c.time cell _ hcell rfl
        · rw [hval]
          exact map_set_of_eq Cell.value c.ring c.time cell _ hcell rfl
      · rw [if_neg h1] at h
        by_cases h2 : cell.amount = 0 ∧ cell.lock = false
        · rw [if_pos h2] at h
          cases h
          exact ⟨rfl, rfl, rfl, rfl, cell, hcell, h2.1, h2.2⟩
        · rw [if_neg h2] at h
          obtain ⟨hv, hl, hlock, hval, hex⟩ := ih _ _ h
          exact ⟨hv, hl, hlock, hval, hex⟩

theorem ClockCache.put_eq_putScan {K V : Type} [DecidableEq K] :
    ∀ (fuel : Nat) (c : ClockCache K V) (key : K),
    ClockCache.put fuel c key =
      match ClockCache.putScan fuel c with
      | .error err => .error err
      | .ok m =>
        match m.ring[m.time]? with
        | none => .error .undefined
        | some cell =>
          .ok (cell.value,
            { m with
              values := ClockCache.assign (ClockCache.eraseFrame m.values m.time) key m.time,
              ring := m.ring.set m.time { cell with amount := 1 } }) := by
  intro fuel
  induction fuel with
  | zero => intro c key; rfl
  | succ fuel ih =>
    intro c key
    rw [ClockCache.put, ClockCache.putScan]
    cases hcell : c.ring[c.time]? with
    | none => rfl
    | some cell =>
      simp only
      by_cases h1 : cell.amount > 0
      · rw [if_pos h1, if_pos h1]
        exact ih _ _
      · rw [if_neg h1, if_neg h1]
        by_cases h2 : cell.amount = 0 ∧ cell.lock = false
        · rw [if_pos h2, if_pos h2]
          simp only [hcell]
        · rw [if_neg h2, if_neg h2]
          exact ih _ _

/-- What a returning `put` does, read off the scan. -/
theorem ClockCache.put_spec {K V : Type} [DecidableEq K] (fuel : Nat) (c next : ClockCache K V)
    (key : K) (value : V) (h : ClockCache.put fuel c key = .ok (value, next)) :
    ∃ (m : ClockCache K V) (cell : Cell V), ClockCache.putScan fuel c = .ok m ∧
      m.ring[m.time]? = some cell ∧ cell.amount = 0 ∧ cell.lock = false ∧
      value = cell.value ∧
      next = { m with
        values := ClockCache.assign (ClockCache.eraseFrame m.values m.time) key m.time,
        ring := m.ring.set m.time { cell with amount := 1 } } := by
  rw [ClockCache.put_eq_putScan] at h
  cases hm : ClockCache.putScan fuel c with
  | error err => rw [hm] at h; cases h
  | ok m =>
    rw [hm] at h
    obtain ⟨_, _, _, _, cell, hcell, ha, hl⟩ := ClockCache.putScan_spec fuel c m hm
    simp only [hcell] at h
    cases h
    exact ⟨m, cell, rfl, hcell, ha, hl, rfl, rfl⟩

theorem ClockCache.lockBit_eq {K V : Type} (c : ClockCache K V) (i : Nat) :
    c.lockBit i = (c.ring.map Cell.lock)[i]? := by
  simp [ClockCache.lockBit]

theorem ClockCache.frameAt_eq {K V : Type} (c : ClockCache K V) (i : Nat) :
    c.frameAt i = (c.ring.map Cell.value)[i]? := by
  simp [ClockCache.frameAt]

theorem ClockCache.find_spec {K V : Type} [DecidableEq K] (c next : ClockCache K V) (key : K)
    (r : Option V) (h : c.find key = .ok (r, next)) :
    next.values = c.values ∧ next.time = c.time ∧ next.ring.length = c.ring.length ∧
      next.ring.map Cell.lock = c.ring.map Cell.lock ∧
      next.ring.map Cell.value = c.ring.map Cell.value := by
  unfold ClockCache.find at h
  cases hl : c.values.lookup key with
  | none =>
    rw [hl] at h
    cases h
    exact ⟨rfl, rfl, rfl, rfl, rfl⟩
  | some index =>
    rw [hl] at h
    simp only at h
    cases hcell : c.ring[index]? with
    | none => rw [hcell] at h; cases h
    | some cell =>
      rw [hcell] at h
      simp only at h
      split at h
      · cases h
        exact ⟨rfl, rfl, by simp, map_set_of_eq Cell.lock c.ring index cell _ hcell rfl,
          map_set_of_eq Cell.value c.ring index cell _ hcell rfl⟩
      · cases h

theorem ClockCache.setLock_spec {K V : Type} [DecidableEq K] (c next : ClockCache K V) (key : K)
    (b : Bool) (index : Nat) (hres : c.values.lookup key = some index)
    (h : c.setLock key b = .ok next) :
    next.values = c.values ∧ next.time = c.time ∧ next.ring.length = c.ring.length ∧
      next.ring.map Cell.lock = (c.ring.map Cell.lock).set index b ∧
      next.ring.map Cell.value = c.ring.map Cell.value := by
  unfold ClockCache.setLock at h
  have hi : ClockCache.indexOf c.values key = (index, c.values) := by
    simp only [ClockCache.indexOf, hres]
  rw [hi] at h
  simp only at h
  cases hcell : c.ring[index]? with
  | none => rw [hcell] at h; cases h
  | some cell =>
    rw [hcell] at h
    cases h
    exact ⟨rfl, rfl, by simp, by simp [List.map_set],
      map_set_of_eq Cell.value c.ring index cell _ hcell rfl⟩

theorem ClockCache.put_fresh_spec {K V : Type} [DecidableEq K] (fuel : Nat)
    (c next : ClockCache K V) (key : K) (value : V)
    (hfresh : c.values.lookup key = none) (h : c.put fuel key = .ok (value, next)) :
    next.values = ClockCache.eraseFrame c.values next.time ++ [(key, next.time)] ∧
      next.time < c.ring.length ∧ next.ring.length = c.ring.length ∧
      next.ring.map Cell.lock = c.ring.map Cell.lock ∧
      next.ring.map Cell.value = c.ring.map Cell.value ∧
      c.lockBit next.time = some false ∧ c.frameAt next.time = some value := by
  obtain ⟨m, cell, hm, hcell, _, hlock, hvalue, hnext⟩ := ClockCache.put_spec fuel c next key value h
  obtain ⟨hv, hlen, hlocks, hvals, _⟩ := ClockCache.putScan_spec fuel c m hm
  have hkey : key ∉ (ClockCache.eraseFrame c.values m.time).map Prod.fst := by
    intro hmem
    exact (lookup_eq_none_iff_not_mem c.values key).1 hfresh
      (((ClockCache.eraseFrame_sublist c.values m.time).map Prod.fst).subset hmem)
  have ht : m.time < m.ring.length := by
    rcases List.getElem?_eq_some.1 hcell with ⟨hi, _⟩
    exact hi
  subst hnext
  refine ⟨?_, ?_, ?_, ?_, ?_, ?_, ?_⟩
  · simp only [hv]
    exact ClockCache.assign_of_not_mem _ _ _ hkey
  · simpa [hlen] using ht
  · simpa using hlen
  · rw [← hlocks]
    exact map_set_of_eq Cell.lock m.ring m.time cell _ hcell rfl
  · rw [← hvals]
    exact map_set_of_eq Cell.value m.ring m.time cell _ hcell rfl
  · rw [ClockCache.lockBit_eq, ← hlocks, List.getElem?_map, hcell]
    simp [hlock]
  · rw [ClockCache.frameAt_eq, ← hvals, List.getElem?_map, hcell]
    simp [hvalue]

theorem ClockCache.step_inv {K V : Type} [DecidableEq K] (fuel : Nat) (c next : ClockCache K V)
    (op : CacheOp K) (r : Option V) (hinv : c.Inv) (hallowed : c.allowed op = true)
    (h : c.step fuel op = .ok (r, next)) :
    next.Inv ∧ next.ring.map Cell.value = c.ring.map Cell.value ∧
      (∀ i, i ∈ next.values.map Prod.snd ↔
        i ∈ c.values.map Prod.snd ∨ ((∃ key, op = .put key) ∧ i = next.time)) := by
  obtain ⟨hkeys, hidx, hrange⟩ := hinv
  cases op with
  | find key =>
    simp only [ClockCache.step] at h
    obtain ⟨hv, _, hlen, _, hval⟩ := ClockCache.find_spec c next key r h
    refine ⟨⟨by rw [hv]; exact hkeys, by rw [hv]; exact hidx, by rw [hv, hlen]; exact hrange⟩,
      hval, ?_⟩
    intro i
    rw [hv]
    simp
  | lock key =>
    simp only [ClockCache.step, ClockCache.lock] at h
    cases hs : c.setLock key true with
    | error err => rw [hs] at h; cases h
    | ok n =>
      rw [hs] at h
      cases h
      simp only [ClockCache.allowed, ClockCache.resident, Option.isSome_iff_exists] at hallowed
      obtain ⟨index, hres⟩ := hallowed
      obtain ⟨hv, _, hlen, _, hval⟩ := ClockCache.setLock_spec c next key true index hres hs
      refine ⟨⟨by rw [hv]; exact hkeys, by rw [hv]; exact hidx, by rw [hv, hlen]; exact hrange⟩,
        hval, ?_⟩
      intro i
      rw [hv]
      simp
  | unlock key =>
    simp only [ClockCache.step, ClockCache.unlock] at h
    cases hs : c.setLock key false with
    | error err => rw [hs] at h; cases h
    | ok n =>
      rw [hs] at h
      cases h
      simp only [ClockCache.allowed, ClockCache.resident, Option.isSome_iff_exists] at hallowed
      obtain ⟨index, hres⟩ := hallowed
      obtain ⟨hv, _, hlen, _, hval⟩ := ClockCache.setLock_spec c next key false index hres hs
      refine ⟨⟨by rw [hv]; exact hkeys, by rw [hv]; exact hidx, by rw [hv, hlen]; exact hrange⟩,
        hval, ?_⟩
      intro i
      rw [hv]
      simp
  | put key =>
    simp only [ClockCache.step] at h
    cases hp : c.put fuel key with
    | error err => rw [hp] at h; cases h
    | ok p =>
      obtain ⟨value, n⟩ := p
      rw [hp] at h
      cases h
      have hfresh : c.values.lookup key = none := by
        simpa [ClockCache.allowed, ClockCache.resident] using hallowed
      obtain ⟨hv, ht, hlen, _, hval, _, _⟩ :=
        ClockCache.put_fresh_spec fuel c next key value hfresh hp
      have hsub := ClockCache.eraseFrame_sublist c.values next.time
      have hkey : key ∉ (ClockCache.eraseFrame c.values next.time).map Prod.fst := fun hmem =>
        (lookup_eq_none_iff_not_mem c.values key).1 hfresh ((hsub.map Prod.fst).subset hmem)
      have hmem := ClockCache.mem_eraseFrame c.values next.time hidx
      have htime : next.time ∉ (ClockCache.eraseFrame c.values next.time).map Prod.snd := by
        intro hm
        obtain ⟨p, hp1, hp2⟩ := List.mem_map.1 hm
        exact ((hmem p).1 hp1).2 hp2
      refine ⟨⟨?_, ?_, ?_⟩, hval, ?_⟩
      · rw [hv, List.map_append, List.nodup_append]
        refine ⟨hkeys.sublist (hsub.map Prod.fst), by simp, ?_⟩
        intro a ha hb
        simp only [List.map_cons, List.map_nil, List.mem_singleton] at hb
        subst hb
        exact hkey ha
      · rw [hv, List.map_append, List.nodup_append]
        refine ⟨hidx.sublist (hsub.map Prod.snd), by simp, ?_⟩
        intro a ha hb
        simp only [List.map_cons, List.map_nil, List.mem_singleton] at hb
        subst hb
        exact htime ha
      · intro p hp1
        rw [hv, List.mem_append] at hp1
        rw [hlen]
        rcases hp1 with hp1 | hp1
        · exact hrange p (hsub.subset hp1)
        · simp only [List.mem_singleton] at hp1
          subst hp1
          exact ht
      · intro i
        rw [hv]
        simp only [List.map_append, List.mem_append, List.map_cons, List.map_nil,
          List.mem_singleton, List.mem_map]
        constructor
        · rintro (⟨p, hp1, hp2⟩ | hi)
          · exact Or.inl ⟨p, ((hmem p).1 hp1).1, hp2⟩
          · exact Or.inr ⟨⟨key, rfl⟩, hi⟩
        · rintro (⟨p, hp1, hp2⟩ | ⟨_, hi⟩)
          · by_cases hi : i = next.time
            · exact Or.inr hi
            · exact Or.inl ⟨p, (hmem p).2 ⟨hp1, by rw [hp2]; exact hi⟩, hp2⟩
          · exact Or.inr hi

theorem ClockCache.step_locked {K V : Type} [DecidableEq K] (fuel : Nat)
    (c next : ClockCache K V) (op : CacheOp K) (r : Option V) (k : K) (i : Nat)
    (hinv : c.Inv) (hallowed : c.allowed op = true) (hop : op ≠ .unlock k)
    (hk : c.values.lookup k = some i) (hlock : c.lockBit i = some true)
    (h : c.step fuel op = .ok (r, next)) :
    next.values.lookup k = some i ∧ next.lockBit i = some true ∧
      (∀ key, op = .put key → next.time ≠ i ∧ c.frameAt next.time = r) := by
  obtain ⟨hkeys, hidx, hrange⟩ := hinv
  have hki := mem_of_lookup_eq_some c.values k i hk
  rw [ClockCache.lockBit_eq] at hlock ⊢
  cases op with
  | find key =>
    simp only [ClockCache.step] at h
    obtain ⟨hv, _, _, hl, _⟩ := ClockCache.find_spec c next key r h
    rw [hv, hl]
    exact ⟨hk, hlock, fun key hkey => by cases hkey⟩
  | lock key =>
    simp only [ClockCache.step, ClockCache.lock] at h
    cases hs : c.setLock key true with
    | error err => rw [hs] at h; cases h
    | ok n =>
      rw [hs] at h
      cases h
      simp only [ClockCache.allowed, ClockCache.resident, Option.isSome_iff_exists] at hallowed
      obtain ⟨index, hres⟩ := hallowed
      obtain ⟨hv, _, _, hl, _⟩ := ClockCache.setLock_spec c next key true index hres hs
      rw [hv, hl]
      refine ⟨hk, ?_, fun key hkey => by cases hkey⟩
      rw [List.getElem?_set]
      by_cases hi : index = i
      · subst hi
        have : index < (c.ring.map Cell.lock).length := by
          rcases List.getElem?_eq_some.1 hlock with ⟨hlt, _⟩
          exact hlt
        have hlt : index < c.ring.length := by simpa using this
        simp [hlt]
      · simp [hi, hlock]
  | unlock key =>
    simp only [ClockCache.step, ClockCache.unlock] at h
    cases hs : c.setLock key false with
    | error err => rw [hs] at h; cases h
    | ok n =>
      rw [hs] at h
      cases h
      simp only [ClockCache.allowed, ClockCache.resident, Option.isSome_iff_exists] at hallowed
      obtain ⟨index, hres⟩ := hallowed
      obtain ⟨hv, _, _, hl, _⟩ := ClockCache.setLock_spec c next key false index hres hs
      rw [hv, hl]
      refine ⟨hk, ?_, fun key hkey => by cases hkey⟩
      have hne : index ≠ i := by
        intro e
        subst e
        have hmem := mem_of_lookup_eq_some c.values key index hres
        have := List.inj_on_of_nodup_map hidx hmem hki rfl
        have hkk : key = k := congrArg Prod.fst this
        exact hop (by rw [hkk])
      rw [List.getElem?_set_ne hne]
      exact hlock
  | put key =>
    simp only [ClockCache.step] at h
    cases hp : c.put fuel key with
    | error err => rw [hp] at h; cases h
    | ok p =>
      obtain ⟨value, n⟩ := p
      rw [hp] at h
      cases h
      have hfresh : c.values.lookup key = none := by
        simpa [ClockCache.allowed, ClockCache.resident] using hallowed
      obtain ⟨hv, ht, hlen, hl, hval, hbit, hframe⟩ :=
        ClockCache.put_fresh_spec fuel c next key value hfresh hp
      have hne : next.time ≠ i := by
        intro e
        rw [ClockCache.lockBit_eq, e, hlock] at hbit
        cases hbit
      have hsub := ClockCache.eraseFrame_sublist c.values next.time
      have hkey : key ∉ (ClockCache.eraseFrame c.values next.time).map Prod.fst := fun hmem =>
        (lookup_eq_none_iff_not_mem c.values key).1 hfresh ((hsub.map Prod.fst).subset hmem)
      refine ⟨?_, by rw [hl]; exact hlock, ?_⟩
      · apply lookup_eq_some_of_mem
        · rw [hv, List.map_append, List.nodup_append]
          refine ⟨hkeys.sublist (hsub.map Prod.fst), by simp, ?_⟩
          intro a ha hb
          simp only [List.map_cons, List.map_nil, List.mem_singleton] at hb
          subst hb
          exact hkey ha
        · rw [hv, List.mem_append]
          exact Or.inl ((ClockCache.mem_eraseFrame c.values next.time hidx (k, i)).2
            ⟨hki, fun e => hne e.symm⟩)
      · intro key2 _
        exact ⟨hne, hframe⟩

theorem ClockCache.run_inv {K V : Type} [DecidableEq K] (fuel : Nat) :
    ∀ (ops : List (CacheOp K)) (c : ClockCache K V) (outcomes : List (Option V × ClockCache K V)),
    c.Inv → c.run fuel ops = .ok outcomes → c.allowedRun ops outcomes = true →
    (c.finalState outcomes).Inv ∧
      (c.finalState outcomes).ring.map Cell.value = c.ring.map Cell.value ∧
      (∀ i, i ∈ (c.finalState outcomes).values.map Prod.snd ↔
        i ∈ c.values.map Prod.snd ∨ i ∈ ClockCache.handedOut ops outcomes) := by
  intro ops
  induction ops with
  | nil =>
    intro c outcomes hinv h _
    simp only [ClockCache.run] at h
    cases h
    simp [ClockCache.finalState, ClockCache.handedOut, hinv]
  | cons op ops ih =>
    intro c outcomes hinv h hall
    simp only [ClockCache.run] at h
    cases hs : c.step fuel op with
    | error err => rw [hs] at h; cases h
    | ok p =>
      obtain ⟨r, next⟩ := p
      rw [hs] at h
      simp only at h
      cases hr : next.run fuel ops with
      | error err => rw [hr] at h; cases h
      | ok rest =>
        rw [hr] at h
        cases h
        simp only [ClockCache.allowedRun, Bool.and_eq_true] at hall
        obtain ⟨hstep, hval, hidx⟩ := ClockCache.step_inv fuel c next op r hinv hall.1 hs
        obtain ⟨hinv2, hval2, hidx2⟩ := ih next rest hstep hr hall.2
        have hfinal : c.finalState ((r, next) :: rest) = next.finalState rest := rfl
        rw [hfinal]
        refine ⟨hinv2, hval2.trans hval, ?_⟩
        intro i
        rw [hidx2, hidx]
        cases op with
        | put key =>
          simp only [ClockCache.handedOut, List.mem_cons]
          constructor
          · rintro ((h1 | ⟨_, h1⟩) | h1)
            · exact Or.inl h1
            · exact Or.inr (Or.inl h1)
            · exact Or.inr (Or.inr h1)
          · rintro (h1 | h1 | h1)
            · exact Or.inl (Or.inl h1)
            · exact Or.inl (Or.inr ⟨⟨key, rfl⟩, h1⟩)
            · exact Or.inr h1
        | find key => simp [ClockCache.handedOut]
        | lock key => simp [ClockCache.handedOut]
        | unlock key => simp [ClockCache.handedOut]

theorem ClockCache.run_locked {K V : Type} [DecidableEq K] (fuel : Nat) (k : K) (i : Nat) :
    ∀ (ops : List (CacheOp K)) (c : ClockCache K V) (outcomes : List (Option V × ClockCache K V)),
    c.Inv → c.values.lookup k = some i → c.lockBit i = some true →
    c.run fuel ops = .ok outcomes → c.allowedRun ops outcomes = true → CacheOp.unlock k ∉ ops →
    ∀ p ∈ ops.zip outcomes, p.2.2.values.lookup k = some i ∧ p.2.2.lockBit i = some true ∧
      p.2.2.ring.map Cell.value = c.ring.map Cell.value ∧
      ∀ key, p.1 = .put key → p.2.2.time ≠ i ∧ (c.ring.map Cell.value)[p.2.2.time]? = p.2.1 := by
  intro ops
  induction ops with
  | nil => intro c outcomes _ _ _ _ _ _ p hp; simp at hp
  | cons op ops ih =>
    intro c outcomes hinv hk hlock h hall hno p hp
    simp only [ClockCache.run] at h
    cases hs : c.step fuel op with
    | error err => rw [hs] at h; cases h
    | ok q =>
      obtain ⟨r, next⟩ := q
      rw [hs] at h
      simp only at h
      cases hr : next.run fuel ops with
      | error err => rw [hr] at h; cases h
      | ok rest =>
        rw [hr] at h
        cases h
        simp only [ClockCache.allowedRun, Bool.and_eq_true] at hall
        simp only [List.mem_cons, not_or] at hno
        obtain ⟨hinv2, hval, _⟩ := ClockCache.step_inv fuel c next op r hinv hall.1 hs
        obtain ⟨hk2, hlock2, hput⟩ :=
          ClockCache.step_locked fuel c next op r k i hinv hall.1 (Ne.symm hno.1) hk hlock hs
        simp only [List.zip_cons_cons, List.mem_cons] at hp
        rcases hp with hp | hp
        · subst hp
          refine ⟨hk2, hlock2, hval, ?_⟩
          intro key hkey
          obtain ⟨h1, h2⟩ := hput key hkey
          exact ⟨h1, by rw [← ClockCache.frameAt_eq]; exact h2⟩
        · have := ih next rest hinv2 hk2 hlock2 hr hall.2 hno.2 p hp
          rw [hval] at this
          exact this

theorem getElem?_ne_of_nodup {α : Type} (l : List α) (hnodup : l.Nodup) (a b : Nat) (v : α)
    (hab : a ≠ b) (ha : l[a]? = some v) : l[b]? ≠ some v := by
  intro hb
  rcases List.getElem?_eq_some.1 ha with ⟨hla, hva⟩
  rcases List.getElem?_eq_some.1 hb with ⟨hlb, hvb⟩
  exact hab ((List.Nodup.getElem_inj_iff hnodup).1 (hva.trans hvb.symm))

theorem ClockCache.create_inv {K V : Type} [DecidableEq K] (free_values : List V) :
    (ClockCache.create free_values : ClockCache K V).Inv := by
  simp [ClockCache.Inv, ClockCache.create]

theorem ClockCache.create_frames {K V : Type} [DecidableEq K] (free_values : List V) :
    (ClockCache.create free_values : ClockCache K V).ring.map Cell.value = free_values := by
  simp [ClockCache.create, List.map_map, Function.comp_def]

/-- C11, counterexample: with the two frames 100 and 101, key 1 is put into
frame 100 and locked and never unlocked.  After `unlock(2)` for the key 2 that
is not resident, the second `put` after it returns frame 100; after `put(1)`
for the resident key 1, the next `put` removes key 1 from the resident map. -/
theorem locked_key_evicted :
    (twoFrames.outcomesOf 10 [.put 1, .lock 1]).map Prod.fst = [some 100, none] ∧
    lockedOne.values.lookup 1 = some 0 ∧ lockedOne.lockBit 0 = some true ∧
    lockedOne.frameAt 0 = some 100 ∧
    (lockedOne.outcomesOf 10 [.unlock 2, .put 3, .put 4]).map Prod.fst =
      [none, some 101, some 100] ∧
    (lockedOne.outcomesOf 10 [.put 1, .put 3]).map Prod.fst = [some 101, some 101] ∧
    (lockedOne.finalState (lockedOne.outcomesOf 10 [.put 1, .put 3])).values.lookup 1 = none := by
  decide

/-- C11, amended: the frame `put` takes has reference counter 0 and lock bit
false when it is taken.  In a state reached from construction with `put` called
only for keys that are not resident and `lock` and `unlock` only for resident
keys, let key `k` be resident in frame `i` with the lock bit of `i` set; then
after every further such call other than `unlock(k)`, `k` is still resident in
frame `i`, the lock bit of `i` is still set, and no `put` has taken frame `i`
or, the frames being distinct, returned its value. -/
theorem locked_frame_not_taken {K V : Type} [DecidableEq K] :
    (∀ (fuel : Nat) (c next : ClockCache K V) (key : K) (value : V),
      c.put fuel key = .ok (value, next) →
      ∃ (m : ClockCache K V) (cell : Cell V), c.putScan fuel = .ok m ∧
        m.ring[m.time]? = some cell ∧ cell.amount = 0 ∧ cell.lock = false ∧
        value = cell.value ∧ next.time = m.time) ∧
    (∀ (free_values : List V) (fuel0 fuel : Nat) (ops0 ops : List (CacheOp K))
      (outcomes0 outcomes : List (Option V × ClockCache K V)) (k : K) (i : Nat),
      (ClockCache.create free_values).run fuel0 ops0 = .ok outcomes0 →
      (ClockCache.create free_values).allowedRun ops0 outcomes0 = true →
      ((ClockCache.create free_values).finalState outcomes0).values.lookup k = some i →
      ((ClockCache.create free_values).finalState outcomes0).lockBit i = some true →
      ((ClockCache.create free_values).finalState outcomes0).run fuel ops = .ok outcomes →
      ((ClockCache.create free_values).finalState outcomes0).allowedRun ops outcomes = true →
      CacheOp.unlock k ∉ ops →
      ∀ p ∈ ops.zip outcomes,
        p.2.2.values.lookup k = some i ∧ p.2.2.lockBit i = some true ∧
        ∀ key, p.1 = .put key →
          p.2.2.time ≠ i ∧ (free_values.Nodup → p.2.1 ≠ p.2.2.frameAt i)) := by
  refine ⟨?_, ?_⟩
  · intro fuel c next key value h
    obtain ⟨m, cell, hm, hcell, ha, hl, hv, hnext⟩ := ClockCache.put_spec fuel c next key value h
    exact ⟨m, cell, hm, hcell, ha, hl, hv, by rw [hnext]⟩
  · intro free_values fuel0 fuel ops0 ops outcomes0 outcomes k i hrun0 hall0 hk hlock hrun hall hno
      p hp
    obtain ⟨hinv, hframes, _⟩ := ClockCache.run_inv fuel0 ops0 (ClockCache.create free_values)
      outcomes0 (ClockCache.create_inv free_values) hrun0 hall0
    rw [ClockCache.create_frames] at hframes
    obtain ⟨h1, h2, hf, h3⟩ := ClockCache.run_locked fuel k i ops _ outcomes hinv hk hlock hrun
      hall hno p hp
    refine ⟨h1, h2, ?_⟩
    intro key hkey
    obtain ⟨hne, hval⟩ := h3 key hkey
    refine ⟨hne, ?_⟩
    intro hnodup heq
    rw [hframes] at hval hf
    rw [ClockCache.frameAt_eq, hf] at heq
    rw [ClockCache.lockBit_eq] at h2
    have hi : i < free_values.length := by
      rcases List.getElem?_eq_some.1 h2 with ⟨hlt, _⟩
      have hlen := congrArg List.length hf
      simp only [List.length_map] at hlen hlt
      omega
    have hsome : free_values[i]? = some free_values[i] := List.getElem?_eq_getElem hi
    rw [heq, hsome] at hval
    exact getElem?_ne_of_nodup free_values hnodup _ _ _ hne hval hsome

theorem locked_frame_not_taken_witness :
    (lockedOne.finalState (lockedOne.outcomesOf 10 [.put 3, .unlock 3, .find 1, .put 4])).values.lookup
        1 = some 0 ∧
      (lockedOne.finalState (lockedOne.outcomesOf 10 [.put 3, .unlock 3, .find 1, .put 4])).lockBit
        0 = some true ∧
      (lockedOne.finalState (lockedOne.outcomesOf 10 [.put 3, .unlock 3, .find 1, .put 4])).time ≠
        0 ∧
      some 101 ≠
        (lockedOne.finalState
          (lockedOne.outcomesOf 10 [.put 3, .unlock 3, .find 1, .put 4])).frameAt 0 := by
  have h := locked_frame_not_taken.2 [100, 101] 10 10 [.put 1, .lock 1]
    [.put 3, .unlock 3, .find 1, .put 4] (twoFrames.outcomesOf 10 [.put 1, .lock 1])
    (lockedOne.outcomesOf 10 [.put 3, .unlock 3, .find 1, .put 4]) 1 0
    (by decide) (by decide) (by decide) (by decide) (by decide) (by decide) (by decide)
    (CacheOp.put 4,
      (some 101, lockedOne.finalState (lockedOne.outcomesOf 10 [.put 3, .unlock 3, .find 1, .put 4])))
    (by decide)
  exact ⟨h.1, h.2.1, (h.2.2 4 rfl).1, (h.2.2 4 rfl).2 (by decide)⟩

theorem ClockCache.mem_assign {K : Type} [DecidableEq K] (l : List (K × Nat)) (key : K) (t : Nat)
    (p : K × Nat) (h : p ∈ ClockCache.assign l key t) : p ∈ l ∨ p = (key, t) := by
  induction l with
  | nil =>
    simp only [ClockCache.assign, List.mem_singleton] at h
    exact Or.inr h
  | cons q l ih =>
    obtain ⟨k2, v⟩ := q
    by_cases hk : k2 = key
    · simp only [ClockCache.assign, if_pos hk, List.mem_cons] at h
      rcases h with h | h
      · right; rw [h, hk]
      · left; exact List.mem_cons_of_mem _ h
    · simp only [ClockCache.assign, if_neg hk, List.mem_cons] at h
      rcases h with h | h
      · left; rw [h]; exact List.mem_cons_self _ _
      · rcases ih h with h2 | h2
        · left; exact List.mem_cons_of_mem _ h2
        · right; exact h2

theorem ClockCache.putScan_wellFormed {K V : Type} : ∀ (fuel : Nat) (c m : ClockCache K V),
    c.WellFormed → ClockCache.putScan fuel c = .ok m → m.WellFormed := by
  intro fuel
  induction fuel with
  | zero => intro c m _ h; simp [ClockCache.putScan] at h
  | succ fuel ih =>
    intro c m hwf h
    rw [ClockCache.putScan] at h
    cases hcell : c.ring[c.time]? with
    | none => rw [hcell] at h; cases h
    | some cell =>
      rw [hcell] at h
      simp only at h
      have hmem : cell ∈ c.ring := List.getElem?_mem hcell
      by_cases h1 : cell.amount > 0
      · rw [if_pos h1] at h
        refine ih _ _ ?_ h
        refine ⟨fun p hp => by simpa [ClockCache.advance] using hwf.1 p hp, ?_⟩
        intro x hx
        simp only [ClockCache.advance] at hx
        rcases List.mem_or_eq_of_mem_set hx with hx | hx
        · exact hwf.2 x hx
        · subst hx
          have := hwf.2 cell hmem
          simp only
          omega
      · rw [if_neg h1] at h
        by_cases h2 : cell.amount = 0 ∧ cell.lock = false
        · rw [if_pos h2] at h
          cases h
          exact hwf
        · rw [if_neg h2] at h
          exact ih _ _ ⟨fun p hp => by simpa [ClockCache.advance] using hwf.1 p hp,
            fun x hx => hwf.2 x (by simpa [ClockCache.advance] using hx)⟩ h

theorem ClockCache.step_wellFormed {K V : Type} [DecidableEq K] (fuel : Nat)
    (c next : ClockCache K V) (op : CacheOp K) (r : Option V) (hwf : c.WellFormed)
    (h : c.step fuel op = .ok (r, next)) : next.WellFormed := by
  have hset : ∀ (key : K) (b : Bool) (n : ClockCache K V), c.setLock key b = .ok n →
      n.WellFormed := by
    intro key b n hs
    unfold ClockCache.setLock at hs
    cases hcell : c.ring[(ClockCache.indexOf c.values key).1]? with
    | none => rw [hcell] at hs; cases hs
    | some cell =>
      rw [hcell] at hs
      cases hs
      have hmem : cell ∈ c.ring := List.getElem?_mem hcell
      refine ⟨?_, ?_⟩
      · intro p hp
        simp only [List.length_set]
        simp only [ClockCache.indexOf] at hp hcell
        cases hl : c.values.lookup key with
        | some index =>
          rw [hl] at hp
          exact hwf.1 p hp
        | none =>
          rw [hl] at hp hcell
          simp only [List.mem_append, List.mem_singleton] at hp
          rcases hp with hp | hp
          · exact hwf.1 p hp
          · subst hp
            rcases List.getElem?_eq_some.1 hcell with ⟨hlt, _⟩
            exact hlt
      · intro x hx
        rcases List.mem_or_eq_of_mem_set hx with hx | hx
        · exact hwf.2 x hx
        · subst hx
          exact hwf.2 cell hmem
  cases op with
  | find key =>
    simp only [ClockCache.step] at h
    unfold ClockCache.find at h
    cases hl : c.values.lookup key with
    | none =>
      rw [hl] at h
      cases h
      exact hwf
    | some index =>
      rw [hl] at h
      simp only at h
      cases hcell : c.ring[index]? with
      | none => rw [hcell] at h; cases h
      | some cell =>
        rw [hcell] at h
        simp only at h
        have hmem : cell ∈ c.ring := List.getElem?_mem hcell
        split at h
        · cases h
          refine ⟨fun p hp => by simpa using hwf.1 p hp, ?_⟩
          intro x hx
          rcases List.mem_or_eq_of_mem_set hx with hx | hx
          · exact hwf.2 x hx
          · subst hx
            have := hwf.2 cell hmem
            simp only
            omega
        · cases h
  | lock key =>
    simp only [ClockCache.step, ClockCache.lock] at h
    cases hs : c.setLock key true with
    | error err => rw [hs] at h; cases h
    | ok n =>
      rw [hs] at h
      cases h
      exact hset key true next hs
  | unlock key =>
    simp only [ClockCache.step, ClockCache.unlock] at h
    cases hs : c.setLock key false with
    | error err => rw [hs] at h; cases h
    | ok n =>
      rw [hs] at h
      cases h
      exact hset key false next hs
  | put key =>
    simp only [ClockCache.step] at h
    cases hp : c.put fuel key with
    | error err => rw [hp] at h; cases h
    | ok q =>
      obtain ⟨value, n⟩ := q
      rw [hp] at h
      cases h
      obtain ⟨m, cell, hm, hcell, _, _, _, hnext⟩ := ClockCache.put_spec fuel c next key value hp
      have hmwf := ClockCache.putScan_wellFormed fuel c m hwf hm
      have hmem : cell ∈ m.ring := List.getElem?_mem hcell
      subst hnext
      refine ⟨?_, ?_⟩
      · intro p hp1
        simp only [List.length_set]
        rcases ClockCache.mem_assign _ _ _ _ hp1 with hp2 | hp2
        · exact hmwf.1 p ((ClockCache.eraseFrame_sublist m.values m.time).subset hp2)
        · subst hp2
          rcases List.getElem?_eq_some.1 hcell with ⟨hlt, _⟩
          exact hlt
      · intro x hx
        rcases List.mem_or_eq_of_mem_set hx with hx | hx
        · exact hmwf.2 x hx
        · subst hx
          simp only
          omega

theorem ClockCache.run_wellFormed {K V : Type} [DecidableEq K] (fuel : Nat) :
    ∀ (ops : List (CacheOp K)) (c : ClockCache K V) (outcomes : List (Option V × ClockCache K V)),
    c.WellFormed → c.run fuel ops = .ok outcomes → (c.finalState outcomes).WellFormed := by
  intro ops
  induction ops with
  | nil =>
    intro c outcomes hwf h
    simp only [ClockCache.run] at h
    cases h
    exact hwf
  | cons op ops ih =>
    intro c outcomes hwf h
    simp only [ClockCache.run] at h
    cases hs : c.step fuel op with
    | error err => rw [hs] at h; cases h
    | ok p =>
      obtain ⟨r, next⟩ := p
      rw [hs] at h
      simp only at h
      cases hr : next.run fuel ops with
      | error err => rw [hr] at h; cases h
      | ok rest =>
        rw [hr] at h
        cases h
        exact ih next rest (ClockCache.step_wellFormed fuel c next op r hwf hs) hr

theorem ClockCache.create_wellFormed {K V : Type} (free_values : List V) :
    (ClockCache.create free_values : ClockCache K V).WellFormed := by
  refine ⟨by simp [ClockCache.create], ?_⟩
  intro cell hcell
  simp only [ClockCache.create, List.mem_map] at hcell
  obtain ⟨v, _, hv⟩ := hcell
  subst hv
  simp

theorem ClockCache.find_resident {K V : Type} [DecidableEq K] (c : ClockCache K V) (key : K)
    (index : Nat) (cell : Cell V) (hres : c.values.lookup key = some index)
    (hcell : c.ring[index]? = some cell) (hamount : cell.amount + 1 < 2147483648) :
    ∃ next, c.find key = .ok (some cell.value, next) ∧
      next.values = c.values ∧ next.time = c.time ∧
      next.ring[index]? =
        some { value := cell.value, amount := min 5 (cell.amount + 1), lock := cell.lock } ∧
      (∀ j, j ≠ index → next.ring[j]? = c.ring[j]?) ∧
      next.ring.length = c.ring.length := by
  have hi : index < c.ring.length := by
    rcases List.getElem?_eq_some.1 hcell with ⟨hlt, _⟩
    exact hlt
  refine ⟨{ c with
    ring := c.ring.set index ({ cell with amount := min 5 (cell.amount + 1) }) },
    ?_, rfl, rfl, ?_, ?_, ?_⟩
  · simp only [ClockCache.find, hres, hcell, if_pos hamount]
  · simp [hi]
  · intro j hj
    simp [List.getElem?_set_ne (Ne.symm hj)]
  · simp

/-- C12: in every state reached from construction by calls that return,
`find(k)` for a resident key returns found with the value of the frame the key
is mapped to and sets that frame's counter to `min(5, old + 1)`; the resident
map, the hand, the other frames and the value and lock bit of the frame stay as
they are.  For a key that is not resident it returns not found and the state
stays as it is. -/
theorem find_counts_reference {K V : Type} [DecidableEq K] (free_values : List V) (fuel : Nat)
    (ops : List (CacheOp K)) (outcomes : List (Option V × ClockCache K V)) (key : K)
    (hrun : (ClockCache.create free_values).run fuel ops = .ok outcomes) :
    (∀ index : Nat,
      ((ClockCache.create free_values).finalState outcomes).values.lookup key = some index →
      ∃ cell next,
        ((ClockCache.create free_values).finalState outcomes).ring[index]? = some cell ∧
        ((ClockCache.create free_values).finalState outcomes).find key =
          .ok (some cell.value, next) ∧
        next.values = ((ClockCache.create free_values).finalState outcomes).values ∧
        next.time = ((ClockCache.create free_values).finalState outcomes).time ∧
        next.ring[index]? =
          some { value := cell.value, amount := min 5 (cell.amount + 1), lock := cell.lock } ∧
        (∀ j, j ≠ index →
          next.ring[j]? = ((ClockCache.create free_values).finalState outcomes).ring[j]?) ∧
        next.ring.length = ((ClockCache.create free_values).finalState outcomes).ring.length) ∧
    (((ClockCache.create free_values).finalState outcomes).values.lookup key = none →
      ((ClockCache.create free_values).finalState outcomes).find key =
        .ok (none, (ClockCache.create free_values).finalState outcomes)) := by
  have hwf := ClockCache.run_wellFormed fuel ops (ClockCache.create free_values) outcomes
    (ClockCache.create_wellFormed free_values) hrun
  refine ⟨?_, ?_⟩
  · intro index hres
    have hlt := hwf.1 _ (mem_of_lookup_eq_some _ key index hres)
    have hcell := List.getElem?_eq_getElem hlt
    have hamount := hwf.2 _ (List.getElem?_mem hcell)
    obtain ⟨next, hnext⟩ := ClockCache.find_resident _ key index _ hres hcell (by omega)
    exact ⟨_, next, hcell, hnext⟩
  · intro hres
    simp only [ClockCache.find, hres]

theorem find_counts_reference_witness :
    ∃ cell next, lockedOne.ring[0]? = some cell ∧
      lockedOne.find 1 = .ok (some cell.value, next) ∧
      next.values = lockedOne.values ∧ next.time = lockedOne.time ∧
      next.ring[0]? =
        some { value := cell.value, amount := min 5 (cell.amount + 1), lock := cell.lock } ∧
      (∀ j, j ≠ 0 → next.ring[j]? = lockedOne.ring[j]?) ∧
      next.ring.length = lockedOne.ring.length :=
  (find_counts_reference [100, 101] 10 [.put 1, .lock 1]
    (twoFrames.outcomesOf 10 [.put 1, .lock 1]) 1 (by decide)).1 0 (by decide)

/-- C13, counterexample: after `put(1)` and `lock(2)` on two frames, `put`
having been called for a key that is not resident, the keys 1 and 2 are both
resident in frame 0: two resident keys for the one frame handed out. -/
theorem lock_of_absent_key_shares_frame :
    twoFrames.find 1 = .ok (none, twoFrames) ∧
    (twoFrames.outcomesOf 10 [.put 1, .lock 2]).map Prod.fst = [some 100, none] ∧
    (twoFrames.finalState (twoFrames.outcomesOf 10 [.put 1, .lock 2])).values.lookup 1 =
      some 0 ∧
    (twoFrames.finalState (twoFrames.outcomesOf 10 [.put 1, .lock 2])).values.lookup 2 =
      some 0 ∧
    ClockCache.handedOut [CacheOp.put 1, .lock 2]
      (twoFrames.outcomesOf 10 [.put 1, .lock 2]) = [0] := by
  decide

/-- C13, amended: in every state reached from construction by `find`, `put`
called only for keys that are not resident, and `lock` and `unlock` called only
for resident keys, no two resident keys are mapped to the same frame, and the
number of resident keys is the number of distinct frames handed out by `put`. -/
theorem resident_keys_distinct_frames {K V : Type} [DecidableEq K] (free_values : List V)
    (fuel : Nat) (ops : List (CacheOp K)) (outcomes : List (Option V × ClockCache K V))
    (hrun : (ClockCache.create free_values).run fuel ops = .ok outcomes)
    (hallowed : (ClockCache.create free_values).allowedRun ops outcomes = true) :
    (∀ k1 k2 i,
      ((ClockCache.create free_values).finalState outcomes).values.lookup k1 = some i →
      ((ClockCache.create free_values).finalState outcomes).values.lookup k2 = some i →
      k1 = k2) ∧
    (((ClockCache.create free_values).finalState outcomes).values.map Prod.fst).Nodup ∧
    ((ClockCache.create free_values).finalState outcomes).values.length =
      (ClockCache.handedOut ops outcomes).dedup.length := by
  obtain ⟨⟨hkeys, hidx, _⟩, _, hmem⟩ := ClockCache.run_inv fuel ops
    (ClockCache.create free_values) outcomes (ClockCache.create_inv free_values) hrun hallowed
  refine ⟨?_, hkeys, ?_⟩
  · intro k1 k2 i h1 h2
    have := List.inj_on_of_nodup_map hidx (mem_of_lookup_eq_some _ k1 i h1)
      (mem_of_lookup_eq_some _ k2 i h2) rfl
    exact congrArg Prod.fst this
  · have hperm : (((ClockCache.create free_values).finalState outcomes).values.map Prod.snd).Perm
        (ClockCache.handedOut ops outcomes).dedup := by
      rw [List.perm_ext_iff_of_nodup hidx (List.nodup_dedup _)]
      intro i
      rw [hmem, List.mem_dedup]
      simp [ClockCache.create]
    have := hperm.length_eq
    simpa using this

theorem resident_keys_distinct_frames_witness :
    (∀ k1 k2 i,
      (twoFrames.finalState (twoFrames.outcomesOf 10
        [.put 1, .put 2, .find 1, .lock 2, .put 3])).values.lookup k1 = some i →
      (twoFrames.finalState (twoFrames.outcomesOf 10
        [.put 1, .put 2, .find 1, .lock 2, .put 3])).values.lookup k2 = some i →
      k1 = k2) ∧
    ((twoFrames.finalState (twoFrames.outcomesOf 10
      [.put 1, .put 2, .find 1, .lock 2, .put 3])).values.map Prod.fst).Nodup ∧
    (twoFrames.finalState (twoFrames.outcomesOf 10
      [.put 1, .put 2, .find 1, .lock 2, .put 3])).values.length =
      (ClockCache.handedOut [CacheOp.put 1, .put 2, .find 1, .lock 2, .put 3]
        (twoFrames.outcomesOf 10 [.put 1, .put 2, .find 1, .lock 2, .put 3])).dedup.length :=
  resident_keys_distinct_frames [100, 101] 10 [.put 1, .put 2, .find 1, .lock 2, .put 3]
    (twoFrames.outcomesOf 10 [.put 1, .put 2, .find 1, .lock 2, .put 3]) (by decide) (by decide)

/-! ## C27: `compareValue` -/

theorem strLt_iff_lex : ∀ a b : List Nat,
    strLt a b = true ↔ List.Lex (fun x y : Nat => x < y) a b := by
  intro a
  induction a with
  | nil =>
    intro b
    cases b with
    | nil =>
      simp only [strLt, Bool.false_eq_true, false_iff]
      intro h
      cases h
    | cons y ys => simp only [strLt, true_iff]; exact List.Lex.nil
  | cons x xs ih =>
    intro b
    cases b with
    | nil =>
      simp only [strLt, Bool.false_eq_true, false_iff]
      intro h
      cases h
    | cons y ys =>
      simp only [strLt]
      by_cases h1 : x < y
      · simp only [h1, if_true, true_iff]
        exact List.Lex.rel h1
      · by_cases h2 : y < x
        · simp only [h1, h2, if_true, if_false, Bool.false_eq_true, false_iff]
          intro h
          cases h with
          | rel h3 => exact h1 h3
          | cons h4 => exact h1 h2
        · simp only [h1, h2, if_false]
          rw [ih ys]
          have hxy : x = y := by omega
          subst hxy
          constructor
          · intro h
            exact List.Lex.cons h
          · intro h
            cases h with
            | rel h3 => exact absurd h3 h1
            | cons h5 => exact h5

theorem Value.lt_iff_below (a b : Value) (h : a.index = b.index) :
    a.lt b = true ↔ a.below b := by
  cases a <;> cases b <;> simp [Value.index] at h <;>
    simp [Value.lt, Value.below, strLt_iff_lex]

theorem Value.below_trichotomy (a b : Value) (h : a.index = b.index) :
    a.below b ∨ a = b ∨ b.below a := by
  rcases h1 : a.lt b with _ | _
  · by_cases hab : a = b
    · exact Or.inr (Or.inl hab)
    · exact Or.inr (Or.inr ((Value.lt_iff_below b a h.symm).1 (Value.lt_total a b h1 hab)))
  · exact Or.inl ((Value.lt_iff_below a b h).1 h1)

/-- C27: `compareValue(Null, Null)` is 0; for two values of the same variant
exactly one of `a < b`, `a = b`, `b < a` holds and `compareValue(a, b)` is -1,
0 and 1 in the three cases; `compareValue(a, b) = -compareValue(b, a)` and
`compareValue(a, a) = 0` for all values. -/
theorem compareValue_same_variant :
    compareValue .null .null = 0 ∧
    (∀ a b : Value, a.index = b.index →
      (a.below b ∨ a = b ∨ b.below a) ∧
      (a.below b → compareValue a b = -1) ∧
      (a = b → compareValue a b = 0) ∧
      (b.below a → compareValue a b = 1)) ∧
    (∀ a b : Value, compareValue a b = -compareValue b a) ∧
    (∀ a : Value, compareValue a a = 0) := by
  refine ⟨by decide, ?_, ?_, ?_⟩
  · intro a b h
    refine ⟨Value.below_trichotomy a b h, ?_, ?_, ?_⟩
    · intro hb
      exact (compareValue_eq_neg_one_iff a b).2 ((Value.lt_iff_below a b h).2 hb)
    · intro hab
      exact (compareValue_eq_zero_iff a b).2 hab
    · intro hb
      have h1 := (compareValue_eq_neg_one_iff b a).2 ((Value.lt_iff_below b a h.symm).2 hb)
      have h2 := compareValue_antisymm b a
      omega
  · intro a b
    have := compareValue_antisymm a b
    omega
  · intro a
    exact (compareValue_eq_zero_iff a a).2 rfl

theorem compareValue_same_variant_witness :
    (Value.below (.str [97]) (.str [97, 98]) ∨ Value.str [97] = .str [97, 98] ∨
      Value.below (.str [97, 98]) (.str [97])) ∧
    (Value.below (.str [97]) (.str [97, 98]) → compareValue (.str [97]) (.str [97, 98]) = -1) ∧
    (Value.str [97] = .str [97, 98] → compareValue (.str [97]) (.str [97, 98]) = 0) ∧
    (Value.below (.str [97, 98]) (.str [97]) → compareValue (.str [97]) (.str [97, 98]) = 1) :=
  compareValue_same_variant.2.1 (.str [97]) (.str [97, 98]) rfl

/-! ## C25: `BTreeLeafPage::insert` of a stored key -/

theorem compareRows_self : ∀ a : Row, compareRows a a = 0 := by
  intro a
  induction a with
  | nil => rfl
  | cons v vs ih =>
    simp only [compareRows, List.headD_cons, List.tail_cons,
      (compareValue_eq_zero_iff v v).2 rfl, ne_eq, not_true_eq_false, if_false]
    exact ih

theorem compareRows_antisymm : ∀ a b : Row, a.length = b.length →
    compareRows b a = -compareRows a b := by
  intro a
  induction a with
  | nil =>
    intro b h
    cases b with
    | nil => rfl
    | cons w ws => simp at h
  | cons v vs ih =>
    intro b h
    cases b with
    | nil => simp at h
    | cons w ws =>
      simp only [List.length_cons, Nat.add_right_cancel_iff] at h
      simp only [compareRows, List.headD_cons, List.tail_cons]
      have hanti := compareValue_antisymm v w
      by_cases h0 : compareValue v w = 0
      · have h1 : compareValue w v = 0 := by omega
        rw [if_neg (by simpa using h1), if_neg (by simpa using h0)]
        exact ih ws h
      · have h1 : compareValue w v ≠ 0 := by omega
        rw [if_pos h1, if_pos h0]
        exact hanti

theorem BTreeLeafPage.lowerBoundLoop_stored (z : Row) (p : BTreeLeafPage) (n : Nat)
    (hp : p.Ordered z n) (i0 : Nat) (hi0 : i0 < p.size) :
    ∀ (fuel l r : Nat), l ≤ i0 → i0 ≤ r → r ≤ p.size → r - l < fuel →
      BTreeLeafPage.lowerBoundLoop z p (p.getKey z i0) fuel l r = i0 := by
  intro fuel
  induction fuel with
  | zero => intro l r _ _ _ h; omega
  | succ fuel ih =>
    intro l r hl hr hrs hfuel
    rw [BTreeLeafPage.lowerBoundLoop]
    by_cases hlr : l < r
    · rw [if_pos hlr]
      simp only
      by_cases hmid : (l + r) / 2 < i0
      · rw [if_pos (hp.2 _ _ hmid hi0)]
        exact ih _ _ (by omega) hr hrs (by omega)
      · have hne : compareRows (p.getKey z ((l + r) / 2)) (p.getKey z i0) ≠ -1 := by
          by_cases he : (l + r) / 2 = i0
          · rw [he, compareRows_self]
            decide
          · have hlt : i0 < (l + r) / 2 := by omega
            have hm : (l + r) / 2 < p.size := by omega
            have h1 := hp.2 _ _ hlt hm
            have h2 := compareRows_antisymm (p.getKey z i0) (p.getKey z ((l + r) / 2))
              (by rw [hp.1 _ hi0, hp.1 _ hm])
            omega
        rw [if_neg hne]
        exact ih _ _ hl (by omega) (by omega) (by omega)
    · rw [if_neg hlr]
      omega

theorem BTreeLeafPage.lowerBound_stored (z : Row) (p : BTreeLeafPage) (n : Nat)
    (hp : p.Ordered z n) (i0 : Nat) (hi0 : i0 < p.size) :
    p.lowerBound z (p.getKey z i0) = i0 :=
  BTreeLeafPage.lowerBoundLoop_stored z p n hp i0 hi0 (p.size + 1) 0 p.size (by omega) (by omega)
    (by omega) (by omega)

/-- C25: on a leaf page whose keys are stored in order, `insert(k, v)` of a key
`k` that is stored in the page does not return true and writes nothing: on a
full page it returns false and the page is the same, on a page with room it
throws the key-exists error, before any write. -/
theorem insert_stored_key_rejected (z : Row) (max_page_size : Nat) (p : BTreeLeafPage) (n : Nat)
    (key : Row) (value : RowId) (hordered : p.Ordered z n)
    (hstored : ∃ i, i < p.size ∧ p.getKey z i = key) :
    (p.size ≥ max_page_size → p.insert z max_page_size key value = .ok (false, p)) ∧
    (p.size < max_page_size → p.insert z max_page_size key value = .error .keyExists) ∧
    (∀ q, p.insert z max_page_size key value ≠ .ok (true, q)) := by
  obtain ⟨i0, hi0, hkey⟩ := hstored
  subst hkey
  have hfull : p.size ≥ max_page_size →
      p.insert z max_page_size (p.getKey z i0) value = .ok (false, p) := by
    intro h
    simp only [BTreeLeafPage.insert, if_pos h]
  have hroom : p.size < max_page_size →
      p.insert z max_page_size (p.getKey z i0) value = .error .keyExists := by
    intro h
    have hnot : ¬ p.size ≥ max_page_size := by omega
    simp only [BTreeLeafPage.insert, if_neg hnot,
      BTreeLeafPage.lowerBound_stored z p n hordered i0 hi0]
    rw [if_pos ⟨by omega, compareRows_self _⟩]
  refine ⟨hfull, hroom, ?_⟩
  intro q hq
  by_cases h : p.size ≥ max_page_size
  · rw [hfull h] at hq
    cases hq
  · rw [hroom (by omega)] at hq
    cases hq

theorem insert_stored_key_rejected_witness :
    (oddLeaf.size ≥ 4 → oddLeaf.insert [.int64 0] 4 [.int64 3] (7, 7) = .ok (false, oddLeaf)) ∧
    (oddLeaf.size < 4 → oddLeaf.insert [.int64 0] 4 [.int64 3] (7, 7) = .error .keyExists) ∧
    (∀ q, oddLeaf.insert [.int64 0] 4 [.int64 3] (7, 7) ≠ .ok (true, q)) :=
  insert_stored_key_rejected [.int64 0] 4 oddLeaf 1 [.int64 3] (7, 7)
    (by
      refine ⟨?_, ?_⟩
      · intro i hi
        have : i < 3 := hi
        interval_cases i <;> rfl
      · intro i j hij hj
        have : j < 3 := hj
        interval_cases j <;> interval_cases i <;> first | omega | decide)
    ⟨1, by decide, rfl⟩

/-! ## C26: the constructor of the B+tree -/

/-- C26: over an index file with pages, whose page 0 is the metadata page, the
constructor throws the index-inconsistency error exactly when the requested key
size is not the recorded `key_size_in_bytes` or the requested maximal page size
is not the recorded `max_page_size`, and otherwise returns with the pages as
they are.  Over a file without pages it never throws: page 0 becomes the
metadata page with root page index 1 and the key size and maximal page size cut
to `uint32_t`, page 1 an empty leaf whose `prev` and `next` are
`InvalidPageIndex`. -/
theorem construct_checks_metadata (key_schema : Schema) (max_page_size : Nat) :
    (∀ (pages : List BTreePage) (m : BTreeMetadataPage), 0 < pages.length →
      pages[0]? = some (.metadata m) →
      (BTree.construct key_schema max_page_size pages = .error .indexInconsistency ↔
        Marshal.getFixedRowSpace key_schema ≠ m.key_size_in_bytes ∨
          max_page_size ≠ m.max_page_size) ∧
      (¬ (Marshal.getFixedRowSpace key_schema ≠ m.key_size_in_bytes ∨
          max_page_size ≠ m.max_page_size) →
        ∃ t, BTree.construct key_schema max_page_size pages = .ok t ∧ t.pages = pages ∧
          t.max_page_size = max_page_size)) ∧
    (∃ t, BTree.construct key_schema max_page_size [] = .ok t ∧
      t.max_page_size = max_page_size ∧
      t.pages =
        [.metadata { root_page_index := 1,
                     key_size_in_bytes := u32 (Marshal.getFixedRowSpace key_schema),
                     max_page_size := u32 max_page_size },
         .leaf { size := 0, prev := InvalidPageIndex, next := InvalidPageIndex,
                 entries := [] }]) ∧
    (Marshal.getFixedRowSpace key_schema < 4294967296 → max_page_size < 4294967296 →
      BTree.construct key_schema max_page_size [] = .ok (BTree.create key_schema max_page_size)) := by
  refine ⟨?_, ?_, ?_⟩
  · intro pages m hlen hpage
    have hne : ¬ pages.length = 0 := by omega
    have hmeta : BTree.getMetadataPage
        { zeroKey := Marshal.deserializeRow key_schema (fun _ => 0),
          max_page_size := max_page_size, pages := pages } = .ok m := by
      simp only [BTree.getMetadataPage, BTree.MetadataPageIndex, List.get?_eq_getElem?, hpage]
    constructor
    · simp only [BTree.construct, if_neg hne, hmeta]
      by_cases h1 : Marshal.getFixedRowSpace key_schema ≠ m.key_size_in_bytes
      · simp [h1]
      · by_cases h2 : max_page_size ≠ m.max_page_size
        · simp [h1, h2]
        · simp [h1, h2]
    · intro h
      simp only [not_or, not_not] at h
      refine ⟨BTree.mk (Marshal.deserializeRow key_schema (fun _ => 0)) max_page_size pages,
        ?_, rfl, rfl⟩
      simp only [BTree.construct, if_neg hne, hmeta]
      simp [h.1, h.2]
  · exact ⟨BTree.mk (Marshal.deserializeRow key_schema (fun _ => 0)) max_page_size
      [.metadata (BTreeMetadataPage.mk 1 (u32 (Marshal.getFixedRowSpace key_schema))
          (u32 max_page_size)),
        .leaf (BTreeLeafPage.mk 0 InvalidPageIndex InvalidPageIndex [])], rfl, rfl, rfl⟩
  · intro h1 h2
    have e1 : u32 (Marshal.getFixedRowSpace key_schema) = Marshal.getFixedRowSpace key_schema := by
      unfold u32; omega
    have e2 : u32 max_page_size = max_page_size := by
      unfold u32; omega
    have : BTree.construct key_schema max_page_size [] = .ok
        { zeroKey := Marshal.deserializeRow key_schema (fun _ => 0),
          max_page_size := max_page_size,
          pages :=
            [.metadata { root_page_index := 1,
                         key_size_in_bytes := u32 (Marshal.getFixedRowSpace key_schema),
                         max_page_size := u32 max_page_size },
             .leaf { size := 0, prev := InvalidPageIndex, next := InvalidPageIndex,
                     entries := [] }] } := rfl
    rw [this, e1, e2]
    rfl

theorem construct_checks_metadata_witness :
    (BTree.construct intKeySchema 4 (BTree.create intKeySchema 2).pages =
        .error .indexInconsistency ↔
      Marshal.getFixedRowSpace intKeySchema ≠ 16 ∨ 4 ≠ 2) ∧
    (¬ (Marshal.getFixedRowSpace intKeySchema ≠ 16 ∨ 4 ≠ 2) →
      ∃ t, BTree.construct intKeySchema 4 (BTree.create intKeySchema 2).pages = .ok t ∧
        t.pages = (BTree.create intKeySchema 2).pages ∧ t.max_page_size = 4) :=
  (construct_checks_metadata intKeySchema 4).1 (BTree.create intKeySchema 2).pages
    { root_page_index := 1, key_size_in_bytes := 16, max_page_size := 2 } (by decide) (by decide)

/-! ## C28 to C30: removes, separators and the left borrow -/

/-- C28, at a failing input.  With `max_page_size = 2`, after `insert` of the
keys 1, 2, 3 the calls `remove(1)`, `remove(2)`, `remove(3)` return true,
false, false, and the root stays the internal page: the keys 2 and 3 are still
in their leaf, page 2, and are found no more.  This is the defect of C1:
`descend_remove` hands the page index returned by `internal_page.lookup` to
`removeKey` as a position. -/
theorem remove_all_returns_false :
    removedInOrder.map Prod.fst = .ok [true, false, false] ∧
    (do
      let (_, t) ← removedInOrder
      let m ← t.getMetadataPage
      t.getPage m.root_page_index) =
      .ok (BTreePage.internal { size := 1, entries := [(intKey 0, 1), (intKey 2, 2)] }) ∧
    (do
      let (_, t) ← removedInOrder
      let found ← t.lookupKeys [1, 2, 3]
      let left ← t.chainEntries 4 2
      pure (found, left.map Prod.fst)) =
      .ok ([none, none, none], [intKey 2, intKey 3]) := by
  decide!

/-- C29, at a failing input.  With `max_page_size = 2`, the property holds
after `insert` of the distinct keys -3, -2, 0, 1, 2 and fails after the
`insert` of -1: the root keeps the separator 0 for its second child, whose
subtree holds -1.  This is the defect of C2. -/
theorem separators_broken_after_inserts :
    (do
      let t ← (BTree.create intKeySchema 2).insertKeys [-3, -2, 0, 1, 2] 0
      let before ← t.separatorsHoldFromRoot
      let t ← t.insert (intKey (-1)) (0, 5)
      let after ← t.separatorsHoldFromRoot
      pure (before, after)) = .ok (true, false) ∧
    (do
      let t ← (BTree.create intKeySchema 2).insertKeys [-3, -2, 0, 1, 2, -1] 0
      let m ← t.getMetadataPage
      let root ← t.getInternalPage m.root_page_index
      let keys ← t.subtreeKeys 4 (root.getValue t.zeroKey 1)
      pure (root, keys)) =
      .ok ({ size := 2, entries := [(intKey 0, 3), (intKey 0, 5)] },
        [intKey (-1), intKey 0, intKey 1, intKey 2]) := by
  decide!

/-- C30, at a failing input.  With `max_page_size = 2`, after `insert` of the
keys 1, 0, -1, -2, -3 the `insert` of 2 reaches the full leaf of 0 and 1,
page 2, whose left sibling, page 4, holds only -1.  No page is allocated, 0 is
appended to the left sibling, 2 is inserted, and the leaf's parent, page 5,
answers with `old_key = 0`, `new_key = 1`; but the separator 0 of the root,
page 6, is not overwritten: the parent has compared the never written key of
its slot 0 with `old_key`, written 1 there and set `skip`.  Afterwards
`lookup(0)` finds nothing. -/
theorem left_borrow_keeps_separator :
    (do
      let t ← beforeLeftBorrow
      let borrow ← t.leftBorrowFor (intKey 2)
      let root ← t.getInternalPage 6
      pure (borrow, t.pages.length, root)) =
      .ok (some (2, 4), 7, { size := 2, entries := [(intKey 0, 3), (intKey 0, 5)] }) ∧
    (do
      let t ← beforeLeftBorrow
      let (resp, _) ← BTree.descend_insert t.pages.length t 5 (intKey 2) (0, 5)
      pure resp) =
      .ok { new_page := false, skip := true, page := 0, old_key := intKey 0,
            new_key := intKey 1 } ∧
    (do
      let t ← afterLeftBorrow
      let leaf ← t.getLeafPage 2
      let left ← t.getLeafPage 4
      pure (t.pages.length, (left.stored t.zeroKey).map Prod.fst,
        (leaf.stored t.zeroKey).map Prod.fst)) =
      .ok (7, [intKey (-1), intKey 0], [intKey 1, intKey 2]) ∧
    (do
      let t ← afterLeftBorrow
      let m ← t.getMetadataPage
      let parent ← t.getInternalPage 5
      let root ← t.getInternalPage m.root_page_index
      pure (m.root_page_index, parent, root)) =
      .ok (6, { size := 1, entries := [(intKey 1, 2)] },
        { size := 2, entries := [(intKey 0, 3), (intKey 0, 5)] }) ∧
    (do
      let t ← afterLeftBorrow
      t.lookup (intKey 0)) = .ok none := by
  decide!

/-! ## `JoinExecutor` -/

theorem execute_readFromTable (schema : Schema) (rows : List Row) (fuel : Nat) :
    ∀ (n pos : Nat), pos + n = rows.length →
      execute (n + 1) fuel (.readFromTable rows pos schema) = .ok (rows.drop pos) := by
  intro n
  induction n with
  | zero =>
    intro pos h
    have hp : pos = rows.length := by omega
    subst hp
    rw [execute, Executor.next, List.get?_eq_none.2 (Nat.le_refl _)]
    simp
  | succ n ih =>
    intro pos h
    have hp : pos < rows.length := by omega
    rw [execute, Executor.next, List.get?_eq_get hp]
    simp only
    rw [ih (pos + 1) (by omega)]
    simp only
    rw [List.drop_eq_getElem_cons hp]
    rfl

theorem JoinExecutor.joinSchema_length_le : ∀ (rs s : Schema),
    (JoinExecutor.joinSchema s rs).length ≤ s.length + rs.length := by
  intro rs
  induction rs with
  | nil => intro s; simp [JoinExecutor.joinSchema]
  | cons d rest ih =>
    intro s
    rw [JoinExecutor.joinSchema]
    split
    · have := ih s
      simp only [List.length_cons]; omega
    · have := ih (s ++ [d])
      simp only [List.length_append, List.length_cons, List.length_nil] at this ⊢
      omega

theorem JoinExecutor.joinSchema_length_lt : ∀ (rs s : Schema),
    (∃ d ∈ rs, ∃ c ∈ s, c.name = d.name) →
    (JoinExecutor.joinSchema s rs).length < s.length + rs.length := by
  intro rs
  induction rs with
  | nil => intro s h; obtain ⟨d, hd, _⟩ := h; cases hd
  | cons d rest ih =>
    intro s h
    rw [JoinExecutor.joinSchema]
    split
    · have := JoinExecutor.joinSchema_length_le rest s
      simp only [List.length_cons]; omega
    · rename_i hnot
      obtain ⟨d', hd', c, hc, hcd⟩ := h
      have hrest : d' ∈ rest := by
        rcases List.mem_cons.1 hd' with h1 | h1
        · exfalso
          apply hnot
          rw [List.any_eq_true]
          exact ⟨c, hc, by simp [hcd, h1]⟩
        · exact h1
      have := ih (s ++ [d]) ⟨d', hrest, c, List.mem_append_left _ hc, hcd⟩
      simp only [List.length_append, List.length_cons, List.length_nil] at this ⊢
      omega

/-- With the names of the right schema unique, `schema` is the left schema
followed by the right columns whose names the left schema does not have. -/
theorem JoinExecutor.joinSchema_eq : ∀ (rs s ls : Schema),
    (Schema.names rs).Nodup → (∀ c ∈ s, c ∈ ls ∨ c.name ∉ Schema.names rs) → (∀ c ∈ ls, c ∈ s) →
    JoinExecutor.joinSchema s rs =
      s ++ rs.filter fun d => ls.all fun c => c.name != d.name := by
  intro rs
  induction rs with
  | nil => intro s ls _ _ _; simp [JoinExecutor.joinSchema]
  | cons d rest ih =>
    intro s ls hnodup hs hls
    have hd : d.name ∉ Schema.names rest ∧ (Schema.names rest).Nodup := by
      simpa [Schema.names] using hnodup
    rw [JoinExecutor.joinSchema]
    by_cases hany : s.any (fun c => c.name == d.name) = true
    · rw [if_pos hany]
      have hin : (ls.all fun c => c.name != d.name) = false := by
        rw [List.any_eq_true] at hany
        obtain ⟨c, hc, hcd⟩ := hany
        have hcd2 : c.name = d.name := by simpa using hcd
        rcases hs c hc with h1 | h1
        · rw [Bool.eq_false_iff]
          intro hall
          rw [List.all_eq_true] at hall
          have := hall c h1
          simp [hcd2] at this
        · exfalso; apply h1; simp [Schema.names, hcd2]
      rw [List.filter_cons, if_neg (by simp [hin])]
      apply ih s ls hd.2 _ hls
      intro c hc
      rcases hs c hc with h1 | h1
      · exact Or.inl h1
      · right; intro h2; apply h1; simp only [Schema.names, List.map_cons, List.mem_cons]
        exact Or.inr h2
    · rw [if_neg hany]
      have hin : (ls.all fun c => c.name != d.name) = true := by
        rw [List.all_eq_true]
        intro c hc
        have hcs := hls c hc
        have : ¬ (c.name == d.name) = true := by
          intro hcd
          apply hany
          rw [List.any_eq_true]
          exact ⟨c, hcs, hcd⟩
        simpa using this
      rw [List.filter_cons, if_pos hin]
      rw [ih (s ++ [d]) ls hd.2 _ (fun c hc => List.mem_append_left _ (hls c hc))]
      · simp
      · intro c hc
        rcases List.mem_append.1 hc with h1 | h1
        · rcases hs c h1 with h2 | h2
          · exact Or.inl h2
          · right; intro h3; apply h2; simp only [Schema.names, List.map_cons, List.mem_cons]
            exact Or.inr h3
        · have : c = d := by simpa using h1
          subst this
          exact Or.inr hd.1

theorem Schema.names_inj (rs : Schema) (h : (Schema.names rs).Nodup) (i j : Nat)
    (hi : i < rs.length) (hj : j < rs.length) (hname : rs[i].name = rs[j].name) : i = j := by
  have hi2 : i < (Schema.names rs).length := by simpa [Schema.names] using hi
  have hj2 : j < (Schema.names rs).length := by simpa [Schema.names] using hj
  have := (@List.Nodup.getElem_inj_iff _ _ h i hi2 j hj2).1
    (by simpa [Schema.names] using hname)
  exact this

theorem JoinExecutor.assign_keys (m : List (Nat × Nat)) (k v x : Nat) :
    x ∈ (JoinExecutor.assign m k v).map Prod.fst ↔ x ∈ m.map Prod.fst ∨ x = k := by
  induction m with
  | nil => simp [JoinExecutor.assign]
  | cons p rest ih =>
    obtain ⟨a, b⟩ := p
    rw [JoinExecutor.assign]
    split
    · rename_i hak
      subst hak
      simp only [List.map_cons, List.mem_cons]
      tauto
    · simp only [List.map_cons, List.mem_cons, ih]
      tauto

theorem JoinExecutor.assign_fresh (m : List (Nat × Nat)) (k v : Nat)
    (h : ∀ p ∈ m, p.1 ≠ k) : JoinExecutor.assign m k v = m ++ [(k, v)] := by
  induction m with
  | nil => simp [JoinExecutor.assign]
  | cons p rest ih =>
    obtain ⟨a, b⟩ := p
    rw [JoinExecutor.assign, if_neg (h (a, b) (List.mem_cons_self _ _)),
      ih (fun q hq => h q (List.mem_cons_of_mem _ hq))]
    rfl

theorem JoinExecutor.matching_fst (rs : Schema) : ∀ (ls : Schema) (i : Nat)
    (ml mr : List (Nat × Nat)), (∀ p ∈ ml, p.1 < i) →
    (JoinExecutor.matching rs ls i (ml, mr)).1 = ml ++ JoinExecutor.matchedPairs rs ls i := by
  intro ls
  induction ls with
  | nil => intro i ml mr _; simp [JoinExecutor.matching, JoinExecutor.matchedPairs]
  | cons c rest ih =>
    intro i ml mr h
    rw [JoinExecutor.matching, JoinExecutor.matchedPairs]
    cases hfind : List.findIdx? (fun d => c.name == d.name) rs with
    | none =>
      simp only
      exact ih (i + 1) ml mr (fun p hp => Nat.lt_succ_of_lt (h p hp))
    | some j =>
      simp only
      rw [JoinExecutor.assign_fresh ml i j (fun p hp => Nat.ne_of_lt (h p hp)), ih]
      · simp
      · intro p hp
        rcases List.mem_append.1 hp with h1 | h1
        · exact Nat.lt_succ_of_lt (h p h1)
        · have : p = (i, j) := by simpa using h1
          subst this
          exact Nat.lt_succ_self i

theorem JoinExecutor.matching_snd_keys (rs : Schema) : ∀ (ls : Schema) (i : Nat)
    (ml mr : List (Nat × Nat)) (x : Nat),
    x ∈ (JoinExecutor.matching rs ls i (ml, mr)).2.map Prod.fst ↔
      x ∈ mr.map Prod.fst ∨ ∃ c ∈ ls, rs.findIdx? (fun d => c.name == d.name) = some x := by
  intro ls
  induction ls with
  | nil => intro i ml mr x; simp [JoinExecutor.matching]
  | cons c rest ih =>
    intro i ml mr x
    rw [JoinExecutor.matching]
    cases hfind : List.findIdx? (fun d => c.name == d.name) rs with
    | none =>
      simp only
      rw [ih]
      simp only [List.mem_cons, exists_eq_or_imp, hfind]
      simp
    | some j =>
      simp only
      rw [ih, JoinExecutor.assign_keys]
      simp only [List.mem_cons, exists_eq_or_imp, hfind, Option.some.injEq]
      constructor
      · rintro ((h | h) | h)
        · exact Or.inl h
        · exact Or.inr (Or.inl h.symm)
        · exact Or.inr (Or.inr h)
      · rintro (h | h | h)
        · exact Or.inl (Or.inl h)
        · exact Or.inl (Or.inr h.symm)
        · exact Or.inr h

/-- With the names of the right schema unique, a right column is among the
matched ones exactly when the left schema has a column of its name. -/
theorem JoinExecutor.findIdx_iff_name (ls rs : Schema) (h : (Schema.names rs).Nodup) (j : Nat)
    (hj : j < rs.length) :
    (∃ c ∈ ls, rs.findIdx? (fun d => c.name == d.name) = some j) ↔
      ∃ c ∈ ls, c.name = rs[j].name := by
  constructor
  · rintro ⟨c, hc, hfind⟩
    rw [List.findIdx?_eq_some_iff_getElem] at hfind
    obtain ⟨_, hp, _⟩ := hfind
    exact ⟨c, hc, by simpa using hp⟩
  · rintro ⟨c, hc, hname⟩
    refine ⟨c, hc, ?_⟩
    rw [List.findIdx?_eq_some_iff_getElem]
    refine ⟨hj, by simpa using hname, ?_⟩
    intro k hk hp
    have hkn : c.name = rs[k].name := by simpa using hp
    have := Schema.names_inj rs h k j (Nat.lt_trans hk hj) hj (hkn.symm.trans hname)
    omega

theorem JoinExecutor.similar_matchedPairs (rs : Schema) (r : Row) (hr : r.length = rs.length)
    (hnodup : (Schema.names rs).Nodup) :
    ∀ (ls : Schema) (l pre : Row), l.length = ls.length →
      JoinExecutor.similar (JoinExecutor.matchedPairs rs ls pre.length) (pre ++ l) r =
        .ok ((ls.zip l).all fun x => (rs.zip r).all fun y =>
          x.1.name != y.1.name || compareValue x.2 y.2 == 0) := by
  intro ls
  induction ls with
  | nil => intro l pre _; simp [JoinExecutor.matchedPairs, JoinExecutor.similar]
  | cons c rest ih =>
    intro l pre hl
    cases l with
    | nil => simp at hl
    | cons a l =>
      have hl2 : l.length = rest.length := by simpa using hl
      have hstep := ih l (pre ++ [a]) hl2
      simp only [List.length_append, List.length_cons, List.length_nil, Nat.zero_add,
        List.append_assoc, List.singleton_append] at hstep
      rw [JoinExecutor.matchedPairs]
      cases hfind : List.findIdx? (fun d => c.name == d.name) rs with
      | none =>
        simp only
        rw [hstep]
        have hinner : ((rs.zip r).all fun y => c.name != y.1.name || compareValue a y.2 == 0)
            = true := by
          rw [List.all_eq_true]
          intro y hy
          have hmem := (List.of_mem_zip (a := y.1) (b := y.2) hy).1
          rw [List.findIdx?_eq_none_iff] at hfind
          have := hfind y.1 hmem
          simp only [Bool.or_eq_true]
          left
          simpa using this
        simp only [List.zip_cons_cons, List.all_cons, hinner, Bool.true_and]
      | some j =>
        simp only
        rw [List.findIdx?_eq_some_iff_getElem] at hfind
        obtain ⟨hj, hp, _⟩ := hfind
        have hname : c.name = rs[j].name := by simpa using hp
        have hjr : j < r.length := by omega
        have hjz : j < (rs.zip r).length := by simp [List.length_zip]; omega
        rw [JoinExecutor.similar]
        have hget : (pre ++ a :: l)[pre.length]? = some a := by
          rw [List.getElem?_append_right (Nat.le_refl _)]
          simp
        have hgetr : r[j]? = some r[j] := List.getElem?_eq_getElem hjr
        rw [hget, hgetr]
        simp only
        by_cases hcmp : compareValue a r[j] = 0
        · rw [if_neg (by simpa using hcmp), hstep]
          have hinner : ((rs.zip r).all fun y => c.name != y.1.name || compareValue a y.2 == 0)
              = true := by
            rw [List.all_eq_true]
            intro y hy
            obtain ⟨k, hk, hyk⟩ := List.mem_iff_getElem.1 hy
            have hk2 : k < rs.length := by
              have := hk; simp [List.length_zip] at this; omega
            have hk3 : k < r.length := by omega
            have hyk2 : y = (rs[k], r[k]) := by rw [← hyk, List.getElem_zip]
            subst hyk2
            simp only [Bool.or_eq_true, bne_iff_ne, ne_eq, beq_iff_eq]
            by_cases hn : c.name = rs[k].name
            · right
              have := Schema.names_inj rs hnodup k j hk2 hj (hn.symm.trans hname)
              subst this
              exact hcmp
            · exact Or.inl hn
          simp only [List.zip_cons_cons, List.all_cons, hinner, Bool.true_and]
        · rw [if_pos (by simpa using hcmp)]
          have hinner : ((rs.zip r).all fun y => c.name != y.1.name || compareValue a y.2 == 0)
              = false := by
            rw [Bool.eq_false_iff]
            intro hall
            rw [List.all_eq_true] at hall
            have := hall (rs.zip r)[j] (List.getElem_mem hjz)
            rw [List.getElem_zip] at this
            simp only [Bool.or_eq_true, bne_iff_ne, ne_eq, beq_iff_eq] at this
            rcases this with h1 | h1
            · exact h1 hname
            · exact hcmp h1
          simp only [List.zip_cons_cons, List.all_cons, hinner, Bool.false_and]

theorem JoinExecutor.unmatched_eq (mr : List (Nat × Nat)) (ls rs : Schema)
    (hkeys : ∀ j (hj : j < rs.length), (j ∈ mr.map Prod.fst ↔ ∃ c ∈ ls, c.name = rs[j].name)) :
    ∀ (rest : Schema) (r : Row) (pre : Schema), pre ++ rest = rs → r.length = rest.length →
      JoinExecutor.unmatched mr pre.length r =
        ((rest.zip r).filter fun y => ls.all fun c => c.name != y.1.name).map Prod.snd := by
  intro rest
  induction rest with
  | nil =>
    intro r pre _ hr
    have : r = [] := List.eq_nil_of_length_eq_zero (by simpa using hr)
    subst this
    simp [JoinExecutor.unmatched]
  | cons d rest ih =>
    intro r pre hpre hr
    cases r with
    | nil => simp at hr
    | cons b r =>
      have hr2 : r.length = rest.length := by simpa using hr
      have hstep := ih r (pre ++ [d]) (by simpa using hpre) hr2
      simp only [List.length_append, List.length_cons, List.length_nil, Nat.zero_add] at hstep
      have hj : pre.length < rs.length := by rw [← hpre]; simp
      have hd0 : rs[pre.length]? = some d := by
        subst hpre
        rw [List.getElem?_append_right (Nat.le_refl _)]
        simp
      have hd : rs[pre.length] = d := by
        rw [List.getElem?_eq_getElem hj] at hd0
        exact Option.some.inj hd0
      have hk := hkeys pre.length hj
      rw [hd] at hk
      rw [JoinExecutor.unmatched, hstep]
      by_cases hshared : ∃ c ∈ ls, c.name = d.name
      · have hany : (mr.any fun p => p.1 == pre.length) = true := by
          rw [List.any_eq_true]
          obtain ⟨p, hp, hpk⟩ := List.mem_map.1 (hk.2 hshared)
          exact ⟨p, hp, by simpa using hpk⟩
        have hall : (ls.all fun c => c.name != d.name) = false := by
          rw [Bool.eq_false_iff]
          intro hall
          rw [List.all_eq_true] at hall
          obtain ⟨c, hc, hcd⟩ := hshared
          have := hall c hc
          simp [hcd] at this
        rw [if_pos hany]
        simp only [List.zip_cons_cons, List.filter_cons, hall]
        simp
      · have hany : ¬ (mr.any fun p => p.1 == pre.length) = true := by
          intro hany
          rw [List.any_eq_true] at hany
          obtain ⟨p, hp, hpk⟩ := hany
          apply hshared
          apply hk.1
          exact List.mem_map.2 ⟨p, hp, by simpa using hpk⟩
        have hall : (ls.all fun c => c.name != d.name) = true := by
          rw [List.all_eq_true]
          intro c hc
          simp only [bne_iff_ne, ne_eq]
          intro hcd
          exact hshared ⟨c, hc, hcd⟩
        rw [if_neg hany]
        simp only [List.zip_cons_cons, List.filter_cons, hall]
        simp

theorem JoinExecutor.similar_eq (ls rs : Schema) (hnodup : (Schema.names rs).Nodup)
    (l r : Row) (hl : l.length = ls.length) (hr : r.length = rs.length) :
    JoinExecutor.similar (JoinExecutor.matching rs ls 0 ([], [])).1 l r =
      .ok (joinAgree ls rs l r) := by
  rw [JoinExecutor.matching_fst rs ls 0 [] [] (fun p hp => by cases hp)]
  have := JoinExecutor.similar_matchedPairs rs r hr hnodup ls l [] hl
  simpa [joinAgree] using this

theorem JoinExecutor.unmatched_matching (ls rs : Schema) (hnodup : (Schema.names rs).Nodup)
    (r : Row) (hr : r.length = rs.length) :
    JoinExecutor.unmatched (JoinExecutor.matching rs ls 0 ([], [])).2 0 r = joinRest ls rs r := by
  have := JoinExecutor.unmatched_eq (JoinExecutor.matching rs ls 0 ([], [])).2 ls rs
    (fun j hj => by
      rw [JoinExecutor.matching_snd_keys, JoinExecutor.findIdx_iff_name ls rs hnodup j hj]
      simp)
    rs r [] rfl hr
  simpa [joinRest] using this

theorem JoinExecutor.joinRight_eq (ls rs : Schema) (hnodup : (Schema.names rs).Nodup)
    (l : Row) (hl : l.length = ls.length) :
    ∀ right_rows : List Row, (∀ r ∈ right_rows, r.length = rs.length) →
      JoinExecutor.joinRight (JoinExecutor.matching rs ls 0 ([], [])).1
        (JoinExecutor.matching rs ls 0 ([], [])).2 l right_rows =
      .ok ((right_rows.filter fun r => joinAgree ls rs l r).map fun r => l ++ joinRest ls rs r) := by
  intro right_rows
  induction right_rows with
  | nil => intro _; rfl
  | cons r rest ih =>
    intro h
    have hr := h r (List.mem_cons_self _ _)
    rw [JoinExecutor.joinRight, JoinExecutor.similar_eq ls rs hnodup l r hl hr,
      ih (fun r2 h2 => h r2 (List.mem_cons_of_mem _ h2)),
      JoinExecutor.unmatched_matching ls rs hnodup r hr]
    simp only
    cases hagree : joinAgree ls rs l r <;> simp [List.filter_cons, hagree]

theorem JoinExecutor.joinRows_eq (ls rs : Schema) (hnodup : (Schema.names rs).Nodup)
    (right_rows : List Row) (hright : ∀ r ∈ right_rows, r.length = rs.length) :
    ∀ left_rows : List Row, (∀ l ∈ left_rows, l.length = ls.length) →
      JoinExecutor.joinRows (JoinExecutor.matching rs ls 0 ([], [])).1
        (JoinExecutor.matching rs ls 0 ([], [])).2 left_rows right_rows =
      .ok (joinedRows ls rs left_rows right_rows) := by
  intro left_rows
  induction left_rows with
  | nil => intro _; rfl
  | cons l rest ih =>
    intro h
    rw [JoinExecutor.joinRows,
      JoinExecutor.joinRight_eq ls rs hnodup l (h l (List.mem_cons_self _ _)) right_rows hright,
      ih (fun l2 h2 => h l2 (List.mem_cons_of_mem _ h2))]
    simp [joinedRows]

/-- The executor that `createJoinExecutor` builds when the schemas share a name
and the names of the right schema are unique. -/
theorem createJoinExecutor_shared (calls fuel : Nat) (left right : Executor) (ls rs : Schema)
    (left_rows right_rows : List Row)
    (hls : left.getOutputSchema = .ok ls) (hrs : right.getOutputSchema = .ok rs)
    (hl : execute calls fuel left = .ok left_rows)
    (hr : execute calls fuel right = .ok right_rows)
    (hnodup : (Schema.names rs).Nodup)
    (hshared : ∃ d ∈ rs, ∃ c ∈ ls, c.name = d.name)
    (hlw : ∀ l ∈ left_rows, l.length = ls.length)
    (hrw : ∀ r ∈ right_rows, r.length = rs.length) :
    createJoinExecutor calls fuel left right =
      .ok (.join (ls ++ rs.filter fun d => ls.all fun c => c.name != d.name)
        (joinedRows ls rs left_rows right_rows) 0) := by
  have hlt := JoinExecutor.joinSchema_length_lt rs ls hshared
  rw [createJoinExecutor, hls, hrs]
  simp only
  rw [if_neg (by omega), hl, hr]
  simp only
  rw [JoinExecutor.joinRows_eq ls rs hnodup right_rows hrw left_rows hlw,
    JoinExecutor.joinSchema_eq rs ls ls hnodup (fun c hc => Or.inl hc) (fun c hc => hc)]

/-- The executor that `createJoinExecutor` builds when no column of the right
schema is left out of the joined schema. -/
theorem createJoinExecutor_disjoint (calls fuel : Nat) (left right : Executor) (ls rs : Schema)
    (hls : left.getOutputSchema = .ok ls) (hrs : right.getOutputSchema = .ok rs)
    (hnodup : (Schema.names rs).Nodup)
    (hdisjoint : ∀ c ∈ ls, ∀ d ∈ rs, c.name ≠ d.name) :
    createJoinExecutor calls fuel left right = .ok (.join (ls ++ rs) [] 0) := by
  have hschema := JoinExecutor.joinSchema_eq rs ls ls hnodup (fun c hc => Or.inl hc)
    (fun c hc => hc)
  have hfilter : (rs.filter fun d => ls.all fun c => c.name != d.name) = rs := by
    rw [List.filter_eq_self]
    intro d hd
    rw [List.all_eq_true]
    intro c hc
    simpa using hdisjoint c hc d hd
  rw [hfilter] at hschema
  rw [createJoinExecutor, hls, hrs]
  simp only
  rw [hschema, if_pos (by simp)]

/-! ## C21: the rows of a join on shared names -/

/-- C22 (counterexample): the join of table `X(x)` with the row `(1)` and of
table `Y(y)` with the row `(2)`, which have no column name in common, has
the schema `(x, y)` and outputs no row, while the Cartesian product has the
row `(1, 2)`. -/
theorem join_disjoint_not_cartesian :
    ∃ join, createJoinExecutor 2 0 tableX tableY = .ok join ∧
      (∀ n, execute (n + 1) 0 join = .ok []) ∧
      cartesianProduct [[.int64 1]] [[.int64 2]] = [[.int64 1, .int64 2]] ∧
      execute 2 0 tableX = .ok [[.int64 1]] ∧ execute 2 0 tableY = .ok [[.int64 2]] :=
  ⟨_, rfl, fun n => execute_mono 1 (n + 1) 0 0 _ _ (by omega) (Nat.le_refl 0) rfl,
    by decide!, by decide!, by decide!⟩

/-- C22 (amended): when the schemas of the two children have no column name in
common and the names of the right schema are unique, `createJoinExecutor`
returns, without reading its children, a Join executor with the left schema
followed by the right schema that outputs no rows. -/
theorem join_disjoint_outputs_nothing (calls fuel : Nat) (left right : Executor) (ls rs : Schema)
    (hls : left.getOutputSchema = .ok ls) (hrs : right.getOutputSchema = .ok rs)
    (hnodup : (Schema.names rs).Nodup)
    (hdisjoint : ∀ c ∈ ls, ∀ d ∈ rs, c.name ≠ d.name) :
    ∃ join, createJoinExecutor calls fuel left right = .ok join ∧
      join.getOutputSchema = .ok (ls ++ rs) ∧
      ∀ n f, execute (n + 1) f join = .ok [] := by
  refine ⟨_, createJoinExecutor_disjoint calls fuel left right ls rs hls hrs hnodup hdisjoint,
    rfl, ?_⟩
  intro n f
  exact execute_mono 1 (n + 1) 0 f _ _ (by omega) (Nat.zero_le f) rfl

theorem join_disjoint_outputs_nothing_witness :
    ∃ join, createJoinExecutor 0 0 tableX tableY = .ok join ∧
      join.getOutputSchema = .ok ([{ name := "x", type := .int64, length := 0 }] ++
        [{ name := "y", type := .int64, length := 0 }]) ∧
      ∀ n f, execute (n + 1) f join = .ok [] :=
  join_disjoint_outputs_nothing 0 0 tableX tableY _ _ rfl rfl (by decide!) (by decide!)

/-! ## `GroupByExecutor` -/

theorem execute_groupBy (schema : Schema) (rows : List Row) (fuel : Nat) :
    ∀ (n pos : Nat), pos + n = rows.length →
      execute (n + 1) fuel (.groupBy schema rows pos) = .ok (rows.drop pos) := by
  intro n
  induction n with
  | zero =>
    intro pos h
    have hp : pos = rows.length := by omega
    subst hp
    rw [execute, Executor.next, if_pos rfl]
    simp
  | succ n ih =>
    intro pos h
    have hp : pos < rows.length := by omega
    rw [execute, Executor.next, if_neg (by omega), List.get?_eq_get hp]
    simp only
    rw [ih (pos + 1) (by omega)]
    simp only
    rw [List.drop_eq_getElem_cons hp]
    rfl

theorem allOk_append {α : Type} : ∀ (a b : List (Except Err α)) (s : List α),
    allOk (a ++ b) = .ok s → ∃ s1 s2, allOk a = .ok s1 ∧ allOk b = .ok s2 ∧ s = s1 ++ s2 := by
  intro a
  induction a with
  | nil => intro b s h; exact ⟨[], s, rfl, h, rfl⟩
  | cons x rest ih =>
    intro b s h
    cases x with
    | error err => simp [allOk] at h
    | ok v =>
      rw [List.cons_append, allOk] at h
      cases hrest : allOk (rest ++ b) with
      | error err => rw [hrest] at h; simp at h
      | ok t =>
        rw [hrest] at h
        obtain ⟨s1, s2, h1, h2, h3⟩ := ih b t hrest
        refine ⟨v :: s1, s2, ?_, h2, ?_⟩
        · simp [allOk, h1]
        · simp only at h
          cases h
          simp [h3]

theorem allOk_append_ok {α : Type} : ∀ (a b : List (Except Err α)) (s1 s2 : List α),
    allOk a = .ok s1 → allOk b = .ok s2 → allOk (a ++ b) = .ok (s1 ++ s2) := by
  intro a
  induction a with
  | nil => intro b s1 s2 h1 h2; simp [allOk] at h1; subst h1; simpa using h2
  | cons x rest ih =>
    intro b s1 s2 h1 h2
    cases x with
    | error err => simp [allOk] at h1
    | ok v =>
      simp only [allOk] at h1
      cases hrest : allOk rest with
      | error err => rw [hrest] at h1; simp at h1
      | ok t =>
        rw [hrest] at h1
        simp only at h1
        cases h1
        simp [allOk, ih b t s2 hrest h2]

/-- A list of results without an error is the list of its values. -/
theorem allOk_map_ok {β : Type} (F : β → Except Err Row) : ∀ (l : List β) (s : List Row),
    allOk (l.map F) = .ok s ↔ (∀ x ∈ l, ∃ y, F x = .ok y) ∧ s = l.map fun x => rowOrEmpty (F x) := by
  intro l
  induction l with
  | nil => intro s; simp [allOk]
  | cons x rest ih =>
    intro s
    simp only [List.map_cons, List.mem_cons, forall_eq_or_imp]
    cases hx : F x with
    | error err => simp [allOk]
    | ok y =>
      simp only [allOk]
      cases hrest : allOk (rest.map F) with
      | error err =>
        constructor
        · intro h; cases h
        · rintro ⟨⟨_, hall⟩, _⟩
          have := (ih (rest.map fun x => rowOrEmpty (F x))).2 ⟨hall, rfl⟩
          rw [hrest] at this
          cases this
      | ok t =>
        have := (ih t).1 hrest
        constructor
        · intro h
          cases h
          exact ⟨⟨⟨y, rfl⟩, this.1⟩, by rw [this.2]; rfl⟩
        · rintro ⟨_, h⟩
          rw [h, this.2]
          rfl

theorem addAll_append (t : SimpleAggregateFunctionType) : ∀ (a b : List Row)
    (place state : AggregateData),
    SimpleAggregateFunction.addAll t place (a ++ b) = .ok state →
    ∃ middle, SimpleAggregateFunction.addAll t place a = .ok middle ∧
      SimpleAggregateFunction.addAll t middle b = .ok state := by
  intro a
  induction a with
  | nil => intro b place state h; exact ⟨place, rfl, h⟩
  | cons x rest ih =>
    intro b place state h
    simp only [List.cons_append, SimpleAggregateFunction.addAll] at h ⊢
    cases hadd : SimpleAggregateFunction.add t place x with
    | error err => rw [hadd] at h; simp at h
    | ok next =>
      rw [hadd] at h
      simp only at h ⊢
      exact ih b next state h

theorem evaluateKeys_eq (keys : List GroupByKey) (row : Row) :
    GroupByExecutor.evaluateKeys keys row = keyTuple keys row := by
  induction keys with
  | nil => rfl
  | cons key rest ih =>
    simp only [GroupByExecutor.evaluateKeys, keyTuple, List.map_cons]
    cases hkey : key.expression.evaluate row with
    | error err => simp [allOk]
    | ok value =>
      simp only [allOk]
      rw [ih, keyTuple]
      cases allOk (rest.map fun key => key.expression.evaluate row) <;> rfl

theorem lookup_cons_self {α β : Type} [BEq α] [LawfulBEq α] (a : α) (b : β) (es : List (α × β)) :
    List.lookup a ((a, b) :: es) = some b := by
  simp [List.lookup]

theorem lookup_cons_ne {α β : Type} [BEq α] [LawfulBEq α] (a k : α) (b : β) (es : List (α × β))
    (h : a ≠ k) : List.lookup a ((k, b) :: es) = List.lookup a es := by
  have hb : (a == k) = false := by simpa using h
  simp [List.lookup, hb]

theorem GroupByExecutor.assignState_lookup (states : GroupByExecutor.States) (name : String)
    (state : AggregateData) (other : String) :
    (GroupByExecutor.assignState states name state).lookup other =
      if other = name then some state else states.lookup other := by
  induction states with
  | nil =>
    rw [GroupByExecutor.assignState]
    by_cases h : other = name
    · rw [if_pos h, h, lookup_cons_self]
    · rw [if_neg h, lookup_cons_ne _ _ _ _ h]
  | cons p rest ih =>
    obtain ⟨n, s⟩ := p
    rw [GroupByExecutor.assignState]
    by_cases hn : n = name
    · rw [if_pos hn]
      subst hn
      by_cases h : other = n
      · rw [if_pos h, h, lookup_cons_self]
      · rw [if_neg h, lookup_cons_ne _ _ _ _ h, lookup_cons_ne _ _ _ _ h]
    · rw [if_neg hn]
      by_cases h : other = n
      · subst h
        rw [lookup_cons_self, if_neg hn, lookup_cons_self]
      · rw [lookup_cons_ne _ _ _ _ h, ih, lookup_cons_ne _ _ _ _ h]

theorem GroupByExecutor.assignGroup_lookup (values : GroupByExecutor.Groups) (key : Row)
    (states : GroupByExecutor.States) (other : Row) :
    (GroupByExecutor.assignGroup values key states).lookup other =
      if other = key then some states else values.lookup other := by
  induction values with
  | nil =>
    rw [GroupByExecutor.assignGroup]
    by_cases h : other = key
    · rw [if_pos h, h, lookup_cons_self]
    · rw [if_neg h, lookup_cons_ne _ _ _ _ h]
  | cons p rest ih =>
    obtain ⟨k, s⟩ := p
    rw [GroupByExecutor.assignGroup]
    by_cases hk : k = key
    · rw [if_pos hk]
      subst hk
      by_cases h : other = k
      · rw [if_pos h, h, lookup_cons_self]
      · rw [if_neg h, lookup_cons_ne _ _ _ _ h, lookup_cons_ne _ _ _ _ h]
    · rw [if_neg hk]
      by_cases h : other = k
      · subst h
        rw [lookup_cons_self, if_neg hk, lookup_cons_self]
      · rw [lookup_cons_ne _ _ _ _ h, ih, lookup_cons_ne _ _ _ _ h]

theorem GroupByExecutor.assignGroup_keys (values : GroupByExecutor.Groups) (key : Row)
    (states : GroupByExecutor.States) :
    (GroupByExecutor.assignGroup values key states).map Prod.fst =
      if key ∈ values.map Prod.fst then values.map Prod.fst else values.map Prod.fst ++ [key] := by
  induction values with
  | nil => simp [GroupByExecutor.assignGroup]
  | cons p rest ih =>
    obtain ⟨k, s⟩ := p
    rw [GroupByExecutor.assignGroup]
    by_cases hk : k = key
    · rw [if_pos hk]
      subst hk
      simp
    · rw [if_neg hk]
      have hk2 : ¬ key = k := fun h => hk h.symm
      simp only [List.map_cons, List.mem_cons, hk2, false_or, ih]
      split <;> simp

theorem GroupByExecutor.lookup_eq_none_iff (values : GroupByExecutor.Groups) (key : Row) :
    values.lookup key = none ↔ key ∉ values.map Prod.fst := by
  induction values with
  | nil => simp [List.lookup]
  | cons p rest ih =>
    obtain ⟨k, s⟩ := p
    by_cases h : key = k
    · subst h
      rw [lookup_cons_self]
      simp
    · rw [lookup_cons_ne _ _ _ _ h]
      simp only [List.map_cons, List.mem_cons, h, false_or]
      exact ih

theorem GroupByExecutor.lookup_of_mem (values : GroupByExecutor.Groups)
    (hnodup : (values.map Prod.fst).Nodup) (key : Row) (states : GroupByExecutor.States)
    (hmem : (key, states) ∈ values) : values.lookup key = some states := by
  induction values with
  | nil => cases hmem
  | cons p rest ih =>
    obtain ⟨k, s⟩ := p
    simp only [List.map_cons, List.nodup_cons] at hnodup
    rcases List.mem_cons.1 hmem with h | h
    · cases h
      rw [lookup_cons_self]
    · have hne : key ≠ k := by
        intro hk
        subst hk
        exact hnodup.1 (List.mem_map.2 ⟨(key, states), h, rfl⟩)
      rw [lookup_cons_ne _ _ _ _ hne]
      exact ih hnodup.2 h

theorem GroupByExecutor.nextState_congr (a b : GroupByExecutor.States) (row : Row)
    (e : GroupByExpression)
    (h : a.lookup e.aggregate_function_column_name = b.lookup e.aggregate_function_column_name) :
    GroupByExecutor.nextState a row e = GroupByExecutor.nextState b row e := by
  simp only [GroupByExecutor.nextState, h]

/-- With distinct names, the loop over the aggregates gives each aggregate the
state after its own `add` and leaves the states of other names as they were. -/
theorem GroupByExecutor.addExpressions_spec (row : Row) :
    ∀ (exprs : List GroupByExpression) (states : GroupByExecutor.States),
    (aggregateNames exprs).Nodup →
    (∀ e ∈ exprs, ∃ s, GroupByExecutor.nextState states row e = .ok s) →
    ∃ result, GroupByExecutor.addExpressions states row exprs = .ok result ∧
      (∀ e ∈ exprs, ∃ s, GroupByExecutor.nextState states row e = .ok s ∧
        result.lookup e.aggregate_function_column_name = some s) ∧
      (∀ name, name ∉ aggregateNames exprs → result.lookup name = states.lookup name) := by
  intro exprs
  induction exprs with
  | nil =>
    intro states _ _
    exact ⟨states, rfl, fun e he => absurd he (List.not_mem_nil e), fun _ _ => rfl⟩
  | cons e rest ih =>
    intro states hnodup hall
    simp only [aggregateNames, List.map_cons, List.nodup_cons] at hnodup
    obtain ⟨s, hs⟩ := hall e (List.mem_cons_self _ _)
    have hother : ∀ e2 ∈ rest,
        (GroupByExecutor.assignState states e.aggregate_function_column_name s).lookup
          e2.aggregate_function_column_name = states.lookup e2.aggregate_function_column_name := by
      intro e2 he2
      rw [GroupByExecutor.assignState_lookup, if_neg]
      intro heq
      exact hnodup.1 (List.mem_map.2 ⟨e2, he2, heq⟩)
    obtain ⟨result, hres, hin, hout⟩ :=
      ih (GroupByExecutor.assignState states e.aggregate_function_column_name s) hnodup.2
        (fun e2 he2 => by
          rw [GroupByExecutor.nextState_congr _ states row e2 (hother e2 he2)]
          exact hall e2 (List.mem_cons_of_mem _ he2))
    refine ⟨result, ?_, ?_, ?_⟩
    · rw [GroupByExecutor.addExpressions, GroupByExecutor.addExpression, hs]
      exact hres
    · intro e2 he2
      rcases List.mem_cons.1 he2 with h | h
      · subst h
        refine ⟨s, hs, ?_⟩
        rw [hout _ hnodup.1, GroupByExecutor.assignState_lookup, if_pos rfl]
      · obtain ⟨s2, hs2, hl2⟩ := hin e2 h
        rw [GroupByExecutor.nextState_congr _ states row e2 (hother e2 h)] at hs2
        exact ⟨s2, hs2, hl2⟩
    · intro name hname
      simp only [aggregateNames, List.map_cons, List.mem_cons, not_or] at hname
      rw [hout name hname.2, GroupByExecutor.assignState_lookup, if_neg hname.1]

theorem foldState_prefix (e : GroupByExpression) (a b : List Row) (s : AggregateData)
    (h : foldState e (a ++ b) = .ok s) : ∃ s1, foldState e a = .ok s1 := by
  simp only [foldState, List.map_append] at h ⊢
  cases hall : allOk (a.map (firstArgument e) ++ b.map (firstArgument e)) with
  | error err => rw [hall] at h; simp at h
  | ok arguments =>
    rw [hall] at h
    simp only at h
    obtain ⟨s1, s2, h1, _, h3⟩ := allOk_append _ _ _ hall
    subst h3
    obtain ⟨middle, hm, _⟩ := addAll_append _ _ _ _ _ h
    exact ⟨middle, by rw [h1]; exact hm⟩

theorem foldState_snoc (e : GroupByExpression) (rows : List Row) (row : Row) (s2 : AggregateData)
    (h : foldState e (rows ++ [row]) = .ok s2) :
    ∃ s1 argument, foldState e rows = .ok s1 ∧ firstArgument e row = .ok argument ∧
      SimpleAggregateFunction.add e.aggregate_function s1 argument = .ok s2 := by
  simp only [foldState, List.map_append, List.map_cons, List.map_nil] at h ⊢
  cases hall : allOk (rows.map (firstArgument e) ++ [firstArgument e row]) with
  | error err => rw [hall] at h; simp at h
  | ok arguments =>
    rw [hall] at h
    simp only at h
    obtain ⟨a1, a2, h1, h2, h3⟩ := allOk_append _ _ _ hall
    subst h3
    obtain ⟨middle, hm, hlast⟩ := addAll_append _ _ _ _ _ h
    cases harg : firstArgument e row with
    | error err => rw [harg] at h2; simp [allOk] at h2
    | ok argument =>
      rw [harg] at h2
      simp only [allOk, Except.ok.injEq] at h2
      subst h2
      refine ⟨middle, argument, by rw [h1]; exact hm, rfl, ?_⟩
      simp only [SimpleAggregateFunction.addAll] at hlast
      cases hadd : SimpleAggregateFunction.add e.aggregate_function middle argument with
      | error err => rw [hadd] at hlast; simp at hlast
      | ok next =>
        rw [hadd] at hlast
        simpa using hlast

theorem GroupByExecutor.nextState_eq (states : GroupByExecutor.States) (row argument : Row)
    (e : GroupByExpression) (h : firstArgument e row = .ok argument) :
    GroupByExecutor.nextState states row e =
      SimpleAggregateFunction.add e.aggregate_function
        (match states.lookup e.aggregate_function_column_name with
          | some state => state
          | none => SimpleAggregateFunction.create e.aggregate_function GroupByExecutor.newState)
        argument := by
  simp only [firstArgument, GroupByExecutor.nextState] at h ⊢
  cases harg : e.arguments[0]? with
  | none => rw [harg] at h; simp at h
  | some a =>
    rw [harg] at h
    simp only at h ⊢
    cases hval : a.evaluate row with
    | error err => rw [hval] at h; simp at h
    | ok value =>
      rw [hval] at h
      simp only [Except.ok.injEq] at h
      subst h
      rfl

theorem groupOf_snoc_same (keys : List GroupByKey) (done : List Row) (row key : Row)
    (h : keyTuple keys row = .ok key) :
    groupOf keys (done ++ [row]) key = groupOf keys done key ++ [row] := by
  simp [groupOf, List.filter_append, List.filter_cons, h]

theorem groupOf_snoc_other (keys : List GroupByKey) (done : List Row) (row key other : Row)
    (h : keyTuple keys row = .ok key) (hne : other ≠ key) :
    groupOf keys (done ++ [row]) other = groupOf keys done other := by
  have : ¬ key = other := fun h2 => hne h2.symm
  simp [groupOf, List.filter_append, List.filter_cons, h, this]

theorem groupOf_eq_nil (keys : List GroupByKey) (done : List Row) (key : Row)
    (h : ¬ ∃ row ∈ done, keyTuple keys row = .ok key) : groupOf keys done key = [] := by
  rw [groupOf, List.filter_eq_nil_iff]
  intro row hrow hkey
  exact h ⟨row, hrow, by simpa using hkey⟩

/-- The body of the loop over the input rows keeps the invariant. -/
theorem GroupByExecutor.addRow_inv (keys : List GroupByKey) (exprs : List GroupByExpression)
    (hnames : (aggregateNames exprs).Nodup) (values : GroupByExecutor.Groups)
    (done : List Row) (row key : Row)
    (hinv : GroupByExecutor.Inv keys exprs values done)
    (hkey : keyTuple keys row = .ok key)
    (hfold : ∀ e ∈ exprs, ∃ s, foldState e (groupOf keys (done ++ [row]) key) = .ok s) :
    ∃ next, GroupByExecutor.addRow keys exprs values row = .ok next ∧
      GroupByExecutor.Inv keys exprs next (done ++ [row]) := by
  obtain ⟨hnodup, hkeys, hstates⟩ := hinv
  have hnext : ∀ e ∈ exprs, ∀ s, foldState e (groupOf keys (done ++ [row]) key) = .ok s →
      GroupByExecutor.nextState
        (match values.lookup key with
          | some states => states
          | none => []) row e = .ok s := by
    intro e he s hs
    rw [groupOf_snoc_same keys done row key hkey] at hs
    obtain ⟨s1, argument, hs1, harg, hadd⟩ := foldState_snoc e _ row s hs
    rw [GroupByExecutor.nextState_eq _ row argument e harg]
    cases hlook : values.lookup key with
    | none =>
      have hnil := groupOf_eq_nil keys done key (by
        rw [← hkeys key]
        exact (GroupByExecutor.lookup_eq_none_iff values key).1 hlook)
      rw [hnil] at hs1
      have hcreate : s1 = SimpleAggregateFunction.create e.aggregate_function
          GroupByExecutor.newState := by
        have : foldState e [] = .ok (SimpleAggregateFunction.create e.aggregate_function
          GroupByExecutor.newState) := rfl
        rw [this] at hs1
        exact (Except.ok.inj hs1).symm
      subst hcreate
      exact hadd
    | some states =>
      obtain ⟨state, hstate, hl⟩ := hstates key states hlook e he
      rw [hs1] at hstate
      cases hstate
      simp only [hl]
      exact hadd
  obtain ⟨result, hres, hin, _⟩ := GroupByExecutor.addExpressions_spec row exprs
    (match values.lookup key with
      | some states => states
      | none => []) hnames
    (fun e he => by
      obtain ⟨s, hs⟩ := hfold e he
      exact ⟨s, hnext e he s hs⟩)
  refine ⟨GroupByExecutor.assignGroup values key result, ?_, ?_, ?_, ?_⟩
  · rw [GroupByExecutor.addRow, evaluateKeys_eq, hkey]
    simp only
    rw [hres]
  · rw [GroupByExecutor.assignGroup_keys]
    split
    · exact hnodup
    · rename_i hnot
      rw [List.nodup_append]
      refine ⟨hnodup, List.nodup_singleton _, ?_⟩
      intro a ha hb
      have : a = key := by simpa using hb
      subst this
      exact hnot ha
  · intro k
    have hmem : k ∈ (GroupByExecutor.assignGroup values key result).map Prod.fst ↔
        k ∈ values.map Prod.fst ∨ k = key := by
      rw [GroupByExecutor.assignGroup_keys]
      split
      · rename_i hin2
        constructor
        · exact Or.inl
        · rintro (h | h)
          · exact h
          · rw [h]; exact hin2
      · simp
    rw [hmem, hkeys k]
    constructor
    · rintro (⟨r, hr, hrk⟩ | h)
      · exact ⟨r, List.mem_append_left _ hr, hrk⟩
      · subst h
        exact ⟨row, by simp, hkey⟩
    · rintro ⟨r, hr, hrk⟩
      rcases List.mem_append.1 hr with h | h
      · exact Or.inl ⟨r, h, hrk⟩
      · have : r = row := by simpa using h
        subst this
        rw [hkey] at hrk
        exact Or.inr (Except.ok.inj hrk).symm
  · intro k states hlook e he
    rw [GroupByExecutor.assignGroup_lookup] at hlook
    by_cases hk : k = key
    · subst hk
      rw [if_pos rfl] at hlook
      cases hlook
      obtain ⟨s, hs, hl⟩ := hin e he
      obtain ⟨s2, hs2⟩ := hfold e he
      have := hnext e he s2 hs2
      rw [this] at hs
      rw [← Except.ok.inj hs] at hl
      exact ⟨s2, hs2, hl⟩
    · rw [if_neg hk] at hlook
      rw [groupOf_snoc_other keys done row key k hkey hk]
      exact hstates k states hlook e he

/-- The loop over the input rows ends with the invariant on all rows. -/
theorem GroupByExecutor.addRows_inv (keys : List GroupByKey) (exprs : List GroupByExpression)
    (hnames : (aggregateNames exprs).Nodup) (rows : List Row)
    (hkey : ∀ row ∈ rows, ∃ key, keyTuple keys row = .ok key)
    (hfold : ∀ row ∈ rows, ∀ key, keyTuple keys row = .ok key → ∀ e ∈ exprs,
      ∃ s, foldState e (groupOf keys rows key) = .ok s) :
    ∀ (rest done : List Row) (values : GroupByExecutor.Groups), done ++ rest = rows →
      GroupByExecutor.Inv keys exprs values done →
      ∃ result, GroupByExecutor.addRows keys exprs values rest = .ok result ∧
        GroupByExecutor.Inv keys exprs result rows := by
  intro rest
  induction rest with
  | nil =>
    intro done values hrows hinv
    rw [List.append_nil] at hrows
    subst hrows
    exact ⟨values, rfl, hinv⟩
  | cons row rest ih =>
    intro done values hrows hinv
    have hmem : row ∈ rows := by rw [← hrows]; simp
    obtain ⟨key, hk⟩ := hkey row hmem
    have hsplit : (done ++ [row]) ++ rest = rows := by rw [← hrows]; simp
    obtain ⟨next, hnext, hinv2⟩ := GroupByExecutor.addRow_inv keys exprs hnames values done row
      key hinv hk (fun e he => by
        obtain ⟨s, hs⟩ := hfold row hmem key hk e he
        have hgroup : groupOf keys rows key =
            groupOf keys (done ++ [row]) key ++ groupOf keys rest key := by
          rw [← hsplit]
          simp only [groupOf, List.filter_append]
        rw [hgroup] at hs
        exact foldState_prefix e _ _ s hs)
    obtain ⟨result, hres, hfinal⟩ := ih (done ++ [row]) next hsplit hinv2
    refine ⟨result, ?_, hfinal⟩
    rw [GroupByExecutor.addRows, hnext]
    exact hres

theorem allOk_map_forall {α β : Type} (F : β → Except Err α) : ∀ (l : List β) (s : List α),
    allOk (l.map F) = .ok s →
      (∀ x ∈ l, ∃ y, F x = .ok y ∧ y ∈ s) ∧ (∀ y ∈ s, ∃ x ∈ l, F x = .ok y) := by
  intro l
  induction l with
  | nil =>
    intro s h
    simp only [List.map_nil, allOk, Except.ok.injEq] at h
    subst h
    exact ⟨fun x hx => absurd hx (List.not_mem_nil x), fun y hy => absurd hy (List.not_mem_nil y)⟩
  | cons x rest ih =>
    intro s h
    rw [List.map_cons] at h
    cases hx : F x with
    | error err => rw [hx] at h; simp [allOk] at h
    | ok y =>
      rw [hx] at h
      simp only [allOk] at h
      cases hrest : allOk (rest.map F) with
      | error err => rw [hrest] at h; simp at h
      | ok t =>
        rw [hrest] at h
        simp only [Except.ok.injEq] at h
        subst h
        obtain ⟨h1, h2⟩ := ih t hrest
        constructor
        · intro x2 hx2
          rcases List.mem_cons.1 hx2 with h3 | h3
          · subst h3
            exact ⟨y, hx, List.mem_cons_self _ _⟩
          · obtain ⟨y2, hy2, hm⟩ := h1 x2 h3
            exact ⟨y2, hy2, List.mem_cons_of_mem _ hm⟩
        · intro y2 hy2
          rcases List.mem_cons.1 hy2 with h3 | h3
          · subst h3
            exact ⟨x, List.mem_cons_self _ _, hx⟩
          · obtain ⟨x2, hx2, hm⟩ := h2 y2 h3
            exact ⟨x2, List.mem_cons_of_mem _ hx2, hm⟩

theorem aggregateOver_eq (e : GroupByExpression) (rows : List Row) :
    aggregateOver e rows =
      match foldState e rows with
      | .error err => .error err
      | .ok state => SimpleAggregateFunction.getResult e.aggregate_function state := by
  simp only [aggregateOver, foldState]
  cases allOk (rows.map (firstArgument e)) with
  | error err => rfl
  | ok arguments =>
    simp only [SimpleAggregateFunction.aggregate]

theorem GroupByExecutor.results_eq (states : GroupByExecutor.States) (rows : List Row) :
    ∀ exprs : List GroupByExpression,
    (∀ e ∈ exprs, ∃ state, foldState e rows = .ok state ∧
      states.lookup e.aggregate_function_column_name = some state) →
    GroupByExecutor.results states exprs = allOk (exprs.map fun e => aggregateOver e rows) := by
  intro exprs
  induction exprs with
  | nil => intro _; rfl
  | cons e rest ih =>
    intro h
    obtain ⟨state, hfold, hlook⟩ := h e (List.mem_cons_self _ _)
    rw [GroupByExecutor.results, hlook, List.map_cons, aggregateOver_eq, hfold,
      ih (fun e2 he2 => h e2 (List.mem_cons_of_mem _ he2))]
    simp only
    cases SimpleAggregateFunction.getResult e.aggregate_function state with
    | error err => rfl
    | ok value =>
      simp only [allOk]
      cases allOk (rest.map fun e => aggregateOver e rows) <;> rfl

theorem GroupByExecutor.outputRows_eq (keys : List GroupByKey) (exprs : List GroupByExpression)
    (rows : List Row) : ∀ values : GroupByExecutor.Groups,
    (∀ p ∈ values, ∀ e ∈ exprs, ∃ state, foldState e (groupOf keys rows p.1) = .ok state ∧
      p.2.lookup e.aggregate_function_column_name = some state) →
    GroupByExecutor.outputRows exprs values =
      allOk ((values.map Prod.fst).map (groupRow keys exprs rows)) := by
  intro values
  induction values with
  | nil => intro _; rfl
  | cons p rest ih =>
    intro h
    obtain ⟨key, states⟩ := p
    rw [GroupByExecutor.outputRows,
      GroupByExecutor.results_eq states (groupOf keys rows key) exprs
        (h (key, states) (List.mem_cons_self _ _)),
      ih (fun q hq => h q (List.mem_cons_of_mem _ hq))]
    simp only [List.map_cons, groupRow]
    cases allOk (exprs.map fun e => aggregateOver e (groupOf keys rows key)) with
    | error err => rfl
    | ok results =>
      simp only [allOk]
      cases allOk ((rest.map Prod.fst).map (groupRow keys exprs rows)) <;> rfl

/-- With distinct aggregate names, the rows that the constructor builds are, up
to their order, the rows of the groups. -/
theorem GroupByExecutor.rows_perm (keys : List GroupByKey) (exprs : List GroupByExpression)
    (hnames : (aggregateNames exprs).Nodup) (rows : List Row) (spec : List Row)
    (hspec : groupedRows keys exprs rows = .ok spec) :
    ∃ values out, GroupByExecutor.addRows keys exprs [] rows = .ok values ∧
      GroupByExecutor.outputRows exprs values = .ok out ∧ out.Perm spec := by
  rw [groupedRows] at hspec
  cases htuples : allOk (rows.map (keyTuple keys)) with
  | error err => rw [htuples] at hspec; simp at hspec
  | ok tuples =>
    rw [htuples] at hspec
    simp only at hspec
    obtain ⟨hrowkey, htuplerow⟩ := allOk_map_forall (keyTuple keys) rows tuples htuples
    obtain ⟨hgroups, hspecEq⟩ := (allOk_map_ok (groupRow keys exprs rows) tuples.dedup spec).1 hspec
    have hfold : ∀ row ∈ rows, ∀ key, keyTuple keys row = .ok key → ∀ e ∈ exprs,
        ∃ s, foldState e (groupOf keys rows key) = .ok s := by
      intro row hrow key hkey e he
      obtain ⟨k2, hk2, hmem⟩ := hrowkey row hrow
      rw [hkey] at hk2
      cases hk2
      obtain ⟨y, hy⟩ := hgroups key (List.mem_dedup.2 hmem)
      rw [groupRow] at hy
      cases hres : allOk (exprs.map fun e => aggregateOver e (groupOf keys rows key)) with
      | error err => rw [hres] at hy; simp at hy
      | ok results =>
        obtain ⟨v, hv, _⟩ := (allOk_map_forall _ exprs results hres).1 e he
        rw [aggregateOver_eq] at hv
        cases hf : foldState e (groupOf keys rows key) with
        | error err => rw [hf] at hv; simp at hv
        | ok s => exact ⟨s, rfl⟩
    obtain ⟨values, hvalues, hnodup, hkeys, hstates⟩ :=
      GroupByExecutor.addRows_inv keys exprs hnames rows
        (fun row hrow => by
          obtain ⟨k, hk, _⟩ := hrowkey row hrow
          exact ⟨k, hk⟩)
        hfold rows [] [] rfl
        ⟨List.nodup_nil, fun key => by simp, fun key states h => by simp [List.lookup] at h⟩
    have hperm : (values.map Prod.fst).Perm tuples.dedup := by
      rw [List.perm_ext_iff_of_nodup hnodup (List.nodup_dedup tuples)]
      intro key
      rw [hkeys key, List.mem_dedup]
      constructor
      · rintro ⟨row, hrow, hkey⟩
        obtain ⟨k2, hk2, hmem⟩ := hrowkey row hrow
        rw [hkey] at hk2
        cases hk2
        exact hmem
      · intro hmem
        exact htuplerow key hmem
    have hout := GroupByExecutor.outputRows_eq keys exprs rows values (fun p hp e he =>
      hstates p.1 p.2 (GroupByExecutor.lookup_of_mem values hnodup p.1 p.2 hp) e he)
    refine ⟨values, (values.map Prod.fst).map fun k => rowOrEmpty (groupRow keys exprs rows k),
      hvalues, ?_, ?_⟩
    · rw [hout]
      exact (allOk_map_ok (groupRow keys exprs rows) _ _).2
        ⟨fun k hk => hgroups k ((List.Perm.mem_iff hperm).1 hk), rfl⟩
    · rw [hspecEq]
      exact List.Perm.map _ hperm

/-! ## C23: the rows of a grouping -/

/-- C23, at a failing input.  Grouping the rows `(1, 5), (1, 7)` of `T(g, v)`
by `g` with the aggregate expressions `sum(v), sum(v)`, as the interpreter
builds them for the projection `g, sum(v), sum(v)`, gives the row
`(1, 24, 24)`: the two expressions have one column name and so one state, to
which the executor adds every row once per expression.  The sum of `v` over
the group is 12, and the row of the claim is `(1, 12, 12)`. -/
theorem groupBy_same_name_shares_state :
    (∃ schema, createGroupByExecutor 3 0 (.readFromTable oneGroupRows 0 groupSchema) [keyG]
      [sumV, sumV] = .ok (.groupBy schema [[.int64 1, .int64 24, .int64 24]] 0)) ∧
    execute 3 0 (.readFromTable oneGroupRows 0 groupSchema) = .ok oneGroupRows ∧
    groupedRows [keyG] [sumV, sumV] oneGroupRows = .ok [[.int64 1, .int64 12, .int64 12]] :=
  ⟨⟨_, rfl⟩, by decide!, by decide!⟩

/-- The property of C23 for aggregate expressions of pairwise distinct column
names: let the input stream end with the rows `rows`, let the aggregate
expressions have pairwise distinct column names, and let the key
tuples, the aggregates of the groups and the result types of the schema be
defined.  Then `createGroupByExecutor` returns a GroupBy executor whose stream
is, up to the order of the rows, `groupedRows`: one row per distinct tuple of
key-expression values occurring in the input (none for an empty input), each
the key tuple followed, in the order of the aggregate expressions, by the
result of each aggregate folded over the first-argument values of the input
rows having that key tuple. -/
theorem groupBy_rows_of_distinct_names (calls fuel : Nat) (input : Executor)
    (keys : List GroupByKey) (exprs : List GroupByExpression) (rows spec : List Row)
    (key_columns aggregate_columns : Schema)
    (hnames : (aggregateNames exprs).Nodup)
    (hin : execute calls fuel input = .ok rows)
    (hspec : groupedRows keys exprs rows = .ok spec)
    (hkc : GroupByExecutor.keyColumns keys = .ok key_columns)
    (hac : GroupByExecutor.aggregateColumns exprs = .ok aggregate_columns) :
    ∃ out, createGroupByExecutor calls fuel input keys exprs =
        .ok (.groupBy (key_columns ++ aggregate_columns) out 0) ∧
      execute (out.length + 1) 0 (.groupBy (key_columns ++ aggregate_columns) out 0) = .ok out ∧
      out.Perm spec ∧ (rows = [] → out = []) := by
  obtain ⟨values, out, hvalues, hout, hperm⟩ :=
    GroupByExecutor.rows_perm keys exprs hnames rows spec hspec
  refine ⟨out, ?_, execute_groupBy _ _ 0 _ 0 (by omega), hperm, ?_⟩
  · rw [createGroupByExecutor, hin]
    simp only
    rw [hvalues]
    simp only
    rw [hout, hkc, hac]
  · intro hrows
    subst hrows
    simp only [GroupByExecutor.addRows, Except.ok.injEq] at hvalues
    subst hvalues
    simp only [GroupByExecutor.outputRows, Except.ok.injEq] at hout
    exact hout.symm

theorem groupBy_rows_of_distinct_names_witness :
    ∃ out, createGroupByExecutor 4 0 (.readFromTable groupRows 0 groupSchema) [keyG] [sumV, maxV] =
        .ok (.groupBy ([{ name := "g", type := .int64, length := 0 }] ++
          [{ name := "sum(v)", type := .int64, length := 0 },
            { name := "max(v)", type := .int64, length := 0 }]) out 0) ∧
      execute (out.length + 1) 0 (.groupBy ([{ name := "g", type := .int64, length := 0 }] ++
          [{ name := "sum(v)", type := .int64, length := 0 },
            { name := "max(v)", type := .int64, length := 0 }]) out 0) = .ok out ∧
      out.Perm [[.int64 1, .int64 12, .int64 7], [.int64 2, .int64 3, .int64 3]] ∧
      (groupRows = [] → out = []) :=
  groupBy_rows_of_distinct_names 4 0 (.readFromTable groupRows 0 groupSchema) [keyG]
    [sumV, maxV] groupRows _ _ _ (by decide!) (by decide!) (by decide!) rfl rfl

/-! ## The width of the rows of an executor -/

theorem resultColumns_length : ∀ (exprs : List Expression) (schema : Schema),
    resultColumns exprs = .ok schema → schema.length = exprs.length := by
  intro exprs
  induction exprs with
  | nil => intro schema h; simp only [resultColumns, Except.ok.injEq] at h; subst h; rfl
  | cons e rest ih =>
    intro schema h
    rw [resultColumns] at h
    cases ht : e.getResultType with
    | error err => rw [ht] at h; simp at h
    | ok type =>
      rw [ht] at h
      simp only at h
      cases hrest : resultColumns rest with
      | error err => rw [hrest] at h; simp at h
      | ok columns =>
        rw [hrest] at h
        simp only [Except.ok.injEq] at h
        subst h
        simp [ih columns hrest]

theorem evaluateAll_length : ∀ (exprs : List Expression) (row result : Row),
    evaluateAll exprs row = .ok result → result.length = exprs.length := by
  intro exprs
  induction exprs with
  | nil => intro row result h; simp only [evaluateAll, Except.ok.injEq] at h; subst h; rfl
  | cons e rest ih =>
    intro row result h
    rw [evaluateAll] at h
    cases hv : e.evaluate row with
    | error err => rw [hv] at h; simp at h
    | ok value =>
      rw [hv] at h
      simp only at h
      cases hrest : evaluateAll rest row with
      | error err => rw [hrest] at h; simp at h
      | ok values =>
        rw [hrest] at h
        simp only [Except.ok.injEq] at h
        subst h
        simp [ih row values hrest]

theorem returned_expressions (exprs : List Expression) : ∀ (n fuel : Nat) (input : Executor),
    ∀ row ∈ Executor.returned n fuel (.expressions input exprs), row.length = exprs.length := by
  intro n
  induction n with
  | zero => intro fuel input row h; simp [Executor.returned] at h
  | succ n ih =>
    intro fuel input row h
    rw [Executor.returned] at h
    cases fuel with
    | zero => simp [Executor.next] at h
    | succ fuel =>
      rw [Executor.next] at h
      cases hnext : Executor.next fuel input with
      | error err => rw [hnext] at h; simp at h
      | ok p =>
        obtain ⟨r, input2⟩ := p
        rw [hnext] at h
        cases r with
        | none => simp at h
        | some r =>
          simp only at h
          cases hall : evaluateAll exprs r with
          | error err => rw [hall] at h; simp at h
          | ok result =>
            rw [hall] at h
            simp only [List.mem_cons] at h
            rcases h with h | h
            · rw [h]; exact evaluateAll_length exprs r result hall
            · exact ih (fuel + 1) input2 row h

theorem returned_join (schema : Schema) (rows : List Row) : ∀ (n fuel pos : Nat),
    ∀ row ∈ Executor.returned n fuel (.join schema rows pos), row ∈ rows := by
  intro n
  induction n with
  | zero => intro fuel pos row h; simp [Executor.returned] at h
  | succ n ih =>
    intro fuel pos row h
    rw [Executor.returned, Executor.next] at h
    by_cases hpos : pos = rows.length
    · rw [if_pos hpos] at h; simp at h
    · rw [if_neg hpos] at h
      cases hget : rows.get? pos with
      | none => rw [hget] at h; simp at h
      | some r =>
        rw [hget] at h
        simp only [List.mem_cons] at h
        rcases h with h | h
        · rw [h]; exact List.get?_mem hget
        · exact ih fuel (pos + 1) row h

theorem returned_groupBy (schema : Schema) (rows : List Row) : ∀ (n fuel pos : Nat),
    ∀ row ∈ Executor.returned n fuel (.groupBy schema rows pos), row ∈ rows := by
  intro n
  induction n with
  | zero => intro fuel pos row h; simp [Executor.returned] at h
  | succ n ih =>
    intro fuel pos row h
    rw [Executor.returned, Executor.next] at h
    by_cases hpos : pos = rows.length
    · rw [if_pos hpos] at h; simp at h
    · rw [if_neg hpos] at h
      cases hget : rows.get? pos with
      | none => rw [hget] at h; simp at h
      | some r =>
        rw [hget] at h
        simp only [List.mem_cons] at h
        rcases h with h | h
        · rw [h]; exact List.get?_mem hget
        · exact ih fuel (pos + 1) row h

theorem joinRest_length (ls : Schema) : ∀ (rs : Schema) (r : Row), r.length = rs.length →
    (joinRest ls rs r).length = (rs.filter fun d => ls.all fun c => c.name != d.name).length := by
  intro rs
  induction rs with
  | nil => intro r _; simp [joinRest]
  | cons d rest ih =>
    intro r hr
    cases r with
    | nil => simp at hr
    | cons b r =>
      have hr2 : r.length = rest.length := by simpa using hr
      have := ih r hr2
      simp only [joinRest, List.length_map] at this
      simp only [joinRest, List.zip_cons_cons, List.filter_cons, List.length_map]
      split <;> simp [this]

theorem joinedRows_length (ls rs : Schema) (left_rows right_rows : List Row)
    (hlw : ∀ l ∈ left_rows, l.length = ls.length)
    (hrw : ∀ r ∈ right_rows, r.length = rs.length) :
    ∀ row ∈ joinedRows ls rs left_rows right_rows,
      row.length = (ls ++ rs.filter fun d => ls.all fun c => c.name != d.name).length := by
  intro row hrow
  simp only [joinedRows, List.mem_flatten, List.mem_map] at hrow
  obtain ⟨group, ⟨l, hl, hgroup⟩, hmem⟩ := hrow
  subst hgroup
  simp only [List.mem_map, List.mem_filter] at hmem
  obtain ⟨r, ⟨hr, _⟩, hrow⟩ := hmem
  subst hrow
  rw [List.length_append, List.length_append, hlw l hl, joinRest_length ls rs r (hrw r hr)]

theorem GroupByExecutor.keyColumns_length : ∀ (keys : List GroupByKey) (schema : Schema),
    GroupByExecutor.keyColumns keys = .ok schema → schema.length = keys.length := by
  intro keys
  induction keys with
  | nil =>
    intro schema h
    simp only [GroupByExecutor.keyColumns, Except.ok.injEq] at h
    subst h
    rfl
  | cons key rest ih =>
    intro schema h
    rw [GroupByExecutor.keyColumns] at h
    cases ht : key.expression.getResultType with
    | error err => rw [ht] at h; simp at h
    | ok type =>
      rw [ht] at h
      simp only at h
      cases hrest : GroupByExecutor.keyColumns rest with
      | error err => rw [hrest] at h; simp at h
      | ok columns =>
        rw [hrest] at h
        simp only [Except.ok.injEq] at h
        subst h
        simp [ih columns hrest]

theorem GroupByExecutor.aggregateColumns_length : ∀ (exprs : List GroupByExpression)
    (schema : Schema),
    GroupByExecutor.aggregateColumns exprs = .ok schema → schema.length = exprs.length := by
  intro exprs
  induction exprs with
  | nil =>
    intro schema h
    simp only [GroupByExecutor.aggregateColumns, Except.ok.injEq] at h
    subst h
    rfl
  | cons e rest ih =>
    intro schema h
    rw [GroupByExecutor.aggregateColumns] at h
    cases harg : e.arguments[0]? with
    | none => rw [harg] at h; simp at h
    | some argument =>
      rw [harg] at h
      simp only at h
      cases ht : argument.getResultType with
      | error err => rw [ht] at h; simp at h
      | ok type =>
        rw [ht] at h
        simp only at h
        cases hrest : GroupByExecutor.aggregateColumns rest with
        | error err => rw [hrest] at h; simp at h
        | ok columns =>
          rw [hrest] at h
          simp only [Except.ok.injEq] at h
          subst h
          simp [ih columns hrest]

theorem GroupByExecutor.results_length (states : GroupByExecutor.States) :
    ∀ (exprs : List GroupByExpression) (values : Row),
    GroupByExecutor.results states exprs = .ok values → values.length = exprs.length := by
  intro exprs
  induction exprs with
  | nil =>
    intro values h
    simp only [GroupByExecutor.results, Except.ok.injEq] at h
    subst h
    rfl
  | cons e rest ih =>
    intro values h
    rw [GroupByExecutor.results] at h
    cases hlook : List.lookup e.aggregate_function_column_name states with
    | none => rw [hlook] at h; simp at h
    | some state =>
      rw [hlook] at h
      simp only at h
      cases hres : SimpleAggregateFunction.getResult e.aggregate_function state with
      | error err => rw [hres] at h; simp at h
      | ok value =>
        rw [hres] at h
        simp only at h
        cases hrest : GroupByExecutor.results states rest with
        | error err => rw [hrest] at h; simp at h
        | ok more =>
          rw [hrest] at h
          simp only [Except.ok.injEq] at h
          subst h
          simp [ih more hrest]

theorem keyTuple_length : ∀ (keys : List GroupByKey) (row key : Row),
    keyTuple keys row = .ok key → key.length = keys.length := by
  intro keys
  induction keys with
  | nil => intro row key h; simp only [keyTuple, List.map_nil, allOk, Except.ok.injEq] at h; subst h; rfl
  | cons k rest ih =>
    intro row key h
    simp only [keyTuple, List.map_cons] at h
    cases hv : k.expression.evaluate row with
    | error err => rw [hv] at h; simp [allOk] at h
    | ok value =>
      rw [hv] at h
      simp only [allOk] at h
      cases hrest : allOk (rest.map fun key => key.expression.evaluate row) with
      | error err => rw [hrest] at h; simp at h
      | ok values =>
        rw [hrest] at h
        simp only [Except.ok.injEq] at h
        subst h
        simp [ih row values hrest]

theorem GroupByExecutor.addRows_keys_length (keys : List GroupByKey)
    (exprs : List GroupByExpression) : ∀ (rows : List Row) (values result : GroupByExecutor.Groups),
    (∀ key ∈ values.map Prod.fst, key.length = keys.length) →
    GroupByExecutor.addRows keys exprs values rows = .ok result →
    ∀ key ∈ result.map Prod.fst, key.length = keys.length := by
  intro rows
  induction rows with
  | nil =>
    intro values result hlen h
    simp only [GroupByExecutor.addRows, Except.ok.injEq] at h
    subst h
    exact hlen
  | cons row rest ih =>
    intro values result hlen h
    rw [GroupByExecutor.addRows] at h
    cases hrow : GroupByExecutor.addRow keys exprs values row with
    | error err => rw [hrow] at h; simp at h
    | ok next =>
      rw [hrow] at h
      simp only at h
      refine ih next result ?_ h
      rw [GroupByExecutor.addRow, evaluateKeys_eq] at hrow
      cases hkey : keyTuple keys row with
      | error err => rw [hkey] at hrow; simp at hrow
      | ok val_key =>
        rw [hkey] at hrow
        simp only at hrow
        cases hexprs : GroupByExecutor.addExpressions
            (match values.lookup val_key with
              | some states => states
              | none => []) row exprs with
        | error err => rw [hexprs] at hrow; simp at hrow
        | ok states =>
          rw [hexprs] at hrow
          simp only [Except.ok.injEq] at hrow
          subst hrow
          intro key hmem
          rw [GroupByExecutor.assignGroup_keys] at hmem
          split at hmem
          · exact hlen key hmem
          · rcases List.mem_append.1 hmem with h1 | h1
            · exact hlen key h1
            · have : key = val_key := by simpa using h1
              subst this
              exact keyTuple_length keys row key hkey

theorem GroupByExecutor.outputRows_length (exprs : List GroupByExpression) (width : Nat) :
    ∀ (values : GroupByExecutor.Groups) (out : List Row),
    (∀ key ∈ values.map Prod.fst, key.length = width) →
    GroupByExecutor.outputRows exprs values = .ok out →
    ∀ row ∈ out, row.length = width + exprs.length := by
  intro values
  induction values with
  | nil =>
    intro out _ h
    simp only [GroupByExecutor.outputRows, Except.ok.injEq] at h
    subst h
    intro row hrow
    exact absurd hrow (List.not_mem_nil row)
  | cons p rest ih =>
    intro out hlen h
    obtain ⟨key, states⟩ := p
    rw [GroupByExecutor.outputRows] at h
    cases hres : GroupByExecutor.results states exprs with
    | error err => rw [hres] at h; simp at h
    | ok values =>
      rw [hres] at h
      simp only at h
      cases hrest : GroupByExecutor.outputRows exprs rest with
      | error err => rw [hrest] at h; simp at h
      | ok rows =>
        rw [hrest] at h
        simp only [Except.ok.injEq] at h
        subst h
        intro row hrow
        rcases List.mem_cons.1 hrow with h1 | h1
        · subst h1
          rw [List.length_append, GroupByExecutor.results_length states exprs values hres,
            hlen key (by simp)]
        · exact ih rows (fun k hk => hlen k (by simp [List.mem_map] at hk ⊢; exact Or.inr hk))
            hrest row h1

/-- The rows of a GroupBy executor are as wide as its schema. -/
theorem createGroupByExecutor_width (calls fuel : Nat) (input : Executor)
    (keys : List GroupByKey) (exprs : List GroupByExpression) (g : Executor)
    (h : createGroupByExecutor calls fuel input keys exprs = .ok g) :
    ∃ schema rows, g = .groupBy schema rows 0 ∧ ∀ row ∈ rows, row.length = schema.length := by
  rw [createGroupByExecutor] at h
  cases hin : execute calls fuel input with
  | error err => rw [hin] at h; simp at h
  | ok rows =>
    rw [hin] at h
    simp only at h
    cases hvalues : GroupByExecutor.addRows keys exprs [] rows with
    | error err => rw [hvalues] at h; simp at h
    | ok values =>
      rw [hvalues] at h
      simp only at h
      cases hout : GroupByExecutor.outputRows exprs values with
      | error err => rw [hout] at h; simp at h
      | ok out =>
        rw [hout] at h
        simp only at h
        cases hkc : GroupByExecutor.keyColumns keys with
        | error err => rw [hkc] at h; simp at h
        | ok key_columns =>
          rw [hkc] at h
          simp only at h
          cases hac : GroupByExecutor.aggregateColumns exprs with
          | error err => rw [hac] at h; simp at h
          | ok aggregate_columns =>
            rw [hac] at h
            simp only [Except.ok.injEq] at h
            refine ⟨_, _, h.symm, ?_⟩
            intro row hrow
            rw [List.length_append, GroupByExecutor.keyColumns_length keys _ hkc,
              GroupByExecutor.aggregateColumns_length exprs _ hac]
            exact GroupByExecutor.outputRows_length exprs keys.length values out
              (GroupByExecutor.addRows_keys_length keys exprs rows [] values
                (fun k hk => absurd hk (List.not_mem_nil k)) hvalues) hout row hrow

/-- The rows of a Join executor are as wide as its schema when the names of the
right schema are unique and the rows of the children are as wide as theirs. -/
theorem createJoinExecutor_width (calls fuel : Nat) (left right : Executor) (ls rs : Schema)
    (j : Executor)
    (hls : left.getOutputSchema = .ok ls) (hrs : right.getOutputSchema = .ok rs)
    (hnodup : (Schema.names rs).Nodup)
    (hlw : ∀ rows, execute calls fuel left = .ok rows → ∀ l ∈ rows, l.length = ls.length)
    (hrw : ∀ rows, execute calls fuel right = .ok rows → ∀ r ∈ rows, r.length = rs.length)
    (h : createJoinExecutor calls fuel left right = .ok j) :
    ∃ schema rows, j = .join schema rows 0 ∧ ∀ row ∈ rows, row.length = schema.length := by
  by_cases hshared : ∃ d ∈ rs, ∃ c ∈ ls, c.name = d.name
  · have hlt := JoinExecutor.joinSchema_length_lt rs ls hshared
    have h2 := h
    rw [createJoinExecutor, hls, hrs] at h2
    simp only at h2
    rw [if_neg (by omega)] at h2
    cases hl : execute calls fuel left with
    | error err => rw [hl] at h2; simp at h2
    | ok left_rows =>
      rw [hl] at h2
      simp only at h2
      cases hr : execute calls fuel right with
      | error err => rw [hr] at h2; simp at h2
      | ok right_rows =>
        rw [createJoinExecutor_shared calls fuel left right ls rs left_rows right_rows hls hrs
          hl hr hnodup hshared (hlw left_rows hl) (hrw right_rows hr)] at h
        simp only [Except.ok.injEq] at h
        exact ⟨_, _, h.symm,
          joinedRows_length ls rs left_rows right_rows (hlw left_rows hl) (hrw right_rows hr)⟩
  · have hdisjoint : ∀ c ∈ ls, ∀ d ∈ rs, c.name ≠ d.name := by
      intro c hc d hd hcd
      exact hshared ⟨d, hd, c, hc, hcd⟩
    rw [createJoinExecutor_disjoint calls fuel left right ls rs hls hrs hnodup hdisjoint] at h
    simp only [Except.ok.injEq] at h
    exact ⟨_, _, h.symm, fun row hrow => absurd hrow (List.not_mem_nil row)⟩

/-! ## C24: the rows of an executor and its schema -/

/-- C24 (counterexample): the join of table `L(a)` with the row `(1)` and of
table `R(b, b)` with the row `(2, 3)` has a schema of two columns, `(a, b)`,
and returns the row `(1, 2, 3)` of three values. -/
theorem join_row_wider_than_schema :
    ∃ join schema, createJoinExecutor 2 0 tableL tableR = .ok join ∧
      join.getOutputSchema = .ok schema ∧ schema.length = 2 ∧
      Executor.returned 1 0 join = [[.int64 1, .int64 2, .int64 3]] :=
  ⟨_, _, rfl, rfl, rfl, rfl⟩

/-- C24 (amended): every row that `next` returns has as many values as the
schema of `getOutputSchema` has columns, for an Expressions executor and a
GroupBy executor on every input, and for a Join executor when the names of the
right child's schema are unique and every row of a child has as many values as
the schema of that child has columns. -/
theorem rows_as_wide_as_schema :
    (∀ (n fuel : Nat) (input : Executor) (exprs : List Expression) (schema : Schema),
      (Executor.expressions input exprs).getOutputSchema = .ok schema →
      ∀ row ∈ Executor.returned n fuel (.expressions input exprs), row.length = schema.length) ∧
    (∀ (calls fuel : Nat) (input : Executor) (keys : List GroupByKey)
      (exprs : List GroupByExpression) (g : Executor) (schema : Schema),
      createGroupByExecutor calls fuel input keys exprs = .ok g →
      g.getOutputSchema = .ok schema →
      ∀ n f, ∀ row ∈ Executor.returned n f g, row.length = schema.length) ∧
    (∀ (calls fuel : Nat) (left right : Executor) (ls rs : Schema) (join : Executor)
      (schema : Schema),
      left.getOutputSchema = .ok ls → right.getOutputSchema = .ok rs →
      (Schema.names rs).Nodup →
      (∀ rows, execute calls fuel left = .ok rows → ∀ l ∈ rows, l.length = ls.length) →
      (∀ rows, execute calls fuel right = .ok rows → ∀ r ∈ rows, r.length = rs.length) →
      createJoinExecutor calls fuel left right = .ok join →
      join.getOutputSchema = .ok schema →
      ∀ n f, ∀ row ∈ Executor.returned n f join, row.length = schema.length) := by
  refine ⟨?_, ?_, ?_⟩
  · intro n fuel input exprs schema hschema row hrow
    rw [Executor.getOutputSchema] at hschema
    rw [resultColumns_length exprs schema hschema]
    exact returned_expressions exprs n fuel input row hrow
  · intro calls fuel input keys exprs g schema hg hschema n f row hrow
    obtain ⟨s, rows, hgs, hwidth⟩ := createGroupByExecutor_width calls fuel input keys exprs g hg
    subst hgs
    simp only [Executor.getOutputSchema, Except.ok.injEq] at hschema
    subst hschema
    exact hwidth row (returned_groupBy s rows n f 0 row hrow)
  · intro calls fuel left right ls rs join schema hls hrs hnodup hlw hrw hj hschema n f row hrow
    obtain ⟨s, rows, hjs, hwidth⟩ :=
      createJoinExecutor_width calls fuel left right ls rs join hls hrs hnodup hlw hrw hj
    subst hjs
    simp only [Executor.getOutputSchema, Except.ok.injEq] at hschema
    subst hschema
    exact hwidth row (returned_join s rows n f 0 row hrow)

theorem rows_as_wide_as_schema_witness :
    (Schema.names joinSchemaB).Nodup ∧
    (∀ row ∈ Executor.returned 5 1 (.expressions (.readFromTable groupRows 0 groupSchema)
        [.identifier "v" (some groupSchema), .identifier "g" (some groupSchema)]),
      row.length = 2) ∧
    (∀ g schema, createGroupByExecutor 4 0 (.readFromTable groupRows 0 groupSchema) [keyG]
        [sumV, maxV] = .ok g → g.getOutputSchema = .ok schema →
      ∀ n f, ∀ row ∈ Executor.returned n f g, row.length = schema.length) ∧
    (∀ join schema, createJoinExecutor 3 0 (.readFromTable joinRowsA 0 joinSchemaA)
        (.readFromTable joinRowsB 0 joinSchemaB) = .ok join → join.getOutputSchema = .ok schema →
      ∀ n f, ∀ row ∈ Executor.returned n f join, row.length = schema.length) :=
  ⟨by decide!,
    rows_as_wide_as_schema.1 5 1 (.readFromTable groupRows 0 groupSchema)
      [.identifier "v" (some groupSchema), .identifier "g" (some groupSchema)]
      [columnOfType .int64, columnOfType .int64] rfl,
    fun g schema => rows_as_wide_as_schema.2.1 4 0 (.readFromTable groupRows 0 groupSchema)
      [keyG] [sumV, maxV] g schema,
    fun join schema => rows_as_wide_as_schema.2.2 3 0 (.readFromTable joinRowsA 0 joinSchemaA)
      (.readFromTable joinRowsB 0 joinSchemaB) joinSchemaA joinSchemaB join schema rfl rfl
      (by decide!)
      (fun rows h l hl => by
        have hrows : execute 3 0 (.readFromTable joinRowsA 0 joinSchemaA) = .ok joinRowsA := by
          decide!
        rw [hrows] at h
        cases h
        revert l
        decide!)
      (fun rows h r hr => by
        have hrows : execute 3 0 (.readFromTable joinRowsB 0 joinSchemaB) = .ok joinRowsB := by
          decide!
        rw [hrows] at h
        cases h
        revert r
        decide!)⟩

/-! ## C40: the fixed row space and the row space -/

namespace Marshal

theorem getNullsLoop_of_no_null : ∀ (row : Row) (index nulls : Nat),
    (∀ v ∈ row, v ≠ Value.null) → getNullsLoop row index nulls = nulls := by
  intro row
  induction row with
  | nil => intro index nulls _; rfl
  | cons v rest ih =>
    intro index nulls h
    rw [getNullsLoop, if_neg (h v (List.mem_cons_self _ _))]
    exact ih (index + 1) nulls (fun w hw => h w (List.mem_cons_of_mem _ hw))

theorem stringSpace_of_no_string : ∀ (schema : Schema) (row : Row),
    (∀ c ∈ schema, c.type ≠ .string) → stringSpace schema row = 0 := by
  intro schema
  induction schema with
  | nil => intro row _; cases row <;> rfl
  | cons c cs ih =>
    intro row h
    cases row with
    | nil => rfl
    | cons v vs =>
      have hc := h c (List.mem_cons_self _ _)
      have hcell : isStringCell c v = false := by
        unfold isStringCell
        cases hct : c.type <;> first | rfl | exact absurd hct hc
      simp only [stringSpace, hcell, ih vs (fun d hd => h d (List.mem_cons_of_mem _ hd))]
      rfl

theorem stringSpace_of_string : ∀ (schema : Schema) (row : Row),
    validRow schema row = true → (∀ v ∈ row, v ≠ Value.null) →
    (∃ c ∈ schema, c.type = .string) → 16 ≤ stringSpace schema row := by
  intro schema
  induction schema with
  | nil => intro row _ _ h; obtain ⟨c, hc, _⟩ := h; cases hc
  | cons c cs ih =>
    intro row hval hnn h
    cases row with
    | nil => simp [validRow] at hval
    | cons v vs =>
      simp only [validRow, Bool.and_eq_true] at hval
      by_cases hct : c.type = .string
      · have hv := hnn v (List.mem_cons_self _ _)
        have hcell : isStringCell c v = true := by
          cases v with
          | null => exact absurd rfl hv
          | boolean b => simp [validValue, hct] at hval
          | uint64 n => simp [validValue, hct] at hval
          | int64 i => simp [validValue, hct] at hval
          | str s => simp [isStringCell, hct]
        simp only [stringSpace, hcell, if_true]
        omega
      · obtain ⟨d, hd, hdt⟩ := h
        have hd2 : d ∈ cs := by
          rcases List.mem_cons.1 hd with h1 | h1
          · subst h1; exact absurd hdt hct
          · exact h1
        have := ih vs hval.2 (fun w hw => hnn w (List.mem_cons_of_mem _ hw)) ⟨d, hd2, hdt⟩
        simp only [stringSpace]
        omega

/-- The row space of a valid row without a `Null` is the fixed row space plus
the space of its strings. -/
theorem getRowSpace_eq_fixed (schema : Schema) (row : Row) (hlen : row.length ≤ 63)
    (hval : validRow schema row = true) (hnn : ∀ v ∈ row, v ≠ Value.null) :
    getRowSpace schema row = .ok (getFixedRowSpace schema + stringSpace schema row) := by
  have hnulls : getNulls row = 0 := getNullsLoop_of_no_null row 0 0 hnn
  have hbit : ∀ j, j < 64 → ((getNulls row).testBit j = true ↔ row.get? j = some Value.null) :=
    fun j _ => testBit_getNulls row (by omega) j
  have h1 := calculateFixedRowSpaceLoop_eq row (getNulls row) hbit schema row [] 8 rfl
    (by omega) hval
  simp only [List.length_nil, Nat.shiftRight_zero] at h1
  have hfixed : getFixedRowSpace schema = 8 + fixedSpace schema row := by
    unfold getFixedRowSpace calculateFixedRowSpace
    rw [← hnulls]
    exact h1
  rw [getRowSpace_eq schema row hlen hval, ← space_eq_encodedSize schema row hval, hfixed]
  simp [Nat.add_assoc]

end Marshal

/-- C40: for a schema of at most 63 columns and a row valid against it with no
`Null` value, `getRowSpace(r)` is `getFixedRowSpace()` when the schema has no
`string` column; when the schema has a `string` column, `getFixedRowSpace()`
is smaller than `getRowSpace(r)`, by the 16 bytes of the length and offset of
each string and by the bytes of the strings. -/
theorem fixed_row_space_and_row_space (schema : Schema) (row : Row)
    (hcols : schema.length ≤ 63) (hval : Marshal.validRow schema row = true)
    (hnn : ∀ v ∈ row, v ≠ Value.null) :
    ((∀ c ∈ schema, c.type ≠ .string) →
      Marshal.getRowSpace schema row = .ok (Marshal.getFixedRowSpace schema)) ∧
    ((∃ c ∈ schema, c.type = .string) →
      ∃ space, Marshal.getRowSpace schema row = .ok space ∧
        Marshal.getFixedRowSpace schema < space ∧
        space = Marshal.getFixedRowSpace schema + Marshal.stringSpace schema row ∧
        16 ≤ Marshal.stringSpace schema row) := by
  have hlen : row.length ≤ 63 := by rw [← Marshal.validRow_length schema row hval]; exact hcols
  have hspace := Marshal.getRowSpace_eq_fixed schema row hlen hval hnn
  constructor
  · intro hno
    rw [hspace, Marshal.stringSpace_of_no_string schema row hno, Nat.add_zero]
  · intro hstr
    have h16 := Marshal.stringSpace_of_string schema row hval hnn hstr
    exact ⟨_, hspace, by omega, rfl, h16⟩

/-- C40 at concrete inputs: the key schema of one `int64` column with the key 7,
and the schema of one `string` column with a string of 3 bytes. -/
theorem fixed_row_space_and_row_space_witness :
    Marshal.getRowSpace intKeySchema (intKey 7) = .ok (Marshal.getFixedRowSpace intKeySchema) ∧
    ∃ space, Marshal.getRowSpace stringSchema (stringRow 3) = .ok space ∧
      Marshal.getFixedRowSpace stringSchema < space ∧
      space = Marshal.getFixedRowSpace stringSchema +
        Marshal.stringSpace stringSchema (stringRow 3) ∧
      16 ≤ Marshal.stringSpace stringSchema (stringRow 3) :=
  ⟨(fixed_row_space_and_row_space intKeySchema (intKey 7) (by decide) (by decide)
      (by decide)).1 (by decide),
    (fixed_row_space_and_row_space stringSchema (stringRow 3) (by decide) (by decide)
      (by decide)).2 (by decide)⟩

/-! ## C37: the null bitmap -/

namespace Marshal

theorem withoutNulls_valid : ∀ (schema : Schema) (row : Row), validRow schema row = true →
    validRow (withoutNulls schema row).1 (withoutNulls schema row).2 = true := by
  intro schema
  induction schema with
  | nil => intro row h; cases row <;> simp [withoutNulls, validRow]
  | cons c cs ih =>
    intro row h
    cases row with
    | nil => simp [validRow] at h
    | cons v vs =>
      simp only [validRow, Bool.and_eq_true] at h
      rw [withoutNulls]
      split
      · exact ih vs h.2
      · simp only [validRow, Bool.and_eq_true]
        exact ⟨h.1, ih vs h.2⟩

theorem withoutNulls_no_null : ∀ (schema : Schema) (row : Row),
    ∀ v ∈ (withoutNulls schema row).2, v ≠ Value.null := by
  intro schema
  induction schema with
  | nil => intro row v hv; cases row <;> simp [withoutNulls] at hv
  | cons c cs ih =>
    intro row v hv
    cases row with
    | nil => simp [withoutNulls] at hv
    | cons w ws =>
      rw [withoutNulls] at hv
      split at hv
      · exact ih ws v hv
      · rename_i hw
        rcases List.mem_cons.1 hv with h1 | h1
        · rw [h1]; exact hw
        · exact ih ws v h1

theorem withoutNulls_length : ∀ (schema : Schema) (row : Row),
    (withoutNulls schema row).1.length ≤ schema.length := by
  intro schema
  induction schema with
  | nil => intro row; cases row <;> simp [withoutNulls]
  | cons c cs ih =>
    intro row
    cases row with
    | nil => simp [withoutNulls]
    | cons w ws =>
      rw [withoutNulls]
      have := ih ws
      split
      · simp only [List.length_cons]; omega
      · simp only [List.length_cons]; omega

theorem withoutNulls_fixedZero : ∀ (schema : Schema) (row : Row),
    fixedZero (withoutNulls schema row).1 (withoutNulls schema row).2 = fixedZero schema row := by
  intro schema
  induction schema with
  | nil => intro row; cases row <;> simp [withoutNulls, fixedZero]
  | cons c cs ih =>
    intro row
    cases row with
    | nil => simp [withoutNulls, fixedZero]
    | cons w ws =>
      rw [withoutNulls]
      split
      · rename_i hw
        subst hw
        rw [ih ws]
        simp [fixedZero, cell]
      · simp only [fixedZero, ih ws]

theorem withoutNulls_fixedBytes : ∀ (schema : Schema) (row : Row) (off : Nat),
    fixedBytes (withoutNulls schema row).1 (withoutNulls schema row).2 off =
      fixedBytes schema row off := by
  intro schema
  induction schema with
  | nil => intro row off; cases row <;> simp [withoutNulls, fixedBytes]
  | cons c cs ih =>
    intro row off
    cases row with
    | nil => simp [withoutNulls, fixedBytes]
    | cons w ws =>
      rw [withoutNulls]
      split
      · rename_i hw
        subst hw
        rw [ih ws]
        have hheap : heapCell c Value.null = [] := by
          unfold heapCell
          cases c.type <;> rfl
        simp [fixedBytes, cell, hheap]
      · simp only [fixedBytes, ih ws]

theorem withoutNulls_heapBytes : ∀ (schema : Schema) (row : Row),
    heapBytes (withoutNulls schema row).1 (withoutNulls schema row).2 = heapBytes schema row := by
  intro schema
  induction schema with
  | nil => intro row; cases row <;> simp [withoutNulls, heapBytes]
  | cons c cs ih =>
    intro row
    cases row with
    | nil => simp [withoutNulls, heapBytes]
    | cons w ws =>
      rw [withoutNulls]
      split
      · rename_i hw
        subst hw
        rw [ih ws]
        have hheap : heapCell c Value.null = [] := by
          unfold heapCell
          cases c.type <;> rfl
        simp [heapBytes, hheap]
      · simp only [heapBytes, ih ws]

end Marshal

/-- C37: for a schema of at most 63 columns and a row valid against it (one
value per column, `Null` or of the column's type), `serializeRow` writes first
the 8 bytes, least significant first, of the 64-bit word whose bit `i` is set
exactly when `r[i]` is `Null`, and after them the bytes that it writes after
the bitmap for the row and the schema with the `Null` columns removed, whose
bitmap is 0. -/
theorem null_bitmap_then_non_null_columns (schema : Schema) (row : Row)
    (hcols : schema.length ≤ 63) (hval : Marshal.validRow schema row = true) :
    ∃ rest, Marshal.serializeRow schema row = .ok (Marshal.le64 (Marshal.getNulls row) ++ rest) ∧
      Marshal.getNulls row < 18446744073709551616 ∧
      (∀ i, (Marshal.getNulls row).testBit i = true ↔ row[i]? = some Value.null) ∧
      Marshal.serializeRow (Marshal.withoutNulls schema row).1 (Marshal.withoutNulls schema row).2 =
        .ok (Marshal.le64 0 ++ rest) := by
  have hlen : row.length ≤ 63 := by rw [← Marshal.validRow_length schema row hval]; exact hcols
  have hval2 := Marshal.withoutNulls_valid schema row hval
  have hlen2 : (Marshal.withoutNulls schema row).2.length ≤ 63 := by
    rw [← Marshal.validRow_length _ _ hval2]
    exact Nat.le_trans (Marshal.withoutNulls_length schema row) hcols
  have hnulls : Marshal.getNulls (Marshal.withoutNulls schema row).2 = 0 :=
    Marshal.getNullsLoop_of_no_null _ 0 0 (Marshal.withoutNulls_no_null schema row)
  refine ⟨Marshal.fixedBytes schema row (8 + (Marshal.fixedZero schema row).length) ++
      Marshal.heapBytes schema row, ?_, Marshal.getNulls_lt row (by omega), ?_, ?_⟩
  · rw [Marshal.serializeRow_eq schema row hlen hval, List.append_assoc]
  · intro i
    rw [Marshal.testBit_getNulls row (by omega) i, List.get?_eq_getElem?]
  · rw [Marshal.serializeRow_eq _ _ hlen2 hval2, hnulls, Marshal.withoutNulls_fixedZero,
      Marshal.withoutNulls_fixedBytes, Marshal.withoutNulls_heapBytes, List.append_assoc]

/-- C37 at a concrete input: a row of `mixedSchema` with three `Null` values. -/
theorem null_bitmap_then_non_null_columns_witness :
    Marshal.getNulls nullRow = 37 ∧
    ∃ rest, Marshal.serializeRow mixedSchema nullRow =
        .ok (Marshal.le64 (Marshal.getNulls nullRow) ++ rest) ∧
      Marshal.getNulls nullRow < 18446744073709551616 ∧
      (∀ i, (Marshal.getNulls nullRow).testBit i = true ↔ nullRow[i]? = some Value.null) ∧
      Marshal.serializeRow (Marshal.withoutNulls mixedSchema nullRow).1
          (Marshal.withoutNulls mixedSchema nullRow).2 = .ok (Marshal.le64 0 ++ rest) :=
  ⟨by decide, null_bitmap_then_non_null_columns mixedSchema nullRow (by decide) (by decide)⟩

/-! ## C36: `varchar` columns -/

namespace Marshal

theorem fixedBytes_append : ∀ (pre : Schema) (rpre : Row) (column : ColumnSchema) (v : Value)
    (post : Schema) (rpost : Row) (off : Nat), pre.length = rpre.length →
    ∃ off1 off2, fixedBytes (pre ++ column :: post) (rpre ++ v :: rpost) off =
      fixedBytes pre rpre off ++ cell column v off1 ++ fixedBytes post rpost off2 := by
  intro pre
  induction pre with
  | nil =>
    intro rpre column v post rpost off h
    have : rpre = [] := List.eq_nil_of_length_eq_zero h.symm
    subst this
    exact ⟨off, off + (heapCell column v).length, by simp [fixedBytes]⟩
  | cons c cs ih =>
    intro rpre column v post rpost off h
    cases rpre with
    | nil => simp at h
    | cons w ws =>
      obtain ⟨off1, off2, heq⟩ := ih ws column v post rpost (off + (heapCell c w).length)
        (by simpa using h)
      exact ⟨off1, off2, by simp [fixedBytes, heq]⟩

theorem readBytes_strnlen (mem : Nat → Nat) : ∀ (L p : Nat),
    readBytes mem p (strnlen mem p L) = (readBytes mem p L).takeWhile (fun b => b != 0) := by
  intro L
  induction L with
  | zero => intro p; rfl
  | succ L ih =>
    intro p
    by_cases h : mem p = 0
    · simp [strnlen, readBytes, h, List.takeWhile]
    · have hb : (mem p != 0) = true := by simpa using h
      simp [strnlen, readBytes, h, List.takeWhile, ih (p + 1), hb]

theorem deserializeLoop_varchar (mem : Nat → Nat) (nulls : Nat) :
    ∀ (k : Nat) (schema : Schema) (index p : Nat) (column : ColumnSchema),
    schema[k]? = some column → column.type = .varchar →
    nulls &&& maskBit (index + k) = 0 →
    (deserializeLoop mem nulls schema index p)[k]? =
      some (Value.str ((readBytes mem (cursorAfter nulls schema index p k) column.length).takeWhile
        (fun b => b != 0))) := by
  intro k
  induction k with
  | zero =>
    intro schema index p column hk htype hbit
    cases schema with
    | nil => simp at hk
    | cons c cs =>
      have hc : c = column := by simpa using hk
      subst hc
      rw [deserializeLoop, if_neg (by simpa using hbit)]
      simp only [htype, cursorAfter]
      rw [readBytes_strnlen]
      simp
  | succ k ih =>
    intro schema index p column hk htype hbit
    cases schema with
    | nil => simp at hk
    | cons c cs =>
      have hk2 : cs[k]? = some column := by simpa using hk
      have hbit2 : nulls &&& maskBit (index + 1 + k) = 0 := by
        rw [Nat.add_assoc, Nat.add_comm 1 k]; exact hbit
      rw [deserializeLoop, cursorAfter]
      by_cases hnull : nulls &&& maskBit index ≠ 0
      · rw [if_pos hnull, if_pos hnull]
        simpa using ih cs (index + 1) p column hk2 htype hbit2
      · rw [if_neg hnull, if_neg hnull]
        cases hct : c.type <;>
          simpa [cellWidth, hct] using ih cs (index + 1) _ column hk2 htype hbit2

end Marshal

/-- C36 (counterexample): for a `varchar(2)` column and the string `abc` of 3
bytes, `serializeRow` does not write the 2 bytes `ab`: it copies the 3 bytes of
the string, and the length of the padding, `2 - 3`, wraps. -/
theorem varchar_longer_not_truncated :
    Marshal.serializeRow [{ name := "v", type := .varchar, length := 2 }]
      [Value.str [97, 98, 99]] = .error .outOfPage ∧
    Marshal.serializeRow [{ name := "v", type := .varchar, length := 2 }]
      [Value.str [97, 98, 99]] ≠ .ok (Marshal.le64 0 ++ [97, 98]) := by
  decide

/-- C36 (amended): for a `varchar(L)` column of a schema of at most 63 columns
and a row valid against the schema that holds a string `s` of at most `L` bytes
in the column, `serializeRow` writes for the column exactly `L` bytes, the
bytes of `s` followed by `L - |s|` NUL bytes, after the bitmap and the bytes of
the columns before it.  `deserializeRow` returns for a `varchar(L)` column
whose bit is clear in the bitmap the bytes at the cursor up to the first NUL or
`L` bytes, whichever comes first. -/
theorem varchar_padded_and_cut_at_nul :
    (∀ (pre : Schema) (rpre : Row) (column : ColumnSchema) (s : List Nat) (post : Schema)
      (rpost : Row), pre.length = rpre.length → column.type = .varchar →
      (pre ++ column :: post).length ≤ 63 →
      Marshal.validRow (pre ++ column :: post) (rpre ++ Value.str s :: rpost) = true →
      ∃ before after,
        Marshal.serializeRow (pre ++ column :: post) (rpre ++ Value.str s :: rpost) =
          .ok (before ++ (s ++ List.replicate (column.length - s.length) 0) ++ after) ∧
        before.length = 8 + (Marshal.fixedZero pre rpre).length ∧
        (s ++ List.replicate (column.length - s.length) 0).length = column.length ∧
        s.length ≤ column.length) ∧
    (∀ (mem : Nat → Nat) (schema : Schema) (k : Nat) (column : ColumnSchema),
      schema[k]? = some column → column.type = .varchar →
      Marshal.rd64 mem 0 &&& Marshal.maskBit k = 0 →
      (Marshal.deserializeRow schema mem)[k]? =
        some (Value.str ((Marshal.readBytes mem
          (Marshal.cursorAfter (Marshal.rd64 mem 0) schema 0 8 k) column.length).takeWhile
            (fun b => b != 0)))) := by
  constructor
  · intro pre rpre column s post rpost hlen htype hcols hval
    have hrow : (rpre ++ Value.str s :: rpost).length ≤ 63 := by
      rw [← Marshal.validRow_length _ _ hval]; exact hcols
    obtain ⟨off1, off2, heq⟩ := Marshal.fixedBytes_append pre rpre column (Value.str s) post rpost
      (8 + (Marshal.fixedZero (pre ++ column :: post) (rpre ++ Value.str s :: rpost)).length) hlen
    have hcell : Marshal.cell column (Value.str s) off1 =
        s ++ List.replicate (column.length - s.length) 0 := by
      simp [Marshal.cell, htype]
    have hs : s.length ≤ column.length := by
      have hvalid : ∀ (a : Schema) (b : Row), a.length = b.length →
          Marshal.validRow (a ++ column :: post) (b ++ Value.str s :: rpost) = true →
          Marshal.validValue column (Value.str s) = true := by
        intro a
        induction a with
        | nil =>
          intro b hb h
          have : b = [] := List.eq_nil_of_length_eq_zero hb.symm
          subst this
          simp only [List.nil_append, Marshal.validRow, Bool.and_eq_true] at h
          exact h.1
        | cons c cs ih =>
          intro b hb h
          cases b with
          | nil => simp at hb
          | cons w ws =>
            simp only [List.cons_append, Marshal.validRow, Bool.and_eq_true] at h
            exact ih ws (by simpa using hb) h.2
      have := hvalid pre rpre hlen hval
      simpa [Marshal.validValue, htype] using this
    refine ⟨Marshal.le64 (Marshal.getNulls (rpre ++ Value.str s :: rpost)) ++
        Marshal.fixedBytes pre rpre
          (8 + (Marshal.fixedZero (pre ++ column :: post) (rpre ++ Value.str s :: rpost)).length),
      Marshal.fixedBytes post rpost off2 ++
        Marshal.heapBytes (pre ++ column :: post) (rpre ++ Value.str s :: rpost), ?_, ?_, ?_, hs⟩
    · rw [Marshal.serializeRow_eq _ _ hrow hval, heq, hcell]
      simp [List.append_assoc]
    · rw [List.length_append, Marshal.le64_length, Marshal.fixedBytes_length]
    · rw [List.length_append, List.length_replicate]
      omega
  · intro mem schema k column hk htype hbit
    unfold Marshal.deserializeRow
    exact Marshal.deserializeLoop_varchar mem (Marshal.rd64 mem 0) k schema 0 8 column hk htype
      (by simpa using hbit)

/-- C36 (amended) at concrete inputs: the strings `a` and `bc` in two
`varchar(2)` columns, and the bytes `b`, NUL after a bitmap of 0 and two more
bytes. -/
theorem varchar_padded_and_cut_at_nul_witness :
    (∃ before after,
      Marshal.serializeRow ([{ name := "u", type := .varchar, length := 2 }] ++
          { name := "v", type := .varchar, length := 2 } :: [])
        ([Value.str [98, 99]] ++ Value.str [97] :: []) =
          .ok (before ++ ([97] ++ List.replicate (2 - [97].length) 0) ++ after) ∧
      before.length = 8 + (Marshal.fixedZero [{ name := "u", type := .varchar, length := 2 }]
        [Value.str [98, 99]]).length ∧
      ([97] ++ List.replicate (2 - [97].length) 0).length = 2 ∧ [97].length ≤ 2) ∧
    (Marshal.deserializeRow twoVarchars (Marshal.memOf (Marshal.le64 0 ++ [1, 2, 98, 0])))[1]? =
      some (Value.str ((Marshal.readBytes (Marshal.memOf (Marshal.le64 0 ++ [1, 2, 98, 0]))
        (Marshal.cursorAfter (Marshal.rd64 (Marshal.memOf (Marshal.le64 0 ++ [1, 2, 98, 0])) 0)
          twoVarchars 0 8 1) 2).takeWhile (fun b => b != 0))) :=
  ⟨varchar_padded_and_cut_at_nul.1 [{ name := "u", type := .varchar, length := 2 }]
      [Value.str [98, 99]] { name := "v", type := .varchar, length := 2 } [97] [] [] rfl rfl
      (by decide) (by decide),
    varchar_padded_and_cut_at_nul.2 (Marshal.memOf (Marshal.le64 0 ++ [1, 2, 98, 0])) twoVarchars 1
      { name := "v", type := .varchar, length := 2 } rfl rfl (by decide)⟩

/-! ## C31: the splits of ascending inserts -/

/-- C31, counterexample: with `max_page_size = 4` and the keys 1..100 inserted
in ascending order into a fresh tree, the insert that follows the 24th insert
splits an internal page, and 24 is not a multiple of 16.  Eleven of the 100
inserts split an internal page; six of the numbers 1..99 are multiples of 16. -/
theorem internal_split_after_24th_insert :
    ascendingSplits.map (fun splits => (splits[24]?).map fun s => decide (0 < s.2)) =
      .ok (some true) ∧
    24 % 16 ≠ 0 ∧
    ascendingSplits.map (fun splits => (splits.filter fun s => decide (0 < s.2)).length) =
      .ok 11 ∧
    ((List.range 100).filter fun n => decide (0 < n ∧ n % 16 = 0)).length = 6 := by
  decide!

/-- C31, amended: with `max_page_size = 4` and the keys 1..100 inserted in
ascending order into a fresh tree, the insert that follows every 4th insert
(the inserts number 5, 9, .., 97) allocates one new leaf page, and no other
insert does; the insert that follows every 8th insert from the 16th on (the
inserts number 17, 25, 33, .., 97) splits an internal page, and no other
insert does. -/
theorem ascending_inserts_split_pages :
    ascendingSplits.map (fun splits => (List.range 24).map fun k =>
        (splits[4 * (k + 1)]?).map Prod.fst) = .ok (List.replicate 24 (some 1)) ∧
    ascendingSplits.map (fun splits => (List.range 11).map fun k =>
        (splits[8 * (k + 2)]?).map fun s => decide (0 < s.2)) =
      .ok (List.replicate 11 (some true)) ∧
    ascendingSplits.map (fun splits => splits.map Prod.fst) =
      .ok ((List.range 100).map fun n => if 4 ≤ n ∧ n % 4 = 0 then 1 else 0) ∧
    ascendingSplits.map (fun splits => splits.map fun s => decide (0 < s.2)) =
      .ok ((List.range 100).map fun n => decide (16 ≤ n ∧ n % 8 = 0)) := by
  decide!

/-! ## C32 and C33: the slot of an insert and the payloads of the live slots -/

/-- C32, at a failing input.  After `insertRow(10)`, `insertRow(11)`,
`deleteRow(0)`, `insertRow(12)`, `deleteRow(0)`, `insertRow(13)` on a zeroed
page of 4096 bytes, `row_count` is 1 and slot 0 is live, so there is no
tombstone below `row_count`.  The next `insertRow` succeeds and `row_count`
becomes 2, but it returns slot 2, not the old `row_count` 1: the directory
entry of slot 1, which the second `deleteRow` left outside `row_count`, is not
zero, and the loop steps over it and ends without writing an entry.  This is
the defect of C7. -/
theorem insert_returns_slot_past_row_count :
    pageAfterDeletes.map FlexiblePage.directory = .ok [(17, 4079)] ∧
    (do
      let mem ← pageAfterDeletes
      let (slot, mem) ← FlexiblePage.insertRow 4096 intKeySchema mem (intKey 14)
      pure (slot, FlexiblePage.getRowCount mem, FlexiblePage.getRow intKeySchema mem 2)) =
      .ok (some 2, 2, []) := by
  decide!

/-- C33, at a failing input.  After the calls of `pageAfterDeletes` and one more
`insertRow(14)` the slots 0 and 1 are both below `row_count` and live, and
both have the payload of 17 bytes at offset 4079: the payloads of the live
slots are not disjoint.  The row at slot 1 is the row 13 of slot 0, the row 11
that `insertRow` returned slot 1 for is overwritten.  This is the defect of
C7: the second `deleteRow` took slot 1 out of `row_count`, so `findMinOffset`
did not see its payload. -/
theorem live_payloads_overlap :
    (do
      let mem ← pageAfterDeletes
      let (_, mem) ← FlexiblePage.insertRow 4096 intKeySchema mem (intKey 14)
      pure (FlexiblePage.directory mem, FlexiblePage.getRow intKeySchema mem 0,
        FlexiblePage.getRow intKeySchema mem 1)) =
      .ok ([(17, 4079), (17, 4079)], intKey 13, intKey 13) := by
  decide!

/-! ## C38: `remove` of a key that is not stored -/

theorem BTreeLeafPage.lowerBoundLoop_le (z : Row) (p : BTreeLeafPage) (key : Row) :
    ∀ (fuel l r : Nat), l ≤ r → BTreeLeafPage.lowerBoundLoop z p key fuel l r ≤ r := by
  intro fuel
  induction fuel with
  | zero => intro l r _; simp [BTreeLeafPage.lowerBoundLoop]
  | succ fuel ih =>
    intro l r hlr
    rw [BTreeLeafPage.lowerBoundLoop]
    split
    · simp only
      split
      · exact ih _ r (by omega)
      · exact Nat.le_trans (ih l _ (by omega)) (by omega)
    · exact Nat.le_refl r

theorem BTreeLeafPage.lookup_at_position (z : Row) (p : BTreeLeafPage) (key : Row) (value : RowId)
    (h : p.lookup z key = some value) :
    ∃ pos, pos < p.size ∧ compareRows (p.getKey z pos) key = 0 := by
  unfold BTreeLeafPage.lookup at h
  simp only at h
  split at h
  · cases h
  · rename_i hnot
    have hle := BTreeLeafPage.lowerBoundLoop_le z p key (p.size + 1) 0 p.size (Nat.zero_le _)
    refine ⟨p.lowerBound z key, ?_, ?_⟩
    · have hne : p.lowerBound z key ≠ p.size := fun hc => hnot (Or.inl hc)
      unfold BTreeLeafPage.lowerBound at hne ⊢
      omega
    · by_contra hc
      exact hnot (Or.inr hc)

theorem BTree.lookupLoop_stored (t : BTree) (key : Row) (value : RowId) :
    ∀ (fuel : Nat) (index : PageIndex),
    BTree.lookupLoop fuel t index key = .ok (some value) → t.stores key := by
  intro fuel
  induction fuel with
  | zero => intro index h; simp [BTree.lookupLoop] at h
  | succ fuel ih =>
    intro index h
    rw [BTree.lookupLoop] at h
    cases hpage : t.getPage index with
    | error e => rw [hpage] at h; cases h
    | ok page =>
      rw [hpage] at h
      simp only [bind, Except.bind] at h
      cases page with
      | leaf p =>
        simp only [pure, Except.pure, Except.ok.injEq] at h
        obtain ⟨pos, hpos, hcmp⟩ := BTreeLeafPage.lookup_at_position t.zeroKey p key value h
        refine ⟨index, p, pos, ?_, hpos, hcmp⟩
        unfold BTree.getPage at hpage
        rw [List.get?_eq_getElem?] at hpage
        cases hget : t.pages[index]? with
        | none => rw [hget] at hpage; cases hpage
        | some q => rw [hget] at hpage; cases hpage; rfl
      | internal p =>
        simp only at h
        cases hchild : p.lookup t.zeroKey key with
        | error e => rw [hchild] at h; cases h
        | ok child =>
          rw [hchild] at h
          exact ih child h
      | invalid => cases h
      | metadata m => cases h

/-- What `lookup` finds is stored in a leaf page. -/
theorem BTree.lookup_stored (t : BTree) (key : Row) (value : RowId)
    (h : t.lookup key = .ok (some value)) : t.stores key := by
  unfold BTree.lookup at h
  cases hmeta : t.getMetadataPage with
  | error e => rw [hmeta] at h; cases h
  | ok m =>
    rw [hmeta] at h
    exact BTree.lookupLoop_stored t key value _ _ h

/-- When `lookup` finds nothing, `remove` returns false and the pages stay as
they are. -/
theorem BTree.remove_of_lookup_none (t : BTree) (key : Row) (h : t.lookup key = .ok none) :
    t.remove key = .ok (false, t) := by
  have h2 := h
  unfold BTree.lookup at h2
  unfold BTree.remove
  cases hmeta : t.getMetadataPage with
  | error e => rw [hmeta] at h2; cases h2
  | ok m =>
    rw [hmeta] at h2
    simp only [bind, Except.bind] at h2 ⊢
    cases hfuel : t.pages.length with
    | zero => rw [hfuel] at h2; simp [BTree.lookupLoop] at h2
    | succ n =>
      rw [hfuel] at h2
      rw [BTree.lookupLoop] at h2
      cases hroot : t.getPage m.root_page_index with
      | error e => rw [hroot] at h2; cases h2
      | ok page =>
        simp only [h]
        rfl

/-- A key that is not stored in the tree is not removed: `remove`, when it
returns, returns false and leaves the pages as they are. -/
theorem BTree.remove_not_stored (t : BTree) (key : Row) (hnot : ¬ t.stores key)
    (removed : Bool) (next : BTree) (h : t.remove key = .ok (removed, next)) :
    removed = false ∧ next = t := by
  cases hlook : t.lookup key with
  | error e =>
    unfold BTree.remove at h
    cases hmeta : t.getMetadataPage with
    | error e2 => rw [hmeta] at h; cases h
    | ok m =>
      rw [hmeta] at h
      simp only [bind, Except.bind] at h
      cases hroot : t.getPage m.root_page_index with
      | error e2 => rw [hroot] at h; cases h
      | ok page =>
        rw [hroot] at h
        simp only [hlook] at h
        cases h
  | ok found =>
    cases found with
    | none =>
      rw [BTree.remove_of_lookup_none t key hlook] at h
      cases h
      exact ⟨rfl, rfl⟩
    | some value => exact absurd (BTree.lookup_stored t key value hlook) hnot

/-- C38, at a failing input.  With `max_page_size = 2`, after `insert` of the
keys -3, -2, 0, 1, 2, -1 the key -1 is stored in a leaf of the sibling list,
yet `remove(-1)` returns false and the pages stay as they are: `remove` asks
`lookup` first, and `lookup` does not find the key (the defect of C2).  For the
key 7, which is not stored, `remove` returns false and the pages stay as they
are. -/
theorem remove_stored_key_returns_false :
    (do
      let t ← lostKeyTree
      let leftmost ← t.lookupLeftmostLeafPage
      let stored ← t.chainEntries t.pages.length leftmost
      pure (stored.map Prod.fst)) =
      .ok [intKey (-3), intKey (-2), intKey (-1), intKey 0, intKey 1, intKey 2] ∧
    (do
      let t ← lostKeyTree
      let (removed, next) ← t.remove (intKey (-1))
      pure (removed, decide (next = t))) = .ok (false, true) ∧
    (do
      let t ← lostKeyTree
      let (removed, next) ← t.remove (intKey 7)
      pure (removed, decide (next = t))) = .ok (false, true) := by
  decide!

/-! ## C39: table scans -/

theorem Table.getRowCount_at (table : Table) (pre rest : List Frame) (mem : Frame)
    (h : table.pages = pre ++ mem :: rest) :
    table.getRowCount pre.length = .ok (FlexiblePage.getRowCount mem) := by
  unfold Table.getRowCount
  rw [h, List.getElem?_append_right (Nat.le_refl _)]
  simp

/-- The steps of the iterator inside one page, and on to the next page. -/
theorem ScanIterator.visited_page (table : Table) (pre rest : List Frame) (mem : Frame)
    (h : table.pages = pre ++ mem :: rest) (fuel : Nat) (later : List RowId)
    (hlater : ScanIterator.visited table fuel
      { current_page_index := pre.length + 1, current_row_index := 0 } = .ok later) :
    ∀ (k s : Nat), s + k + 1 = max 1 (FlexiblePage.getRowCount mem) →
      ScanIterator.visited table (k + 1 + fuel)
        { current_page_index := pre.length, current_row_index := s } =
        .ok ((List.range' s (k + 1)).map (fun r => (pre.length, r)) ++ later) := by
  have hne : ∀ s, ({ current_page_index := pre.length, current_row_index := s } : ScanIterator) ≠
      Scan.endOf table := by
    intro s hc
    have := congrArg ScanIterator.current_page_index hc
    simp [Scan.endOf, Table.getPageCount, h] at this
  have hmax : (FlexiblePage.getRowCount mem = 0 ∧ max 1 (FlexiblePage.getRowCount mem) = 1) ∨
      (1 ≤ FlexiblePage.getRowCount mem ∧
        max 1 (FlexiblePage.getRowCount mem) = FlexiblePage.getRowCount mem) := by
    rw [Nat.max_def]
    split <;> omega
  generalize max 1 (FlexiblePage.getRowCount mem) = n at hmax
  intro k
  induction k with
  | zero =>
    intro s hs
    have hfuel : 0 + 1 + fuel = fuel + 1 := by omega
    rw [hfuel, ScanIterator.visited, if_neg (hne s), ScanIterator.increment,
      Table.getRowCount_at table pre rest mem h]
    simp only
    have hlt : ¬ (s + 1 < FlexiblePage.getRowCount mem) := by omega
    rw [if_neg hlt]
    simp only [hlater]
    rfl
  | succ k ih =>
    intro s hs
    have hfuel : k + 1 + 1 + fuel = (k + 1 + fuel) + 1 := by omega
    rw [hfuel, ScanIterator.visited, if_neg (hne s), ScanIterator.increment,
      Table.getRowCount_at table pre rest mem h]
    simp only
    have hlt : s + 1 < FlexiblePage.getRowCount mem := by omega
    rw [if_pos hlt]
    simp only [ih (s + 1) (by omega)]
    simp [List.range'_succ, ScanIterator.getRowId]

/-- The steps of the iterator from the first row-id of a page to `Scan::end()`. -/
theorem ScanIterator.visited_pages (table : Table) : ∀ (rest pre : List Frame),
    table.pages = pre ++ rest →
    ScanIterator.visited table (scanSteps (rest.map FlexiblePage.getRowCount) + 1)
      { current_page_index := pre.length, current_row_index := 0 } =
      .ok (scannedRowIds pre.length (rest.map FlexiblePage.getRowCount)) := by
  intro rest
  induction rest with
  | nil =>
    intro pre h
    have hend : ({ current_page_index := pre.length, current_row_index := 0 } : ScanIterator) =
        Scan.endOf table := by
      simp [Scan.endOf, Table.getPageCount, h]
    rw [ScanIterator.visited, if_pos hend]
    rfl
  | cons mem rest ih =>
    intro pre h
    have h2 : table.pages = (pre ++ [mem]) ++ rest := by simp [h]
    have hlater := ih (pre ++ [mem]) h2
    simp only [List.length_append, List.length_cons, List.length_nil, Nat.zero_add] at hlater
    have hpos : 1 ≤ max 1 (FlexiblePage.getRowCount mem) := Nat.le_max_left _ _
    have hpage := ScanIterator.visited_page table pre rest mem h _ _ hlater
      (max 1 (FlexiblePage.getRowCount mem) - 1) 0
    have hsteps : scanSteps ((mem :: rest).map FlexiblePage.getRowCount) + 1 =
        max 1 (FlexiblePage.getRowCount mem) - 1 + 1 +
          (scanSteps (rest.map FlexiblePage.getRowCount) + 1) := by
      simp only [scanSteps, List.map_cons, List.sum_cons]
      generalize max 1 (FlexiblePage.getRowCount mem) = n at hpos
      omega
    have hrange : max 1 (FlexiblePage.getRowCount mem) - 1 + 1 =
        max 1 (FlexiblePage.getRowCount mem) := by
      generalize max 1 (FlexiblePage.getRowCount mem) = n at hpos
      omega
    rw [hsteps, hpage (by rw [Nat.zero_add]; exact hrange)]
    simp only [List.map_cons, scannedRowIds, hrange, List.range_eq_range']

theorem scannedRowIds_length : ∀ (counts : List Nat) (p : PageIndex),
    (scannedRowIds p counts).length = scanSteps counts := by
  intro counts
  induction counts with
  | nil => intro p; rfl
  | cons c rest ih =>
    intro p
    simp [scannedRowIds, scanSteps, ih (p + 1)]

theorem mem_scannedRowIds : ∀ (counts : List Nat) (p : Nat) (x : Nat × Nat),
    x ∈ scannedRowIds p counts ↔
      p ≤ x.1 ∧ ∃ count, counts[x.1 - p]? = some count ∧ x.2 < max 1 count := by
  intro counts
  induction counts with
  | nil => intro p x; simp [scannedRowIds]
  | cons c rest ih =>
    intro p x
    obtain ⟨q, s⟩ := x
    simp only [scannedRowIds, List.mem_append, List.mem_map, List.mem_range, Prod.mk.injEq, ih]
    show _ ↔ p ≤ q ∧ ∃ count, (c :: rest)[q - p]? = some count ∧ s < max 1 count
    constructor
    · rintro (⟨r, hr, hp, hs⟩ | ⟨hle, count, hget, hlt⟩)
      · subst hp; subst hs
        exact ⟨Nat.le_refl _, c, by simp, hr⟩
      · have hle2 : (p + 1 : Nat) ≤ (q : Nat) := hle
        have hq : q - p = (q - (p + 1)) + 1 := by omega
        refine ⟨by omega, count, ?_, hlt⟩
        rw [hq, List.getElem?_cons_succ]
        exact hget
    · rintro ⟨hle, count, hget, hlt⟩
      by_cases hq : q = p
      · subst hq
        left
        simp only [Nat.sub_self, List.getElem?_cons_zero, Option.some.injEq] at hget
        subst hget
        exact ⟨s, hlt, rfl, rfl⟩
      · right
        have hle2 : (p : Nat) ≤ (q : Nat) := hle
        have hq2 : q - p = (q - (p + 1)) + 1 := by omega
        have hle3 : p + 1 ≤ q := by omega
        refine ⟨hle3, count, ?_, hlt⟩
        rw [hq2, List.getElem?_cons_succ] at hget
        exact hget

theorem scannedRowIds_sorted : ∀ (counts : List Nat) (p : PageIndex),
    (scannedRowIds p counts).Pairwise RowId.before := by
  intro counts
  induction counts with
  | nil => intro p; exact List.Pairwise.nil
  | cons c rest ih =>
    intro p
    rw [scannedRowIds, List.pairwise_append]
    refine ⟨?_, ih (p + 1), ?_⟩
    · rw [List.pairwise_map]
      exact (List.pairwise_lt_range _).imp (fun hab => Or.inr ⟨rfl, hab⟩)
    · intro a ha b hb
      obtain ⟨r, _, hr⟩ := List.mem_map.1 ha
      subst hr
      have := ((mem_scannedRowIds rest (p + 1) b).1 hb).1
      exact Or.inl (by simpa using this)

/-- What a scan that has ended needs: with less fuel it has not ended. -/
theorem ScanIterator.visited_exact (table : Table) : ∀ (fuel : Nat) (it : ScanIterator)
    (ids : List RowId), ScanIterator.visited table fuel it = .ok ids →
    ∀ less, less ≤ ids.length → ScanIterator.visited table less it = .error .noFuel := by
  intro fuel
  induction fuel with
  | zero => intro it ids h; simp [ScanIterator.visited] at h
  | succ fuel ih =>
    intro it ids h less hless
    cases less with
    | zero => rfl
    | succ less =>
      rw [ScanIterator.visited] at h ⊢
      by_cases hend : it = Scan.endOf table
      · rw [if_pos hend] at h
        cases h
        simp at hless
      · rw [if_neg hend] at h ⊢
        cases hinc : it.increment table with
        | error e => rw [hinc] at h; cases h
        | ok next =>
          rw [hinc] at h
          simp only at h ⊢
          cases hrest : ScanIterator.visited table fuel next with
          | error e => rw [hrest] at h; cases h
          | ok rest =>
            rw [hrest] at h
            cases h
            rw [ih next rest hrest less (by simpa using hless)]

/-- The executor returns one row for every row-id of the scan, the row that
`getRow` yields there. -/
theorem ReadFromTableExecutor.rows_of_visited (table : Table) : ∀ (fuel : Nat)
    (it : ScanIterator) (ids : List RowId), ScanIterator.visited table fuel it = .ok ids →
    ∃ rows, ReadFromTableExecutor.rows table fuel it = .ok rows ∧
      rows.map Except.ok = ids.map table.getRow := by
  intro fuel
  induction fuel with
  | zero => intro it ids h; simp [ScanIterator.visited] at h
  | succ fuel ih =>
    intro it ids h
    rw [ScanIterator.visited] at h
    rw [ReadFromTableExecutor.rows, ReadFromTableExecutor.next]
    by_cases hend : it = Scan.endOf table
    · rw [if_pos hend] at h
      cases h
      rw [if_pos hend]
      exact ⟨[], rfl, rfl⟩
    · rw [if_neg hend] at h
      rw [if_neg hend]
      cases hinc : it.increment table with
      | error e => rw [hinc] at h; cases h
      | ok next =>
        rw [hinc] at h
        simp only at h
        cases hrest : ScanIterator.visited table fuel next with
        | error e => rw [hrest] at h; cases h
        | ok rest =>
          rw [hrest] at h
          cases h
          obtain ⟨rows, hrows, hmap⟩ := ih next rest hrest
          have hrow : ∃ row, it.getRow table = .ok row := by
            unfold ScanIterator.increment Table.getRowCount at hinc
            unfold ScanIterator.getRow Table.getRow ScanIterator.getRowId
            cases hpage : table.pages[it.current_page_index]? with
            | none => rw [hpage] at hinc; cases hinc
            | some mem => exact ⟨_, rfl⟩
          obtain ⟨row, hrow⟩ := hrow
          refine ⟨row :: rows, ?_, ?_⟩
          · simp only [hrow, hrows]
          · simp only [List.map_cons, hmap]
            rw [← hrow]
            rfl

/-- C39: for every table, the iterator advanced from `Scan::begin()` = (0, 0)
by `operator++` equals `Scan::end()` = (P, 0) after exactly `scanSteps`
increments, the sum over the pages of `max(1, rowCount(p))`, and not before;
the row-ids it stands at are the `(p, s)` with `s < max(1, rowCount(p))`, each
once, in lexicographic order.  A page with row count 0 is visited once, at
slot 0, where `getRow` yields the empty row.  `ReadFromTableExecutor::next`
returns the row of `getRow` at each of these row-ids and then `std::nullopt`. -/
theorem scan_visits_every_page (table : Table) :
    ScanIterator.visited table (scanSteps table.rowCounts + 1) Scan.begin =
      .ok (scannedRowIds 0 table.rowCounts) ∧
    (∀ fuel, fuel ≤ scanSteps table.rowCounts →
      ScanIterator.visited table fuel Scan.begin = .error .noFuel) ∧
    (scannedRowIds 0 table.rowCounts).length = scanSteps table.rowCounts ∧
    (scannedRowIds 0 table.rowCounts).Pairwise RowId.before ∧
    (∀ p s, (p, s) ∈ scannedRowIds 0 table.rowCounts ↔
      ∃ count, table.rowCounts[p]? = some count ∧ s < max 1 count) ∧
    (∀ p mem, table.pages[p]? = some mem → FlexiblePage.getRowCount mem = 0 →
      (p, 0) ∈ scannedRowIds 0 table.rowCounts ∧
      ScanIterator.getRow table { current_page_index := p, current_row_index := 0 } = .ok []) ∧
    (∃ rows, ReadFromTableExecutor.rows table (scanSteps table.rowCounts + 1) Scan.begin =
        .ok rows ∧
      rows.map Except.ok = (scannedRowIds 0 table.rowCounts).map table.getRow) := by
  have hvisited := ScanIterator.visited_pages table table.pages [] rfl
  have hmem : ∀ p s, (p, s) ∈ scannedRowIds 0 table.rowCounts ↔
      ∃ count, table.rowCounts[p]? = some count ∧ s < max 1 count := by
    intro p s
    rw [mem_scannedRowIds]
    simp
  refine ⟨hvisited, ?_, scannedRowIds_length _ _, scannedRowIds_sorted _ _, hmem, ?_, ?_⟩
  · intro fuel hfuel
    exact ScanIterator.visited_exact table _ _ _ hvisited fuel
      (by rw [scannedRowIds_length]; exact hfuel)
  · intro p mem hpage hcount
    constructor
    · rw [hmem]
      refine ⟨0, ?_, by decide⟩
      simp [Table.rowCounts, hpage, hcount]
    · simp only [ScanIterator.getRow, Table.getRow, ScanIterator.getRowId, hpage]
      unfold FlexiblePage.getRowCount at hcount
      simp [FlexiblePage.getRow, hcount]
  · exact ReadFromTableExecutor.rows_of_visited table _ _ _ hvisited

/-- C39 at a concrete input: a table of three pages with the row counts 2, 0
and 1 is scanned in 2 + 1 + 1 = 4 steps. -/
theorem scan_visits_every_page_witness :
    scanSteps threePages.rowCounts = 4 ∧
    ScanIterator.visited threePages (scanSteps threePages.rowCounts + 1) Scan.begin =
      .ok [(0, 0), (0, 1), (1, 0), (2, 0)] ∧
    (∀ fuel, fuel ≤ scanSteps threePages.rowCounts →
      ScanIterator.visited threePages fuel Scan.begin = .error .noFuel) ∧
    ((1, 0) ∈ scannedRowIds 0 threePages.rowCounts ∧
      ScanIterator.getRow threePages { current_page_index := 1, current_row_index := 0 } =
        .ok []) :=
  ⟨by decide!, (by decide! : scannedRowIds 0 threePages.rowCounts =
      [(0, 0), (0, 1), (1, 0), (2, 0)]) ▸ (scan_visits_every_page threePages).1,
    (scan_visits_every_page threePages).2.1,
    (scan_visits_every_page threePages).2.2.2.2.2.1 1 FlexiblePage.empty rfl (by decide!)⟩

/-! ## C34: `put` returns unless every frame is locked -/

theorem ClockCache.advance_time {K V : Type} (c : ClockCache K V) (h : c.time < c.ring.length) :
    c.advance.time = if c.time + 1 < c.ring.length then c.time + 1 else 0 := by
  unfold ClockCache.advance
  simp only
  split
  · rename_i hlt
    exact Nat.mod_eq_of_lt hlt
  · have : c.time + 1 = c.ring.length := by omega
    rw [this, Nat.mod_self]

/-- The hand stays inside the ring. -/
theorem ClockCache.step_time {K V : Type} [DecidableEq K] (fuel : Nat)
    (c next : ClockCache K V) (op : CacheOp K) (r : Option V) (ht : c.time < c.ring.length)
    (h : c.step fuel op = .ok (r, next)) : next.time < next.ring.length := by
  have hset : ∀ (key : K) (b : Bool) (n : ClockCache K V), c.setLock key b = .ok n →
      n.time < n.ring.length := by
    intro key b n hs
    unfold ClockCache.setLock at hs
    cases hcell : c.ring[(ClockCache.indexOf c.values key).1]? with
    | none => rw [hcell] at hs; cases hs
    | some cell =>
      rw [hcell] at hs
      cases hs
      simpa using ht
  cases op with
  | find key =>
    obtain ⟨_, h2, h3, _, _⟩ := ClockCache.find_spec c next key r h
    rw [h2, h3]; exact ht
  | put key =>
    simp only [ClockCache.step] at h
    cases hput : c.put fuel key with
    | error e => rw [hput] at h; cases h
    | ok p =>
      obtain ⟨value, n⟩ := p
      rw [hput] at h
      cases h
      obtain ⟨m, cell, _, hcell, _, _, _, hnext⟩ := ClockCache.put_spec fuel c next key value hput
      subst hnext
      rcases List.getElem?_eq_some.1 hcell with ⟨hi, _⟩
      simpa using hi
  | lock key =>
    simp only [ClockCache.step, ClockCache.lock] at h
    cases hs : c.setLock key true with
    | error e => rw [hs] at h; cases h
    | ok n => rw [hs] at h; cases h; exact hset key true _ hs
  | unlock key =>
    simp only [ClockCache.step, ClockCache.unlock] at h
    cases hs : c.setLock key false with
    | error e => rw [hs] at h; cases h
    | ok n => rw [hs] at h; cases h; exact hset key false _ hs

theorem ClockCache.run_time {K V : Type} [DecidableEq K] (fuel : Nat) :
    ∀ (ops : List (CacheOp K)) (c : ClockCache K V) (outcomes : List (Option V × ClockCache K V)),
    c.time < c.ring.length → c.run fuel ops = .ok outcomes →
    (c.finalState outcomes).time < (c.finalState outcomes).ring.length := by
  intro ops
  induction ops with
  | nil =>
    intro c outcomes ht h
    simp only [ClockCache.run] at h
    cases h
    exact ht
  | cons op ops ih =>
    intro c outcomes ht h
    simp only [ClockCache.run] at h
    cases hstep : c.step fuel op with
    | error e => rw [hstep] at h; cases h
    | ok p =>
      obtain ⟨r, next⟩ := p
      rw [hstep] at h
      simp only at h
      cases hrest : next.run fuel ops with
      | error e => rw [hrest] at h; cases h
      | ok rest =>
        rw [hrest] at h
        cases h
        exact ih next rest (ClockCache.step_time fuel c next op r ht hstep) hrest

/-- One turn of the loop of `put` with the hand `d` steps before an unlocked
frame `j` of counter `a`: the loop returns, or it goes on from a state in
which `a * N + d` is one less. -/
theorem ClockCache.putScan_turn {K V : Type} (c : ClockCache K V) (j a d : Nat) (cell : Cell V)
    (ht : c.time < c.ring.length) (hj : c.ring[j]? = some cell) (hlock : cell.lock = false)
    (hamount : cell.amount = (a : Int)) (hd : d < c.ring.length)
    (hpos : c.time + d = j ∨ c.time + d = j + c.ring.length) :
    (∃ cur, c.ring[c.time]? = some cur ∧ cur.amount = 0 ∧ cur.lock = false) ∨
    ∃ (next : ClockCache K V) (cell2 : Cell V) (a2 d2 : Nat),
      (∀ fuel, ClockCache.putScan (fuel + 1) c = ClockCache.putScan fuel next) ∧
      next.ring.length = c.ring.length ∧ next.time < next.ring.length ∧
      next.ring[j]? = some cell2 ∧ cell2.lock = false ∧ cell2.amount = (a2 : Int) ∧
      d2 < next.ring.length ∧
      (next.time + d2 = j ∨ next.time + d2 = j + next.ring.length) ∧
      a2 * c.ring.length + d2 + 1 = a * c.ring.length + d := by
  have hjlt : j < c.ring.length := (List.getElem?_eq_some.1 hj).1
  obtain ⟨cur, hcur⟩ : ∃ cur, c.ring[c.time]? = some cur := ⟨_, List.getElem?_eq_getElem ht⟩
  by_cases hret : cur.amount = 0 ∧ cur.lock = false
  · exact Or.inl ⟨_, hcur, hret.1, hret.2⟩
  · right
    by_cases hpositive : cur.amount > 0
    · -- the counter under the hand is decremented
      have hstep : ∀ fuel, ClockCache.putScan (fuel + 1) c = ClockCache.putScan fuel
          (ClockCache.advance { c with ring := (c.ring.set c.time
            { cur with amount := cur.amount - 1 }) }) := by
        intro fuel
        rw [ClockCache.putScan, hcur]
        simp only
        rw [if_pos hpositive]
      have hlen : (ClockCache.advance { c with ring := (c.ring.set c.time
          { cur with amount := cur.amount - 1 }) }).ring.length =
          c.ring.length := by
        simp [ClockCache.advance]
      have htime := ClockCache.advance_time { c with ring := (c.ring.set c.time
          { cur with amount := cur.amount - 1 }) } (by simpa using ht)
      simp only [List.length_set] at htime
      by_cases hd0 : d = 0
      · have hjt : j = c.time := by omega
        subst hjt
        have hcell : cur = cell := by
          rw [hcur] at hj
          exact Option.some.inj hj
        subst hcell
        have ha : 1 ≤ a := by omega
        obtain ⟨a2, ha2⟩ : ∃ a2, a = a2 + 1 := ⟨a - 1, by omega⟩
        subst ha2
        refine ⟨_, { cur with amount := cur.amount - 1 }, a2,
          c.ring.length - 1, hstep, hlen, ?_, ?_, hlock, ?_, ?_, ?_, ?_⟩
        · rw [hlen, htime]; split <;> omega
        · simp only [ClockCache.advance]
          rw [List.getElem?_set_self ht]
        · simp only [hamount]; push_cast; omega
        · rw [hlen]; omega
        · rw [hlen, htime]; split <;> omega
        · rw [Nat.succ_mul]; omega
      · have hjt : j ≠ c.time := by omega
        refine ⟨_, cell, a, d - 1, hstep, hlen, ?_, ?_, hlock, hamount, ?_, ?_, ?_⟩
        · rw [hlen, htime]; split <;> omega
        · simp only [ClockCache.advance]
          rw [List.getElem?_set_ne (fun h => hjt h.symm)]
          exact hj
        · rw [hlen]; omega
        · rw [hlen, htime]; split <;> omega
        · omega
    · -- the hand passes a frame that is not taken
      have hstep : ∀ fuel, ClockCache.putScan (fuel + 1) c =
          ClockCache.putScan fuel (ClockCache.advance c) := by
        intro fuel
        rw [ClockCache.putScan, hcur]
        simp only
        rw [if_neg hpositive, if_neg hret]
      have hlen : (ClockCache.advance c).ring.length = c.ring.length := by
        simp [ClockCache.advance]
      have htime := ClockCache.advance_time c ht
      have hd0 : d ≠ 0 := by
        intro hd0
        have hjt : j = c.time := by omega
        subst hjt
        have hcell : cur = cell := by
          rw [hcur] at hj
          exact Option.some.inj hj
        subst hcell
        apply hret
        refine ⟨?_, hlock⟩
        have : ¬ (a : Int) > 0 := by rw [← hamount]; exact hpositive
        rw [hamount]
        omega
      have hjt : j ≠ c.time := by omega
      refine ⟨_, cell, a, d - 1, hstep, hlen, ?_, ?_, hlock, hamount, ?_, ?_, ?_⟩
      · rw [hlen, htime]; split <;> omega
      · simpa [ClockCache.advance] using hj
      · rw [hlen]; omega
      · rw [hlen, htime]; split <;> omega
      · omega

/-- With the hand `d` steps before an unlocked frame of counter `a`, the loop
of `put` returns after at most `a * N + d` advances of the hand. -/
theorem ClockCache.putScan_returns {K V : Type} : ∀ (n : Nat) (c : ClockCache K V) (j a d : Nat)
    (cell : Cell V), c.time < c.ring.length → c.ring[j]? = some cell → cell.lock = false →
    cell.amount = (a : Int) → d < c.ring.length →
    (c.time + d = j ∨ c.time + d = j + c.ring.length) → a * c.ring.length + d ≤ n →
    ∃ advances, advances ≤ n ∧ (∃ m, ClockCache.putScan (advances + 1) c = .ok m) ∧
      ∀ fuel, fuel ≤ advances → ClockCache.putScan fuel c = .error .noFuel := by
  intro n
  induction n with
  | zero =>
    intro c j a d cell ht hj hlock hamount hd hpos hn
    rcases ClockCache.putScan_turn c j a d cell ht hj hlock hamount hd hpos with hret | hnext
    · obtain ⟨cur, hcur, h0, hl⟩ := hret
      refine ⟨0, Nat.le_refl 0, ⟨c, ?_⟩, ?_⟩
      · rw [ClockCache.putScan, hcur]
        simp only
        rw [if_neg (by omega), if_pos ⟨h0, hl⟩]
      · intro fuel hfuel
        have : fuel = 0 := by omega
        subst this
        rfl
    · obtain ⟨_, _, a2, d2, _, _, _, _, _, _, _, _, hless⟩ := hnext
      omega
  | succ n ih =>
    intro c j a d cell ht hj hlock hamount hd hpos hn
    rcases ClockCache.putScan_turn c j a d cell ht hj hlock hamount hd hpos with hret | hnext
    · obtain ⟨cur, hcur, h0, hl⟩ := hret
      refine ⟨0, Nat.zero_le _, ⟨c, ?_⟩, ?_⟩
      · rw [ClockCache.putScan, hcur]
        simp only
        rw [if_neg (by omega), if_pos ⟨h0, hl⟩]
      · intro fuel hfuel
        have : fuel = 0 := by omega
        subst this
        rfl
    · obtain ⟨next, cell2, a2, d2, hstep, hlen, ht2, hj2, hlock2, hamount2, hd2, hpos2, hless⟩ :=
        hnext
      obtain ⟨advances, hle, ⟨m, hm⟩, hnot⟩ := ih next j a2 d2 cell2 ht2 hj2 hlock2 hamount2 hd2
        hpos2 (by rw [hlen]; omega)
      refine ⟨advances + 1, by omega, ⟨m, by rw [hstep]; exact hm⟩, ?_⟩
      intro fuel hfuel
      cases fuel with
      | zero => rfl
      | succ fuel => rw [hstep]; exact hnot fuel (by omega)

/-- No call changes the number of frames. -/
theorem ClockCache.step_ring {K V : Type} [DecidableEq K] (fuel : Nat)
    (c next : ClockCache K V) (op : CacheOp K) (r : Option V)
    (h : c.step fuel op = .ok (r, next)) : next.ring.length = c.ring.length := by
  have hset : ∀ (key : K) (b : Bool) (n : ClockCache K V), c.setLock key b = .ok n →
      n.ring.length = c.ring.length := by
    intro key b n hs
    unfold ClockCache.setLock at hs
    cases hcell : c.ring[(ClockCache.indexOf c.values key).1]? with
    | none => rw [hcell] at hs; cases hs
    | some cell =>
      rw [hcell] at hs
      cases hs
      simp
  cases op with
  | find key =>
    obtain ⟨_, _, h3, _⟩ := ClockCache.find_spec c next key r h
    exact h3
  | put key =>
    simp only [ClockCache.step] at h
    cases hput : c.put fuel key with
    | error e => rw [hput] at h; cases h
    | ok p =>
      obtain ⟨value, n⟩ := p
      rw [hput] at h
      cases h
      obtain ⟨m, cell, hm, _, _, _, _, hnext⟩ := ClockCache.put_spec fuel c next key value hput
      subst hnext
      obtain ⟨_, hlen, _⟩ := ClockCache.putScan_spec fuel c m hm
      simpa using hlen
  | lock key =>
    simp only [ClockCache.step, ClockCache.lock] at h
    cases hs : c.setLock key true with
    | error e => rw [hs] at h; cases h
    | ok n => rw [hs] at h; cases h; exact hset key true _ hs
  | unlock key =>
    simp only [ClockCache.step, ClockCache.unlock] at h
    cases hs : c.setLock key false with
    | error e => rw [hs] at h; cases h
    | ok n => rw [hs] at h; cases h; exact hset key false _ hs

theorem ClockCache.run_ring {K V : Type} [DecidableEq K] (fuel : Nat) :
    ∀ (ops : List (CacheOp K)) (c : ClockCache K V) (outcomes : List (Option V × ClockCache K V)),
    c.run fuel ops = .ok outcomes → (c.finalState outcomes).ring.length = c.ring.length := by
  intro ops
  induction ops with
  | nil =>
    intro c outcomes h
    simp only [ClockCache.run] at h
    cases h
    rfl
  | cons op ops ih =>
    intro c outcomes h
    simp only [ClockCache.run] at h
    cases hstep : c.step fuel op with
    | error e => rw [hstep] at h; cases h
    | ok p =>
      obtain ⟨r, next⟩ := p
      rw [hstep] at h
      simp only at h
      cases hrest : next.run fuel ops with
      | error e => rw [hrest] at h; cases h
      | ok rest =>
        rw [hrest] at h
        cases h
        exact (ih next rest hrest).trans (ClockCache.step_ring fuel c next op r hstep)

/-- With every frame locked the loop of `put` has no turn that returns. -/
theorem ClockCache.putScan_locked {K V : Type} : ∀ (fuel : Nat) (c : ClockCache K V),
    c.time < c.ring.length → (∀ cell ∈ c.ring, cell.lock = true) →
    ClockCache.putScan fuel c = .error .noFuel := by
  intro fuel
  induction fuel with
  | zero => intro c _ _; rfl
  | succ fuel ih =>
    intro c ht hall
    obtain ⟨cur, hcur⟩ : ∃ cur, c.ring[c.time]? = some cur := ⟨_, List.getElem?_eq_getElem ht⟩
    have hlocked : cur.lock = true := hall cur (List.getElem?_mem hcur)
    rw [ClockCache.putScan, hcur]
    simp only
    by_cases hpositive : cur.amount > 0
    · rw [if_pos hpositive]
      apply ih
      · rw [ClockCache.advance_time _ (by simpa using ht)]
        simp only [ClockCache.advance, List.length_set]
        split <;> omega
      · intro cell hcell
        simp only [ClockCache.advance] at hcell
        rcases List.mem_or_eq_of_mem_set hcell with hmem | heq
        · exact hall cell hmem
        · rw [heq]; exact hlocked
    · rw [if_neg hpositive, if_neg (by rw [hlocked]; simp)]
      apply ih
      · rw [ClockCache.advance_time _ ht]
        simp only [ClockCache.advance]
        split <;> omega
      · intro cell hcell
        exact hall cell (by simpa [ClockCache.advance] using hcell)

/-- The hand is at most `N - 1` steps before any frame. -/
theorem ClockCache.distance_to {N time j : Nat} (ht : time < N) (hj : j < N) :
    ∃ d, d < N ∧ (time + d = j ∨ time + d = j + N) := by
  by_cases h : time ≤ j
  · exact ⟨j - time, by omega, Or.inl (by omega)⟩
  · exact ⟨j + N - time, by omega, Or.inr (by omega)⟩

/-- Claim C34: in every state that a run of calls reaches from the constructor
of a cache of `N ≥ 1` frames, the ring still has `N` frames; if one of them is
not locked, `put` returns after fewer than `6 * N` advances of the hand (it
returns in `advances + 1` turns of its loop and is still running in every
smaller number of turns); and `put` runs forever exactly when every frame is
locked. -/
theorem put_returns_unless_all_locked {K V : Type} [DecidableEq K] (free_values : List V)
    (fuel : Nat) (ops : List (CacheOp K)) (outcomes : List (Option V × ClockCache K V)) (key : K)
    (hframes : 1 ≤ free_values.length)
    (hrun : (ClockCache.create free_values).run fuel ops = .ok outcomes) :
    ((ClockCache.create free_values).finalState outcomes).ring.length = free_values.length ∧
    ((∃ cell ∈ ((ClockCache.create free_values).finalState outcomes).ring, cell.lock = false) →
      ∃ advances, advances < 6 * free_values.length ∧
        (∃ r, ((ClockCache.create free_values).finalState outcomes).put (advances + 1) key =
          .ok r) ∧
        ∀ turns, turns ≤ advances →
          ((ClockCache.create free_values).finalState outcomes).put turns key =
            .error .noFuel) ∧
    ((∀ turns, ((ClockCache.create free_values).finalState outcomes).put turns key =
        .error .noFuel) ↔
      ∀ cell ∈ ((ClockCache.create free_values).finalState outcomes).ring, cell.lock = true) := by
  have hlen0 : (ClockCache.create free_values : ClockCache K V).ring.length =
      free_values.length := by simp [ClockCache.create]
  have hlen := (ClockCache.run_ring fuel ops _ outcomes hrun).trans hlen0
  have ht := ClockCache.run_time fuel ops (ClockCache.create free_values) outcomes
    (by rw [hlen0]; exact hframes) hrun
  have hwf := ClockCache.run_wellFormed fuel ops (ClockCache.create free_values) outcomes
    (ClockCache.create_wellFormed free_values) hrun
  generalize (ClockCache.create free_values).finalState outcomes = c at hlen ht hwf
  have hreturns : (∃ cell ∈ c.ring, cell.lock = false) →
      ∃ advances, advances < 6 * free_values.length ∧
        (∃ r, c.put (advances + 1) key = .ok r) ∧
        ∀ turns, turns ≤ advances → c.put turns key = .error .noFuel := by
    rintro ⟨cell, hmem, hlock⟩
    obtain ⟨j, hj⟩ := List.getElem?_of_mem hmem
    have hjlt : j < c.ring.length := (List.getElem?_eq_some.1 hj).1
    obtain ⟨h0, h5⟩ := hwf.2 cell hmem
    obtain ⟨a, ha⟩ : ∃ a : Nat, cell.amount = (a : Int) := ⟨cell.amount.toNat, by omega⟩
    have ha5 : a ≤ 5 := by omega
    obtain ⟨d, hd, hpos⟩ := ClockCache.distance_to ht hjlt
    obtain ⟨advances, hle, ⟨m, hm⟩, hnot⟩ := ClockCache.putScan_returns (a * c.ring.length + d)
      c j a d cell ht hj hlock ha hd hpos (Nat.le_refl _)
    have hmul : a * c.ring.length ≤ 5 * c.ring.length := Nat.mul_le_mul_right _ ha5
    refine ⟨advances, by omega, ?_, ?_⟩
    · obtain ⟨_, _, _, _, cur, hcur, _, _⟩ := ClockCache.putScan_spec _ c m hm
      rw [ClockCache.put_eq_putScan, hm]
      simp only [hcur]
      exact ⟨_, rfl⟩
    · intro turns hturns
      rw [ClockCache.put_eq_putScan, hnot turns hturns]
  refine ⟨hlen, hreturns, ?_, ?_⟩
  · intro hnever
    by_contra hsome
    push_neg at hsome
    obtain ⟨cell, hmem, hlock⟩ := hsome
    obtain ⟨advances, _, ⟨r, hr⟩, _⟩ := hreturns ⟨cell, hmem, by simpa using hlock⟩
    rw [hnever] at hr
    cases hr
  · intro hall turns
    rw [ClockCache.put_eq_putScan, ClockCache.putScan_locked turns c ht hall]

theorem put_returns_unless_all_locked_witness :
    lockedOne.ring.length = 2 ∧
    (∃ advances, advances < 6 * 2 ∧ (∃ r, lockedOne.put (advances + 1) 2 = .ok r) ∧
      ∀ turns, turns ≤ advances → lockedOne.put turns 2 = .error .noFuel) ∧
    ¬ (∀ cell ∈ lockedOne.ring, cell.lock = true) := by
  have h := put_returns_unless_all_locked [100, 101] 10 [.put 1, .lock 1]
    (twoFrames.outcomesOf 10 [.put 1, .lock 1]) 2 (by decide) (by decide)
  have hcell : ∃ cell ∈ lockedOne.ring, cell.lock = false :=
    ⟨⟨101, 0, false⟩, by decide, rfl⟩
  refine ⟨h.1, h.2.1 hcell, ?_⟩
  intro hall
  obtain ⟨advances, _, ⟨r, hr⟩, _⟩ := h.2.1 hcell
  have hnever := h.2.2.2 hall (advances + 1)
  rw [hnever] at hr
  cases hr

/-! ## C35: what a returning `put` changes -/

theorem ClockCache.passes_zero (N start i : Nat) : ClockCache.passes N start 0 i = 0 := rfl

theorem ClockCache.passes_succ (N start advances i : Nat) (h : start < N) :
    ClockCache.passes N start (advances + 1) i =
      (if start = i then 1 else 0) + ClockCache.passes N ((start + 1) % N) advances i := by
  unfold ClockCache.passes
  have hfun : ((fun t => decide ((start + t) % N = i)) ∘ Nat.succ) =
      fun t => decide (((start + 1) % N + t) % N = i) := by
    funext t
    simp only [Function.comp, Nat.succ_eq_add_one, Nat.mod_add_mod]
    rw [show start + (t + 1) = start + 1 + t by omega]
  rw [List.range_succ_eq_map, List.filter_cons, List.filter_map, hfun]
  simp only [Nat.add_zero, Nat.mod_eq_of_lt h, decide_eq_true_eq]
  by_cases hs : start = i
  · rw [if_pos hs, if_pos hs, List.length_cons, List.length_map]; omega
  · rw [if_neg hs, if_neg hs, List.length_map]; omega

theorem ClockCache.passedWhilePositive_def (amount : Int) (passes : Nat) :
    ClockCache.passedWhilePositive amount passes =
      if amount ≤ (passes : Int) then amount else (passes : Int) := by
  unfold ClockCache.passedWhilePositive
  exact min_def _ _

theorem ClockCache.passedWhilePositive_step (amount : Int) (passes : Nat) :
    amount - 1 - ClockCache.passedWhilePositive (amount - 1) passes =
      amount - ClockCache.passedWhilePositive amount (1 + passes) := by
  rw [ClockCache.passedWhilePositive_def, ClockCache.passedWhilePositive_def]
  push_cast
  split <;> split <;> omega

theorem ClockCache.passedWhilePositive_zero (passes : Nat) :
    (0 : Int) - ClockCache.passedWhilePositive 0 passes = 0 := by
  rw [ClockCache.passedWhilePositive_def]
  split <;> omega

theorem ClockCache.passedWhilePositive_none (amount : Int) (h : 0 ≤ amount) :
    amount - ClockCache.passedWhilePositive amount 0 = amount := by
  rw [ClockCache.passedWhilePositive_def]
  push_cast
  split <;> omega

/-- What the turns of the loop of `put` before its return do to the hand and to
the counters. -/
theorem ClockCache.putScan_counts {K V : Type} : ∀ (fuel : Nat) (c m : ClockCache K V),
    c.time < c.ring.length → (∀ cell ∈ c.ring, 0 ≤ cell.amount) →
    ClockCache.putScan fuel c = .ok m →
    ∃ advances, advances < fuel ∧ m.time = (c.time + advances) % c.ring.length ∧
      ∀ (i : Nat) (cell : Cell V), c.ring[i]? = some cell →
        m.ring[i]? = some { cell with amount := (cell.amount -
          ClockCache.passedWhilePositive cell.amount
            (ClockCache.passes c.ring.length c.time advances i)) } := by
  intro fuel
  induction fuel with
  | zero => intro c m _ _ h; cases h
  | succ fuel ih =>
    intro c m ht hnn h
    obtain ⟨cur, hcur⟩ : ∃ cur, c.ring[c.time]? = some cur := ⟨_, List.getElem?_eq_getElem ht⟩
    rw [ClockCache.putScan, hcur] at h
    simp only at h
    by_cases hpositive : cur.amount > 0
    · rw [if_pos hpositive] at h
      have hlen : (ClockCache.advance { c with ring := (c.ring.set c.time
          { cur with amount := cur.amount - 1 }) }).ring.length = c.ring.length := by
        simp [ClockCache.advance]
      have htime := ClockCache.advance_time { c with ring := (c.ring.set c.time
          { cur with amount := cur.amount - 1 }) } (by simpa using ht)
      simp only [List.length_set] at htime
      have htime2 : (ClockCache.advance { c with ring := (c.ring.set c.time
          { cur with amount := cur.amount - 1 }) }).time = (c.time + 1) % c.ring.length := by
        simp [ClockCache.advance]
      obtain ⟨advances, hlt, hhand, hcells⟩ := ih _ m (by rw [hlen, htime]; split <;> omega)
        (by
          intro cell hcell
          simp only [ClockCache.advance] at hcell
          rcases List.mem_or_eq_of_mem_set hcell with hmem | heq
          · exact hnn cell hmem
          · rw [heq]; simp only; omega) h
      rw [hlen, htime2] at hhand hcells
      refine ⟨advances + 1, by omega, ?_, ?_⟩
      · rw [hhand, Nat.mod_add_mod]
        congr 1
        omega
      · intro i cell hi
        rw [ClockCache.passes_succ _ _ _ _ ht]
        by_cases hit : c.time = i
        · subst hit
          have hcell : cur = cell := by
            rw [hcur] at hi
            exact Option.some.inj hi
          subst hcell
          rw [hcells c.time { cur with amount := cur.amount - 1 }
            (by simp only [ClockCache.advance]; rw [List.getElem?_set_self ht])]
          rw [if_pos rfl]
          simp only
          rw [ClockCache.passedWhilePositive_step]
        · rw [hcells i cell
            (by simp only [ClockCache.advance]; rw [List.getElem?_set_ne hit]; exact hi)]
          rw [if_neg hit, Nat.zero_add]
    · rw [if_neg hpositive] at h
      by_cases hret : cur.amount = 0 ∧ cur.lock = false
      · rw [if_pos hret] at h
        cases h
        refine ⟨0, by omega, by rw [Nat.add_zero, Nat.mod_eq_of_lt ht], ?_⟩
        intro i cell hi
        rw [ClockCache.passes_zero,
          ClockCache.passedWhilePositive_none _ (hnn cell (List.getElem?_mem hi)), hi]
      · rw [if_neg hret] at h
        have hlen : (ClockCache.advance c).ring.length = c.ring.length := by
          simp [ClockCache.advance]
        have htime := ClockCache.advance_time c ht
        have htime2 : (ClockCache.advance c).time = (c.time + 1) % c.ring.length := by
          simp [ClockCache.advance]
        obtain ⟨advances, hlt, hhand, hcells⟩ := ih _ m (by rw [hlen, htime]; split <;> omega)
          (by
            intro cell hcell
            exact hnn cell (by simpa [ClockCache.advance] using hcell)) h
        rw [hlen, htime2] at hhand hcells
        refine ⟨advances + 1, by omega, ?_, ?_⟩
        · rw [hhand, Nat.mod_add_mod]
          congr 1
          omega
        · intro i cell hi
          rw [ClockCache.passes_succ _ _ _ _ ht]
          rw [hcells i cell (by simpa [ClockCache.advance] using hi)]
          by_cases hit : c.time = i
          · subst hit
            have hcell : cur = cell := by
              rw [hcur] at hi
              exact Option.some.inj hi
            subst hcell
            have h0 : cur.amount = 0 := by
              have := hnn cur (List.getElem?_mem hcur)
              omega
            rw [if_pos rfl, h0, ClockCache.passedWhilePositive_zero,
              ClockCache.passedWhilePositive_zero]
          · rw [if_neg hit, Nat.zero_add]

theorem ClockCache.lookup_assign_self {K : Type} [DecidableEq K] (l : List (K × Nat)) (key : K)
    (t : Nat) : (ClockCache.assign l key t).lookup key = some t := by
  induction l with
  | nil => exact lookup_cons_self key t []
  | cons p l ih =>
    obtain ⟨k, v⟩ := p
    by_cases hk : k = key
    · subst hk
      simp only [ClockCache.assign, if_true]
      exact lookup_cons_self k t l
    · simp only [ClockCache.assign, if_neg hk]
      rw [lookup_cons_ne key k v _ (fun h => hk h.symm)]
      exact ih

theorem ClockCache.lookup_assign_ne {K : Type} [DecidableEq K] (l : List (K × Nat)) (key k2 : K)
    (t : Nat) (h : k2 ≠ key) : (ClockCache.assign l key t).lookup k2 = l.lookup k2 := by
  induction l with
  | nil =>
    simp only [ClockCache.assign]
    rw [lookup_cons_ne k2 key t [] h]
  | cons p l ih =>
    obtain ⟨k, v⟩ := p
    by_cases hk : k = key
    · subst hk
      simp only [ClockCache.assign, if_true]
      rw [lookup_cons_ne k2 k t l h, lookup_cons_ne k2 k v l h]
    · simp only [ClockCache.assign, if_neg hk]
      by_cases hk2 : k2 = k
      · subst hk2
        rw [lookup_cons_self, lookup_cons_self]
      · rw [lookup_cons_ne k2 k v _ hk2, lookup_cons_ne k2 k v _ hk2]
        exact ih

/-- The loop that erases the key of a frame, on a map of distinct keys and
distinct frames: the key mapped to the frame is gone and the others keep their
frame. -/
theorem ClockCache.lookup_eraseFrame {K : Type} [DecidableEq K] (l : List (K × Nat)) (t : Nat)
    (hkeys : (l.map Prod.fst).Nodup) (hframes : (l.map Prod.snd).Nodup) (k2 : K) :
    (ClockCache.eraseFrame l t).lookup k2 =
      if l.lookup k2 = some t then none else l.lookup k2 := by
  induction l with
  | nil => simp [ClockCache.eraseFrame]
  | cons p l ih =>
    obtain ⟨k, v⟩ := p
    simp only [List.map_cons, List.nodup_cons] at hkeys hframes
    by_cases hv : v = t
    · subst hv
      simp only [ClockCache.eraseFrame, if_true]
      by_cases hk2 : k2 = k
      · subst hk2
        rw [lookup_cons_self, if_pos rfl]
        exact (lookup_eq_none_iff_not_mem l k2).2 hkeys.1
      · rw [lookup_cons_ne k2 k v l hk2]
        have hne : l.lookup k2 ≠ some v := by
          intro hl
          exact hframes.1 (List.mem_map.2 ⟨(k2, v), mem_of_lookup_eq_some l k2 v hl, rfl⟩)
        rw [if_neg hne]
    · simp only [ClockCache.eraseFrame, if_neg hv]
      by_cases hk2 : k2 = k
      · subst hk2
        rw [lookup_cons_self, lookup_cons_self, if_neg (fun h => hv (Option.some.inj h))]
      · rw [lookup_cons_ne k2 k v _ hk2, lookup_cons_ne k2 k v _ hk2]
        exact ih hkeys.2 hframes.2

/-- C35, counterexample: on one frame, after `put(1)`, `lock(2)` and `unlock(2)`
the keys 1 and 2 are both mapped to the frame; `put(3)` returns that frame and
one of the two keys is resident afterwards. -/
theorem put_leaves_key_of_shared_frame :
    sharedFrame.values.lookup 3 = none ∧ sharedFrame.values.lookup 1 = some 0 ∧
    sharedFrame.values.lookup 2 = some 0 ∧
    ∃ next, sharedFrame.put 10 3 = .ok (100, next) ∧ next.time = 0 ∧
      ((next.values.lookup 1).isSome || (next.values.lookup 2).isSome) = true :=
  ⟨by decide, by decide, by decide,
    sharedFrame.finalState (sharedFrame.outcomesOf 10 [.put 3]), by decide, by decide, by decide⟩

/-- C35, amended: in every state reached from construction by `find`, `put`
called only for keys that are not resident, and `lock` and `unlock` called only
for resident keys, when `put(key)` for a key that is not resident returns the
frame `f`: `find(key)` then reports `f`; the key is mapped to the frame under
the hand, whose counter is 1 and which was not locked; a key that was mapped to
that frame is no longer resident; every other resident key keeps its frame and
no other key becomes resident; and after the `advances` steps of the hand the
counter of every other frame is its old value less the passes made over it
while it was positive, the counter of `f` having reached 0 that way. -/
theorem put_maps_key_and_decrements_passed {K V : Type} [DecidableEq K] (free_values : List V)
    (fuel turns : Nat) (ops : List (CacheOp K)) (outcomes : List (Option V × ClockCache K V))
    (key : K) (f : V) (next : ClockCache K V)
    (hrun : (ClockCache.create free_values).run fuel ops = .ok outcomes)
    (hallowed : (ClockCache.create free_values).allowedRun ops outcomes = true)
    (hfresh : ((ClockCache.create free_values).finalState outcomes).values.lookup key = none)
    (hput : ((ClockCache.create free_values).finalState outcomes).put turns key =
      .ok (f, next)) :
    (∃ after, next.find key = .ok (some f, after)) ∧
    next.values.lookup key = some next.time ∧
    (∃ cell, ((ClockCache.create free_values).finalState outcomes).ring[next.time]? = some cell ∧
      cell.value = f ∧ cell.lock = false ∧
      next.ring[next.time]? = some { cell with amount := 1 }) ∧
    (∀ k2, ((ClockCache.create free_values).finalState outcomes).values.lookup k2 =
      some next.time → next.values.lookup k2 = none) ∧
    (∀ k2 i, ((ClockCache.create free_values).finalState outcomes).values.lookup k2 = some i →
      i ≠ next.time → next.values.lookup k2 = some i) ∧
    (∀ k2, k2 ≠ key →
      ((ClockCache.create free_values).finalState outcomes).values.lookup k2 = none →
      next.values.lookup k2 = none) ∧
    ∃ advances, advances < turns ∧
      next.time = (((ClockCache.create free_values).finalState outcomes).time + advances) %
        free_values.length ∧
      (∀ (i : Nat) (cell : Cell V),
        ((ClockCache.create free_values).finalState outcomes).ring[i]? = some cell →
        i ≠ next.time →
        next.ring[i]? = some { cell with amount := (cell.amount -
          ClockCache.passedWhilePositive cell.amount
            (ClockCache.passes free_values.length
              ((ClockCache.create free_values).finalState outcomes).time advances i)) }) ∧
      ∀ (cell : Cell V),
        ((ClockCache.create free_values).finalState outcomes).ring[next.time]? = some cell →
        cell.amount - ClockCache.passedWhilePositive cell.amount
          (ClockCache.passes free_values.length
            ((ClockCache.create free_values).finalState outcomes).time advances next.time) = 0 := by
  have hlen0 : (ClockCache.create free_values : ClockCache K V).ring.length =
      free_values.length := by simp [ClockCache.create]
  have hlen := (ClockCache.run_ring fuel ops _ outcomes hrun).trans hlen0
  obtain ⟨⟨hkeys, hidx, _⟩, _, _⟩ := ClockCache.run_inv fuel ops
    (ClockCache.create free_values) outcomes (ClockCache.create_inv free_values) hrun hallowed
  have hwf := ClockCache.run_wellFormed fuel ops (ClockCache.create free_values) outcomes
    (ClockCache.create_wellFormed free_values) hrun
  obtain ⟨m, taken, hm, htaken, hzero, hunlocked, hvalue, hnext⟩ :=
    ClockCache.put_spec turns _ next key f hput
  obtain ⟨hvalues, hmlen, _, _, _⟩ := ClockCache.putScan_spec turns _ m hm
  have hmt : m.time < m.ring.length := (List.getElem?_eq_some.1 htaken).1
  have ht := ClockCache.run_time fuel ops (ClockCache.create free_values) outcomes
    (by rw [hlen0, ← hlen, ← hmlen]; exact Nat.lt_of_le_of_lt (Nat.zero_le _) hmt) hrun
  obtain ⟨advances, hlt, hhand, hcells⟩ := ClockCache.putScan_counts turns _ m ht
    (fun cell hcell => (hwf.2 cell hcell).1) hm
  rw [hlen] at hhand hcells
  generalize (ClockCache.create free_values).finalState outcomes = c at *
  have htime : next.time = m.time := by rw [hnext]
  have hring : next.ring = m.ring.set m.time { taken with amount := 1 } := by rw [hnext]
  have hmap : next.values = ClockCache.assign (ClockCache.eraseFrame c.values m.time) key
      m.time := by rw [hnext, hvalues]
  obtain ⟨old, hold⟩ : ∃ old, c.ring[m.time]? = some old :=
    ⟨_, List.getElem?_eq_getElem (by rw [← hmlen]; exact hmt)⟩
  have htaken2 := hcells m.time old hold
  rw [htaken] at htaken2
  have htaken3 := Option.some.inj htaken2
  have hself : next.values.lookup key = some m.time := by
    rw [hmap]
    exact ClockCache.lookup_assign_self _ key _
  have hother : ∀ k2, k2 ≠ key → next.values.lookup k2 =
      if c.values.lookup k2 = some m.time then none else c.values.lookup k2 := by
    intro k2 hk2
    rw [hmap, ClockCache.lookup_assign_ne _ key k2 _ hk2,
      ClockCache.lookup_eraseFrame _ _ hkeys hidx]
  have hcellnext : next.ring[m.time]? = some { taken with amount := 1 } := by
    rw [hring, List.getElem?_set_self hmt]
  rw [htime]
  refine ⟨?_, hself, ⟨old, hold, ?_, ?_, ?_⟩, ?_, ?_, ?_, advances, hlt, hhand, ?_, ?_⟩
  · unfold ClockCache.find
    rw [hself]
    simp only [hcellnext]
    rw [if_pos (by decide), hvalue]
    exact ⟨_, rfl⟩
  · rw [hvalue, htaken3]
  · rw [← hunlocked, htaken3]
  · rw [hcellnext, htaken3]
  · intro k2 hk2
    have hne : k2 ≠ key := by
      intro h
      rw [h, hfresh] at hk2
      cases hk2
    rw [hother k2 hne, if_pos hk2]
  · intro k2 i hk2 hi
    have hne : k2 ≠ key := by
      intro h
      rw [h, hfresh] at hk2
      cases hk2
    rw [hother k2 hne, if_neg (by rw [hk2]; exact fun h => hi (Option.some.inj h)), hk2]
  · intro k2 hne hk2
    rw [hother k2 hne, if_neg (by rw [hk2]; exact fun h => nomatch h), hk2]
  · intro i cell hi hne
    rw [hring, List.getElem?_set_ne (fun h => hne h.symm)]
    exact hcells i cell hi
  · intro cell hcell
    rw [hold] at hcell
    cases hcell
    have := congrArg Cell.amount htaken3
    rw [hzero] at this
    exact this.symm

theorem put_maps_key_and_decrements_passed_witness :
    (∃ after, (twoFrames.finalState (twoFrames.outcomesOf 10
      [.put 1, .put 2, .find 1, .put 3])).find 3 = .ok (some 101, after)) ∧
    (twoFrames.finalState (twoFrames.outcomesOf 10
      [.put 1, .put 2, .find 1, .put 3])).values.lookup 2 = none ∧
    (twoFrames.finalState (twoFrames.outcomesOf 10
      [.put 1, .put 2, .find 1, .put 3])).values.lookup 1 = some 0 ∧
    ∃ advances, advances < 10 ∧
      (twoFrames.finalState (twoFrames.outcomesOf 10
        [.put 1, .put 2, .find 1, .put 3])).time = (1 + advances) % 2 ∧
      ∀ (cell : Cell Nat),
        (twoFrames.finalState (twoFrames.outcomesOf 10
          [.put 1, .put 2, .find 1])).ring[0]? = some cell →
        (twoFrames.finalState (twoFrames.outcomesOf 10
          [.put 1, .put 2, .find 1, .put 3])).ring[0]? =
          some { cell with amount := (cell.amount -
            ClockCache.passedWhilePositive cell.amount (ClockCache.passes 2 1 advances 0)) } := by
  have h := put_maps_key_and_decrements_passed [100, 101] 10 10 [.put 1, .put 2, .find 1]
    (twoFrames.outcomesOf 10 [.put 1, .put 2, .find 1]) 3 101
    (twoFrames.finalState (twoFrames.outcomesOf 10 [.put 1, .put 2, .find 1, .put 3]))
    (by decide) (by decide) (by decide) (by decide)
  obtain ⟨hfind, _, _, hgone, hkept, _, advances, hlt, hhand, hcells, _⟩ := h
  exact ⟨hfind, hgone 2 (by decide), hkept 1 0 (by decide) (by decide), advances, hlt, hhand,
    fun cell hcell => hcells 0 cell hcell (by decide)⟩

/-! ## C4: `read` yields the stored keys that the predicates hold for -/

end shdb
